import Mathlib

/-!
# The weight optimizer of ghoss/MSc-Thesis (`src/1989`)

A shallow embedding of `simplex.c` and `list.c`.  The C type `float` is read
over exact arithmetic: every `float` is a rational number, every operation
is the exact one.  Arrays are lists, indices and loop counters are natural
numbers, `assert` failures make a function return `none`.
-/

namespace Thesis

/-! ## Counted loops -/

/-- The loop `for (i = lo; i < lo + cnt; i++) s = body i s`. -/
def loop {σ : Type} (lo cnt : Nat) (body : Nat → σ → σ) (s : σ) : σ :=
  (List.range' lo cnt).foldl (fun s i => body i s) s

/-- The loop `for (i = lo; i <= hi; i++) s = body i s`. -/
def forLoop {σ : Type} (lo hi : Nat) (body : Nat → σ → σ) (s : σ) : σ :=
  loop lo (hi + 1 - lo) body s

/-- The loop `for (i = lo; i <= hi; i++)` whose body may abort. -/
def forLoopM {σ : Type} (lo hi : Nat) (body : Nat → σ → Option σ) (s : σ) : Option σ :=
  (List.range' lo (hi + 1 - lo)).foldlM (fun s i => body i s) s

/-- Assignment `a [i] = v` on an array held as a function. -/
def upd {β : Type} (a : Nat → β) (i : Nat) (v : β) : Nat → β :=
  fun j => if j = i then v else a j

/-! ## simplex.c: the optimization matrix and `matrix_ptr` -/

/-- The globals `num_weights`, `num_prefs`, `translation`, `rsv_eq`,
`min_weights`, `max_weights` and `cost` of simplex.c. -/
structure Matrix where
  num_weights : Nat
  num_prefs : Nat
  translation : List (List ℚ)
  rsv_eq : List (List ℚ)
  min_weights : List (List ℚ)
  max_weights : List (List ℚ)
  cost : List ℚ
deriving DecidableEq

/-- The array a pointer returned by `matrix_ptr` points into. -/
inductive Block where
  | translation | rsv_eq | min_weights | max_weights | cost
deriving DecidableEq

/-- A pointer `& ( base [ col ] )` with `base` the row `row` of a block. -/
structure Cell where
  block : Block
  row : Nat
  col : Nat
deriving DecidableEq

/-- The function `matrix_ptr` (simplex.c 768-817): `row` and `col` are
1-based; `none` is a violated assertion. -/
def matrix_ptr (g : Matrix) (row col : Nat) : Option Cell :=
  if row = 0 then none
  else if col = 0 ∨ g.num_weights < col - 1 then none
  else
    let row := row - 1
    let col := col - 1
    if row < g.num_weights then some ⟨Block.translation, row, col⟩
    else
      let row := row - g.num_weights
      if row < g.num_prefs then some ⟨Block.rsv_eq, row, col⟩
      else
        let row := row - g.num_prefs
        if row < g.num_weights then some ⟨Block.min_weights, row, col⟩
        else
          let row := row - g.num_weights
          if row < g.num_weights then some ⟨Block.max_weights, row, col⟩
          else if row = g.num_weights then some ⟨Block.cost, 0, col⟩
          else none

/-- Read of `rows [r] [c]`. -/
def rowget (rows : List (List ℚ)) (r c : Nat) : ℚ :=
  (rows.getD r []).getD c 0

/-- Write `rows [r] [c] = v`. -/
def rowset (rows : List (List ℚ)) (r c : Nat) (v : ℚ) : List (List ℚ) :=
  rows.set r ((rows.getD r []).set c v)

/-- Dereference of a cell pointer. -/
def Matrix.read (g : Matrix) (c : Cell) : ℚ :=
  match c.block with
  | Block.translation => rowget g.translation c.row c.col
  | Block.rsv_eq => rowget g.rsv_eq c.row c.col
  | Block.min_weights => rowget g.min_weights c.row c.col
  | Block.max_weights => rowget g.max_weights c.row c.col
  | Block.cost => g.cost.getD c.col 0

/-- Store through a cell pointer. -/
def Matrix.write (g : Matrix) (c : Cell) (v : ℚ) : Matrix :=
  match c.block with
  | Block.translation => { g with translation := rowset g.translation c.row c.col v }
  | Block.rsv_eq => { g with rsv_eq := rowset g.rsv_eq c.row c.col v }
  | Block.min_weights => { g with min_weights := rowset g.min_weights c.row c.col v }
  | Block.max_weights => { g with max_weights := rowset g.max_weights c.row c.col v }
  | Block.cost => { g with cost := g.cost.set c.col v }

/-- The macro `elt(row,col)`, that is `*matrix_ptr((row),(col))`. -/
def elt (g : Matrix) (row col : Nat) : ℚ :=
  match matrix_ptr g row col with
  | some c => g.read c
  | none => 0

/-- The macro `set(row,col,value)`. -/
def set (g : Matrix) (row col : Nat) (value : ℚ) : Matrix :=
  match matrix_ptr g row col with
  | some c => g.write c value
  | none => g

/-! ## simplex.c: `eliminate` and `simplex` -/

/-- The literal `99999999999.9` that stands for infinity (simplex.c 1222,
1243, 1437). -/
def INFINITY : ℚ := 999999999999 / 10

/-- The working arrays of `simplex`: the matrix and `ba`, `nb`, `trans`. -/
structure State where
  g : Matrix
  ba : Nat → Int
  nb : Nat → Int
  trans : Nat → Bool

/-- The variables `p` and `max` of a pivot row search, with the matrix
(the searches of `eliminate` write to it). -/
structure Search where
  g : Matrix
  p : Nat
  max : ℚ

/-- The pivot update shared, as identical text, by `eliminate` (simplex.c
1276-1292) and the loop of `simplex` (1461-1478). -/
def pivot_update (n m p q : Nat) (g : Matrix) : Matrix :=
  let pivot := elt g p q
  let g := forLoop 1 (n + 1) (fun k g =>
    if k ≠ q then
      let g := set g p k (- elt g p k / pivot)
      forLoop 1 (m + 1) (fun i g =>
        if i ≠ p then set g i k (elt g i k + elt g i q * elt g p k) else g) g
    else g) g
  let g := forLoop 1 (m + 1) (fun i g => set g i q (elt g i q / pivot)) g
  set g p q (1 / pivot)

/-- The row search of `eliminate` for a positive cost coefficient
(simplex.c 1221-1240).  The `assert ( quot <= 0.0 )` follows the branch
that resets a `quot >= 0.0` to `0.0`, so it cannot fail and is left out. -/
def elim_search_neg (n m q : Nat) (trans : Nat → Bool) (g : Matrix) : Search :=
  forLoop 1 m (fun i s =>
    if ! trans i then
      let temp := elt s.g i q
      if temp < 0 then
        let quot := elt s.g i (n + 1) / temp
        let s1 : Search :=
          if quot ≥ 0 then { s with g := set s.g i (n + 1) 0 } else s
        let quot := if quot ≥ 0 then 0 else quot
        if quot > s1.max then { s1 with p := i, max := quot } else s1
      else s
    else s) ⟨g, 0, - INFINITY⟩

/-- The row search of `eliminate` for a cost coefficient that is not
positive (simplex.c 1242-1262).  The `assert ( quot >= 0.0 )` follows the
branch that resets a `quot < 0.0` to `0.0` and is left out. -/
def elim_search_pos (n m q : Nat) (trans : Nat → Bool) (g : Matrix) : Search :=
  forLoop 1 m (fun i s =>
    if ! trans i then
      let temp := elt s.g i q
      if temp > 0 then
        let quot := elt s.g i (n + 1) / temp
        let s1 : Search :=
          if quot < 0 then { s with g := set s.g i (n + 1) 0 } else s
        let quot := if quot < 0 then 0 else quot
        if quot < s1.max then { s1 with p := i, max := quot } else s1
      else s
    else s) ⟨g, 0, INFINITY⟩

/-- One pass of the body of the `for ( q = 1; q <= n; q ++ )` loop of
`eliminate`; `none` is the violated `assert ( p != 0 )`. -/
def eliminate_step (n m q : Nat) (s : State) : Option State :=
  let r := if elt s.g (m + 1) q > 0 then elim_search_neg n m q s.trans s.g
           else elim_search_pos n m q s.trans s.g
  if r.p = 0 then none
  else
    let p := r.p
    let h := s.nb p
    let nb := upd s.nb p (s.ba q)
    let ba := upd s.ba q h
    let trans := upd s.trans p true
    some { g := pivot_update n m p q r.g, ba := ba, nb := nb, trans := trans }

/-- The function `eliminate` (simplex.c 1198-1299). -/
def eliminate (n m : Nat) (s : State) : Option State :=
  forLoopM 1 n (fun q s => eliminate_step n m q s) s

/-- The coordinate transformation at the start of `simplex` (simplex.c
1381-1396). -/
def transform (n m : Nat) (x : Nat → ℚ) (g : Matrix) : Matrix :=
  forLoop (n + 1) (m + 1) (fun i g =>
    let temp := forLoop 1 n (fun k temp => temp + elt g i k * x (k - 1)) 0
    let g := set g i (n + 1) (elt g i (n + 1) + temp)
    if i ≤ m then
      if elt g i (n + 1) < 0 then set g i (n + 1) 0 else g
    else g) g

/-- The check after the elimination (simplex.c 1401-1414).  Its
`assert ( elt ( i, n + 1 ) >= 0.0 )` follows the reset of a negative value
to `0.0` and is left out. -/
def check_elim (n m : Nat) (trans : Nat → Bool) (g : Matrix) : Matrix :=
  forLoop 1 m (fun i g =>
    if ! trans i then
      if elt g i (n + 1) < 0 then set g i (n + 1) 0 else g
    else g) g

/-- The variables `q` and `max` of step PIV. -/
structure Piv where
  q : Nat
  max : ℚ

/-- Step PIV of the loop of `simplex` (simplex.c 1420-1430). -/
def piv_search (n m : Nat) (g : Matrix) : Piv :=
  forLoop 1 n (fun k s =>
    let temp := elt g (m + 1) k
    if temp > s.max then ⟨k, temp⟩ else s) ⟨0, 0⟩

/-- The search for the leaving row in the loop of `simplex` (simplex.c
1435-1450); the field `g` is not written to. -/
def row_search (n m q : Nat) (trans : Nat → Bool) (g : Matrix) : Search :=
  forLoop 1 m (fun i s =>
    if ! trans i then
      let temp := elt g i q
      if temp < 0 then
        let quot := elt g i (n + 1) / temp
        if quot > s.max then { s with p := i, max := quot } else s
      else s
    else s) ⟨g, 0, - INFINITY⟩

/-- What one pass of the body of the `do ... while ( TRUE )` loop does. -/
inductive Iter where
  | optimal
  | infeasible
  | next (s : State)

/-- One pass of the body of the loop of `simplex` (simplex.c 1419-1481):
`optimal` is the `break`, `infeasible` the `return ( FALSE )`. -/
def pivot_iter (n m : Nat) (s : State) : Iter :=
  let q := (piv_search n m s.g).q
  if q = 0 then Iter.optimal
  else
    let p := (row_search n m q s.trans s.g).p
    if p = 0 then Iter.infeasible
    else
      let h := s.nb p
      let nb := upd s.nb p (s.ba q)
      let ba := upd s.ba q h
      Iter.next { g := pivot_update n m p q s.g, ba := ba, nb := nb, trans := s.trans }

/-- The loop of `simplex`, run for at most `fuel` passes; the Boolean is
`TRUE` after the `break` and `FALSE` after `return ( FALSE )`, `none` means
that the passes were used up. -/
def pivot_loop : Nat → Nat → Nat → State → Option (Bool × State)
  | 0, _, _, _ => none
  | fuel + 1, n, m, s =>
    match pivot_iter n m s with
    | Iter.optimal => some (true, s)
    | Iter.infeasible => some (false, s)
    | Iter.next s1 => pivot_loop fuel n m s1

/-- Step LOES (simplex.c 1483-1491). -/
def loes (n m : Nat) (s : State) (x : Nat → ℚ) : Nat → ℚ :=
  forLoop 1 m (fun i x =>
    let temp2 := s.nb i
    let j := temp2.natAbs
    if temp2 > 0 then upd x (j - 1) (x (j - 1) + elt s.g i (n + 1)) else x) x

/-- The initial working arrays of `simplex` (simplex.c 1361-1379). -/
def init_state (n m : Nat) (g : Matrix) : State :=
  { g := g
    ba := forLoop 1 n (fun k ba => upd ba k (k : Int)) (fun _ => 0)
    nb := forLoop 1 m (fun i nb => upd nb i (- (i : Int))) (fun _ => 0)
    trans := fun _ => false }

/-- The function `simplex` (simplex.c 1338-1495) on the matrix `g` and the
vector `x`, with at most `fuel` passes of its loop: the returned Boolean,
the matrix and `x` at the return.  The result is `none` when an assertion
is violated or the passes are used up. -/
def simplex (fuel n m : Nat) (g : Matrix) (x : Nat → ℚ) :
    Option (Bool × Matrix × (Nat → ℚ)) :=
  match eliminate n m (init_state n m (transform n m x g)) with
  | none => none
  | some s =>
    let s := { s with g := check_elim n m s.trans s.g }
    match pivot_loop fuel n m s with
    | none => none
    | some (false, s) => some (false, s.g, x)
    | some (true, s) => some (true, s.g, loes n m s x)

/-! ## Predicates used in the statements about `simplex` -/

/-- A block of `len` rows with `n + 1` entries each. -/
def rows_ok (rows : List (List ℚ)) (len n : Nat) : Prop :=
  rows.length = len ∧ ∀ r ∈ rows, r.length = n + 1

/-- The arrays of the matrix have the sizes they are allocated with, and
`n`, `m` are the arguments `main` passes to `simplex`: `num_weights` and
`num_weights * 3 + num_prefs`. -/
structure Dim (g : Matrix) (n m : Nat) : Prop where
  hn : g.num_weights = n
  hm : m = 3 * n + g.num_prefs
  translation : rows_ok g.translation n n
  rsv_eq : rows_ok g.rsv_eq g.num_prefs n
  min_weights : rows_ok g.min_weights n n
  max_weights : rows_ok g.max_weights n n
  cost : g.cost.length = n + 1

/-- The entries of the matrix after the exchange of row `p` and column `q`
(Schwarz, step AT), in closed form. -/
def exchange (g : Matrix) (p q i k : Nat) : ℚ :=
  if i = p then
    if k = q then 1 / elt g p q else - elt g p k / elt g p q
  else if k = q then elt g i q / elt g p q
  else elt g i k + elt g i q * (- elt g p k / elt g p q)

/-- The value `sum ( k=1..n, a[ik]*v[k] ) + c[i]` of row `i` at the values
`v 1`, ..., `v n` of the column variables (simplex.c 1308-1314). -/
def rowval (n : Nat) (g : Matrix) (v : Nat → ℚ) (i : Nat) : ℚ :=
  (∑ k in Finset.range n, elt g i (k + 1) * v (k + 1)) + elt g i (n + 1)

/-- The constants `c[i]` of the rows `1..m` not marked in `trans` are not
negative. -/
def Feasible (n m : Nat) (trans : Nat → Bool) (g : Matrix) : Prop :=
  ∀ i, 1 ≤ i → i ≤ m → trans i = false → 0 ≤ elt g i (n + 1)

/-- The value at the point `t` of the variable with the name `z` of the
arrays `ba` and `nb`: `z > 0` names the free variable `z`, `z < 0` names
row `- z` of the matrix `g0` that `eliminate` starts from. -/
def nameval (n : Nat) (g0 : Matrix) (t : Nat → ℚ) (z : Int) : ℚ :=
  if 0 < z then t z.toNat else rowval n g0 t (- z).toNat

/-- Every point of the tableau of `s` is a point of the tableau `g0`: for
all values `v` of the column variables of `s` there is a point `t` at which
the variables named by `ba` and `nb`, and the cost, have the values the
tableau of `s` gives them. -/
def Represents (n m : Nat) (g0 : Matrix) (s : State) : Prop :=
  ∀ v : Nat → ℚ, ∃ t : Nat → ℚ,
    (∀ k, 1 ≤ k → k ≤ n → v k = nameval n g0 t (s.ba k)) ∧
    (∀ i, 1 ≤ i → i ≤ m → rowval n s.g v i = nameval n g0 t (s.nb i)) ∧
    rowval n s.g v (m + 1) = rowval n g0 t (m + 1)

/-- The bookkeeping of `ba`, `nb` and `trans` before `eliminate` treats
column `q` (and, with `q = n + 1`, during the loop of `simplex`). -/
structure Names (n m q : Nat) (s : State) : Prop where
  ba_old : ∀ k, q ≤ k → k ≤ n → s.ba k = (k : Int)
  ba_new : ∀ k, 1 ≤ k → k < q → s.ba k < 0
  rows : ∀ i, 1 ≤ i → i ≤ m →
    (s.trans i = true ∧ 0 < s.nb i ∧ s.nb i < (q : Int)) ∨ (s.trans i = false ∧ s.nb i < 0)
  pos : ∀ j : Nat, 1 ≤ j → j < q → ∃ i, 1 ≤ i ∧ i ≤ m ∧ s.nb i = (j : Int)
  inj : ∀ i i1, 1 ≤ i → i ≤ m → 1 ≤ i1 → i1 ≤ m → s.nb i = s.nb i1 → 0 < s.nb i → i = i1
  cov : ∀ j : Nat, 1 ≤ j → j ≤ m →
    (∃ k, 1 ≤ k ∧ k ≤ n ∧ s.ba k = - (j : Int)) ∨ (∃ i, 1 ≤ i ∧ i ≤ m ∧ s.nb i = - (j : Int))

/-- The invariant of `eliminate` and of the loop of `simplex`. -/
structure Inv (n m q : Nat) (g0 : Matrix) (s : State) : Prop where
  dim : Dim s.g n m
  feas : Feasible n m s.trans s.g
  names : Names n m q s
  rep : Represents n m g0 s

/-! ## simplex.c: the rows made by `init_weights` and `calc_equations` -/

/-- The function `alloc_vector` (simplex.c 961-974): `num_weights + 1`
zeros.  A failed `calloc` is not modelled. -/
def alloc_vector (num_weights : Nat) : List ℚ :=
  List.replicate (num_weights + 1) 0

/-- The translation equation `init_weights` stores in
`translation [ matidx ]` (simplex.c 534-538). -/
def translation_row (num_weights matidx : Nat) (idf : ℚ) : List ℚ :=
  ((alloc_vector num_weights).set matidx 1).set num_weights idf

/-- The array `translation` after `init_weights` when it has met every
column once more: row `i` is the translation equation of `x [i]`. -/
def translation_rows (num_weights : Nat) (x : Nat → ℚ) : List (List ℚ) :=
  loop 0 num_weights (fun i t => t.set i (translation_row num_weights i (x i)))
    (List.replicate num_weights [])

/-- The loop over the bounds in `calc_equations` (simplex.c 1118-1139):
the arrays `min_weights` and `max_weights`.  `C1` and `C2` are the macros of
limits.h, the `calloc`ed arrays of row pointers start with empty rows. -/
def bound_rows (C1 C2 : ℚ) (num_weights : Nat) (x : Nat → ℚ) :
    List (List ℚ) × List (List ℚ) :=
  loop 0 num_weights (fun i r =>
    let arr := alloc_vector num_weights
    let arr := arr.set i 1
    let arr := arr.set num_weights (- C1 * x i)
    let min_weights := r.1.set i arr
    let arr := alloc_vector num_weights
    let arr := arr.set i (-1)
    let arr := arr.set num_weights (C2 * x i)
    (min_weights, r.2.set i arr))
    (List.replicate num_weights [], List.replicate num_weights [])

/-- The matrix `main` hands to `simplex`: the translation rows of
`init_weights` and the bound rows of `calc_equations` for the vector `x` of
IDF values, with the RSV rows `rsv` and the cost row `cost`. -/
def builder_matrix (C1 C2 : ℚ) (n : Nat) (x : Nat → ℚ) (rsv : List (List ℚ))
    (cost : List ℚ) : Matrix :=
  { num_weights := n
    num_prefs := rsv.length
    translation := translation_rows n x
    rsv_eq := rsv
    min_weights := (bound_rows C1 C2 n x).1
    max_weights := (bound_rows C1 C2 n x).2
    cost := cost }

/-! ## Objects of the statements about `simplex` -/

/-- The IDF vector `[1.0, 2.0]` of the worked example of the specification. -/
def example_idf : Nat → ℚ := fun i => if i = 0 then 1 else 2

/-- The matrix of the worked example: two columns, the one RSV row
`[1.0, -1.0]` with constant `0.5`, the cost row its negation, `C1 = 0.5`
and `C2 = 2.0`. -/
def example_matrix : Matrix :=
  builder_matrix (1 / 2) 2 2 example_idf [[1, -1, 1 / 2]] [-1, 1, -1 / 2]

/-- The state after `j` passes of the loop of `simplex` that all went on to
a next pass; `none` when the loop has ended before. -/
def pivot_run (n m : Nat) : Nat → State → Option State
  | 0, s => some s
  | j + 1, s =>
    match pivot_run n m j s with
    | none => none
    | some s1 =>
      match pivot_iter n m s1 with
      | Iter.next s2 => some s2
      | _ => none

/-- The cost value `d`, the constant of row `m + 1`. -/
def cost_value (n m : Nat) (s : State) : ℚ := elt s.g (m + 1) (n + 1)

/-- A feasible tableau with one column and the rows of one bound pair, on
which the loop makes a pivot. -/
def example_state : State :=
  { g := { num_weights := 1
           num_prefs := 0
           translation := [[1, 1]]
           rsv_eq := []
           min_weights := [[1, 1 / 2]]
           max_weights := [[-1, 1]]
           cost := [1, 0] }
    ba := fun _ => -3
    nb := fun i => - (i : Int)
    trans := fun _ => false }

/-! ## list.c: sorted dynamic arrays

An `ELEMENT` is a pointer to a record; a pointer into a list is modelled by
the index of the record in the array.  The type `int` of indices is read as
the integers: an array has fewer than `2^30` entries, so `low + high` does
not overflow. -/

/-- The record `HEADER` of list.h: `array` holds the `num` used entries in
their order, `total` is the number of allocated entries. -/
structure LIST (α : Type) where
  array : List α
  total : Nat
deriving DecidableEq

/-- The function `create_list` (list.c 79-98); a failed `malloc` is not
modelled. -/
def create_list {α : Type} : LIST α :=
  { array := [], total := 1 }

/-- The function `count_list` (list.c 507-519) on a list that is not
`NULL`. -/
def count_list {α : Type} (list : LIST α) : Nat :=
  list.array.length

/-- The loop of `binary_search` (list.c 176-192) with its variables `low`
and `high`.  A read outside the array does not occur for
`0 <= low` and `high < num`; the model then returns `low`. -/
def binary_search_loop {α : Type} (array : List α) (key : α) (comp : α → α → Int)
    (low high : Int) : Int :=
  if low ≤ high then
    let mid := (low + high) / 2
    match array[mid.toNat]? with
    | none => low
    | some e =>
      let compare := comp key e
      if compare < 0 then binary_search_loop array key comp low (mid - 1)
      else if compare > 0 then binary_search_loop array key comp (mid + 1) high
      else (- mid) - 1
  else low
termination_by (high + 1 - low).toNat
decreasing_by
  all_goals simp_wf
  all_goals omega

/-- The function `binary_search` (list.c 139-198). -/
def binary_search {α : Type} (array : List α) (num : Nat) (key : α)
    (comp : α → α → Int) : Int :=
  binary_search_loop array key comp 0 ((num : Int) - 1)

/-- The function `add` (list.c 215-284): the list afterwards and the
returned pointer, as the index of the element it points to (`none` is
`NULL`).  The hole made at `arr[result]` by the shifting loop and filled
with `elt` is written with `take` and `drop`; a failed `realloc` is not
modelled. -/
def add {α : Type} (list : LIST α) (elt : α) (comp : α → α → Int) (enter : Bool) :
    LIST α × Option Nat :=
  let n := list.array.length
  let tot := list.total
  let result := binary_search list.array n elt comp
  if result < 0 then (list, some (- result - 1).toNat)
  else if enter then
    let total := if n ≥ tot then tot + 10 else tot
    ({ array := list.array.take result.toNat ++ elt :: list.array.drop result.toNat,
       total := total }, some result.toNat)
  else (list, none)

/-- The function `add_list` (list.c 287-324). -/
def add_list {α : Type} (list : LIST α) (elt : α) (comp : α → α → Int) :
    LIST α × Option Nat :=
  add list elt comp true

/-- The function `lookup_list` (list.c 387-419): the stored element, `none`
for `NULL`. -/
def lookup_list {α : Type} (list : LIST α) (elt : α) (comp : α → α → Int) : Option α :=
  match (add list elt comp false).2 with
  | some i => list.array[i]?
  | none => none

/-- The loop of `find_union` (list.c 563-585) on the parts of the two
arrays from `i` and from `j` on.  The callback works on the program state
`σ` and returns its `BOOL` with the new state. -/
def find_union_loop {α σ : Type} (compare : α → α → Int) (call : α → α → σ → Bool × σ) :
    List α → List α → σ → Bool × σ
  | [], _, s => (true, s)
  | _ :: _, [], s => (true, s)
  | e1 :: l1, e2 :: l2, s =>
    let res := compare e1 e2
    if res < 0 then find_union_loop compare call l1 (e2 :: l2) s
    else if res > 0 then find_union_loop compare call (e1 :: l1) l2 s
    else
      let r := call e1 e2 s
      if r.1 then find_union_loop compare call l1 l2 r.2 else (false, r.2)
termination_by l1 l2 _ => l1.length + l2.length

/-- The function `find_union` (list.c 526-587): the value returned (the
result of the last call of `call`, `TRUE` without a call) and the program
state afterwards. -/
def find_union {α σ : Type} (list1 list2 : LIST α) (compare : α → α → Int)
    (call : α → α → σ → Bool × σ) (s : σ) : Bool × σ :=
  find_union_loop compare call list1.array list2.array s

/-- The pairs a double loop over two arrays finds equal under `compare`:
`for a in A: for b in B: if compare (a, b) == 0`. -/
def naive_union {α : Type} (compare : α → α → Int) : List α → List α → List (α × α)
  | [], _ => []
  | a :: l1, l2 =>
    (l2.filter (fun b => compare a b = 0)).map (fun b => (a, b))
      ++ naive_union compare l1 l2

/-! ## simplex.c: records, comparators and the RSV equations -/

/-- The subtraction of two `int` as the comparators compute it: the result
wraps modulo `2^32` into the range of a 32-bit `int`. -/
def wrap32 (z : Int) : Int :=
  (z + 2147483648) % 4294967296 - 2147483648

/-- The record `ATOM_STRUCT` (simplex.c 104-108). -/
structure ATOM_STRUCT where
  atom : Int
  mat_index : Int
deriving DecidableEq

/-- The record `WGT_STRUCT` (simplex.c 110-114). -/
structure WGT_STRUCT where
  d_atom : Int
  weight : ℚ
deriving DecidableEq

/-- The record `IDF_STRUCT` (simplex.c 116-120). -/
structure IDF_STRUCT where
  u_atom : Int
  idf : ℚ
deriving DecidableEq

/-- The record `DOC_STRUCT` (simplex.c 98-102). -/
structure DOC_STRUCT where
  index : Int
  docatoms : LIST WGT_STRUCT
deriving DecidableEq

/-- The function `comp_atom` (simplex.c 274-282). -/
def comp_atom (s1 s2 : ATOM_STRUCT) : Int :=
  wrap32 (s1.atom - s2.atom)

/-- The function `comp_wgt` (simplex.c 356-364). -/
def comp_wgt (s1 s2 : WGT_STRUCT) : Int :=
  wrap32 (s1.d_atom - s2.d_atom)

/-- The function `comp_unused` (simplex.c 464-472). -/
def comp_unused (e1 e2 : IDF_STRUCT) : Int :=
  wrap32 (e1.u_atom - e2.u_atom)

/-- The function `comp_doc` (simplex.c 560-568). -/
def comp_doc (d1 d2 : DOC_STRUCT) : Int :=
  wrap32 (d1.index - d2.index)

/-- The function `matrix_index` (simplex.c 234-252); the field `mat_index`
of the search record `temp` is not read. -/
def matrix_index (atom_list : LIST ATOM_STRUCT) (a : Int) : Int :=
  match lookup_list atom_list { atom := a, mat_index := 0 } comp_atom with
  | some atm => atm.mat_index
  | none => -1

/-- The globals the equation builder reads: `doc_list` after
`process_documents`, `atom_list` after `serialize_atoms`, `unused_wgts`
after `init_weights`, and `num_weights`. -/
structure Globals where
  doc_list : LIST DOC_STRUCT
  atom_list : LIST ATOM_STRUCT
  unused_wgts : LIST IDF_STRUCT
  num_weights : Nat

/-- The globals `glob_v`, `glob_const` and `glob_bool` that `union_proc`
writes; `failed` records a violated assertion, which ends the program. -/
structure RsvState where
  glob_v : List ℚ
  glob_const : ℚ
  glob_bool : Bool
  failed : Bool

/-- The function `union_proc` (simplex.c 861-904). -/
def union_proc (G : Globals) (a1 a2 : WGT_STRUCT) (st : RsvState) : Bool × RsvState :=
  if a1.d_atom ≠ a2.d_atom then (false, { st with failed := true })
  else
    let p := a1.weight * a2.weight
    let matidx := matrix_index G.atom_list a1.d_atom
    if matidx ≠ -1 then
      let st := { st with glob_v := st.glob_v.set matidx.toNat p }
      (true, if p ≠ 0 then { st with glob_bool := true } else st)
    else
      match lookup_list G.unused_wgts { u_atom := a1.d_atom, idf := 0 } comp_unused with
      | none => (false, { st with failed := true })
      | some unused => (true, { st with glob_const := st.glob_const + p * unused.idf })

/-- The function `calc_rsv` (simplex.c 907-939): the returned `glob_bool`,
the vector `v` and `*const` afterwards; `none` is a violated assertion. -/
def calc_rsv (G : Globals) (d1 d2 : Int) (v : List ℚ) : Option (Bool × List ℚ × ℚ) :=
  match lookup_list G.doc_list { index := d1, docatoms := create_list } comp_doc with
  | none => none
  | some q =>
    match lookup_list G.doc_list { index := d2, docatoms := create_list } comp_doc with
    | none => none
    | some d =>
      let r := find_union q.docatoms d.docatoms comp_wgt (union_proc G)
        { glob_v := v, glob_const := 0, glob_bool := false, failed := false }
      if r.2.failed then none else some (r.2.glob_bool, r.2.glob_v, r.2.glob_const)

/-! ## Predicates and abbreviations of the statements about the builder -/

/-- An identifier whose differences with other such identifiers do not
overflow a 32-bit `int`. -/
def small (a : Int) : Prop :=
  -1073741824 ≤ a ∧ a < 1073741824

/-- The column `matrix_index` gives to the concept of a pair of weights. -/
def rsv_col (G : Globals) (p : WGT_STRUCT × WGT_STRUCT) : Int :=
  matrix_index G.atom_list p.1.d_atom

/-- The product `weightQuery * weightDoc` of a pair of weights. -/
def rsv_prod (p : WGT_STRUCT × WGT_STRUCT) : ℚ :=
  p.1.weight * p.2.weight

/-- The IDF `unused_wgts` holds for a concept, `0` if it holds none. -/
def idf_of (G : Globals) (a : Int) : ℚ :=
  match lookup_list G.unused_wgts { u_atom := a, idf := 0 } comp_unused with
  | some unused => unused.idf
  | none => 0

/-- The pairs of weights of the concepts two vectors share, by the double
loop. -/
def shared (q d : DOC_STRUCT) : List (WGT_STRUCT × WGT_STRUCT) :=
  naive_union comp_wgt q.docatoms.array d.docatoms.array

/-- A weight vector as `process_documents` builds it: strictly ascending
concept numbers, all of them `small`. -/
def vector_ok (d : DOC_STRUCT) : Prop :=
  d.docatoms.array.Pairwise (fun a b => a.d_atom < b.d_atom) ∧
  ∀ a ∈ d.docatoms.array, small a.d_atom

/-- The lists `atom_list` and `unused_wgts` as `serialize_atoms` and
`init_weights` leave them: sorted, with `small` concept numbers, every
column in `0 .. num_weights - 1` and no column given twice. -/
structure ListsOK (G : Globals) : Prop where
  atoms_sorted : G.atom_list.array.Pairwise (fun a b => a.atom < b.atom)
  atoms_small : ∀ e ∈ G.atom_list.array, small e.atom
  cols : ∀ e ∈ G.atom_list.array, 0 ≤ e.mat_index ∧ e.mat_index < (G.num_weights : Int)
  cols_inj : ∀ e ∈ G.atom_list.array, ∀ e1 ∈ G.atom_list.array,
    e.mat_index = e1.mat_index → e.atom = e1.atom
  unused_sorted : G.unused_wgts.array.Pairwise (fun a b => a.u_atom < b.u_atom)
  unused_small : ∀ e ∈ G.unused_wgts.array, small e.u_atom

/-- A query `-1`, a document `7` that shares the concepts `1` and `2` with
it and a document `9` that shares the concept `3` with it. -/
def example_docs : LIST DOC_STRUCT :=
  { array :=
      [ { index := -1
          docatoms := { array := [⟨1, 2⟩, ⟨2, 3⟩, ⟨3, 1 / 2⟩], total := 11 } },
        { index := 7
          docatoms := { array := [⟨1, 4⟩, ⟨2, 1⟩, ⟨4, 9⟩], total := 11 } },
        { index := 9
          docatoms := { array := [⟨3, 2⟩], total := 1 } } ]
    total := 11 }

/-- Globals in which the concepts `1` and `3` have the columns `0` and `1`
and the concept `2` has the IDF `5`. -/
def example_globals : Globals :=
  { doc_list := example_docs
    atom_list := { array := [⟨1, 0⟩, ⟨3, 1⟩], total := 11 }
    unused_wgts := { array := [⟨2, 5⟩], total := 1 }
    num_weights := 2 }

/-! ## simplex.c: `enum_pref` and `calc_equations` -/

/-- The macro `EPSILON` (simplex.c 85). -/
def EPSILON : ℚ := 1 / 100000

/-- A line `<type> <query> <doc1> <doc2>` of the preference file, as
`sscanf ( line, "%c %d %d %d", &type, &d, &d1, &d2 )` reads it. -/
structure Pref where
  type : Char
  d : Int
  d1 : Int
  d2 : Int
deriving DecidableEq

/-- The variables of `enum_pref` that live across its loop, with the
globals `rsv_eq` and `cost` it writes. -/
structure EnumState where
  idx : Nat
  num_plus : Nat
  num_minus : Nat
  rsv_eq : List (List ℚ)
  cost : List ℚ
deriving DecidableEq

/-- The row `v1` that the body of the loop of `enum_pref` builds from the
two results of `calc_rsv` (simplex.c 1044-1059). -/
def build_row (num_weights : Nat) (type : Char) (v1 v2 : List ℚ) (c1 c2 : ℚ) : List ℚ :=
  let sign : ℚ := if type = '-' ∨ type = 'C' then 1 else -1
  let v1 := loop 0 num_weights (fun i v1 =>
    v1.set i ((v1.getD i 0 - v2.getD i 0) * sign)) v1
  v1.set num_weights (sign * (EPSILON + (c1 - c2)))

/-- One pass of the body of the loop of `enum_pref` (simplex.c 1009-1078)
on the line `p`; `none` is a violated assertion of `calc_rsv`. -/
def enum_pref_line (G : Globals) (dryrun : Bool) (st : EnumState) (p : Pref) :
    Option EnumState :=
  match calc_rsv G p.d p.d1 (alloc_vector G.num_weights) with
  | none => none
  | some (nonzero1, v1, c1) =>
    match calc_rsv G p.d p.d2 (alloc_vector G.num_weights) with
    | none => none
    | some (nonzero2, v2, c2) =>
      if (! nonzero1) && (! nonzero2) then some st
      else
        let st :=
          if p.type = '+' then { st with num_plus := st.num_plus + 1 }
          else if p.type = '-' then { st with num_minus := st.num_minus + 1 }
          else st
        if dryrun then
          some (if p.type ≠ 'C' then { st with idx := st.idx + 1 } else st)
        else
          let v1 := build_row G.num_weights p.type v1 v2 c1 c2
          let st :=
            if p.type ≠ 'C' then
              { st with rsv_eq := st.rsv_eq.set st.idx v1, idx := st.idx + 1 }
            else st
          let st :=
            if p.type = '-' ∨ p.type = 'C' then
              { st with cost := forLoop 0 G.num_weights (fun i cost =>
                  cost.set i (cost.getD i 0 - v1.getD i 0)) st.cost }
            else st
          some st

/-- The function `enum_pref` (simplex.c 980-1086) on the lines `prefs` of
the preference file, started with the globals `rsv_eq` and `cost`: the
returned `idx` with `rsv_eq` and `cost` afterwards; `none` is a violated
assertion. -/
def enum_pref (G : Globals) (prefs : List Pref) (dryrun : Bool)
    (rsv_eq : List (List ℚ)) (cost : List ℚ) : Option (Nat × List (List ℚ) × List ℚ) :=
  match prefs.foldlM (enum_pref_line G dryrun) ⟨0, 0, 0, rsv_eq, cost⟩ with
  | none => none
  | some st =>
    if st.num_plus + st.num_minus = st.idx then some (st.idx, st.rsv_eq, st.cost)
    else none

/-- The function `calc_equations` (simplex.c 1089-1140) with the macros
`C1`, `C2` of limits.h: the matrix it leaves, `translation` being the array
`init_weights` has filled before.  The array `rsv_eq` does not exist yet in
the dry run and is `calloc`ed with empty rows for the second pass. -/
def calc_equations (C1 C2 : ℚ) (G : Globals) (prefs : List Pref) (x : Nat → ℚ)
    (translation : List (List ℚ)) : Option Matrix :=
  match enum_pref G prefs true [] (alloc_vector G.num_weights) with
  | none => none
  | some (num_prefs, _, cost) =>
    match enum_pref G prefs false (List.replicate num_prefs []) cost with
    | none => none
    | some (_, rsv_eq, cost) =>
      some { num_weights := G.num_weights
             num_prefs := num_prefs
             translation := translation
             rsv_eq := rsv_eq
             min_weights := (bound_rows C1 C2 G.num_weights x).1
             max_weights := (bound_rows C1 C2 G.num_weights x).2
             cost := cost }

/-! ## Abbreviations of the statements about `enum_pref` -/

/-- Both calls of `calc_rsv` for the line `p` return. -/
def pref_ok (G : Globals) (p : Pref) : Prop :=
  (calc_rsv G p.d p.d1 (alloc_vector G.num_weights)).isSome = true ∧
  (calc_rsv G p.d p.d2 (alloc_vector G.num_weights)).isSome = true

/-- The line `p` is not dropped: `calc_rsv` reports optimized overlap of the
query with one of the two documents. -/
def pref_kept (G : Globals) (p : Pref) : Bool :=
  match calc_rsv G p.d p.d1 (alloc_vector G.num_weights),
    calc_rsv G p.d p.d2 (alloc_vector G.num_weights) with
  | some r1, some r2 => r1.1 || r2.1
  | _, _ => false

/-- The row `enum_pref` builds for the line `p`. -/
def pref_row (G : Globals) (p : Pref) : List ℚ :=
  match calc_rsv G p.d p.d1 (alloc_vector G.num_weights),
    calc_rsv G p.d p.d2 (alloc_vector G.num_weights) with
  | some r1, some r2 => build_row G.num_weights p.type r1.2.1 r2.2.1 r1.2.2 r2.2.2
  | _, _ => []

/-- The rows of the lines that are not dropped and not of type `C`, in the
order of the file. -/
def stored_rows (G : Globals) (prefs : List Pref) : List (List ℚ) :=
  (prefs.filter (fun p => pref_kept G p && decide (p.type ≠ 'C'))).map (pref_row G)

/-- The rows of the lines that are not dropped and of type `-` or `C`. -/
def cost_rows (G : Globals) (prefs : List Pref) : List (List ℚ) :=
  (prefs.filter (fun p => pref_kept G p && decide (p.type = '-' ∨ p.type = 'C'))).map
    (pref_row G)

/-- The state after the body of the loop of `enum_pref` on a line that is
not dropped. -/
def line_state (G : Globals) (dryrun : Bool) (st : EnumState) (p : Pref) : EnumState :=
  { idx := if p.type ≠ 'C' then st.idx + 1 else st.idx
    num_plus := if p.type = '+' then st.num_plus + 1 else st.num_plus
    num_minus := if p.type = '-' then st.num_minus + 1 else st.num_minus
    rsv_eq :=
      if dryrun = false ∧ p.type ≠ 'C' then st.rsv_eq.set st.idx (pref_row G p)
      else st.rsv_eq
    cost :=
      if dryrun = false ∧ (p.type = '-' ∨ p.type = 'C') then
        forLoop 0 G.num_weights (fun i cost =>
          cost.set i (cost.getD i 0 - (pref_row G p).getD i 0)) st.cost
      else st.cost }

/-- The factor `sign` of `enum_pref` (simplex.c 1046-1053): `1.0` for the
types `-` and `C`, `-1.0` otherwise. -/
def pref_sign (type : Char) : ℚ :=
  if type = '-' ∨ type = 'C' then 1 else -1

/-- A satisfied preference of the query `-1` for the document `7` over the
document `9`. -/
def example_plus : Pref := ⟨'+', -1, 7, 9⟩

/-- A preference file with a line of each type and a line that is dropped
(the query `7` shares no optimized concept with the document `9`). -/
def example_prefs : List Pref :=
  [⟨'-', -1, 9, 7⟩, ⟨'+', -1, 7, 9⟩, ⟨'C', -1, 7, 7⟩, ⟨'-', 9, 7, 7⟩]

/-! ## simplex.c: `serialize_atoms` and `init_weights` -/

/-- The globals `atom_list` and `serial` that `add_atom` writes. -/
structure SerialState where
  atom_list : LIST ATOM_STRUCT
  serial : Int
deriving DecidableEq

/-- The function `add_atom` (simplex.c 644-665).  The pointer `add_list`
returns is not `NULL` (a failed allocation is not modelled), so the
`assert ( atm != NULL )` holds. -/
def add_atom (atom : Int) (st : SerialState) : SerialState :=
  let r := add_list st.atom_list { atom := atom, mat_index := -1 } comp_atom
  match r.2 with
  | none => st
  | some i =>
    match r.1.array[i]? with
    | none => st
    | some atm =>
      if atm.mat_index = -1 then
        { atom_list := { r.1 with array := r.1.array.set i { atm with mat_index := st.serial } }
          serial := st.serial + 1 }
      else { atom_list := r.1, serial := st.serial }

/-- The function `enum_primary` (simplex.c 669-682). -/
def enum_primary (a1 _a2 : WGT_STRUCT) (st : SerialState) : Bool × SerialState :=
  (true, add_atom a1.d_atom st)

/-- One pass of the body of the loop of `serialize_atoms` (simplex.c
703-734) on the line `p`; `none` is a violated assertion. -/
def serialize_line (doc_list : LIST DOC_STRUCT) (st : SerialState) (p : Pref) :
    Option SerialState :=
  if p.type = '+' ∨ p.type = 'C' then some st
  else
    match lookup_list doc_list { index := p.d, docatoms := create_list } comp_doc,
      lookup_list doc_list { index := p.d1, docatoms := create_list } comp_doc,
      lookup_list doc_list { index := p.d2, docatoms := create_list } comp_doc with
    | some query, some doc1, some doc2 =>
      let st := (find_union query.docatoms doc1.docatoms comp_wgt enum_primary st).2
      some (find_union query.docatoms doc2.docatoms comp_wgt enum_primary st).2
    | _, _, _ => none

/-- The function `serialize_atoms` (simplex.c 686-740) on the lines `prefs`
of the preference file: `atom_list` and `serial` afterwards. -/
def serialize_atoms (doc_list : LIST DOC_STRUCT) (prefs : List Pref) : Option SerialState :=
  prefs.foldlM (serialize_line doc_list) { atom_list := create_list, serial := 0 }

/-- The globals `init_weights` writes: the vector `x`, the arrays
`translation` and `unused_wgts`, and the lines printed on the standard
output. -/
structure InitState where
  x : Nat → ℚ
  translation : List (List ℚ)
  unused_wgts : LIST IDF_STRUCT
  output : List (Int × ℚ)

/-- The function `add_unused` (simplex.c 475-493). -/
def add_unused (atom : Int) (idf : ℚ) (unused_wgts : LIST IDF_STRUCT) : LIST IDF_STRUCT :=
  (add_list unused_wgts { u_atom := atom, idf := idf } comp_unused).1

/-- One pass of the body of the loop of `init_weights` (simplex.c 521-546)
on the line `<concept-id> <idf-value>`. -/
def init_weights_line (atom_list : LIST ATOM_STRUCT) (num_weights : Nat) (st : InitState)
    (line : Int × ℚ) : InitState :=
  let curratom := line.1
  let idf := line.2
  let matidx := matrix_index atom_list curratom
  if matidx ≠ -1 then
    { st with
      x := upd st.x matidx.toNat idf
      translation := st.translation.set matidx.toNat
        (translation_row num_weights matidx.toNat idf) }
  else
    { st with
      output := st.output ++ [(curratom, idf)]
      unused_wgts := add_unused curratom idf st.unused_wgts }

/-- The function `init_weights` (simplex.c 496-549) on the lines of the IDF
file, with the vector `x` that `main` allocates. -/
def init_weights (atom_list : LIST ATOM_STRUCT) (num_weights : Nat)
    (idfs : List (Int × ℚ)) (x : Nat → ℚ) : InitState :=
  idfs.foldl (init_weights_line atom_list num_weights)
    { x := x, translation := List.replicate num_weights [],
      unused_wgts := create_list, output := [] }

/-! ## Abbreviations of the statements about `serialize_atoms` -/

/-- The concepts in the order of their first occurrence in a sequence. -/
def first_seen (l : List Int) : List Int :=
  l.foldl (fun acc a => if a ∈ acc then acc else acc ++ [a]) []

/-- The concepts a line of the preference file hands to `add_atom`, in
order: those the query shares with the first document, then those it shares
with the second; none for a line that is skipped. -/
def seen_line (doc_list : LIST DOC_STRUCT) (p : Pref) : List Int :=
  if p.type = '+' ∨ p.type = 'C' then []
  else
    match lookup_list doc_list { index := p.d, docatoms := create_list } comp_doc,
      lookup_list doc_list { index := p.d1, docatoms := create_list } comp_doc,
      lookup_list doc_list { index := p.d2, docatoms := create_list } comp_doc with
    | some query, some doc1, some doc2 =>
      (shared query doc1).map (fun p => p.1.d_atom)
        ++ (shared query doc2).map (fun p => p.1.d_atom)
    | _, _, _ => []

/-- The concepts handed to `add_atom` over the whole preference file. -/
def seen (doc_list : LIST DOC_STRUCT) : List Pref → List Int
  | [] => []
  | p :: ps => seen_line doc_list p ++ seen doc_list ps

/-- The invariant of `serialize_atoms` after the calls of `add_atom` on the
sequence `seq` of concepts. -/
structure Serialized (seq : List Int) (st : SerialState) : Prop where
  sorted : st.atom_list.array.Pairwise (fun a b => a.atom < b.atom)
  atoms_small : ∀ e ∈ st.atom_list.array, small e.atom
  serial : st.serial = ((first_seen seq).length : Int)
  count : st.atom_list.array.length = (first_seen seq).length
  index : ∀ e ∈ st.atom_list.array,
    0 ≤ e.mat_index ∧ (first_seen seq)[e.mat_index.toNat]? = some e.atom
  mem : ∀ a, a ∈ seq ↔ ∃ e ∈ st.atom_list.array, e.atom = a

/-- An IDF file with a line for each of the concepts `1` to `4`. -/
def example_idfs : List (Int × ℚ) :=
  [(1, 3), (2, 5), (3, 1 / 2), (4, 7)]

/-- A cost-only preference of the query `-1` between the document `7` and
itself. -/
def example_costonly : Pref := ⟨'C', -1, 7, 7⟩

/-! ## limits.h and the value of an equation -/

/-- The macro `C1` of limits.h (24-35) under the compile-time switches `P10`
and `P20`. -/
def C1 (P10 P20 : Bool) : ℚ :=
  if P10 then 9 / 10 else if P20 then 8 / 10 else 1 / 2

/-- The macro `C2` of limits.h (24-35) under the compile-time switches `P10`
and `P20`. -/
def C2 (P10 P20 : Bool) : ℚ :=
  if P10 then 11 / 10 else if P20 then 12 / 10 else 2

/-- The value `sum ( k, row[k]*w[k] ) + row[num_weights]` of the equation
`row`, as `alloc_vector` lays it out, at the weight vector `w`. -/
def row_value (num_weights : Nat) (row : List ℚ) (w : Nat → ℚ) : ℚ :=
  (∑ k in Finset.range num_weights, row.getD k 0 * w k) + row.getD num_weights 0

/-- The IDF values `3` and `1/2` of the columns `0` and `1` of the example. -/
def example_x : Nat → ℚ := fun i => if i = 0 then 3 else 1 / 2

/-! ## The pivot rows chosen during a run of `simplex` -/

/-- The row `p` that the pass of `eliminate` for column `q` finds, `0` when
it finds none. -/
def eliminate_row (n m q : Nat) (s : State) : Nat :=
  (if elt s.g (m + 1) q > 0 then elim_search_neg n m q s.trans s.g
   else elim_search_pos n m q s.trans s.g).p

/-- The pivot rows `p` of the passes of `eliminate` for the columns `q`,
`q + 1`, ..., `q + cnt - 1`, in order, up to a violated `assert ( p != 0 )`. -/
def eliminate_rows (n m : Nat) : Nat → Nat → State → List Nat
  | _, 0, _ => []
  | q, cnt + 1, s =>
    match eliminate_step n m q s with
    | none => []
    | some s1 => eliminate_row n m q s :: eliminate_rows n m (q + 1) cnt s1

/-- The row `p` that a pass of the loop of `simplex` finds for its column
`q`, `0` when it finds none. -/
def pivot_row (n m : Nat) (s : State) : Nat :=
  (row_search n m (piv_search n m s.g).q s.trans s.g).p

/-- The pivot rows `p` of at most `fuel` passes of the loop of `simplex`, in
order. -/
def pivot_rows : Nat → Nat → Nat → State → List Nat
  | 0, _, _, _ => []
  | fuel + 1, n, m, s =>
    match pivot_iter n m s with
    | Iter.next s1 => pivot_row n m s :: pivot_rows fuel n m s1
    | _ => []

/-- The pivot rows chosen during `simplex`: those of `eliminate`, then those
of at most `fuel` passes of the loop. -/
def simplex_rows (fuel n m : Nat) (g : Matrix) (x : Nat → ℚ) : List Nat :=
  eliminate_rows n m 1 n (init_state n m (transform n m x g)) ++
    (match eliminate n m (init_state n m (transform n m x g)) with
     | none => []
     | some s => pivot_rows fuel n m { s with g := check_elim n m s.trans s.g })

/-- The builder matrix of one concept with the IDF `0.0`, one RSV row with the
coefficient `1.0` and the constant `EPSILON`, and the cost row its negation. -/
def example_zero_matrix : Matrix :=
  builder_matrix (1 / 2) 2 1 (fun _ => 0) [[1, 1 / 100000]] [-1, - (1 / 100000)]

/-- The IDF vector `[2.0, 1.0e12]`. -/
def example_large_idf : Nat → ℚ := fun i => if i = 0 then 2 else 1000000000000

/-- The builder matrix for the IDF vector `[2.0, 1.0e12]` with `C1 = 0.5` and
`C2 = 2.0`, one RSV row `x[0] + x[1] - 1000000000002`, which has the value
`0` at the IDF vector, and the cost row `[0, 1, 0]`. -/
def example_large_matrix : Matrix :=
  builder_matrix (1 / 2) 2 2 example_large_idf [[1, 1, -1000000000002]] [0, 1, 0]

/-! ## list.c: `enum_list`; simplex.c: `print_results` -/

/-- The macro `ENUM_FORWARD` of list.h. -/
def ENUM_FORWARD : Int := 1

/-- The macro `ENUM_BACKWARD` of list.h. -/
def ENUM_BACKWARD : Int := -1

/-- A loop of `enum_list` (list.c 461-472) over the elements in the order it
visits them: the `result` it ends with and the program state.  The callback
works on the program state `σ`. -/
def enum_loop {α σ : Type} (enum_proc : α → σ → Bool × σ) : List α → σ → Bool × σ
  | [], s => (true, s)
  | e :: l, s =>
    let r := enum_proc e s
    if r.1 then enum_loop enum_proc l r.2 else (false, r.2)

/-- The function `enum_list` (list.c 436-475); `none` is the violated
assertion on `direction`. -/
def enum_list {α σ : Type} (list : LIST α) (enum_proc : α → σ → Bool × σ) (direction : Int)
    (s : σ) : Option (Bool × σ) :=
  if direction = ENUM_FORWARD then some (enum_loop enum_proc list.array s)
  else if direction = ENUM_BACKWARD then some (enum_loop enum_proc list.array.reverse s)
  else none

/-- The function `enum_results` (simplex.c 1152-1165) with the global
`glob_v`; the program state is the list of lines printed so far.  The index
`mat_index` is not negative for an element of `atom_list`. -/
def enum_results (glob_v : Nat → ℚ) (a : ATOM_STRUCT) (out : List (Int × ℚ)) :
    Bool × List (Int × ℚ) :=
  (true, out ++ [(a.atom, glob_v a.mat_index.toNat)])

/-- The function `print_results` (simplex.c 1168-1176): the lines on the
standard output afterwards. -/
def print_results (atom_list : LIST ATOM_STRUCT) (x : Nat → ℚ) (out : List (Int × ℚ)) :
    Option (List (Int × ℚ)) :=
  (enum_list atom_list (enum_results x) ENUM_FORWARD out).map (fun r => r.2)

/-- The state of the working arrays in which the loop of `simplex` ends with
its `break`, within `fuel` passes; `none` when `simplex` does not get
there. -/
def final_state (fuel n m : Nat) (g : Matrix) (x : Nat → ℚ) : Option State :=
  match eliminate n m (init_state n m (transform n m x g)) with
  | none => none
  | some s =>
    match pivot_loop fuel n m { s with g := check_elim n m s.trans s.g } with
    | some (true, s1) => some s1
    | _ => none

/-- An `atom_list` that gives the concepts `5` and `6` the columns `0` and
`1`. -/
def example_atoms : LIST ATOM_STRUCT :=
  { array := [⟨5, 0⟩, ⟨6, 1⟩], total := 11 }

/-! ## list.c: `delete_list`, `find_diff`, `merge_lists` -/

/-- The function `delete_list` (list.c 345-384); `none` is the violated
`assert ( result < 0 )`.  The loop copies `arr [i + 1]` to `arr [i]` for
`i = -result - 1, ..., n - 1`.  The array of the model holds the `num` used
entries: the last pass reads the slot `arr [n]` behind them and writes to
`arr [n - 1]`, the entry that `list -> num --` drops, so the model leaves
that entry alone. -/
def delete_list {α : Type} (list : LIST α) (elt : α) (comp : α → α → Int) :
    Option (LIST α) :=
  let n := list.array.length
  let result := binary_search list.array n elt comp
  if result < 0 then
    let first := (- result - 1).toNat
    let arr := loop first (n - first) (fun i arr =>
      match arr[i + 1]? with
      | some e => arr.set i e
      | none => arr) list.array
    some { array := arr.take (n - 1), total := list.total }
  else none

/-- The lists a program gets from `create_list` by calls of `add_list` and
of `delete_list` whose assertion holds. -/
inductive Reachable {α : Type} (comp : α → α → Int) : LIST α → Prop
  | create : Reachable comp create_list
  | add (list : LIST α) (elt : α) :
      Reachable comp list → Reachable comp (add_list list elt comp).1
  | delete (list list1 : LIST α) (elt : α) :
      Reachable comp list → delete_list list elt comp = some list1 → Reachable comp list1

/-- The loop `for ( i1 = i; ( i1 < max1 ) && ok; i1 ++ ) ok = (*call) ( ... )`
that `find_diff` and `merge_lists` end with, on the rest of an array. -/
def dump_loop {α σ : Type} (call : α → σ → Bool × σ) : List α → Bool → σ → Bool × σ
  | [], ok, s => (ok, s)
  | e :: l, ok, s =>
    if ok then
      let r := call e s
      dump_loop call l r.1 r.2
    else (ok, s)

/-- The `while` loop of `find_diff` (list.c 645-668) on the parts of the two
arrays from `i` and from `j` on: `ok`, the program state, and the part of
the first array from `i` on when the loop ends. -/
def find_diff_loop {α σ : Type} (compare : α → α → Int) (call : α → σ → Bool × σ) :
    List α → List α → σ → Bool × σ × List α
  | [], _, s => (true, s, [])
  | e1 :: l1, [], s => (true, s, e1 :: l1)
  | e1 :: l1, e2 :: l2, s =>
    let res := compare e1 e2
    if res < 0 then
      let r := call e1 s
      if r.1 then find_diff_loop compare call l1 (e2 :: l2) r.2 else (false, r.2, l1)
    else if res > 0 then find_diff_loop compare call (e1 :: l1) l2 s
    else find_diff_loop compare call l1 l2 s
termination_by l1 l2 _ => l1.length + l2.length

/-- The function `find_diff` (list.c 611-677): the value returned and the
program state afterwards. -/
def find_diff {α σ : Type} (list1 list2 : LIST α) (compare : α → α → Int)
    (call : α → σ → Bool × σ) (s : σ) : Bool × σ :=
  let r := find_diff_loop compare call list1.array list2.array s
  dump_loop call r.2.2 r.1 r.2.1

/-- The `while` loop of `merge_lists` (list.c 742-770): `ok`, the program
state, and the parts of the two arrays from `i` and from `j` on when the
loop ends. -/
def merge_loop {α σ : Type} (compare : α → α → Int) (call : α → σ → Bool × σ) :
    List α → List α → σ → Bool × σ × List α × List α
  | [], l2, s => (true, s, [], l2)
  | e1 :: l1, [], s => (true, s, e1 :: l1, [])
  | e1 :: l1, e2 :: l2, s =>
    let res := compare e1 e2
    if res < 0 then
      let r := call e1 s
      if r.1 then merge_loop compare call l1 (e2 :: l2) r.2 else (false, r.2, l1, e2 :: l2)
    else if res > 0 then
      let r := call e2 s
      if r.1 then merge_loop compare call (e1 :: l1) l2 r.2 else (false, r.2, e1 :: l1, l2)
    else
      let r := call e1 s
      if r.1 then merge_loop compare call l1 l2 r.2 else (false, r.2, l1, l2)
termination_by l1 l2 _ => l1.length + l2.length

/-- The function `merge_lists` (list.c 706-782): the value returned and the
program state afterwards. -/
def merge_lists {α σ : Type} (list1 list2 : LIST α) (call : α → σ → Bool × σ)
    (compare : α → α → Int) (s : σ) : Bool × σ :=
  let r := merge_loop compare call list1.array list2.array s
  let r1 := dump_loop call r.2.2.1 r.1 r.2.1
  dump_loop call r.2.2.2 r1.1 r1.2

/-- The elements of the first array whose key no element of the second array
has, by a double loop. -/
def naive_diff {α : Type} (compare : α → α → Int) (l1 l2 : List α) : List α :=
  l1.filter (fun a => l2.all (fun b => decide (compare a b ≠ 0)))

/-- The arguments of the calls of `call` in `merge_lists`, in order, when
every call returns `TRUE`. -/
def merge_order {α : Type} (compare : α → α → Int) : List α → List α → List α
  | [], l2 => l2
  | e1 :: l1, [] => e1 :: l1
  | e1 :: l1, e2 :: l2 =>
    let res := compare e1 e2
    if res < 0 then e1 :: merge_order compare l1 (e2 :: l2)
    else if res > 0 then e2 :: merge_order compare (e1 :: l1) l2
    else e1 :: merge_order compare l1 l2
termination_by l1 l2 => l1.length + l2.length

/-! ## simplex.c: `process_pref` and `process_documents` -/

/-- The record `SIGN_STRUCT` (simplex.c 90-94). -/
structure SIGN_STRUCT where
  sign : Int
  atoms : LIST ATOM_STRUCT
deriving DecidableEq

/-- The function `comp_sign` (simplex.c 264-272). -/
def comp_sign (s1 s2 : SIGN_STRUCT) : Int :=
  wrap32 (s1.sign - s2.sign)

/-- The function `add_doc` (simplex.c 571-589).  A new record gets its empty
list from `create_list` right after `add_list` has stored it; a record that
is stored already is returned by `add_list` and keeps its list. -/
def add_doc (d : Int) (doc_list : LIST DOC_STRUCT) : LIST DOC_STRUCT :=
  (add_list doc_list { index := d, docatoms := create_list } comp_doc).1

/-- The function `process_pref` (simplex.c 600-634) on the lines of the
preference file: `doc_list` afterwards. -/
def process_pref (prefs : List Pref) : LIST DOC_STRUCT :=
  prefs.foldl (fun doc_list p => add_doc p.d2 (add_doc p.d1 (add_doc p.d doc_list)))
    create_list

/-- A line of the document file as `sscanf ( line, " %d %f", &d, &w )`
reads it: one field is a document number, two fields are a sign index and a
weight. -/
inductive DocLine where
  | doc (d : Int)
  | sign (d : Int) (w : ℚ)
deriving DecidableEq

/-- The function `make_docatoms` (simplex.c 366-384) with the global
`glob_wgt`; the program state is the list `glob_list`. -/
def make_docatoms (glob_wgt : ℚ) (e : ATOM_STRUCT) (glob_list : LIST WGT_STRUCT) :
    Bool × LIST WGT_STRUCT :=
  let r := add_list glob_list { d_atom := e.atom, weight := 0 } comp_wgt
  match r.2 with
  | none => (true, glob_list)
  | some i =>
    match r.1.array[i]? with
    | none => (true, r.1)
    | some a =>
      (true, { r.1 with array := r.1.array.set i { a with weight := a.weight + glob_wgt } })

/-- The variables of `process_documents`: `doc_list`, `active`, and
`glob_list` as the index of the record of `doc_list` whose `docatoms` it
is. -/
structure DocState where
  doc_list : LIST DOC_STRUCT
  active : Bool
  glob_list : Nat
deriving DecidableEq

/-- One pass of the loop of `process_documents` (simplex.c 407-445); `none`
is the violated `assert ( sgn != NULL )`. -/
def process_documents_line (sign_list : LIST SIGN_STRUCT) (st : DocState) (line : DocLine) :
    Option DocState :=
  match line with
  | DocLine.doc d =>
    match (add st.doc_list { index := d, docatoms := create_list } comp_doc false).2 with
    | some i => some { st with active := true, glob_list := i }
    | none => some { st with active := false }
  | DocLine.sign d w =>
    if st.active then
      match lookup_list sign_list { sign := d, atoms := create_list } comp_sign with
      | none => none
      | some sgn =>
        match st.doc_list.array[st.glob_list]? with
        | none => some st
        | some doc =>
          match enum_list sgn.atoms (make_docatoms w) ENUM_FORWARD doc.docatoms with
          | none => none
          | some r =>
            some { st with doc_list := { st.doc_list with
              array := st.doc_list.array.set st.glob_list { doc with docatoms := r.2 } } }
    else some st

/-- The function `process_documents` (simplex.c 387-446) on the lines of the
document file, with `sign_list` as `process_concepts` has left it:
`doc_list` afterwards. -/
def process_documents (sign_list : LIST SIGN_STRUCT) (doc_list : LIST DOC_STRUCT)
    (lines : List DocLine) : Option (LIST DOC_STRUCT) :=
  (lines.foldlM (process_documents_line sign_list)
    { doc_list := doc_list, active := false, glob_list := 0 }).map (fun st => st.doc_list)

/-- A sign list with the sign `1`, which has the atomic concepts `1` and
`2`. -/
def example_signs : LIST SIGN_STRUCT :=
  { array := [{ sign := 1, atoms := { array := [⟨1, 0⟩, ⟨2, 0⟩], total := 11 } }], total := 1 }

/-- A document file with the records of the query `-1` and the document `7`
and no record of the document `9`. -/
def example_stream : List DocLine :=
  [DocLine.doc (-1), DocLine.sign 1 2, DocLine.doc 7, DocLine.sign 1 3]

/-- An unsatisfied preference that names the document `9`. -/
def example_dangling : Pref := ⟨'-', -1, 7, 9⟩

/-- The list `doc_list` that `process_pref` and `process_documents` build
from the preference `- -1 7 9` and the document file of the example: the
document `9` has an empty list. -/
def example_dangling_docs : LIST DOC_STRUCT :=
  { array :=
      [ { index := -1, docatoms := { array := [⟨1, 2⟩, ⟨2, 2⟩], total := 11 } },
        { index := 7, docatoms := { array := [⟨1, 3⟩, ⟨2, 3⟩], total := 11 } },
        { index := 9, docatoms := create_list } ]
    total := 11 }

/-- The IDF vector of one concept with the IDF `4.0e11`. -/
def example_huge_idf : Nat → ℚ := fun _ => 400000000000

/-- The builder matrix of one concept with the IDF `4.0e11`, `C1 = 0.5` and
`C2 = 2.0`, no RSV row and the cost row `[0, 0]`. -/
def example_huge_matrix : Matrix :=
  builder_matrix (1 / 2) 2 1 example_huge_idf [] [0, 0]

/-- The IDF vector `[1.0, 4.0e11]`. -/
def example_far_idf : Nat → ℚ := fun i => if i = 0 then 1 else 400000000000

/-- The builder matrix for the IDF vector `[1.0, 4.0e11]` with `C1 = 0.5` and
`C2 = 2.0`, one RSV row `x[0] - x[1] + 399999999999`, which has the value
`0` at the IDF vector, and the cost row `[0, -1, 0]`. -/
def example_far_matrix : Matrix :=
  builder_matrix (1 / 2) 2 2 example_far_idf [[1, -1, 399999999999]] [0, -1, 0]

/-- The bookkeeping at the end of `eliminate`: exactly `n` of the rows `1..m`
are marked in `trans`, every variable `k` in `1..n` is named by `nb` in
exactly one row, which is marked, and every `ba [q]` is negative. -/
def Eliminated (n m : Nat) (s : State) : Prop :=
  ((Finset.Icc 1 m).filter (fun i => s.trans i = true)).card = n ∧
  (∀ k : Nat, 1 ≤ k → k ≤ n → ∃ p, 1 ≤ p ∧ p ≤ m ∧ s.nb p = (k : Int) ∧ s.trans p = true ∧
    ∀ p1, 1 ≤ p1 → p1 ≤ m → s.nb p1 = (k : Int) → p1 = p) ∧
  (∀ q, 1 ≤ q → q ≤ n → s.ba q < 0)

/-- The builder matrix of one concept with the IDF `4.0e11`, `C1 = 0.5` and
`C2 = 2.0`, no RSV row and the cost row `[1, 0]`. -/
def example_huge_cost_matrix : Matrix :=
  builder_matrix (1 / 2) 2 1 example_huge_idf [] [1, 0]

/-- A tableau with one column whose bound rows have the constant `-5.0`,
far below `- EPSILON`. -/
def example_negative : Matrix :=
  { num_weights := 1
    num_prefs := 0
    translation := [[1, 1]]
    rsv_eq := []
    min_weights := [[1, -5]]
    max_weights := [[-1, -5]]
    cost := [1, 0] }

/-- The array slots that the shifting loop of `delete_list` (list.c 375-377)
touches, in order: the pass for `i` reads `arr [i + 1]` and writes
`arr [i]`; `none` is the violated `assert ( result < 0 )`. -/
def delete_list_slots {α : Type} (list : LIST α) (elt : α) (comp : α → α → Int) :
    Option (List Nat) :=
  let n := list.array.length
  let result := binary_search list.array n elt comp
  if result < 0 then
    let first := (- result - 1).toNat
    some (loop first (n - first) (fun i slots => slots ++ [i + 1, i]) [])
  else none

/-- The list after `create_list` and one `add_list`, of the number `5` with
a comparator on numbers: one element in an array of one slot. -/
def example_full_list : LIST Int :=
  (add_list create_list 5 (fun a b => a - b)).1

/-! ## calc_rsv.c: `union_proc` and `calc_rsv` -/

namespace CalcRsv

/-- The record `ATOM_STRUCT` (calc_rsv.c 83-87): in `atom_list` the weight of
an atomic concept, in a document its weight in that document. -/
structure ATOM_STRUCT where
  atom : Int
  weight : ℚ
deriving DecidableEq

/-- The record `DOC_STRUCT` (calc_rsv.c 77-81). -/
structure DOC_STRUCT where
  index : Int
  docatoms : LIST ATOM_STRUCT
deriving DecidableEq

/-- The function `comp_atom` (calc_rsv.c 164-172). -/
def comp_atom (s1 s2 : ATOM_STRUCT) : Int :=
  wrap32 (s1.atom - s2.atom)

/-- The global `glob_rsv` that `union_proc` writes; `failed` records a
violated assertion, which ends the program. -/
structure RsvState where
  glob_rsv : ℚ
  failed : Bool

/-- The function `union_proc` (calc_rsv.c 364-385). -/
def union_proc (atom_list : LIST ATOM_STRUCT) (a1 a2 : ATOM_STRUCT) (st : RsvState) :
    Bool × RsvState :=
  if a1.atom ≠ a2.atom then (false, { st with failed := true })
  else
    match lookup_list atom_list a1 comp_atom with
    | none => (false, { st with failed := true })
    | some atm =>
      (true, { st with glob_rsv := st.glob_rsv + a1.weight * a2.weight * atm.weight })

/-- The function `calc_rsv` (calc_rsv.c 388-396); `none` is a violated
assertion. -/
def calc_rsv (atom_list : LIST ATOM_STRUCT) (q d : DOC_STRUCT) : Option ℚ :=
  let r := find_union q.docatoms d.docatoms comp_atom (union_proc atom_list)
    { glob_rsv := 0, failed := false }
  if r.2.failed then none else some r.2.glob_rsv

end CalcRsv

/-! ## The RSV rows of simplex.c against the RSV of calc_rsv.c -/

/-- A weight of simplex.c as the record calc_rsv.c keeps for it. -/
def to_calc_atom (a : WGT_STRUCT) : CalcRsv.ATOM_STRUCT :=
  { atom := a.d_atom, weight := a.weight }

/-- A document of simplex.c as the record calc_rsv.c keeps for it: the same
index and the same weights. -/
def to_calc_doc (d : DOC_STRUCT) : CalcRsv.DOC_STRUCT :=
  { index := d.index
    docatoms := { array := d.docatoms.array.map to_calc_atom, total := d.docatoms.total } }

/-- The weighted sparse dot product `RSV_w (q, d)`: the sum, over the
concepts the two vectors share, of `weight_q * weight_d * w (concept)`. -/
def rsv_w (w : Int → ℚ) (q d : DOC_STRUCT) : ℚ :=
  (q.docatoms.array.map (fun a =>
    ((d.docatoms.array.filter (fun b => b.d_atom = a.d_atom)).map
      (fun b => a.weight * b.weight * w a.d_atom)).sum)).sum

/-- The concept that has the column `k` in `atom_list`, `0` if none has. -/
def column_atom (atom_list : LIST ATOM_STRUCT) (k : Nat) : Int :=
  match atom_list.array.find? (fun e => e.mat_index = (k : Int)) with
  | some e => e.atom
  | none => 0

/-- A weight assignment for the example: the supplied IDF on the concepts
without a column, `3` on the others. -/
def example_w : Int → ℚ := fun a =>
  if matrix_index example_globals.atom_list a = -1 then idf_of example_globals a else 3

/-- The `atom_list` of calc_rsv.c for the example: the concepts `1..4` with
the weights `example_w`. -/
def example_calc_atoms : LIST CalcRsv.ATOM_STRUCT :=
  { array := [⟨1, example_w 1⟩, ⟨2, example_w 2⟩, ⟨3, example_w 3⟩, ⟨4, example_w 4⟩]
    total := 11 }

/-! ## evalpref.c: `enum_doc2` -/

namespace EvalPref

/-- The macro `EPSILON` (evalpref.c 78). -/
def EPSILON : ℚ := 1 / 100000

/-- The record `DOC_STRUCT` (evalpref.c 89-94). -/
structure DOC_STRUCT where
  doc : Int
  rlevel : Int
  rsv : ℚ
deriving DecidableEq

/-- A line written by
`printf ( "%c\t%d\t%d\t%d\t%f\n", ch, glob_query, d1, d2, delta )`; the
rounding of `%f` is not modelled. -/
structure Line where
  ch : Char
  query : Int
  d1 : Int
  d2 : Int
  delta : ℚ
deriving DecidableEq

/-- The counters `useful_plus`, `useful_minus`, `total_plus`, `total_minus`
and the lines written to standard output so far. -/
structure State where
  useful_plus : Int
  useful_minus : Int
  total_plus : Int
  total_minus : Int
  out : List Line
deriving DecidableEq

/-- The function `enum_doc2` (evalpref.c 449-523) with the macros `C1`, `C2`
of limits.h and the globals `req_query`, `glob_query`, `glob_level` and
`glob_doc`.  The `assert ( ch == '-' )` stands where `useful` is false and
`useful || ch == '-'` holds, so it cannot fail and is left out. -/
def enum_doc2 (C1 C2 : ℚ) (req_query glob_query glob_level : Int) (glob_doc : DOC_STRUCT)
    (d : DOC_STRUCT) (st : State) : Bool × State :=
  if d.rlevel = glob_level - 1 ∨ d.rlevel = 0 then
    let delta := d.rsv - glob_doc.rsv
    let delta := if |delta| < EPSILON then 0 else delta
    let d1 := d.doc
    let d2 := glob_doc.doc
    let r : Option (Char × Bool × State) :=
      if delta ≥ - EPSILON then
        let useful := decide (C1 * d.rsv - C2 * glob_doc.rsv < - EPSILON)
        let st := { st with total_minus := st.total_minus + 1 }
        some ('-', useful,
          if useful then { st with useful_minus := st.useful_minus + 1 } else st)
      else if delta < - EPSILON then
        let useful := decide (C2 * d.rsv - C1 * glob_doc.rsv ≥ - EPSILON)
        let st := { st with total_plus := st.total_plus + 1 }
        some ('+', useful,
          if useful then { st with useful_plus := st.useful_plus + 1 } else st)
      else none
    match r with
    | none => (true, st)
    | some (ch, useful, st) =>
      if useful || ch == '-' then
        let ch := if ! useful then 'C' else ch
        if ch == '-' || ch == 'C' then
          if glob_query = req_query ∨ req_query = 0 then
            (true, { st with out := st.out ++ [⟨ch, glob_query, d1, d2, delta⟩] })
          else (true, st)
        else if ch == '+' then
          (true, { st with out := st.out ++ [⟨ch, glob_query, d1, d2, delta⟩] })
        else (true, st)
      else (true, st)
  else (true, st)

end EvalPref

/-- The value `delta` of `enum_doc2` after its rounding:
`rsv (d) - rsv (glob_doc)`, replaced by `0` when its absolute value is below
`EPSILON`. -/
def rounded_delta (glob_doc d : EvalPref.DOC_STRUCT) : ℚ :=
  if |d.rsv - glob_doc.rsv| < EvalPref.EPSILON then 0 else d.rsv - glob_doc.rsv

/-- The counters and the output at the start of evalpref. -/
def example_eval_state : EvalPref.State :=
  { useful_plus := 0, useful_minus := 0, total_plus := 0, total_minus := 0, out := [] }

/-- A weight assignment for the example: the supplied IDF on the concepts
without a column, `30` on the concept `3` and `3` on the others. -/
def example_w0 : Int → ℚ := fun a =>
  if matrix_index example_globals.atom_list a = -1 then idf_of example_globals a
  else if a = 3 then 30 else 3

/-- The `atom_list` of calc_rsv.c for the example: the concepts `1..4` with
the weights `example_w0`. -/
def example_calc_atoms0 : LIST CalcRsv.ATOM_STRUCT :=
  { array := [⟨1, example_w0 1⟩, ⟨2, example_w0 2⟩, ⟨3, example_w0 3⟩, ⟨4, example_w0 4⟩]
    total := 11 }

/-- An unsatisfied preference of the query `-1`: the document `7` is ranked
above the relevant document `9`. -/
def example_minus : Pref := ⟨'-', -1, 7, 9⟩

/-- The weights `example_w0` of the columns `0` and `1` of the example. -/
def example_x0 : Nat → ℚ := fun k => example_w0 (column_atom example_globals.atom_list k)

/-- The builder matrix of the example with the one RSV row of the
preference `example_minus` and the cost row its negation. -/
def example_pref_matrix : Matrix :=
  builder_matrix (1 / 2) 2 2 example_x0 [pref_row example_globals example_minus]
    ((pref_row example_globals example_minus).map (fun c => - c))

/-! # Theorems -/

theorem loop_zero {σ : Type} (lo : Nat) (body : Nat → σ → σ) (s : σ) :
    loop lo 0 body s = s := by
  simp [loop]

theorem loop_succ {σ : Type} (lo cnt : Nat) (body : Nat → σ → σ) (s : σ) :
    loop lo (cnt + 1) body s = body (lo + cnt) (loop lo cnt body s) := by
  simp [loop, List.range'_concat, List.foldl_append]

/-- Invariant rule for counted loops. -/
theorem loop_inv {σ : Type} (Inv : Nat → σ → Prop) (lo cnt : Nat)
    (body : Nat → σ → σ) (s : σ) (h0 : Inv lo s)
    (hstep : ∀ i s, lo ≤ i → i < lo + cnt → Inv i s → Inv (i + 1) (body i s)) :
    Inv (lo + cnt) (loop lo cnt body s) := by
  induction cnt with
  | zero => simpa [loop_zero] using h0
  | succ c ih =>
    rw [loop_succ]
    have h1 := ih (fun i s hi hlt hI => hstep i s hi (by omega) hI)
    exact hstep (lo + c) _ (by omega) (by omega) h1

/-- Invariant rule for `for (i = lo; i <= hi; i++)`. -/
theorem forLoop_inv {σ : Type} (Inv : Nat → σ → Prop) (lo hi : Nat)
    (body : Nat → σ → σ) (s : σ) (hle : lo ≤ hi + 1) (h0 : Inv lo s)
    (hstep : ∀ i s, lo ≤ i → i ≤ hi → Inv i s → Inv (i + 1) (body i s)) :
    Inv (hi + 1) (forLoop lo hi body s) := by
  have h := loop_inv Inv lo (hi + 1 - lo) body s h0
    (fun i s hi1 hlt hI => hstep i s hi1 (by omega) hI)
  have e : lo + (hi + 1 - lo) = hi + 1 := by omega
  rw [e] at h
  exact h

theorem forLoopM_succ {σ : Type} (lo cnt : Nat) (body : Nat → σ → Option σ) (s : σ) :
    (List.range' lo (cnt + 1)).foldlM (fun s i => body i s) s
      = ((List.range' lo cnt).foldlM (fun s i => body i s) s).bind (body (lo + cnt)) := by
  simp [List.range'_concat, List.foldlM_append]

/-- Invariant rule for loops whose body may abort. -/
theorem forLoopM_inv {σ : Type} (Inv : Nat → σ → Prop) (lo hi : Nat)
    (body : Nat → σ → Option σ) (s s1 : σ) (hle : lo ≤ hi + 1) (h0 : Inv lo s)
    (hstep : ∀ i s s1, lo ≤ i → i ≤ hi → Inv i s → body i s = some s1 → Inv (i + 1) s1)
    (hr : forLoopM lo hi body s = some s1) : Inv (hi + 1) s1 := by
  unfold forLoopM at hr
  have key : ∀ cnt, lo + cnt ≤ hi + 1 → ∀ s1,
      (List.range' lo cnt).foldlM (fun s i => body i s) s = some s1 → Inv (lo + cnt) s1 := by
    intro cnt
    induction cnt with
    | zero =>
      intro _ s1 h
      simp at h
      subst h
      simpa using h0
    | succ c ih =>
      intro hc s1 h
      rw [forLoopM_succ] at h
      cases hm : (List.range' lo c).foldlM (fun s i => body i s) s with
      | none => simp [hm] at h
      | some s2 =>
        rw [hm] at h
        simp only [Option.some_bind] at h
        have := ih (by omega) s2 hm
        exact hstep (lo + c) s2 s1 (by omega) (by omega) this h
  have e : lo + (hi + 1 - lo) = hi + 1 := by omega
  have := key (hi + 1 - lo) (by omega) s1 hr
  rw [e] at this
  exact this

theorem rowget_rowset (rows : List (List ℚ)) (len n r c r1 c1 : Nat) (v : ℚ)
    (h : rows_ok rows len n) (hr : r < len) (hc : c < n + 1) :
    rowget (rowset rows r c v) r1 c1
      = if r1 = r ∧ c1 = c then v else rowget rows r1 c1 := by
  obtain ⟨hl, hrow⟩ := h
  have hrl : r < rows.length := by omega
  have hlen : (rows[r]).length = n + 1 := hrow _ (List.getElem_mem _)
  unfold rowget rowset
  by_cases e1 : r1 = r
  · subst e1
    by_cases e2 : c1 = c
    · subst e2
      simp [List.getD_eq_getElem?_getD, List.getElem?_set, hrl, hlen, hc]
    · have e2' : ¬ c = c1 := fun h => e2 h.symm
      simp [List.getD_eq_getElem?_getD, List.getElem?_set, hrl, e2, e2']
  · have e1' : ¬ r = r1 := fun h => e1 h.symm
    simp [List.getD_eq_getElem?_getD, List.getElem?_set, e1, e1']

theorem rows_ok_rowset (rows : List (List ℚ)) (len n r c : Nat) (v : ℚ)
    (h : rows_ok rows len n) : rows_ok (rowset rows r c v) len n := by
  obtain ⟨hl, hrow⟩ := h
  refine ⟨by simp [rowset, hl], ?_⟩
  intro x hx
  unfold rowset at hx
  by_cases hr : r < rows.length
  · rcases List.mem_or_eq_of_mem_set hx with h1 | h1
    · exact hrow x h1
    · subst h1
      rw [List.getD_eq_getElem _ _ hr, List.length_set]
      exact hrow _ (List.getElem_mem _)
  · rw [List.set_eq_of_length_le (by omega)] at hx
    exact hrow x hx

theorem rowset_rowget_self (rows : List (List ℚ)) (len n r c : Nat)
    (h : rows_ok rows len n) (hr : r < len) (hc : c < n + 1) :
    rowset rows r c (rowget rows r c) = rows := by
  obtain ⟨hl, hrow⟩ := h
  have hrl : r < rows.length := by omega
  have hlen : (rows[r]).length = n + 1 := hrow _ (List.getElem_mem _)
  have hcl : c < (rows[r]).length := by omega
  unfold rowget rowset
  apply List.ext_getElem
  · simp
  · intro i h1 h2
    by_cases e : r = i
    · subst e
      simp only [List.getElem_set_self]
      rw [List.getD_eq_getElem _ _ hrl, List.getD_eq_getElem _ _ hcl]
      apply List.ext_getElem
      · simp
      · intro j h3 h4
        by_cases e2 : c = j
        · subst e2; simp
        · simp [List.getElem_set_ne e2]
    · simp [List.getElem_set_ne e]

theorem set_num_weights (g : Matrix) (i k : Nat) (v : ℚ) :
    (set g i k v).num_weights = g.num_weights := by
  unfold set
  cases h : matrix_ptr g i k with
  | none => rfl
  | some c =>
    simp only [Matrix.write]
    cases c.block <;> rfl

theorem set_num_prefs (g : Matrix) (i k : Nat) (v : ℚ) :
    (set g i k v).num_prefs = g.num_prefs := by
  unfold set
  cases h : matrix_ptr g i k with
  | none => rfl
  | some c =>
    simp only [Matrix.write]
    cases c.block <;> rfl

theorem matrix_ptr_set (g : Matrix) (i k : Nat) (v : ℚ) (i1 k1 : Nat) :
    matrix_ptr (set g i k v) i1 k1 = matrix_ptr g i1 k1 := by
  unfold matrix_ptr
  simp only [set_num_weights, set_num_prefs]

theorem Dim.set {g : Matrix} {n m : Nat} (h : Dim g n m) (i k : Nat) (v : ℚ) :
    Dim (set g i k v) n m := by
  unfold Thesis.set
  cases hc : matrix_ptr g i k with
  | none => exact h
  | some c =>
    obtain ⟨b, r, cc⟩ := c
    cases b
    · exact ⟨h.hn, h.hm, rows_ok_rowset _ _ _ _ _ _ h.translation, h.rsv_eq,
        h.min_weights, h.max_weights, h.cost⟩
    · exact ⟨h.hn, h.hm, h.translation, rows_ok_rowset _ _ _ _ _ _ h.rsv_eq,
        h.min_weights, h.max_weights, h.cost⟩
    · exact ⟨h.hn, h.hm, h.translation, h.rsv_eq,
        rows_ok_rowset _ _ _ _ _ _ h.min_weights, h.max_weights, h.cost⟩
    · exact ⟨h.hn, h.hm, h.translation, h.rsv_eq,
        h.min_weights, rows_ok_rowset _ _ _ _ _ _ h.max_weights, h.cost⟩
    · refine ⟨h.hn, h.hm, h.translation, h.rsv_eq, h.min_weights, h.max_weights, ?_⟩
      simp [Matrix.write, h.cost]

/-- What `matrix_ptr` returns inside the matrix. -/
theorem matrix_ptr_valid {g : Matrix} {n m : Nat} (h : Dim g n m) (i k : Nat)
    (hi : 1 ≤ i) (hi2 : i ≤ m + 1) (hk : 1 ≤ k) (hk2 : k ≤ n + 1) :
    matrix_ptr g i k =
      if i ≤ n then some ⟨Block.translation, i - 1, k - 1⟩
      else if i ≤ n + g.num_prefs then some ⟨Block.rsv_eq, i - 1 - n, k - 1⟩
      else if i ≤ 2 * n + g.num_prefs then
        some ⟨Block.min_weights, i - 1 - n - g.num_prefs, k - 1⟩
      else if i ≤ 3 * n + g.num_prefs then
        some ⟨Block.max_weights, i - 1 - n - g.num_prefs - n, k - 1⟩
      else some ⟨Block.cost, 0, k - 1⟩ := by
  have hn := h.hn
  have hm := h.hm
  unfold matrix_ptr
  rw [hn]
  have e1 : ¬ i = 0 := by omega
  have e2 : ¬ (k = 0 ∨ n < k - 1) := by omega
  simp only [e1, e2, if_false]
  split_ifs <;> first | rfl | omega

theorem elt_set_valid {g : Matrix} {n m : Nat} (h : Dim g n m) (i k i1 k1 : Nat) (v : ℚ)
    (hi : 1 ≤ i) (hi2 : i ≤ m + 1) (hk : 1 ≤ k) (hk2 : k ≤ n + 1)
    (hj : 1 ≤ i1) (hj2 : i1 ≤ m + 1) (hl : 1 ≤ k1) (hl2 : k1 ≤ n + 1) :
    elt (set g i k v) i1 k1 = if i1 = i ∧ k1 = k then v else elt g i1 k1 := by
  have hm := h.hm
  have hP : (set g i k v).num_prefs = g.num_prefs := set_num_prefs g i k v
  unfold elt
  rw [matrix_ptr_set, matrix_ptr_valid h i1 k1 hj hj2 hl hl2]
  unfold set
  rw [matrix_ptr_valid h i k hi hi2 hk hk2]
  have ht := h.translation
  have hr := h.rsv_eq
  have hmin := h.min_weights
  have hmax := h.max_weights
  have hc := h.cost
  by_cases c1 : i ≤ n
  · simp only [c1, if_true, Matrix.write]
    split_ifs <;> simp only [Matrix.read] <;>
      first
      | (rw [rowget_rowset _ _ _ _ _ _ _ _ ht (by omega) (by omega)]
         split_ifs <;> first | rfl | omega)
      | omega
  · by_cases c2 : i ≤ n + g.num_prefs
    · simp only [c1, c2, if_true, if_false, Matrix.write]
      split_ifs <;> simp only [Matrix.read] <;>
        first
        | (rw [rowget_rowset _ _ _ _ _ _ _ _ hr (by omega) (by omega)]
           split_ifs <;> first | rfl | omega)
        | omega
    · by_cases c3 : i ≤ 2 * n + g.num_prefs
      · simp only [c1, c2, c3, if_true, if_false, Matrix.write]
        split_ifs <;> simp only [Matrix.read] <;>
          first
          | (rw [rowget_rowset _ _ _ _ _ _ _ _ hmin (by omega) (by omega)]
             split_ifs <;> first | rfl | omega)
          | omega
      · by_cases c4 : i ≤ 3 * n + g.num_prefs
        · simp only [c1, c2, c3, c4, if_true, if_false, Matrix.write]
          split_ifs <;> simp only [Matrix.read] <;>
            first
            | (rw [rowget_rowset _ _ _ _ _ _ _ _ hmax (by omega) (by omega)]
               split_ifs <;> first | rfl | omega)
            | omega
        · simp only [c1, c2, c3, c4, if_false, Matrix.write]
          have hkc : k - 1 < g.cost.length := by omega
          split_ifs <;> simp only [Matrix.read] <;>
            first
            | omega
            | rfl
            | (have e : k1 - 1 = k - 1 := by omega
               rw [e]; simp [List.getD_eq_getElem?_getD, List.getElem?_set, hkc])
            | (have e : ¬ k - 1 = k1 - 1 := by omega
               simp [List.getD_eq_getElem?_getD, List.getElem?_set, e])

theorem set_elt_self {g : Matrix} {n m : Nat} (h : Dim g n m) (i k : Nat)
    (hi : 1 ≤ i) (hi2 : i ≤ m + 1) (hk : 1 ≤ k) (hk2 : k ≤ n + 1) :
    set g i k (elt g i k) = g := by
  have hm := h.hm
  unfold set elt
  rw [matrix_ptr_valid h i k hi hi2 hk hk2]
  have ht := h.translation
  have hr := h.rsv_eq
  have hmin := h.min_weights
  have hmax := h.max_weights
  have hc := h.cost
  split_ifs
  · simp only [Matrix.write, Matrix.read]
    rw [rowset_rowget_self _ _ _ _ _ ht (by omega) (by omega)]
  · simp only [Matrix.write, Matrix.read]
    rw [rowset_rowget_self _ _ _ _ _ hr (by omega) (by omega)]
  · simp only [Matrix.write, Matrix.read]
    rw [rowset_rowget_self _ _ _ _ _ hmin (by omega) (by omega)]
  · simp only [Matrix.write, Matrix.read]
    rw [rowset_rowget_self _ _ _ _ _ hmax (by omega) (by omega)]
  · simp only [Matrix.write, Matrix.read]
    have hkc : k - 1 < g.cost.length := by omega
    have : g.cost.set (k - 1) (g.cost.getD (k - 1) 0) = g.cost := by
      apply List.ext_getElem
      · simp
      · intro j h1 h2
        by_cases e : k - 1 = j
        · subst e; simp [List.getD_eq_getElem?_getD, List.getElem?_eq_getElem hkc]
        · simp [List.getElem_set_ne e]
    rw [this]

theorem pivot_inner {g : Matrix} {n m : Nat} (h : Dim g n m) (p q k : Nat)
    (hk : 1 ≤ k) (hk2 : k ≤ n + 1) (hkq : k ≠ q) (hq : 1 ≤ q) (hq2 : q ≤ n + 1)
    (hp : 1 ≤ p) (hp2 : p ≤ m + 1) :
    Dim (forLoop 1 (m + 1) (fun i g =>
        if i ≠ p then set g i k (elt g i k + elt g i q * elt g p k) else g) g) n m ∧
    ∀ i1 k1, 1 ≤ i1 → i1 ≤ m + 1 → 1 ≤ k1 → k1 ≤ n + 1 →
      elt (forLoop 1 (m + 1) (fun i g =>
        if i ≠ p then set g i k (elt g i k + elt g i q * elt g p k) else g) g) i1 k1
      = if k1 = k ∧ i1 ≠ p then elt g i1 k + elt g i1 q * elt g p k else elt g i1 k1 := by
  have key := forLoop_inv
    (fun i g1 => Dim g1 n m ∧ ∀ i1 k1, 1 ≤ i1 → i1 ≤ m + 1 → 1 ≤ k1 → k1 ≤ n + 1 →
      elt g1 i1 k1 = if k1 = k ∧ i1 ≠ p ∧ i1 < i then elt g i1 k + elt g i1 q * elt g p k
        else elt g i1 k1)
    1 (m + 1) (fun i g =>
        if i ≠ p then set g i k (elt g i k + elt g i q * elt g p k) else g) g (by omega)
    ⟨h, fun i1 k1 h1 _ _ _ => by
      have : ¬ (k1 = k ∧ i1 ≠ p ∧ i1 < 1) := by omega
      rw [if_neg this]⟩
    (by
      intro i g1 hi hi2 ⟨hd, hI⟩
      by_cases hip : i = p
      · subst hip
        simp only [ne_eq, not_true_eq_false, if_false]
        refine ⟨hd, fun i1 k1 a b c d => ?_⟩
        rw [hI i1 k1 a b c d]
        by_cases e : k1 = k ∧ i1 ≠ i ∧ i1 < i
        · rw [if_pos e, if_pos (by omega)]
        · rw [if_neg e, if_neg (by omega)]
      · simp only [ne_eq, hip, not_false_eq_true, if_true]
        refine ⟨hd.set _ _ _, fun i1 k1 a b c d => ?_⟩
        rw [elt_set_valid hd i k i1 k1 _ hi hi2 hk hk2 a b c d]
        have n1 : ¬ (k = k ∧ i ≠ p ∧ i < i) := by omega
        have n2 : ¬ (q = k ∧ i ≠ p ∧ i < i) := by omega
        have n3 : ¬ (k = k ∧ p ≠ p ∧ p < i) := by omega
        rw [hI i k hi hi2 hk hk2, hI i q hi hi2 hq hq2, hI p k hp hp2 hk hk2,
          hI i1 k1 a b c d, if_neg n1, if_neg n2, if_neg n3]
        by_cases e : i1 = i ∧ k1 = k
        · obtain ⟨e1, e2⟩ := e
          subst e1 e2
          rw [if_pos ⟨rfl, rfl⟩, if_pos (by omega)]
        · rw [if_neg e]
          by_cases e2 : k1 = k ∧ i1 ≠ p ∧ i1 < i
          · rw [if_pos e2, if_pos (by omega)]
          · rw [if_neg e2, if_neg (by omega)])
  refine ⟨key.1, fun i1 k1 a b c d => ?_⟩
  rw [key.2 i1 k1 a b c d]
  by_cases e : k1 = k ∧ i1 ≠ p
  · rw [if_pos e, if_pos (by omega)]
  · rw [if_neg e, if_neg (by omega)]

theorem pivot_outer {g : Matrix} {n m : Nat} (h : Dim g n m) (p q : Nat) (pivot : ℚ)
    (hq : 1 ≤ q) (hq2 : q ≤ n + 1) (hp : 1 ≤ p) (hp2 : p ≤ m + 1) :
    Dim (forLoop 1 (n + 1) (fun k g =>
      if k ≠ q then
        forLoop 1 (m + 1) (fun i g =>
          if i ≠ p then set g i k (elt g i k + elt g i q * elt g p k) else g)
          (set g p k (- elt g p k / pivot))
      else g) g) n m ∧
    ∀ i1 k1, 1 ≤ i1 → i1 ≤ m + 1 → 1 ≤ k1 → k1 ≤ n + 1 →
      elt (forLoop 1 (n + 1) (fun k g =>
      if k ≠ q then
        forLoop 1 (m + 1) (fun i g =>
          if i ≠ p then set g i k (elt g i k + elt g i q * elt g p k) else g)
          (set g p k (- elt g p k / pivot))
      else g) g) i1 k1
      = if k1 ≠ q then
          (if i1 = p then - elt g p k1 / pivot
           else elt g i1 k1 + elt g i1 q * (- elt g p k1 / pivot))
        else elt g i1 k1 := by
  have key := forLoop_inv
    (fun k g1 => Dim g1 n m ∧ ∀ i1 k1, 1 ≤ i1 → i1 ≤ m + 1 → 1 ≤ k1 → k1 ≤ n + 1 →
      elt g1 i1 k1 = if k1 ≠ q ∧ k1 < k then
          (if i1 = p then - elt g p k1 / pivot
           else elt g i1 k1 + elt g i1 q * (- elt g p k1 / pivot))
        else elt g i1 k1)
    1 (n + 1) (fun k g =>
      if k ≠ q then
        forLoop 1 (m + 1) (fun i g =>
          if i ≠ p then set g i k (elt g i k + elt g i q * elt g p k) else g)
          (set g p k (- elt g p k / pivot))
      else g) g (by omega)
    ⟨h, fun i1 k1 h1 _ _ _ => by
      have : ¬ (k1 ≠ q ∧ k1 < 1) := by omega
      rw [if_neg this]⟩
    (by
      intro k g1 hk hk2 ⟨hd, hI⟩
      by_cases hkq : k = q
      · subst hkq
        simp only [ne_eq, not_true_eq_false, if_false]
        refine ⟨hd, fun i1 k1 a b c d => ?_⟩
        rw [hI i1 k1 a b c d]
        split_ifs <;> first | rfl | omega
      · simp only [ne_eq, hkq, not_false_eq_true, if_true]
        have hd1 : Dim (set g1 p k (- elt g1 p k / pivot)) n m := hd.set _ _ _
        obtain ⟨hd2, hE⟩ := pivot_inner hd1 p q k hk hk2 hkq hq hq2 hp hp2
        refine ⟨hd2, fun i1 k1 a b c d => ?_⟩
        rw [hE i1 k1 a b c d]
        have n1 : ¬ (k ≠ q ∧ k < k) := by omega
        have n2 : ¬ (q ≠ q ∧ q < k) := by omega
        have hpk : elt g1 p k = elt g p k := by
          rw [hI p k hp hp2 hk hk2, if_neg n1]
        by_cases e : k1 = k ∧ i1 ≠ p
        · obtain ⟨e1, e2⟩ := e
          subst e1
          rw [if_pos ⟨rfl, e2⟩]
          rw [elt_set_valid hd p k1 i1 k1 _ hp hp2 hk hk2 a b c d,
            elt_set_valid hd p k1 i1 q _ hp hp2 hk hk2 a b hq hq2,
            elt_set_valid hd p k1 p k1 _ hp hp2 hk hk2 hp hp2 c d]
          have m1 : ¬ (i1 = p ∧ k1 = k1) := by omega
          have m2 : ¬ (i1 = p ∧ q = k1) := by omega
          rw [if_neg m1, if_neg m2, if_pos ⟨rfl, rfl⟩, hpk]
          rw [hI i1 k1 a b c d, hI i1 q a b hq hq2, if_neg n1, if_neg n2]
          split_ifs <;> first | rfl | omega
        · rw [if_neg e]
          rw [elt_set_valid hd p k i1 k1 _ hp hp2 hk hk2 a b c d]
          by_cases e2 : i1 = p ∧ k1 = k
          · obtain ⟨e3, e4⟩ := e2
            subst e3 e4
            rw [if_pos ⟨rfl, rfl⟩, hpk]
            split_ifs <;> first | rfl | omega
          · rw [if_neg e2, hI i1 k1 a b c d]
            split_ifs <;> first | rfl | omega)
  refine ⟨key.1, fun i1 k1 a b c d => ?_⟩
  rw [key.2 i1 k1 a b c d]
  split_ifs <;> first | rfl | omega

theorem pivot_col {g : Matrix} {n m : Nat} (h : Dim g n m) (q : Nat) (pivot : ℚ)
    (hq : 1 ≤ q) (hq2 : q ≤ n + 1) :
    Dim (forLoop 1 (m + 1) (fun i g => set g i q (elt g i q / pivot)) g) n m ∧
    ∀ i1 k1, 1 ≤ i1 → i1 ≤ m + 1 → 1 ≤ k1 → k1 ≤ n + 1 →
      elt (forLoop 1 (m + 1) (fun i g => set g i q (elt g i q / pivot)) g) i1 k1
      = if k1 = q then elt g i1 q / pivot else elt g i1 k1 := by
  have key := forLoop_inv
    (fun i g1 => Dim g1 n m ∧ ∀ i1 k1, 1 ≤ i1 → i1 ≤ m + 1 → 1 ≤ k1 → k1 ≤ n + 1 →
      elt g1 i1 k1 = if k1 = q ∧ i1 < i then elt g i1 q / pivot else elt g i1 k1)
    1 (m + 1) (fun i g => set g i q (elt g i q / pivot)) g (by omega)
    ⟨h, fun i1 k1 h1 _ _ _ => by
      have : ¬ (k1 = q ∧ i1 < 1) := by omega
      rw [if_neg this]⟩
    (by
      intro i g1 hi hi2 ⟨hd, hI⟩
      refine ⟨hd.set _ _ _, fun i1 k1 a b c d => ?_⟩
      have n1 : ¬ (q = q ∧ i < i) := by omega
      rw [elt_set_valid hd i q i1 k1 _ hi hi2 hq hq2 a b c d, hI i q hi hi2 hq hq2,
        if_neg n1, hI i1 k1 a b c d]
      by_cases e : i1 = i ∧ k1 = q
      · obtain ⟨e1, e2⟩ := e
        subst e1 e2
        rw [if_pos ⟨rfl, rfl⟩]
        split_ifs <;> first | rfl | omega
      · rw [if_neg e]
        split_ifs <;> first | rfl | omega)
  refine ⟨key.1, fun i1 k1 a b c d => ?_⟩
  rw [key.2 i1 k1 a b c d]
  split_ifs <;> first | rfl | omega

/-- The loops of the pivot update compute the exchange step. -/
theorem pivot_update_elt {g : Matrix} {n m : Nat} (h : Dim g n m) (p q : Nat)
    (hp : 1 ≤ p) (hp2 : p ≤ m + 1) (hq : 1 ≤ q) (hq2 : q ≤ n + 1) :
    Dim (pivot_update n m p q g) n m ∧
    ∀ i k, 1 ≤ i → i ≤ m + 1 → 1 ≤ k → k ≤ n + 1 →
      elt (pivot_update n m p q g) i k = exchange g p q i k := by
  unfold pivot_update
  obtain ⟨hd1, h1⟩ := pivot_outer h p q (elt g p q) hq hq2 hp hp2
  obtain ⟨hd2, h2⟩ := pivot_col hd1 q (elt g p q) hq hq2
  refine ⟨hd2.set _ _ _, fun i k a b c d => ?_⟩
  simp only []
  rw [elt_set_valid hd2 p q i k _ hp hp2 hq hq2 a b c d]
  unfold exchange
  by_cases e : i = p ∧ k = q
  · obtain ⟨e1, e2⟩ := e
    subst e1 e2
    simp
  · rw [if_neg e, h2 i k a b c d]
    by_cases e2 : k = q
    · subst e2
      have e3 : ¬ i = p := fun h => e ⟨h, rfl⟩
      rw [if_pos rfl, if_neg e3, if_pos rfl, h1 i k a b c d]
      simp
    · rw [if_neg e2, h1 i k a b c d]
      simp only [ne_eq, e2, not_false_eq_true, if_true, if_false]

theorem sum_split (n q : Nat) (f : Nat → ℚ) (hq : 1 ≤ q) (hq2 : q ≤ n) :
    (∑ k in Finset.range n, f (k + 1))
      = f q + ∑ k in Finset.range n, (if k + 1 = q then 0 else f (k + 1)) := by
  have h1 : ∀ k ∈ Finset.range n, f (k + 1)
      = (if k = q - 1 then f (k + 1) else 0) + (if k + 1 = q then 0 else f (k + 1)) := by
    intro k _
    by_cases e : k + 1 = q
    · have e2 : k = q - 1 := by omega
      rw [if_pos e2, if_pos e, add_zero]
    · have e2 : ¬ k = q - 1 := by omega
      rw [if_neg e2, if_neg e, zero_add]
  rw [Finset.sum_congr rfl h1, Finset.sum_add_distrib, Finset.sum_ite_eq']
  have hm : q - 1 ∈ Finset.range n := by simp; omega
  have e : q - 1 + 1 = q := by omega
  rw [if_pos hm, e]

/-- Row values are kept by the exchange step: the new tableau at `v1` and
the old one at `upd v1 q (new value of row p)` name the same point. -/
theorem rowval_exchange {g g1 : Matrix} {n m : Nat} (p q : Nat) (v1 : Nat → ℚ)
    (hp : 1 ≤ p) (hp2 : p ≤ m + 1) (hq : 1 ≤ q) (hq2 : q ≤ n)
    (hpiv : elt g p q ≠ 0)
    (hE : ∀ i k, 1 ≤ i → i ≤ m + 1 → 1 ≤ k → k ≤ n + 1 →
      elt g1 i k = exchange g p q i k) :
    rowval n g (upd v1 q (rowval n g1 v1 p)) p = v1 q ∧
    ∀ i, 1 ≤ i → i ≤ m + 1 → i ≠ p →
      rowval n g (upd v1 q (rowval n g1 v1 p)) i = rowval n g1 v1 i := by
  -- the new row p
  have hR : rowval n g1 v1 p = (1 / elt g p q) * v1 q
      + (∑ k in Finset.range n, (if k + 1 = q then 0 else (- elt g p (k + 1) / elt g p q) * v1 (k + 1)))
      + (- elt g p (n + 1) / elt g p q) := by
    unfold rowval
    rw [sum_split n q (fun k => elt g1 p k * v1 k) hq hq2,
      hE p q hp hp2 hq (by omega), hE p (n + 1) hp hp2 (by omega) (by omega)]
    have e1 : ¬ n + 1 = q := by omega
    simp only [exchange, if_true, e1, if_false]
    congr 2
    apply Finset.sum_congr rfl
    intro k hk
    rw [Finset.mem_range] at hk
    by_cases e : k + 1 = q
    · simp [e]
    · rw [hE p (k + 1) hp hp2 (by omega) (by omega)]
      simp [exchange, e]
  -- an old row at the translated point
  have hL : ∀ i, rowval n g (upd v1 q (rowval n g1 v1 p)) i
      = elt g i q * rowval n g1 v1 p
        + (∑ k in Finset.range n, (if k + 1 = q then 0 else elt g i (k + 1) * v1 (k + 1)))
        + elt g i (n + 1) := by
    intro i
    unfold rowval
    rw [sum_split n q (fun k => elt g i k * upd v1 q _ k) hq hq2]
    simp only [upd, if_true]
    congr 2
    apply Finset.sum_congr rfl
    intro k _
    by_cases e : k + 1 = q
    · simp [e]
    · simp [e]
  have hT : ∀ i, (∑ k in Finset.range n,
        (if k + 1 = q then 0 else (elt g i (k + 1) +
          elt g i q * (- elt g p (k + 1) / elt g p q)) * v1 (k + 1)))
      = (∑ k in Finset.range n, (if k + 1 = q then 0 else elt g i (k + 1) * v1 (k + 1)))
        + elt g i q * (∑ k in Finset.range n,
          (if k + 1 = q then 0 else (- elt g p (k + 1) / elt g p q) * v1 (k + 1))) := by
    intro i
    rw [Finset.mul_sum, ← Finset.sum_add_distrib]
    apply Finset.sum_congr rfl
    intro k _
    by_cases e : k + 1 = q
    · simp [e]
    · simp only [e, if_false]; ring
  constructor
  · rw [hL p, hR]
    have hS : (∑ k in Finset.range n, (if k + 1 = q then 0 else elt g p (k + 1) * v1 (k + 1)))
        = - (elt g p q * ∑ k in Finset.range n,
          (if k + 1 = q then 0 else (- elt g p (k + 1) / elt g p q) * v1 (k + 1))) := by
      rw [Finset.mul_sum, ← Finset.sum_neg_distrib]
      apply Finset.sum_congr rfl
      intro k _
      by_cases e : k + 1 = q
      · simp [e]
      · simp only [e, if_false]; field_simp
    rw [hS]
    field_simp
    ring
  · intro i hi hi2 hip
    rw [hL i, hR]
    unfold rowval
    rw [sum_split n q (fun k => elt g1 i k * v1 k) hq hq2,
      hE i q hi hi2 hq (by omega), hE i (n + 1) hi hi2 (by omega) (by omega)]
    have e1 : ¬ n + 1 = q := by omega
    simp only [exchange, hip, if_true, e1, if_false]
    have hC : (∑ k in Finset.range n, (if k + 1 = q then 0 else elt g1 i (k + 1) * v1 (k + 1)))
        = ∑ k in Finset.range n, (if k + 1 = q then 0 else (elt g i (k + 1) +
          elt g i q * (- elt g p (k + 1) / elt g p q)) * v1 (k + 1)) := by
      apply Finset.sum_congr rfl
      intro k hk
      rw [Finset.mem_range] at hk
      by_cases e : k + 1 = q
      · simp [e]
      · rw [hE i (k + 1) hi hi2 (by omega) (by omega)]
        simp [exchange, e, hip]
    rw [hC, hT i]
    ring

theorem elim_search_neg_spec {g : Matrix} {n m : Nat} (h : Dim g n m) (q : Nat)
    (trans : Nat → Bool) (hF : Feasible n m trans g) :
    (elim_search_neg n m q trans g).g = g ∧
    ((elim_search_neg n m q trans g).p ≠ 0 →
      1 ≤ (elim_search_neg n m q trans g).p ∧ (elim_search_neg n m q trans g).p ≤ m ∧
      trans (elim_search_neg n m q trans g).p = false ∧
      elt g (elim_search_neg n m q trans g).p q < 0 ∧
      ∀ i, 1 ≤ i → i ≤ m → trans i = false → elt g i q < 0 →
        elt g i (n + 1) / elt g i q
          ≤ elt g (elim_search_neg n m q trans g).p (n + 1)
            / elt g (elim_search_neg n m q trans g).p q) := by
  unfold elim_search_neg
  have key := forLoop_inv
    (fun i (r : Search) => r.g = g ∧
      (r.p = 0 ∨ (1 ≤ r.p ∧ r.p < i ∧ trans r.p = false ∧ elt g r.p q < 0 ∧
        r.max = elt g r.p (n + 1) / elt g r.p q)) ∧
      ∀ i1, 1 ≤ i1 → i1 < i → trans i1 = false → elt g i1 q < 0 →
        elt g i1 (n + 1) / elt g i1 q ≤ r.max)
    1 m (fun i s =>
    if ! trans i then
      let temp := elt s.g i q
      if temp < 0 then
        let quot := elt s.g i (n + 1) / temp
        let s1 : Search :=
          if quot ≥ 0 then { s with g := set s.g i (n + 1) 0 } else s
        let quot := if quot ≥ 0 then 0 else quot
        if quot > s1.max then { s1 with p := i, max := quot } else s1
      else s
    else s) ⟨g, 0, - INFINITY⟩ (by omega)
    ⟨rfl, Or.inl rfl, fun i1 a b => by omega⟩
    (by
      intro i r hi hi2 ⟨hg, hp, hall⟩
      have hm := h.hm
      obtain ⟨rg, rp, rmax⟩ := r
      simp only at hg hp hall
      subst hg
      have hkeep : (rp = 0 ∨ (1 ≤ rp ∧ rp < i + 1 ∧ trans rp = false ∧ elt rg rp q < 0 ∧
          rmax = elt rg rp (n + 1) / elt rg rp q)) := by
        rcases hp with hp | ⟨p1, p2, p3, p4, p5⟩
        · exact Or.inl hp
        · exact Or.inr ⟨p1, by omega, p3, p4, p5⟩
      by_cases ht : trans i = false
      · by_cases hneg : elt rg i q < 0
        · have hc : 0 ≤ elt rg i (n + 1) := hF i hi hi2 ht
          have hquot : elt rg i (n + 1) / elt rg i q ≤ 0 :=
            div_nonpos_of_nonneg_of_nonpos hc (le_of_lt hneg)
          have hs1 : (if elt rg i (n + 1) / elt rg i q ≥ 0
              then ({ g := set rg i (n + 1) 0, p := rp, max := rmax } : Search)
              else ⟨rg, rp, rmax⟩) = ⟨rg, rp, rmax⟩ := by
            split_ifs with h0
            · have hz : elt rg i (n + 1) / elt rg i q = 0 := le_antisymm hquot h0
              have hz2 : elt rg i (n + 1) = 0 := by
                rcases div_eq_zero_iff.mp hz with h1 | h1
                · exact h1
                · exact absurd h1 (ne_of_lt hneg)
              have : set rg i (n + 1) 0 = rg := by
                have := set_elt_self h i (n + 1) hi (by omega) (by omega) (by omega)
                rw [hz2] at this
                exact this
              rw [this]
            · rfl
          have hq2' : (if elt rg i (n + 1) / elt rg i q ≥ 0 then (0 : ℚ)
              else elt rg i (n + 1) / elt rg i q) = elt rg i (n + 1) / elt rg i q := by
            split_ifs with h0
            · exact (le_antisymm hquot h0).symm
            · rfl
          simp only [ht, Bool.not_false, if_true, hneg, hs1, hq2']
          by_cases hgt : elt rg i (n + 1) / elt rg i q > rmax
          · simp only [hgt, if_true]
            refine ⟨trivial, Or.inr ⟨hi, by omega, ht, hneg, trivial⟩, ?_⟩
            intro i1 a b c d
            by_cases e : i1 = i
            · subst e; exact le_refl _
            · exact le_trans (hall i1 a (by omega) c d) (le_of_lt hgt)
          · simp only [hgt, if_false]
            refine ⟨trivial, hkeep, ?_⟩
            intro i1 a b c d
            by_cases e : i1 = i
            · subst e; exact not_lt.mp hgt
            · exact hall i1 a (by omega) c d
        · simp only [ht, Bool.not_false, if_true, hneg, if_false]
          refine ⟨trivial, hkeep, ?_⟩
          intro i1 a b c d
          by_cases e : i1 = i
          · subst e; exact absurd d hneg
          · exact hall i1 a (by omega) c d
      · have ht' : trans i = true := by simpa using ht
        simp only [ht', Bool.not_true, Bool.false_eq_true, if_false]
        refine ⟨trivial, hkeep, ?_⟩
        intro i1 a b c d
        by_cases e : i1 = i
        · subst e; rw [ht'] at c; exact absurd c (by simp)
        · exact hall i1 a (by omega) c d)
  obtain ⟨k1, k2, k3⟩ := key
  refine ⟨k1, fun hne => ?_⟩
  rcases k2 with k2 | ⟨p1, p2, p3, p4, p5⟩
  · exact absurd k2 hne
  · refine ⟨p1, by omega, p3, p4, fun i a b c d => ?_⟩
    have := k3 i a (by omega) c d
    rw [p5] at this
    exact this

theorem elim_search_pos_spec {g : Matrix} {n m : Nat} (h : Dim g n m) (q : Nat)
    (trans : Nat → Bool) (hF : Feasible n m trans g) :
    (elim_search_pos n m q trans g).g = g ∧
    ((elim_search_pos n m q trans g).p ≠ 0 →
      1 ≤ (elim_search_pos n m q trans g).p ∧ (elim_search_pos n m q trans g).p ≤ m ∧
      trans (elim_search_pos n m q trans g).p = false ∧
      0 < elt g (elim_search_pos n m q trans g).p q ∧
      ∀ i, 1 ≤ i → i ≤ m → trans i = false → 0 < elt g i q →
        elt g (elim_search_pos n m q trans g).p (n + 1)
            / elt g (elim_search_pos n m q trans g).p q
          ≤ elt g i (n + 1) / elt g i q) := by
  unfold elim_search_pos
  have key := forLoop_inv
    (fun i (r : Search) => r.g = g ∧
      (r.p = 0 ∨ (1 ≤ r.p ∧ r.p < i ∧ trans r.p = false ∧ 0 < elt g r.p q ∧
        r.max = elt g r.p (n + 1) / elt g r.p q)) ∧
      ∀ i1, 1 ≤ i1 → i1 < i → trans i1 = false → 0 < elt g i1 q →
        r.max ≤ elt g i1 (n + 1) / elt g i1 q)
    1 m (fun i s =>
    if ! trans i then
      let temp := elt s.g i q
      if temp > 0 then
        let quot := elt s.g i (n + 1) / temp
        let s1 : Search :=
          if quot < 0 then { s with g := set s.g i (n + 1) 0 } else s
        let quot := if quot < 0 then 0 else quot
        if quot < s1.max then { s1 with p := i, max := quot } else s1
      else s
    else s) ⟨g, 0, INFINITY⟩ (by omega)
    ⟨rfl, Or.inl rfl, fun i1 a b => by omega⟩
    (by
      intro i r hi hi2 ⟨hg, hp, hall⟩
      obtain ⟨rg, rp, rmax⟩ := r
      simp only at hg hp hall
      subst hg
      have hkeep : (rp = 0 ∨ (1 ≤ rp ∧ rp < i + 1 ∧ trans rp = false ∧ 0 < elt rg rp q ∧
          rmax = elt rg rp (n + 1) / elt rg rp q)) := by
        rcases hp with hp | ⟨p1, p2, p3, p4, p5⟩
        · exact Or.inl hp
        · exact Or.inr ⟨p1, by omega, p3, p4, p5⟩
      by_cases ht : trans i = false
      · by_cases hpos : elt rg i q > 0
        · have hc : 0 ≤ elt rg i (n + 1) := hF i hi hi2 ht
          have hquot : ¬ elt rg i (n + 1) / elt rg i q < 0 :=
            not_lt.mpr (div_nonneg hc (le_of_lt hpos))
          simp only [ht, Bool.not_false, if_true, hpos, hquot, if_false]
          by_cases hlt : elt rg i (n + 1) / elt rg i q < rmax
          · simp only [hlt, if_true]
            refine ⟨trivial, Or.inr ⟨hi, by omega, ht, hpos, trivial⟩, ?_⟩
            intro i1 a b c d
            by_cases e : i1 = i
            · subst e; exact le_refl _
            · exact le_trans (le_of_lt hlt) (hall i1 a (by omega) c d)
          · simp only [hlt, if_false]
            refine ⟨trivial, hkeep, ?_⟩
            intro i1 a b c d
            by_cases e : i1 = i
            · subst e; exact not_lt.mp hlt
            · exact hall i1 a (by omega) c d
        · simp only [ht, Bool.not_false, if_true, hpos, if_false]
          refine ⟨trivial, hkeep, ?_⟩
          intro i1 a b c d
          by_cases e : i1 = i
          · subst e; exact absurd d hpos
          · exact hall i1 a (by omega) c d
      · have ht' : trans i = true := by simpa using ht
        simp only [ht', Bool.not_true, Bool.false_eq_true, if_false]
        refine ⟨trivial, hkeep, ?_⟩
        intro i1 a b c d
        by_cases e : i1 = i
        · subst e; rw [ht'] at c; exact absurd c (by simp)
        · exact hall i1 a (by omega) c d)
  obtain ⟨k1, k2, k3⟩ := key
  refine ⟨k1, fun hne => ?_⟩
  rcases k2 with k2 | ⟨p1, p2, p3, p4, p5⟩
  · exact absurd k2 hne
  · refine ⟨p1, by omega, p3, p4, fun i a b c d => ?_⟩
    have := k3 i a (by omega) c d
    rw [p5] at this
    exact this

theorem row_search_spec (g : Matrix) (n m q : Nat) (trans : Nat → Bool) :
    (row_search n m q trans g).p ≠ 0 →
      1 ≤ (row_search n m q trans g).p ∧ (row_search n m q trans g).p ≤ m ∧
      trans (row_search n m q trans g).p = false ∧
      elt g (row_search n m q trans g).p q < 0 ∧
      ∀ i, 1 ≤ i → i ≤ m → trans i = false → elt g i q < 0 →
        elt g i (n + 1) / elt g i q
          ≤ elt g (row_search n m q trans g).p (n + 1)
            / elt g (row_search n m q trans g).p q := by
  unfold row_search
  have key := forLoop_inv
    (fun i (r : Search) =>
      (r.p = 0 ∨ (1 ≤ r.p ∧ r.p < i ∧ trans r.p = false ∧ elt g r.p q < 0 ∧
        r.max = elt g r.p (n + 1) / elt g r.p q)) ∧
      ∀ i1, 1 ≤ i1 → i1 < i → trans i1 = false → elt g i1 q < 0 →
        elt g i1 (n + 1) / elt g i1 q ≤ r.max)
    1 m (fun i s =>
    if ! trans i then
      let temp := elt g i q
      if temp < 0 then
        let quot := elt g i (n + 1) / temp
        if quot > s.max then { s with p := i, max := quot } else s
      else s
    else s) ⟨g, 0, - INFINITY⟩ (by omega)
    ⟨Or.inl rfl, fun i1 a b => by omega⟩
    (by
      intro i r hi hi2 ⟨hp, hall⟩
      obtain ⟨rg, rp, rmax⟩ := r
      simp only at hp hall
      have hkeep : (rp = 0 ∨ (1 ≤ rp ∧ rp < i + 1 ∧ trans rp = false ∧ elt g rp q < 0 ∧
          rmax = elt g rp (n + 1) / elt g rp q)) := by
        rcases hp with hp | ⟨p1, p2, p3, p4, p5⟩
        · exact Or.inl hp
        · exact Or.inr ⟨p1, by omega, p3, p4, p5⟩
      by_cases ht : trans i = false
      · by_cases hneg : elt g i q < 0
        · simp only [ht, Bool.not_false, if_true, hneg]
          by_cases hgt : elt g i (n + 1) / elt g i q > rmax
          · simp only [hgt, if_true]
            refine ⟨Or.inr ⟨hi, by omega, ht, hneg, trivial⟩, ?_⟩
            intro i1 a b c d
            by_cases e : i1 = i
            · subst e; exact le_refl _
            · exact le_trans (hall i1 a (by omega) c d) (le_of_lt hgt)
          · simp only [hgt, if_false]
            refine ⟨hkeep, ?_⟩
            intro i1 a b c d
            by_cases e : i1 = i
            · subst e; exact not_lt.mp hgt
            · exact hall i1 a (by omega) c d
        · simp only [ht, Bool.not_false, if_true, hneg, if_false]
          refine ⟨hkeep, ?_⟩
          intro i1 a b c d
          by_cases e : i1 = i
          · subst e; exact absurd d hneg
          · exact hall i1 a (by omega) c d
      · have ht' : trans i = true := by simpa using ht
        simp only [ht', Bool.not_true, Bool.false_eq_true, if_false]
        refine ⟨hkeep, ?_⟩
        intro i1 a b c d
        by_cases e : i1 = i
        · subst e; rw [ht'] at c; exact absurd c (by simp)
        · exact hall i1 a (by omega) c d)
  obtain ⟨k2, k3⟩ := key
  intro hne
  rcases k2 with k2 | ⟨p1, p2, p3, p4, p5⟩
  · exact absurd k2 hne
  · refine ⟨p1, by omega, p3, p4, fun i a b c d => ?_⟩
    have := k3 i a (by omega) c d
    rw [p5] at this
    exact this

theorem piv_search_spec (g : Matrix) (n m : Nat) :
    (piv_search n m g).q ≠ 0 →
      1 ≤ (piv_search n m g).q ∧ (piv_search n m g).q ≤ n ∧
      0 < elt g (m + 1) (piv_search n m g).q := by
  unfold piv_search
  have key := forLoop_inv
    (fun k (r : Piv) => 0 ≤ r.max ∧
      (r.q = 0 ∨ (1 ≤ r.q ∧ r.q < k ∧ 0 < elt g (m + 1) r.q)))
    1 n (fun k s =>
    let temp := elt g (m + 1) k
    if temp > s.max then ⟨k, temp⟩ else s) ⟨0, 0⟩ (by omega)
    ⟨le_refl _, Or.inl rfl⟩
    (by
      intro k r hk hk2 ⟨h0, hq⟩
      by_cases hgt : elt g (m + 1) k > r.max
      · simp only [hgt, if_true]
        exact ⟨le_of_lt (lt_of_le_of_lt h0 hgt), Or.inr ⟨hk, by omega, lt_of_le_of_lt h0 hgt⟩⟩
      · simp only [hgt, if_false]
        refine ⟨h0, ?_⟩
        rcases hq with hq | ⟨p1, p2, p3⟩
        · exact Or.inl hq
        · exact Or.inr ⟨p1, by omega, p3⟩)
  intro hne
  rcases key.2 with k2 | ⟨p1, p2, p3⟩
  · exact absurd k2 hne
  · exact ⟨p1, by omega, p3⟩

/-- Feasibility is kept by an exchange whose pivot is negative and whose
row has the largest quotient. -/
theorem feasible_exchange_neg {g g1 : Matrix} {n m : Nat} (p q : Nat) (trans : Nat → Bool)
    (hp : 1 ≤ p) (hp2 : p ≤ m) (hq2 : q ≤ n)
    (hE : ∀ i k, 1 ≤ i → i ≤ m + 1 → 1 ≤ k → k ≤ n + 1 →
      elt g1 i k = exchange g p q i k)
    (hF : Feasible n m trans g) (hpt : trans p = false) (hneg : elt g p q < 0)
    (hopt : ∀ i, 1 ≤ i → i ≤ m → trans i = false → elt g i q < 0 →
        elt g i (n + 1) / elt g i q ≤ elt g p (n + 1) / elt g p q) :
    Feasible n m trans g1 := by
  intro i hi hi2 ht
  rw [hE i (n + 1) hi (by omega) (by omega) (by omega)]
  have e1 : ¬ n + 1 = q := by omega
  have hcp : 0 ≤ elt g p (n + 1) := hF p hp hp2 hpt
  have hth : 0 ≤ - elt g p (n + 1) / elt g p q := by
    rw [neg_div]
    have := div_nonpos_of_nonneg_of_nonpos hcp (le_of_lt hneg)
    linarith
  unfold exchange
  by_cases e : i = p
  · subst e
    simp only [if_true, e1, if_false]
    exact hth
  · simp only [e, e1, if_false]
    have hci : 0 ≤ elt g i (n + 1) := hF i hi hi2 ht
    by_cases hs : elt g i q < 0
    · have h1 := hopt i hi hi2 ht hs
      rw [div_le_iff_of_neg hs] at h1
      have : elt g i q * (- elt g p (n + 1) / elt g p q)
          = - (elt g p (n + 1) / elt g p q * elt g i q) := by ring
      rw [this]
      linarith
    · have := mul_nonneg (not_lt.mp hs) hth
      linarith

/-- Feasibility of the rows other than the pivot row is kept by an exchange
whose pivot is positive and whose row has the smallest quotient. -/
theorem feasible_exchange_pos {g g1 : Matrix} {n m : Nat} (p q : Nat) (trans : Nat → Bool)
    (hp : 1 ≤ p) (hp2 : p ≤ m) (hq2 : q ≤ n)
    (hE : ∀ i k, 1 ≤ i → i ≤ m + 1 → 1 ≤ k → k ≤ n + 1 →
      elt g1 i k = exchange g p q i k)
    (hF : Feasible n m trans g) (hpt : trans p = false) (hpos : 0 < elt g p q)
    (hopt : ∀ i, 1 ≤ i → i ≤ m → trans i = false → 0 < elt g i q →
        elt g p (n + 1) / elt g p q ≤ elt g i (n + 1) / elt g i q) :
    Feasible n m (upd trans p true) g1 := by
  intro i hi hi2 ht
  have e : ¬ i = p := by
    intro e
    simp [upd, e] at ht
  simp only [upd, e, if_false] at ht
  rw [hE i (n + 1) hi (by omega) (by omega) (by omega)]
  have e1 : ¬ n + 1 = q := by omega
  have hcp : 0 ≤ elt g p (n + 1) := hF p hp hp2 hpt
  have hth : 0 ≤ elt g p (n + 1) / elt g p q := div_nonneg hcp (le_of_lt hpos)
  unfold exchange
  simp only [e, e1, if_false]
  have hci : 0 ≤ elt g i (n + 1) := hF i hi hi2 ht
  have : elt g i q * (- elt g p (n + 1) / elt g p q)
      = - (elt g p (n + 1) / elt g p q * elt g i q) := by ring
  rw [this]
  by_cases hs : 0 < elt g i q
  · have h1 := hopt i hi hi2 ht hs
    rw [le_div_iff₀ hs] at h1
    linarith
  · have := mul_nonneg hth (neg_nonneg.mpr (not_lt.mp hs))
    linarith

theorem Feasible.upd_true {g : Matrix} {n m : Nat} {trans : Nat → Bool}
    (hF : Feasible n m trans g) (p : Nat) : Feasible n m (upd trans p true) g := by
  intro i hi hi2 ht
  by_cases e : i = p
  · simp [upd, e] at ht
  · simp only [upd, e, if_false] at ht
    exact hF i hi hi2 ht

theorem represents_exchange {n m : Nat} {g0 : Matrix} {s : State} (p q : Nat)
    (trans1 : Nat → Bool) (hd : Dim s.g n m)
    (hp : 1 ≤ p) (hp2 : p ≤ m) (hq : 1 ≤ q) (hq2 : q ≤ n) (hpiv : elt s.g p q ≠ 0)
    (hR : Represents n m g0 s) :
    Represents n m g0
      { g := pivot_update n m p q s.g, ba := upd s.ba q (s.nb p),
        nb := upd s.nb p (s.ba q), trans := trans1 } := by
  intro v1
  obtain ⟨_, hE⟩ := pivot_update_elt hd p q hp (by omega) hq (by omega)
  obtain ⟨x1, x2⟩ := rowval_exchange (m := m) p q v1 hp (by omega) hq hq2 hpiv hE
  obtain ⟨t, hc, hr, hz⟩ := hR (upd v1 q (rowval n (pivot_update n m p q s.g) v1 p))
  refine ⟨t, ?_, ?_, ?_⟩
  · intro k hk hk2
    by_cases e : k = q
    · subst e
      simp only [upd, if_true]
      rw [← hr p hp hp2, x1]
    · simp only [upd, e, if_false]
      have := hc k hk hk2
      simp only [upd, e, if_false] at this
      exact this
  · intro i hi hi2
    by_cases e : i = p
    · subst e
      simp only [upd, if_true]
      have := hc q hq hq2
      simp only [upd, if_true] at this
      exact this
    · simp only [upd, e, if_false]
      rw [← hr i hi hi2, x2 i hi (by omega) e]
  · simp only []
    rw [← hz, x2 (m + 1) (by omega) (by omega) (by omega)]

theorem names_eliminate {n m q : Nat} {s : State} (p : Nat) (g1 : Matrix)
    (hp : 1 ≤ p) (hp2 : p ≤ m) (hq : 1 ≤ q) (hq2 : q ≤ n) (hpt : s.trans p = false)
    (hN : Names n m q s) :
    Names n m (q + 1)
      { g := g1, ba := upd s.ba q (s.nb p), nb := upd s.nb p (s.ba q),
        trans := upd s.trans p true } := by
  have hnbp : s.nb p < 0 := by
    rcases hN.rows p hp hp2 with ⟨a, _, _⟩ | ⟨_, b⟩
    · rw [hpt] at a; exact absurd a (by simp)
    · exact b
  have hbaq : s.ba q = (q : Int) := hN.ba_old q (le_refl _) hq2
  constructor
  · intro k hk hk2
    have e : ¬ k = q := by omega
    simp only [upd, e, if_false]
    exact hN.ba_old k (by omega) hk2
  · intro k hk hk2
    by_cases e : k = q
    · simp only [upd, e, if_true]; exact hnbp
    · simp only [upd, e, if_false]
      exact hN.ba_new k hk (by omega)
  · intro i hi hi2
    by_cases e : i = p
    · subst e
      simp only [upd, if_true]
      left
      refine ⟨trivial, ?_, ?_⟩ <;> omega
    · simp only [upd, e, if_false]
      rcases hN.rows i hi hi2 with ⟨a, b, c⟩ | ⟨a, b⟩
      · left; exact ⟨a, b, by push_cast; omega⟩
      · right; exact ⟨a, b⟩
  · intro j hj hj2
    by_cases e : j = q
    · subst e
      exact ⟨p, hp, hp2, by simp only [upd, if_true]; exact hbaq⟩
    · obtain ⟨i, a, b, c⟩ := hN.pos j hj (by omega)
      have e2 : ¬ i = p := by
        intro e2; subst e2; omega
      exact ⟨i, a, b, by simp only [upd, e2, if_false]; exact c⟩
  · intro i i1 hi hi2 hj hj2 heq hpos
    by_cases e : i = p
    · by_cases e1 : i1 = p
      · omega
      · exfalso
        simp only [upd, e, e1, if_true, if_false] at heq hpos
        rcases hN.rows i1 hj hj2 with ⟨_, _, c⟩ | ⟨_, b⟩ <;> omega
    · by_cases e1 : i1 = p
      · exfalso
        simp only [upd, e, e1, if_true, if_false] at heq hpos
        rcases hN.rows i hi hi2 with ⟨_, _, c⟩ | ⟨_, b⟩ <;> omega
      · simp only [upd, e, e1, if_false] at heq hpos
        exact hN.inj i i1 hi hi2 hj hj2 heq hpos
  · intro j hj hj2
    rcases hN.cov j hj hj2 with ⟨k, a, b, c⟩ | ⟨i, a, b, c⟩
    · left
      have e : ¬ k = q := by
        intro e; subst e; omega
      exact ⟨k, a, b, by simp only [upd, e, if_false]; exact c⟩
    · by_cases e : i = p
      · subst e
        left
        exact ⟨q, hq, hq2, by simp only [upd, if_true]; exact c⟩
      · right
        exact ⟨i, a, b, by simp only [upd, e, if_false]; exact c⟩

theorem names_pivot {n m : Nat} {s : State} (p q : Nat) (g1 : Matrix)
    (hp : 1 ≤ p) (hp2 : p ≤ m) (hq : 1 ≤ q) (hq2 : q ≤ n) (hpt : s.trans p = false)
    (hN : Names n m (n + 1) s) :
    Names n m (n + 1)
      { g := g1, ba := upd s.ba q (s.nb p), nb := upd s.nb p (s.ba q),
        trans := s.trans } := by
  have hnbp : s.nb p < 0 := by
    rcases hN.rows p hp hp2 with ⟨a, _, _⟩ | ⟨_, b⟩
    · rw [hpt] at a; exact absurd a (by simp)
    · exact b
  have hbaq : s.ba q < 0 := hN.ba_new q hq (by omega)
  constructor
  · intro k hk hk2
    omega
  · intro k hk hk2
    by_cases e : k = q
    · simp only [upd, e, if_true]; exact hnbp
    · simp only [upd, e, if_false]
      exact hN.ba_new k hk (by omega)
  · intro i hi hi2
    by_cases e : i = p
    · subst e
      simp only [upd, if_true]
      right
      exact ⟨hpt, hbaq⟩
    · simp only [upd, e, if_false]
      exact hN.rows i hi hi2
  · intro j hj hj2
    obtain ⟨i, a, b, c⟩ := hN.pos j hj (by omega)
    have e2 : ¬ i = p := by
      intro e2; subst e2; omega
    exact ⟨i, a, b, by simp only [upd, e2, if_false]; exact c⟩
  · intro i i1 hi hi2 hj hj2 heq hpos
    by_cases e : i = p
    · exfalso
      simp only [upd, e, if_true] at hpos
      omega
    · by_cases e1 : i1 = p
      · exfalso
        simp only [upd, e, e1, if_true, if_false] at heq hpos
        omega
      · simp only [upd, e, e1, if_false] at heq hpos
        exact hN.inj i i1 hi hi2 hj hj2 heq hpos
  · intro j hj hj2
    rcases hN.cov j hj hj2 with ⟨k, a, b, c⟩ | ⟨i, a, b, c⟩
    · by_cases e : k = q
      · subst e
        right
        exact ⟨p, hp, hp2, by simp only [upd, if_true]; exact c⟩
      · left
        exact ⟨k, a, b, by simp only [upd, e, if_false]; exact c⟩
    · by_cases e : i = p
      · subst e
        left
        exact ⟨q, hq, hq2, by simp only [upd, if_true]; exact c⟩
      · right
        exact ⟨i, a, b, by simp only [upd, e, if_false]; exact c⟩

theorem eliminate_step_inv {n m q : Nat} {g0 : Matrix} {s s1 : State}
    (hq : 1 ≤ q) (hq2 : q ≤ n) (hI : Inv n m q g0 s)
    (hs : eliminate_step n m q s = some s1) : Inv n m (q + 1) g0 s1 := by
  unfold eliminate_step at hs
  by_cases hc : elt s.g (m + 1) q > 0
  · simp only [hc, if_true] at hs
    obtain ⟨hg, hspec⟩ := elim_search_neg_spec hI.dim q s.trans hI.feas
    by_cases hp0 : (elim_search_neg n m q s.trans s.g).p = 0
    · simp [hp0] at hs
    · simp only [hp0, if_false, Option.some.injEq] at hs
      obtain ⟨p1, p2, p3, p4, p5⟩ := hspec hp0
      rw [hg] at hs
      subst hs
      obtain ⟨hd1, hE⟩ := pivot_update_elt hI.dim _ q p1 (by omega) hq (by omega)
      exact ⟨hd1,
        (feasible_exchange_neg _ q s.trans p1 p2 hq2 hE hI.feas p3 p4 p5).upd_true _,
        names_eliminate _ _ p1 p2 hq hq2 p3 hI.names,
        represents_exchange _ q _ hI.dim p1 p2 hq hq2 (ne_of_lt p4) hI.rep⟩
  · simp only [hc, if_false] at hs
    obtain ⟨hg, hspec⟩ := elim_search_pos_spec hI.dim q s.trans hI.feas
    by_cases hp0 : (elim_search_pos n m q s.trans s.g).p = 0
    · simp [hp0] at hs
    · simp only [hp0, if_false, Option.some.injEq] at hs
      obtain ⟨p1, p2, p3, p4, p5⟩ := hspec hp0
      rw [hg] at hs
      subst hs
      obtain ⟨hd1, hE⟩ := pivot_update_elt hI.dim _ q p1 (by omega) hq (by omega)
      exact ⟨hd1,
        feasible_exchange_pos _ q s.trans p1 p2 hq2 hE hI.feas p3 p4 p5,
        names_eliminate _ _ p1 p2 hq hq2 p3 hI.names,
        represents_exchange _ q _ hI.dim p1 p2 hq hq2 (ne_of_gt p4) hI.rep⟩

theorem pivot_iter_inv {n m : Nat} {g0 : Matrix} {s s1 : State}
    (hI : Inv n m (n + 1) g0 s)
    (hs : pivot_iter n m s = Iter.next s1) : Inv n m (n + 1) g0 s1 := by
  unfold pivot_iter at hs
  by_cases hq0 : (piv_search n m s.g).q = 0
  · simp [hq0] at hs
  · obtain ⟨q1, q2, _⟩ := piv_search_spec s.g n m hq0
    by_cases hp0 : (row_search n m (piv_search n m s.g).q s.trans s.g).p = 0
    · simp [hq0, hp0] at hs
    · simp only [hq0, hp0, if_false, Iter.next.injEq] at hs
      obtain ⟨p1, p2, p3, p4, p5⟩ := row_search_spec s.g n m _ s.trans hp0
      subst hs
      obtain ⟨hd1, hE⟩ := pivot_update_elt hI.dim _ _ p1 (by omega) q1 (by omega)
      exact ⟨hd1,
        feasible_exchange_neg _ _ s.trans p1 p2 q2 hE hI.feas p3 p4 p5,
        names_pivot _ _ _ p1 p2 q1 q2 p3 hI.names,
        represents_exchange _ _ _ hI.dim p1 p2 q1 q2 (ne_of_lt p4) hI.rep⟩

theorem eliminate_inv {n m : Nat} {g0 : Matrix} {s s1 : State}
    (hI : Inv n m 1 g0 s)
    (hs : eliminate n m s = some s1) : Inv n m (n + 1) g0 s1 := by
  unfold eliminate at hs
  exact forLoopM_inv (fun q s => Inv n m q g0 s) 1 n _ s s1 (by omega) hI
    (fun q s s1 a b c d => eliminate_step_inv a b c d) hs

theorem pivot_loop_inv {n m : Nat} {g0 : Matrix} (fuel : Nat) :
    ∀ {s s1 : State} {b : Bool}, Inv n m (n + 1) g0 s →
    pivot_loop fuel n m s = some (b, s1) → Inv n m (n + 1) g0 s1 ∧
      (b = true → (piv_search n m s1.g).q = 0) := by
  induction fuel with
  | zero =>
    intro s s1 b _ hs
    simp [pivot_loop] at hs
  | succ f ih =>
    intro s s1 b hI hs
    unfold pivot_loop at hs
    cases hit : pivot_iter n m s with
    | optimal =>
      rw [hit] at hs
      simp only [Option.some.injEq, Prod.mk.injEq] at hs
      obtain ⟨hb, hs⟩ := hs
      subst hs
      refine ⟨hI, fun _ => ?_⟩
      unfold pivot_iter at hit
      by_contra hq0
      simp only [hq0, if_false] at hit
      split_ifs at hit
    | infeasible =>
      rw [hit] at hs
      simp only [Option.some.injEq, Prod.mk.injEq] at hs
      obtain ⟨hb, hs⟩ := hs
      subst hs
      exact ⟨hI, fun h => by rw [← hb] at h; exact absurd h (by simp)⟩
    | next s2 =>
      rw [hit] at hs
      exact ih (pivot_iter_inv hI hit) hs

theorem init_ba (n k : Nat) (hk : 1 ≤ k) (hk2 : k ≤ n) (g : Matrix) (m : Nat) :
    (init_state n m g).ba k = (k : Int) := by
  unfold init_state
  have key := forLoop_inv (fun i (ba : Nat → Int) => ∀ k1, 1 ≤ k1 → k1 < i → ba k1 = (k1 : Int))
    1 n (fun k ba => upd ba k (k : Int)) (fun _ => 0) (by omega)
    (fun k1 a b => by omega)
    (by
      intro i ba hi hi2 hI k1 a b
      by_cases e : k1 = i
      · simp [upd, e]
      · simp only [upd, e, if_false]
        exact hI k1 a (by omega))
  exact key k hk (by omega)

theorem init_nb (m i : Nat) (hi : 1 ≤ i) (hi2 : i ≤ m) (g : Matrix) (n : Nat) :
    (init_state n m g).nb i = - (i : Int) := by
  unfold init_state
  have key := forLoop_inv
    (fun i (nb : Nat → Int) => ∀ k1, 1 ≤ k1 → k1 < i → nb k1 = - (k1 : Int))
    1 m (fun i nb => upd nb i (- (i : Int))) (fun _ => 0) (by omega)
    (fun k1 a b => by omega)
    (by
      intro i nb hi hi2 hI k1 a b
      by_cases e : k1 = i
      · simp [upd, e]
      · simp only [upd, e, if_false]
        exact hI k1 a (by omega))
  exact key i hi (by omega)

theorem init_inv {n m : Nat} {g0 : Matrix} (hd : Dim g0 n m)
    (hF : Feasible n m (fun _ => false) g0) : Inv n m 1 g0 (init_state n m g0) := by
  refine ⟨hd, hF, ?_, ?_⟩
  · constructor
    · intro k hk hk2
      exact init_ba n k hk hk2 g0 m
    · intro k hk hk2
      omega
    · intro i hi hi2
      right
      refine ⟨rfl, ?_⟩
      rw [init_nb m i hi hi2]
      omega
    · intro j hj hj2
      omega
    · intro i i1 hi hi2 hj hj2 _ hpos
      rw [init_nb m i hi hi2] at hpos
      omega
    · intro j hj hj2
      right
      exact ⟨j, hj, hj2, init_nb m j hj hj2 g0 n⟩
  · intro v
    refine ⟨v, ?_, ?_, rfl⟩
    · intro k hk hk2
      rw [init_ba n k hk hk2]
      have : (0 : Int) < (k : Int) := by omega
      simp [nameval, this]
    · intro i hi hi2
      rw [init_nb m i hi hi2]
      have : ¬ (0 : Int) < - (i : Int) := by omega
      simp only [nameval, this, if_false, neg_neg, Int.toNat_ofNat]
      rfl

theorem check_elim_feasible {g : Matrix} {n m : Nat} (trans : Nat → Bool)
    (hF : Feasible n m trans g) : check_elim n m trans g = g := by
  unfold check_elim
  exact forLoop_inv (fun _ g1 => g1 = g) 1 m _ g (by omega) rfl
    (by
      intro i g1 hi hi2 hI
      subst hI
      by_cases ht : trans i = false
      · have := hF i hi hi2 ht
        simp [ht, not_lt.mpr this]
      · have ht' : trans i = true := by simpa using ht
        simp [ht'])

theorem forLoop_sum (n : Nat) (f : Nat → ℚ) :
    forLoop 1 n (fun k temp => temp + f k) 0 = ∑ k in Finset.range n, f (k + 1) := by
  unfold forLoop
  have e : n + 1 - 1 = n := by omega
  rw [e]
  induction n with
  | zero => simp [loop_zero]
  | succ c ih =>
    have e1 : c + 1 + 1 - 1 = c + 1 := by omega
    rw [loop_succ, ih (by omega), Finset.sum_range_succ, Nat.add_comm 1 c]

/-- What the coordinate transformation leaves in the matrix. -/
theorem transform_elt {g : Matrix} {n m : Nat} (hd : Dim g n m) (x : Nat → ℚ) :
    Dim (transform n m x g) n m ∧
    ∀ i k, 1 ≤ i → i ≤ m + 1 → 1 ≤ k → k ≤ n + 1 →
      elt (transform n m x g) i k =
        if k = n + 1 ∧ n + 1 ≤ i then
          (if i ≤ m ∧ elt g i (n + 1) + (∑ k in Finset.range n, elt g i (k + 1) * x k) < 0
           then 0
           else elt g i (n + 1) + ∑ k in Finset.range n, elt g i (k + 1) * x k)
        else elt g i k := by
  unfold transform
  have hm := hd.hm
  have key := forLoop_inv
    (fun j g1 => Dim g1 n m ∧ ∀ i k, 1 ≤ i → i ≤ m + 1 → 1 ≤ k → k ≤ n + 1 →
      elt g1 i k =
        if k = n + 1 ∧ n + 1 ≤ i ∧ i < j then
          (if i ≤ m ∧ elt g i (n + 1) + (∑ k in Finset.range n, elt g i (k + 1) * x k) < 0
           then 0
           else elt g i (n + 1) + ∑ k in Finset.range n, elt g i (k + 1) * x k)
        else elt g i k)
    (n + 1) (m + 1) (fun i g =>
    let temp := forLoop 1 n (fun k temp => temp + elt g i k * x (k - 1)) 0
    let g := set g i (n + 1) (elt g i (n + 1) + temp)
    if i ≤ m then
      if elt g i (n + 1) < 0 then set g i (n + 1) 0 else g
    else g) g (by omega)
    ⟨hd, fun i k a b c d => by
      have : ¬ (k = n + 1 ∧ n + 1 ≤ i ∧ i < n + 1) := by omega
      rw [if_neg this]⟩
    (by
      intro j g1 hj hj2 ⟨hd1, hI⟩
      have hsum : forLoop 1 n (fun k temp => temp + elt g1 j k * x (k - 1)) 0
          = ∑ k in Finset.range n, elt g j (k + 1) * x k := by
        rw [forLoop_sum n (fun k => elt g1 j k * x (k - 1))]
        apply Finset.sum_congr rfl
        intro k hk
        rw [Finset.mem_range] at hk
        rw [hI j (k + 1) (by omega) hj2 (by omega) (by omega)]
        have : ¬ (k + 1 = n + 1 ∧ n + 1 ≤ j ∧ j < j) := by omega
        rw [if_neg this]
        simp
      have hcj : elt g1 j (n + 1) = elt g j (n + 1) := by
        rw [hI j (n + 1) (by omega) hj2 (by omega) (by omega)]
        have : ¬ (n + 1 = n + 1 ∧ n + 1 ≤ j ∧ j < j) := by omega
        rw [if_neg this]
      simp only [hsum, hcj]
      have hd2 : Dim (set g1 j (n + 1)
          (elt g j (n + 1) + ∑ k in Finset.range n, elt g j (k + 1) * x k)) n m :=
        hd1.set _ _ _
      have hv : elt (set g1 j (n + 1)
          (elt g j (n + 1) + ∑ k in Finset.range n, elt g j (k + 1) * x k)) j (n + 1)
          = elt g j (n + 1) + ∑ k in Finset.range n, elt g j (k + 1) * x k := by
        rw [elt_set_valid hd1 j (n + 1) j (n + 1) _ (by omega) hj2 (by omega) (by omega)
          (by omega) hj2 (by omega) (by omega)]
        simp
      rw [hv]
      by_cases c1 : j ≤ m
      · by_cases c2 : elt g j (n + 1) + ∑ k in Finset.range n, elt g j (k + 1) * x k < 0
        · simp only [c1, c2, if_true]
          refine ⟨hd2.set _ _ _, fun i k a b c d => ?_⟩
          rw [elt_set_valid hd2 j (n + 1) i k _ (by omega) hj2 (by omega) (by omega) a b c d,
            elt_set_valid hd1 j (n + 1) i k _ (by omega) hj2 (by omega) (by omega) a b c d,
            hI i k a b c d]
          by_cases e : i = j ∧ k = n + 1
          · obtain ⟨e1, e2⟩ := e
            subst e1 e2
            simp only [and_self, if_true, c1, c2]
            have hh : n + 1 ≤ i ∧ i < i + 1 := by omega
            simp only [hh, true_and, and_self, if_true]
          · rw [if_neg e, if_neg e]
            split_ifs <;> first | rfl | omega
        · simp only [c1, c2, if_true, if_false]
          refine ⟨hd2, fun i k a b c d => ?_⟩
          rw [elt_set_valid hd1 j (n + 1) i k _ (by omega) hj2 (by omega) (by omega) a b c d,
            hI i k a b c d]
          by_cases e : i = j ∧ k = n + 1
          · obtain ⟨e1, e2⟩ := e
            subst e1 e2
            simp only [and_self, if_true, c1, c2, and_false, if_false]
            have hh : n + 1 ≤ i ∧ i < i + 1 := by omega
            simp only [hh, true_and, and_self, if_true]
          · rw [if_neg e]
            split_ifs <;> first | rfl | omega
      · simp only [c1, if_false]
        refine ⟨hd2, fun i k a b c d => ?_⟩
        rw [elt_set_valid hd1 j (n + 1) i k _ (by omega) hj2 (by omega) (by omega) a b c d,
          hI i k a b c d]
        by_cases e : i = j ∧ k = n + 1
        · obtain ⟨e1, e2⟩ := e
          subst e1 e2
          simp only [and_self, if_true, c1, false_and, if_false]
          have hh : n + 1 ≤ i ∧ i < i + 1 := by omega
          simp only [hh, true_and, and_self, if_true]
        · rw [if_neg e]
          split_ifs <;> first | rfl | omega)
  refine ⟨key.1, fun i k a b c d => ?_⟩
  rw [key.2 i k a b c d]
  split_ifs <;> first | rfl | omega

/-- Step LOES adds to `x [j - 1]` the constant of the one row named `j`. -/
theorem loes_spec {n m : Nat} {s : State} (x : Nat → ℚ) (hN : Names n m (n + 1) s)
    (j r : Nat) (hj : 1 ≤ j) (hr : 1 ≤ r) (hr2 : r ≤ m) (hnb : s.nb r = (j : Int)) :
    loes n m s x (j - 1) = x (j - 1) + elt s.g r (n + 1) := by
  unfold loes
  have key := forLoop_inv
    (fun i (x1 : Nat → ℚ) => x1 (j - 1) = if r < i then x (j - 1) + elt s.g r (n + 1)
      else x (j - 1))
    1 m (fun i x =>
    let temp2 := s.nb i
    let j := temp2.natAbs
    if temp2 > 0 then upd x (j - 1) (x (j - 1) + elt s.g i (n + 1)) else x) x (by omega)
    (by
      have : ¬ r < 1 := by omega
      simp only [this, if_false])
    (by
      intro i x1 hi hi2 hI
      by_cases e : i = r
      · subst e
        have hpos : s.nb i > 0 := by omega
        have hja : (s.nb i).natAbs = j := by omega
        simp only [hpos, if_true, hja, upd, hI]
        have h1 : ¬ i < i := by omega
        have h2 : i < i + 1 := by omega
        simp only [h1, h2, if_true, if_false]
      · by_cases hpos : s.nb i > 0
        · have hne : ¬ (j - 1 = (s.nb i).natAbs - 1) := by
            intro h
            have : s.nb i = s.nb r := by omega
            exact e (hN.inj i r hi hi2 hr hr2 this hpos)
          simp only [hpos, if_true, upd, hne, if_false, hI]
          split_ifs <;> first | rfl | omega
        · simp only [hpos, if_false, hI]
          split_ifs <;> first | rfl | omega)
  rw [key]
  have : r < m + 1 := by omega
  simp only [this, if_true]

theorem unit_row_length (n j : Nat) (a c : ℚ) :
    (((alloc_vector n).set j a).set n c).length = n + 1 := by
  simp [alloc_vector]

theorem unit_row_getD (n j k : Nat) (a c : ℚ) (hj : j < n) (hk : k ≤ n) :
    (((alloc_vector n).set j a).set n c).getD k 0
      = if k = n then c else if k = j then a else 0 := by
  unfold alloc_vector
  rw [List.getD_eq_getElem?_getD, List.getElem?_set, List.getElem?_set]
  by_cases e : n = k
  · subst e
    simp
  · by_cases e2 : j = k
    · subst e2
      have : ¬ j = n := fun h => e h.symm
      have h3 : j < n + 1 := by omega
      simp [e, this, h3]
    · have e3 : ¬ k = n := fun h => e h.symm
      have e4 : ¬ k = j := fun h => e2 h.symm
      simp only [e, e2, if_false, e3, e4]
      rw [List.getElem?_replicate]
      have : k < n + 1 := by omega
      simp [this]

theorem loop_fill {α : Type} (n : Nat) (f : Nat → α) (d : α) :
    loop 0 n (fun i (t : List α) => t.set i (f i)) (List.replicate n d)
      = (List.range n).map f := by
  have key : ∀ c, c ≤ n →
      loop 0 c (fun i (t : List α) => t.set i (f i)) (List.replicate n d)
        = (List.range c).map f ++ List.replicate (n - c) d := by
    intro c
    induction c with
    | zero => intro _; simp [loop_zero]
    | succ c ih =>
      intro hc
      rw [loop_succ, ih (by omega)]
      have e : n - c = (n - (c + 1)) + 1 := by omega
      rw [e, List.replicate_succ, List.range_succ, List.map_append]
      simp only [Nat.zero_add, List.map_cons, List.map_nil, List.append_assoc,
        List.singleton_append]
      have hl : ((List.range c).map f).length = c := by simp
      rw [List.set_append_right _ _ (by omega)]
      simp [hl]
  have := key n (le_refl _)
  simpa using this

theorem translation_rows_eq (n : Nat) (x : Nat → ℚ) :
    translation_rows n x = (List.range n).map (fun i => translation_row n i (x i)) := by
  unfold translation_rows
  exact loop_fill n _ _

theorem bound_rows_eq (C1 C2 : ℚ) (n : Nat) (x : Nat → ℚ) :
    bound_rows C1 C2 n x =
      ((List.range n).map (fun i => ((alloc_vector n).set i 1).set n (- C1 * x i)),
       (List.range n).map (fun i => ((alloc_vector n).set i (-1)).set n (C2 * x i))) := by
  unfold bound_rows
  have key : ∀ c, c ≤ n →
      loop 0 c (fun i (r : List (List ℚ) × List (List ℚ)) =>
        let arr := alloc_vector n
        let arr := arr.set i 1
        let arr := arr.set n (- C1 * x i)
        let min_weights := r.1.set i arr
        let arr := alloc_vector n
        let arr := arr.set i (-1)
        let arr := arr.set n (C2 * x i)
        (min_weights, r.2.set i arr))
        (List.replicate n [], List.replicate n [])
      = (loop 0 c (fun i (t : List (List ℚ)) =>
            t.set i (((alloc_vector n).set i 1).set n (- C1 * x i))) (List.replicate n []),
         loop 0 c (fun i (t : List (List ℚ)) =>
            t.set i (((alloc_vector n).set i (-1)).set n (C2 * x i))) (List.replicate n [])) := by
    intro c
    induction c with
    | zero => intro _; simp [loop_zero]
    | succ c ih =>
      intro hc
      rw [loop_succ, loop_succ, loop_succ, ih (by omega)]
  rw [key n (le_refl _), loop_fill, loop_fill]

theorem rows_ok_map (n : Nat) (f : Nat → List ℚ) (hf : ∀ i, (f i).length = n + 1) :
    rows_ok ((List.range n).map f) n n := by
  refine ⟨by simp, ?_⟩
  intro r hr
  rw [List.mem_map] at hr
  obtain ⟨i, _, rfl⟩ := hr
  exact hf i

theorem rowget_map (n : Nat) (f : Nat → List ℚ) (r c : Nat) (hr : r < n) :
    rowget ((List.range n).map f) r c = (f r).getD c 0 := by
  unfold rowget
  rw [List.getD_eq_getElem?_getD ((List.range n).map f), List.getElem?_map,
    List.getElem?_range hr]
  rfl

theorem builder_dim (C1 C2 : ℚ) (n : Nat) (x : Nat → ℚ) (rsv : List (List ℚ))
    (cost : List ℚ) (hrsv : ∀ r ∈ rsv, r.length = n + 1) (hcost : cost.length = n + 1) :
    Dim (builder_matrix C1 C2 n x rsv cost) n (3 * n + rsv.length) := by
  unfold builder_matrix
  rw [bound_rows_eq, translation_rows_eq]
  refine ⟨rfl, rfl, ?_, ⟨rfl, hrsv⟩, ?_, ?_, hcost⟩
  · exact rows_ok_map n _ (fun i => unit_row_length n i _ _)
  · exact rows_ok_map n _ (fun i => unit_row_length n i _ _)
  · exact rows_ok_map n _ (fun i => unit_row_length n i _ _)

theorem builder_elt_translation (C1 C2 : ℚ) (n : Nat) (x : Nat → ℚ) (rsv : List (List ℚ))
    (cost : List ℚ) (hrsv : ∀ r ∈ rsv, r.length = n + 1) (hcost : cost.length = n + 1)
    (i k : Nat) (hi : 1 ≤ i) (hi2 : i ≤ n) (hk : 1 ≤ k) (hk2 : k ≤ n + 1) :
    elt (builder_matrix C1 C2 n x rsv cost) i k
      = if k = n + 1 then x (i - 1) else if k = i then 1 else 0 := by
  have hd := builder_dim C1 C2 n x rsv cost hrsv hcost
  unfold elt
  rw [matrix_ptr_valid hd i k hi (by omega) hk hk2, if_pos hi2]
  simp only [Matrix.read, builder_matrix]
  rw [translation_rows_eq, rowget_map n _ _ _ (by omega)]
  unfold translation_row
  rw [unit_row_getD n (i - 1) (k - 1) _ _ (by omega) (by omega)]
  split_ifs <;> first | rfl | omega

theorem builder_elt_min (C1 C2 : ℚ) (n : Nat) (x : Nat → ℚ) (rsv : List (List ℚ))
    (cost : List ℚ) (hrsv : ∀ r ∈ rsv, r.length = n + 1) (hcost : cost.length = n + 1)
    (j k : Nat) (hj : 1 ≤ j) (hj2 : j ≤ n) (hk : 1 ≤ k) (hk2 : k ≤ n + 1) :
    elt (builder_matrix C1 C2 n x rsv cost) (n + rsv.length + j) k
      = if k = n + 1 then - C1 * x (j - 1) else if k = j then 1 else 0 := by
  have hd := builder_dim C1 C2 n x rsv cost hrsv hcost
  have hP : (builder_matrix C1 C2 n x rsv cost).num_prefs = rsv.length := rfl
  unfold elt
  rw [matrix_ptr_valid hd _ k (by omega) (by omega) hk hk2, hP, if_neg (by omega),
    if_neg (by omega), if_pos (by omega)]
  simp only [Matrix.read, builder_matrix]
  rw [bound_rows_eq]
  simp only []
  rw [rowget_map n _ _ _ (by omega)]
  have e : n + rsv.length + j - 1 - n - rsv.length = j - 1 := by omega
  rw [e, unit_row_getD n (j - 1) (k - 1) _ _ (by omega) (by omega)]
  split_ifs <;> first | rfl | omega

theorem builder_elt_max (C1 C2 : ℚ) (n : Nat) (x : Nat → ℚ) (rsv : List (List ℚ))
    (cost : List ℚ) (hrsv : ∀ r ∈ rsv, r.length = n + 1) (hcost : cost.length = n + 1)
    (j k : Nat) (hj : 1 ≤ j) (hj2 : j ≤ n) (hk : 1 ≤ k) (hk2 : k ≤ n + 1) :
    elt (builder_matrix C1 C2 n x rsv cost) (2 * n + rsv.length + j) k
      = if k = n + 1 then C2 * x (j - 1) else if k = j then -1 else 0 := by
  have hd := builder_dim C1 C2 n x rsv cost hrsv hcost
  have hP : (builder_matrix C1 C2 n x rsv cost).num_prefs = rsv.length := rfl
  unfold elt
  rw [matrix_ptr_valid hd _ k (by omega) (by omega) hk hk2, hP, if_neg (by omega),
    if_neg (by omega), if_neg (by omega), if_pos (by omega)]
  simp only [Matrix.read, builder_matrix]
  rw [bound_rows_eq]
  simp only []
  rw [rowget_map n _ _ _ (by omega)]
  have e : 2 * n + rsv.length + j - 1 - n - rsv.length - n = j - 1 := by omega
  rw [e, unit_row_getD n (j - 1) (k - 1) _ _ (by omega) (by omega)]
  split_ifs <;> first | rfl | omega

theorem sum_unit (n j : Nat) (a : ℚ) (f : Nat → ℚ) (hj : 1 ≤ j) (hj2 : j ≤ n) :
    (∑ k in Finset.range n, (if k + 1 = j then a else 0) * f k) = a * f (j - 1) := by
  have h1 : ∀ k ∈ Finset.range n, (if k + 1 = j then a else 0) * f k
      = if k = j - 1 then a * f k else 0 := by
    intro k _
    by_cases e : k + 1 = j
    · have e2 : k = j - 1 := by omega
      rw [if_pos e, if_pos e2]
    · have e2 : ¬ k = j - 1 := by omega
      rw [if_neg e, if_neg e2, zero_mul]
  rw [Finset.sum_congr rfl h1, Finset.sum_ite_eq']
  have hm : j - 1 ∈ Finset.range n := by simp; omega
  rw [if_pos hm]

theorem transform_feasible {g : Matrix} {n m : Nat} (hd : Dim g n m) (x : Nat → ℚ)
    (h0 : ∀ i, 1 ≤ i → i ≤ n → 0 ≤ elt g i (n + 1)) :
    Feasible n m (fun _ => false) (transform n m x g) := by
  intro i hi hi2 _
  rw [(transform_elt hd x).2 i (n + 1) hi (by omega) (by omega) (by omega)]
  by_cases e : n + 1 ≤ i
  · simp only [e, and_self, if_true, hi2, true_and]
    split_ifs with h1
    · exact le_refl _
    · exact not_lt.mp h1
  · have : ¬ (n + 1 = n + 1 ∧ n + 1 ≤ i) := by omega
    rw [if_neg this]
    exact h0 i hi (by omega)

/-- The lower bound row of column `j`, after the transformation, at `t`. -/
theorem builder_rowval_min (C1 C2 : ℚ) (n : Nat) (x : Nat → ℚ) (rsv : List (List ℚ))
    (cost : List ℚ) (hrsv : ∀ r ∈ rsv, r.length = n + 1) (hcost : cost.length = n + 1)
    (j : Nat) (hj : 1 ≤ j) (hj2 : j ≤ n) (hx : 0 ≤ x (j - 1)) (hC : C1 < 1)
    (t : Nat → ℚ) :
    rowval n (transform n (3 * n + rsv.length) x (builder_matrix C1 C2 n x rsv cost)) t
        (n + rsv.length + j)
      = t j + (x (j - 1) - C1 * x (j - 1)) := by
  have hd := builder_dim C1 C2 n x rsv cost hrsv hcost
  obtain ⟨_, hT⟩ := transform_elt hd x
  have hsum : (∑ k in Finset.range n,
      elt (builder_matrix C1 C2 n x rsv cost) (n + rsv.length + j) (k + 1) * x k)
      = x (j - 1) := by
    have : ∀ k ∈ Finset.range n,
        elt (builder_matrix C1 C2 n x rsv cost) (n + rsv.length + j) (k + 1) * x k
        = (if k + 1 = j then (1 : ℚ) else 0) * x k := by
      intro k hk
      rw [Finset.mem_range] at hk
      rw [builder_elt_min C1 C2 n x rsv cost hrsv hcost j (k + 1) hj hj2 (by omega) (by omega)]
      have : ¬ k + 1 = n + 1 := by omega
      rw [if_neg this]
    rw [Finset.sum_congr rfl this, sum_unit n j 1 x hj hj2, one_mul]
  unfold rowval
  rw [hT _ (n + 1) (by omega) (by omega) (by omega) (by omega)]
  have h1 : n + 1 = n + 1 ∧ n + 1 ≤ n + rsv.length + j := by omega
  rw [if_pos h1, hsum,
    builder_elt_min C1 C2 n x rsv cost hrsv hcost j (n + 1) hj hj2 (by omega) (by omega),
    if_pos rfl]
  have hnn : ¬ (n + rsv.length + j ≤ 3 * n + rsv.length ∧ - C1 * x (j - 1) + x (j - 1) < 0) := by
    intro ⟨_, h⟩
    nlinarith
  rw [if_neg hnn]
  have hs2 : (∑ k in Finset.range n,
      elt (transform n (3 * n + rsv.length) x (builder_matrix C1 C2 n x rsv cost))
        (n + rsv.length + j) (k + 1) * t (k + 1)) = t j := by
    have : ∀ k ∈ Finset.range n,
        elt (transform n (3 * n + rsv.length) x (builder_matrix C1 C2 n x rsv cost))
          (n + rsv.length + j) (k + 1) * t (k + 1)
        = (if k + 1 = j then (1 : ℚ) else 0) * t (k + 1) := by
      intro k hk
      rw [Finset.mem_range] at hk
      rw [hT _ (k + 1) (by omega) (by omega) (by omega) (by omega)]
      have h2 : ¬ (k + 1 = n + 1 ∧ n + 1 ≤ n + rsv.length + j) := by omega
      rw [if_neg h2,
        builder_elt_min C1 C2 n x rsv cost hrsv hcost j (k + 1) hj hj2 (by omega) (by omega)]
      have : ¬ k + 1 = n + 1 := by omega
      rw [if_neg this]
    rw [Finset.sum_congr rfl this, sum_unit n j 1 (fun k => t (k + 1)) hj hj2, one_mul]
    have : j - 1 + 1 = j := by omega
    simp only [this]
  rw [hs2]
  ring

/-- The upper bound row of column `j`, after the transformation, at `t`. -/
theorem builder_rowval_max (C1 C2 : ℚ) (n : Nat) (x : Nat → ℚ) (rsv : List (List ℚ))
    (cost : List ℚ) (hrsv : ∀ r ∈ rsv, r.length = n + 1) (hcost : cost.length = n + 1)
    (j : Nat) (hj : 1 ≤ j) (hj2 : j ≤ n) (hx : 0 ≤ x (j - 1)) (hC : 1 < C2)
    (t : Nat → ℚ) :
    rowval n (transform n (3 * n + rsv.length) x (builder_matrix C1 C2 n x rsv cost)) t
        (2 * n + rsv.length + j)
      = - t j + (C2 * x (j - 1) - x (j - 1)) := by
  have hd := builder_dim C1 C2 n x rsv cost hrsv hcost
  obtain ⟨_, hT⟩ := transform_elt hd x
  have hsum : (∑ k in Finset.range n,
      elt (builder_matrix C1 C2 n x rsv cost) (2 * n + rsv.length + j) (k + 1) * x k)
      = - x (j - 1) := by
    have : ∀ k ∈ Finset.range n,
        elt (builder_matrix C1 C2 n x rsv cost) (2 * n + rsv.length + j) (k + 1) * x k
        = (if k + 1 = j then (-1 : ℚ) else 0) * x k := by
      intro k hk
      rw [Finset.mem_range] at hk
      rw [builder_elt_max C1 C2 n x rsv cost hrsv hcost j (k + 1) hj hj2 (by omega) (by omega)]
      have : ¬ k + 1 = n + 1 := by omega
      rw [if_neg this]
    rw [Finset.sum_congr rfl this, sum_unit n j (-1) x hj hj2]
    ring
  unfold rowval
  rw [hT _ (n + 1) (by omega) (by omega) (by omega) (by omega)]
  have h1 : n + 1 = n + 1 ∧ n + 1 ≤ 2 * n + rsv.length + j := by omega
  rw [if_pos h1, hsum,
    builder_elt_max C1 C2 n x rsv cost hrsv hcost j (n + 1) hj hj2 (by omega) (by omega),
    if_pos rfl]
  have hnn : ¬ (2 * n + rsv.length + j ≤ 3 * n + rsv.length
      ∧ C2 * x (j - 1) + - x (j - 1) < 0) := by
    intro ⟨_, h⟩
    nlinarith
  rw [if_neg hnn]
  have hs2 : (∑ k in Finset.range n,
      elt (transform n (3 * n + rsv.length) x (builder_matrix C1 C2 n x rsv cost))
        (2 * n + rsv.length + j) (k + 1) * t (k + 1)) = - t j := by
    have : ∀ k ∈ Finset.range n,
        elt (transform n (3 * n + rsv.length) x (builder_matrix C1 C2 n x rsv cost))
          (2 * n + rsv.length + j) (k + 1) * t (k + 1)
        = (if k + 1 = j then (-1 : ℚ) else 0) * t (k + 1) := by
      intro k hk
      rw [Finset.mem_range] at hk
      rw [hT _ (k + 1) (by omega) (by omega) (by omega) (by omega)]
      have h2 : ¬ (k + 1 = n + 1 ∧ n + 1 ≤ 2 * n + rsv.length + j) := by omega
      rw [if_neg h2,
        builder_elt_max C1 C2 n x rsv cost hrsv hcost j (k + 1) hj hj2 (by omega) (by omega)]
      have : ¬ k + 1 = n + 1 := by omega
      rw [if_neg this]
    rw [Finset.sum_congr rfl this, sum_unit n j (-1) (fun k => t (k + 1)) hj hj2]
    have : j - 1 + 1 = j := by omega
    simp only [this]
    ring
  rw [hs2]
  ring

theorem rowval_zero (n : Nat) (g : Matrix) (i : Nat) :
    rowval n g (fun _ => 0) i = elt g i (n + 1) := by
  simp [rowval]

/-- The basic solution of a tableau that satisfies the invariant is a point
at which no row of the starting tableau is negative. -/
theorem inv_point {n m : Nat} {g0 : Matrix} {s : State} (hI : Inv n m (n + 1) g0 s) :
    ∃ t : Nat → ℚ,
      (∀ j r : Nat, 1 ≤ j → 1 ≤ r → r ≤ m → s.nb r = (j : Int) → elt s.g r (n + 1) = t j) ∧
      (∀ R, 1 ≤ R → R ≤ m → 0 ≤ rowval n g0 t R) ∧
      elt s.g (m + 1) (n + 1) = rowval n g0 t (m + 1) := by
  obtain ⟨t, hc, hr, hz⟩ := hI.rep (fun _ => 0)
  refine ⟨t, ?_, ?_, ?_⟩
  · intro j r hj hr1 hr2 hnb
    have := hr r hr1 hr2
    rw [rowval_zero, hnb] at this
    rw [this]
    have hp : (0 : Int) < (j : Int) := by omega
    simp [nameval, hp]
  · intro R hR hR2
    rcases hI.names.cov R hR hR2 with ⟨k, a, b, c⟩ | ⟨i, a, b, c⟩
    · have := hc k a b
      rw [c] at this
      have hp : ¬ (0 : Int) < - (R : Int) := by omega
      simp only [nameval, hp, if_false, neg_neg, Int.toNat_ofNat] at this
      rw [← this]
    · have h1 := hr i a b
      rw [rowval_zero, c] at h1
      have hp : ¬ (0 : Int) < - (R : Int) := by omega
      simp only [nameval, hp, if_false, neg_neg, Int.toNat_ofNat] at h1
      rw [← h1]
      rcases hI.names.rows i a b with ⟨_, b1, _⟩ | ⟨a1, _⟩
      · omega
      · exact hI.feas i a b a1
  · rw [← hz, rowval_zero]

/-- The state in which `simplex` ends when it returns `TRUE`. -/
theorem simplex_true_state {n m fuel : Nat} {g g1 : Matrix} {x x1 : Nat → ℚ}
    (hd : Dim g n m) (h0 : ∀ i, 1 ≤ i → i ≤ n → 0 ≤ elt g i (n + 1))
    (h : simplex fuel n m g x = some (true, g1, x1)) :
    ∃ s, Inv n m (n + 1) (transform n m x g) s ∧ g1 = s.g ∧ x1 = loes n m s x ∧
      (piv_search n m s.g).q = 0 := by
  unfold simplex at h
  have hI0 := init_inv (transform_elt hd x).1 (transform_feasible hd x h0)
  cases he : eliminate n m (init_state n m (transform n m x g)) with
  | none => simp [he] at h
  | some s =>
    have hI1 := eliminate_inv hI0 he
    simp only [he] at h
    rw [check_elim_feasible s.trans hI1.feas] at h
    cases hl : pivot_loop fuel n m s with
    | none => simp [hl] at h
    | some r =>
      obtain ⟨b, s2⟩ := r
      simp only [hl] at h
      obtain ⟨hI2, hq⟩ := pivot_loop_inv fuel hI1 hl
      cases b with
      | false => simp at h
      | true =>
        simp only [Option.some.injEq, Prod.mk.injEq, true_and] at h
        exact ⟨s2, hI2, h.1.symm, h.2.symm, hq rfl⟩

/-- C1: over exact arithmetic, for the matrix `main` assembles from a vector
`x` of non-negative IDF values (translation rows, bound rows with
`C1 < 1 < C2`) and any RSV rows and cost row of the right length, whenever
`simplex` returns `TRUE`, after any number of pivots, the returned vector
`x1` satisfies `C1 * x [i] <= x1 [i] <= C2 * x [i]` in every column. -/
theorem simplex_respects_bounds (C1 C2 : ℚ) (n : Nat) (x : Nat → ℚ)
    (rsv : List (List ℚ)) (cost : List ℚ) (fuel : Nat) (g1 : Matrix) (x1 : Nat → ℚ)
    (hrsv : ∀ r ∈ rsv, r.length = n + 1) (hcost : cost.length = n + 1)
    (hx : ∀ i, i < n → 0 ≤ x i) (hC1 : C1 < 1) (hC2 : 1 < C2)
    (h : simplex fuel n (3 * n + rsv.length) (builder_matrix C1 C2 n x rsv cost) x
      = some (true, g1, x1)) :
    ∀ i, i < n → C1 * x i ≤ x1 i ∧ x1 i ≤ C2 * x i := by
  intro i hi
  have hd := builder_dim C1 C2 n x rsv cost hrsv hcost
  have h0 : ∀ i, 1 ≤ i → i ≤ n →
      0 ≤ elt (builder_matrix C1 C2 n x rsv cost) i (n + 1) := by
    intro i a b
    rw [builder_elt_translation C1 C2 n x rsv cost hrsv hcost i (n + 1) a b (by omega)
      (by omega), if_pos rfl]
    exact hx (i - 1) (by omega)
  obtain ⟨s, hI, _, hx1, _⟩ := simplex_true_state hd h0 h
  obtain ⟨t, ht, hnn, _⟩ := inv_point hI
  obtain ⟨r, r1, r2, r3⟩ := hI.names.pos (i + 1) (by omega) (by omega)
  have hval : x1 i = x i + t (i + 1) := by
    have := loes_spec x hI.names (i + 1) r (by omega) r1 r2 r3
    rw [← hx1] at this
    simp only [Nat.add_sub_cancel] at this
    rw [this, ht (i + 1) r (by omega) r1 r2 r3]
  have hmin := hnn (n + rsv.length + (i + 1)) (by omega) (by omega)
  rw [builder_rowval_min C1 C2 n x rsv cost hrsv hcost (i + 1) (by omega) (by omega)
    (by simpa using hx i hi) hC1 t] at hmin
  have hmax := hnn (2 * n + rsv.length + (i + 1)) (by omega) (by omega)
  rw [builder_rowval_max C1 C2 n x rsv cost hrsv hcost (i + 1) (by omega) (by omega)
    (by simpa using hx i hi) hC2 t] at hmax
  simp only [Nat.add_sub_cancel] at hmin hmax
  rw [hval]
  constructor <;> linarith

set_option maxRecDepth 100000 in
theorem simplex_respects_bounds_witness :
    ∃ g1 x1,
      simplex 10 2 7 (builder_matrix (1 / 2) 2 2 (fun i => if i = 0 then 2 else 1)
        [[2, -1, 0]] [0, 2, -1]) (fun i => if i = 0 then 2 else 1) = some (true, g1, x1) ∧
      ∀ i, i < 2 → (1 / 2 : ℚ) * (if i = 0 then 2 else 1) ≤ x1 i ∧
        x1 i ≤ 2 * (if i = 0 then 2 else 1) := by
  have hm : (simplex 10 2 7 (builder_matrix (1 / 2) 2 2 (fun i => if i = 0 then 2 else 1)
      [[2, -1, 0]] [0, 2, -1]) (fun i => if i = 0 then 2 else 1)).map (fun r => r.1)
      = some true := by decide!
  cases hs : simplex 10 2 7 (builder_matrix (1 / 2) 2 2 (fun i => if i = 0 then 2 else 1)
      [[2, -1, 0]] [0, 2, -1]) (fun i => if i = 0 then 2 else 1) with
  | none => rw [hs] at hm; cases hm
  | some r =>
    obtain ⟨b, g1, x1⟩ := r
    rw [hs] at hm
    simp only [Option.map_some', Option.some.injEq] at hm
    subst hm
    exact ⟨g1, x1, rfl, simplex_respects_bounds (1 / 2) 2 2 (fun i => if i = 0 then 2 else 1)
      [[2, -1, 0]] [0, 2, -1] 10 g1 x1 (by simp) (by simp)
      (by intro i _; simp only []; split_ifs <;> norm_num) (by norm_num) (by norm_num) hs⟩

theorem pivot_loop_mono {n m : Nat} (f : Nat) :
    ∀ (f1 : Nat) (s : State) (r : Bool × State), f ≤ f1 →
      pivot_loop f n m s = some r → pivot_loop f1 n m s = some r := by
  induction f with
  | zero => intro f1 s r _ h; simp [pivot_loop] at h
  | succ f ih =>
    intro f1 s r hle h
    obtain ⟨f2, rfl⟩ : ∃ f2, f1 = f2 + 1 := ⟨f1 - 1, by omega⟩
    unfold pivot_loop at h ⊢
    cases hit : pivot_iter n m s with
    | optimal => rw [hit] at h; simpa using h
    | infeasible => rw [hit] at h; simpa using h
    | next s2 =>
      rw [hit] at h
      exact ih f2 s2 r (by omega) h

/-- More passes allowed do not change what `simplex` returns. -/
theorem simplex_mono {n m : Nat} (f f1 : Nat) (g : Matrix) (x : Nat → ℚ)
    (r : Bool × Matrix × (Nat → ℚ)) (hle : f ≤ f1)
    (h : simplex f n m g x = some r) : simplex f1 n m g x = some r := by
  unfold simplex at h ⊢
  cases he : eliminate n m (init_state n m (transform n m x g)) with
  | none => simp [he] at h
  | some s =>
    simp only [he] at h ⊢
    cases hl : pivot_loop f n m { s with g := check_elim n m s.trans s.g } with
    | none => simp [hl] at h
    | some r1 =>
      rw [pivot_loop_mono f f1 _ r1 hle hl]
      simp only [hl] at h
      exact h

set_option maxRecDepth 100000 in
theorem example_run :
    (simplex 1 2 7 example_matrix example_idf).map (fun r => (r.1, r.2.2 0, r.2.2 1))
      = some (true, 1 / 2, 3 / 2) := by
  decide!

theorem example_run_any (fuel : Nat) :
    ∃ g1 x1, simplex (fuel + 1) 2 7 example_matrix example_idf = some (true, g1, x1) ∧
      x1 0 = 1 / 2 ∧ x1 1 = 3 / 2 := by
  have hm := example_run
  cases hs : simplex 1 2 7 example_matrix example_idf with
  | none => rw [hs] at hm; cases hm
  | some r =>
    obtain ⟨b, g1, x1⟩ := r
    rw [hs] at hm
    simp only [Option.map_some', Option.some.injEq, Prod.mk.injEq] at hm
    obtain ⟨hb, h0, h1⟩ := hm
    subst hb
    exact ⟨g1, x1, simplex_mono 1 (fuel + 1) _ _ _ (by omega) hs, h0, h1⟩

/-- C2, as stated, fails: on the worked example no return of `simplex`,
whatever the number of passes allowed, is `TRUE` with a vector `x` inside
both bands for which `x[0] - x[1] + 0.5 >= 0`. -/
theorem example_row_violated :
    ¬ ∃ fuel g1 x1, simplex fuel 2 7 example_matrix example_idf = some (true, g1, x1) ∧
      (1 / 2 : ℚ) ≤ x1 0 ∧ x1 0 ≤ 2 ∧ 1 ≤ x1 1 ∧ x1 1 ≤ 4 ∧ 0 ≤ x1 0 - x1 1 + 1 / 2 := by
  rintro ⟨fuel, g1, x1, h, _, _, _, _, hrow⟩
  obtain ⟨g2, x2, h2, a, b⟩ := example_run_any fuel
  have h3 := simplex_mono fuel (fuel + 1) _ _ _ (by omega) h
  rw [h2] at h3
  simp only [Option.some.injEq, Prod.mk.injEq, true_and] at h3
  obtain ⟨_, hx⟩ := h3
  subst hx
  rw [a, b] at hrow
  norm_num at hrow

/-- C2, amended: on the worked example `simplex`, called with `x = idf` and
allowed at least one pass of its loop, returns `TRUE` with `x = [0.5, 1.5]`;
this vector is inside both bands, `0.5 <= x[0] <= 2.0` and
`1.0 <= x[1] <= 4.0`, and the RSV row has the value
`x[0] - x[1] + 0.5 = -0.5` at it. -/
theorem example_result (fuel : Nat) :
    ∃ g1 x1, simplex (fuel + 1) 2 7 example_matrix example_idf = some (true, g1, x1) ∧
      x1 0 = 1 / 2 ∧ x1 1 = 3 / 2 ∧
      (1 / 2 : ℚ) ≤ x1 0 ∧ x1 0 ≤ 2 ∧ 1 ≤ x1 1 ∧ x1 1 ≤ 4 ∧
      x1 0 - x1 1 + 1 / 2 = - (1 / 2) := by
  obtain ⟨g1, x1, h, a, b⟩ := example_run_any fuel
  refine ⟨g1, x1, h, a, b, ?_⟩
  rw [a, b]
  norm_num

/-- One pass of the loop keeps the sizes and the feasibility of the tableau
and does not lower the cost value. -/
theorem pivot_iter_cost {n m : Nat} {s s1 : State} (hd : Dim s.g n m)
    (hF : Feasible n m s.trans s.g) (hs : pivot_iter n m s = Iter.next s1) :
    Dim s1.g n m ∧ Feasible n m s1.trans s1.g ∧ cost_value n m s ≤ cost_value n m s1 := by
  unfold pivot_iter at hs
  by_cases hq0 : (piv_search n m s.g).q = 0
  · simp [hq0] at hs
  · obtain ⟨q1, q2, q3⟩ := piv_search_spec s.g n m hq0
    by_cases hp0 : (row_search n m (piv_search n m s.g).q s.trans s.g).p = 0
    · simp [hq0, hp0] at hs
    · simp only [hq0, hp0, if_false, Iter.next.injEq] at hs
      obtain ⟨p1, p2, p3, p4, p5⟩ := row_search_spec s.g n m _ s.trans hp0
      subst hs
      obtain ⟨hd1, hE⟩ := pivot_update_elt hd _ _ p1 (by omega) q1 (by omega)
      refine ⟨hd1, feasible_exchange_neg _ _ s.trans p1 p2 q2 hE hF p3 p4 p5, ?_⟩
      unfold cost_value
      simp only []
      rw [hE (m + 1) (n + 1) (by omega) (by omega) (by omega) (by omega)]
      unfold exchange
      have e1 : ¬ m + 1 = (row_search n m (piv_search n m s.g).q s.trans s.g).p := by omega
      have e2 : ¬ n + 1 = (piv_search n m s.g).q := by omega
      simp only [e1, e2, if_false]
      have hcp := hF _ p1 p2 p3
      have hth : 0 ≤ - elt s.g (row_search n m (piv_search n m s.g).q s.trans s.g).p (n + 1)
          / elt s.g (row_search n m (piv_search n m s.g).q s.trans s.g).p
            (piv_search n m s.g).q := by
        rw [neg_div]
        have := div_nonpos_of_nonneg_of_nonpos hcp (le_of_lt p4)
        linarith
      have := mul_nonneg (le_of_lt q3) hth
      linarith

theorem pivot_run_feasible {n m : Nat} {s : State} (hd : Dim s.g n m)
    (hF : Feasible n m s.trans s.g) (j : Nat) :
    ∀ s1, pivot_run n m j s = some s1 → Dim s1.g n m ∧ Feasible n m s1.trans s1.g := by
  induction j with
  | zero =>
    intro s1 h
    simp only [pivot_run, Option.some.injEq] at h
    subst h
    exact ⟨hd, hF⟩
  | succ j ih =>
    intro s1 h
    simp only [pivot_run] at h
    cases hr : pivot_run n m j s with
    | none => simp [hr] at h
    | some s2 =>
      obtain ⟨a, b⟩ := ih s2 hr
      simp only [hr] at h
      cases hit : pivot_iter n m s2 with
      | optimal => simp [hit] at h
      | infeasible => simp [hit] at h
      | next s3 =>
        simp only [hit, Option.some.injEq] at h
        subst h
        obtain ⟨c, d, _⟩ := pivot_iter_cost a b hit
        exact ⟨c, d⟩

/-- C3: over exact arithmetic, when the loop of `simplex` is entered with a
tableau in which the constant of every row `1..m` not marked in `trans` is
`>= 0`, every pass of the loop (the pass after any number `j` of earlier
passes) leaves the cost value, the constant of row `m + 1`, greater than or
equal to its value before the pass. -/
theorem cost_nondecreasing (n m : Nat) (s : State) (hd : Dim s.g n m)
    (hF : Feasible n m s.trans s.g) (j : Nat) (s1 s2 : State)
    (h1 : pivot_run n m j s = some s1) (h2 : pivot_iter n m s1 = Iter.next s2) :
    elt s1.g (m + 1) (n + 1) ≤ elt s2.g (m + 1) (n + 1) := by
  obtain ⟨a, b⟩ := pivot_run_feasible hd hF j s1 h1
  exact (pivot_iter_cost a b h2).2.2

theorem example_state_dim : Dim example_state.g 1 3 := by
  refine ⟨rfl, rfl, ?_, ?_, ?_, ?_, rfl⟩ <;> simp [rows_ok, example_state]

set_option maxRecDepth 100000 in
theorem example_state_feasible : Feasible 1 3 example_state.trans example_state.g := by
  intro i h1 h2 _
  have : i = 1 ∨ i = 2 ∨ i = 3 := by omega
  rcases this with rfl | rfl | rfl <;> decide!

set_option maxRecDepth 100000 in
theorem cost_nondecreasing_witness :
    Dim example_state.g 1 3 ∧ Feasible 1 3 example_state.trans example_state.g ∧
    pivot_run 1 3 0 example_state = some example_state ∧
    ∃ s2, pivot_iter 1 3 example_state = Iter.next s2 ∧
      elt example_state.g (3 + 1) (1 + 1) ≤ elt s2.g (3 + 1) (1 + 1) ∧
      elt example_state.g (3 + 1) (1 + 1) = 0 ∧ elt s2.g (3 + 1) (1 + 1) = 1 := by
  refine ⟨example_state_dim, example_state_feasible, rfl, ?_⟩
  have hm : (match pivot_iter 1 3 example_state with
      | Iter.next s2 => some (elt s2.g 4 2)
      | _ => none) = some 1 := by decide!
  cases hs : pivot_iter 1 3 example_state with
  | optimal => rw [hs] at hm; cases hm
  | infeasible => rw [hs] at hm; cases hm
  | next s2 =>
    rw [hs] at hm
    simp only [Option.some.injEq] at hm
    exact ⟨s2, rfl, cost_nondecreasing 1 3 example_state example_state_dim
      example_state_feasible 0 example_state s2 rfl hs, by decide!, hm⟩

theorem naive_union_nil_right {α : Type} (compare : α → α → Int) (l1 : List α) :
    naive_union compare l1 [] = [] := by
  induction l1 with
  | nil => rfl
  | cons a l1 ih => simp [naive_union, ih]

theorem naive_union_skip_right {α : Type} (compare : α → α → Int) (l1 l2 : List α) (b : α)
    (h : ∀ a ∈ l1, compare a b ≠ 0) :
    naive_union compare l1 (b :: l2) = naive_union compare l1 l2 := by
  induction l1 with
  | nil => rfl
  | cons a l1 ih =>
    have h1 : compare a b ≠ 0 := h a (List.mem_cons_self _ _)
    have h2 := ih (fun a1 ha => h a1 (List.mem_cons_of_mem _ ha))
    simp [naive_union, h1, h2]

/-- The co-scan of `find_union` on two arrays sorted by a key that `compare`
follows visits the pairs of the double loop, in its order. -/
theorem find_union_loop_eq {α σ : Type} (key : α → Int) (compare : α → α → Int)
    (call : α → α → σ → Bool × σ) :
    ∀ (l1 l2 : List α) (s : σ),
      l1.Pairwise (fun a b => key a < key b) → l2.Pairwise (fun a b => key a < key b) →
      (∀ a ∈ l1, ∀ b ∈ l2, (compare a b < 0 ↔ key a < key b) ∧
        (0 < compare a b ↔ key b < key a)) →
      (∀ a ∈ l1, ∀ b ∈ l2, compare a b = 0 → ∀ s, (call a b s).1 = true) →
      find_union_loop compare call l1 l2 s
        = (true, (naive_union compare l1 l2).foldl (fun s p => (call p.1 p.2 s).2) s) := by
  intro l1
  induction l1 with
  | nil =>
    intro l2 s _ _ _ _
    simp [find_union_loop, naive_union]
  | cons a l1 ihA =>
    intro l2
    induction l2 with
    | nil =>
      intro s _ _ _ _
      simp [find_union_loop, naive_union_nil_right]
    | cons b l2 ihB =>
      intro s h1 h2 hc hcall
      have h1' := List.pairwise_cons.mp h1
      have h2' := List.pairwise_cons.mp h2
      have hab := hc a (List.mem_cons_self _ _) b (List.mem_cons_self _ _)
      rw [find_union_loop]
      simp only []
      by_cases c1 : compare a b < 0
      · rw [if_pos c1]
        rw [ihA (b :: l2) s h1'.2 h2
          (fun a1 ha b1 hb => hc a1 (List.mem_cons_of_mem _ ha) b1 hb)
          (fun a1 ha b1 hb => hcall a1 (List.mem_cons_of_mem _ ha) b1 hb)]
        have hf : (b :: l2).filter (fun b1 => compare a b1 = 0) = [] := by
          rw [List.filter_eq_nil_iff]
          intro b1 hb1
          have hk : key a < key b1 := by
            rcases List.mem_cons.mp hb1 with e | e
            · rw [e]; exact hab.1.mp c1
            · exact lt_trans (hab.1.mp c1) (h2'.1 b1 e)
          have := (hc a (List.mem_cons_self _ _) b1 hb1).1.mpr hk
          simp only [decide_eq_true_eq]
          omega
        rw [naive_union, hf]
        rfl
      · rw [if_neg c1]
        by_cases c2 : compare a b > 0
        · rw [if_pos c2]
          rw [ihB s h1 h2'.2
            (fun a1 ha b1 hb => hc a1 ha b1 (List.mem_cons_of_mem _ hb))
            (fun a1 ha b1 hb => hcall a1 ha b1 (List.mem_cons_of_mem _ hb))]
          have hskip : ∀ a1 ∈ a :: l1, compare a1 b ≠ 0 := by
            intro a1 ha1
            have hk : key b < key a1 := by
              rcases List.mem_cons.mp ha1 with e | e
              · rw [e]; exact hab.2.mp c2
              · exact lt_trans (hab.2.mp c2) (h1'.1 a1 e)
            have := (hc a1 ha1 b (List.mem_cons_self _ _)).2.mpr hk
            omega
          rw [naive_union_skip_right compare (a :: l1) l2 b hskip]
        · rw [if_neg c2]
          have c0 : compare a b = 0 := by omega
          have hk : key a = key b := by
            have n1 : ¬ key a < key b := fun h => c1 (hab.1.mpr h)
            have n2 : ¬ key b < key a := fun h => c2 (hab.2.mpr h)
            omega
          rw [hcall a (List.mem_cons_self _ _) b (List.mem_cons_self _ _) c0 s]
          simp only [if_true]
          rw [ihA l2 _ h1'.2 h2'.2
            (fun a1 ha b1 hb => hc a1 (List.mem_cons_of_mem _ ha) b1 (List.mem_cons_of_mem _ hb))
            (fun a1 ha b1 hb =>
              hcall a1 (List.mem_cons_of_mem _ ha) b1 (List.mem_cons_of_mem _ hb))]
          have hf : l2.filter (fun b1 => compare a b1 = 0) = [] := by
            rw [List.filter_eq_nil_iff]
            intro b1 hb1
            have hk1 : key a < key b1 := by rw [hk]; exact h2'.1 b1 hb1
            have := (hc a (List.mem_cons_self _ _) b1 (List.mem_cons_of_mem _ hb1)).1.mpr hk1
            simp only [decide_eq_true_eq]
            omega
          have hskip : ∀ a1 ∈ l1, compare a1 b ≠ 0 := by
            intro a1 ha1
            have hk1 : key b < key a1 := by rw [← hk]; exact h1'.1 a1 ha1
            have := (hc a1 (List.mem_cons_of_mem _ ha1) b (List.mem_cons_self _ _)).2.mpr hk1
            omega
          rw [naive_union, List.filter_cons, hf, naive_union_skip_right compare l1 l2 b hskip]
          simp [c0]

theorem mem_naive_union {α : Type} (compare : α → α → Int) (l1 l2 : List α) (a b : α) :
    (a, b) ∈ naive_union compare l1 l2 ↔ a ∈ l1 ∧ b ∈ l2 ∧ compare a b = 0 := by
  induction l1 with
  | nil => simp [naive_union]
  | cons a1 l1 ih =>
    simp only [naive_union, List.mem_append, List.mem_map, List.mem_filter,
      decide_eq_true_eq, Prod.mk.injEq, ih, List.mem_cons]
    constructor
    · rintro (⟨b1, ⟨hb, hc⟩, rfl, rfl⟩ | ⟨h1, h2, h3⟩)
      · exact ⟨Or.inl rfl, hb, hc⟩
      · exact ⟨Or.inr h1, h2, h3⟩
    · rintro ⟨rfl | h1, h2, h3⟩
      · exact Or.inl ⟨b, ⟨h2, h3⟩, rfl, rfl⟩
      · exact Or.inr ⟨h1, h2, h3⟩

theorem naive_union_fst_mem {α : Type} (compare : α → α → Int) (l1 l2 : List α)
    (p : α × α) (h : p ∈ naive_union compare l1 l2) : p.1 ∈ l1 := by
  obtain ⟨a, b⟩ := p
  exact ((mem_naive_union compare l1 l2 a b).mp h).1

theorem naive_union_sorted {α : Type} (key : α → Int) (compare : α → α → Int)
    (l1 l2 : List α)
    (hc : ∀ a ∈ l1, ∀ b ∈ l2, compare a b = 0 → key a = key b)
    (h1 : l1.Pairwise (fun a b => key a < key b))
    (h2 : l2.Pairwise (fun a b => key a < key b)) :
    (naive_union compare l1 l2).Pairwise (fun p q => key p.1 < key q.1) := by
  induction l1 with
  | nil => simp [naive_union]
  | cons a l1 ih =>
    have h1' := List.pairwise_cons.mp h1
    rw [naive_union, List.pairwise_append]
    refine ⟨?_, ih (fun a1 ha b hb => hc a1 (List.mem_cons_of_mem _ ha) b hb) h1'.2, ?_⟩
    · rw [List.pairwise_map]
      have hf := List.Pairwise.filter (fun b => decide (compare a b = 0)) h2
      refine List.Pairwise.imp_of_mem ?_ hf
      intro x y hx hy hxy
      rw [List.mem_filter] at hx hy
      have e1 := hc a (List.mem_cons_self _ _) x hx.1 (by simpa using hx.2)
      have e2 := hc a (List.mem_cons_self _ _) y hy.1 (by simpa using hy.2)
      omega
    · intro p hp q hq
      rw [List.mem_map] at hp
      obtain ⟨b, _, rfl⟩ := hp
      exact h1'.1 q.1 (naive_union_fst_mem compare l1 l2 q hq)

/-- C4: for two lists strictly ascending under a comparator that follows
integer keys and a callback that always returns `TRUE`, `find_union` returns
`TRUE` and leaves the state that results from calling `call (a, b)` on the
pairs of the naive double loop over the two arrays, in the order of that
loop; these pairs are the pairs `a` from the first and `b` from the second
list that compare equal, and they come in strictly ascending key order, so
each key of both lists is visited exactly once. -/
theorem find_union_naive {α σ : Type} (key : α → Int) (compare : α → α → Int)
    (call : α → α → σ → Bool × σ) (list1 list2 : LIST α) (s : σ)
    (hcmp : ∀ a b, (compare a b < 0 ↔ key a < key b) ∧ (0 < compare a b ↔ key b < key a))
    (h1 : list1.array.Pairwise (fun a b => compare a b < 0))
    (h2 : list2.array.Pairwise (fun a b => compare a b < 0))
    (hcall : ∀ a b s, (call a b s).1 = true) :
    find_union list1 list2 compare call s
      = (true, (naive_union compare list1.array list2.array).foldl
          (fun s p => (call p.1 p.2 s).2) s) ∧
    (∀ a b, (a, b) ∈ naive_union compare list1.array list2.array ↔
      a ∈ list1.array ∧ b ∈ list2.array ∧ compare a b = 0) ∧
    (naive_union compare list1.array list2.array).Pairwise
      (fun p q => compare p.1 q.1 < 0) := by
  have k1 : list1.array.Pairwise (fun a b => key a < key b) :=
    h1.imp (fun {a b} h => (hcmp a b).1.mp h)
  have k2 : list2.array.Pairwise (fun a b => key a < key b) :=
    h2.imp (fun {a b} h => (hcmp a b).1.mp h)
  refine ⟨?_, mem_naive_union compare _ _, ?_⟩
  · unfold find_union
    exact find_union_loop_eq key compare call _ _ s k1 k2
      (fun a _ b _ => hcmp a b) (fun a _ b _ _ s => hcall a b s)
  · have hs := naive_union_sorted key compare list1.array list2.array
      (fun a _ b _ h0 => by
        have n1 : ¬ key a < key b := fun h => by have := (hcmp a b).1.mpr h; omega
        have n2 : ¬ key b < key a := fun h => by have := (hcmp a b).2.mpr h; omega
        omega) k1 k2
    exact hs.imp (fun {p q} h => (hcmp p.1 q.1).1.mpr h)

theorem find_union_naive_witness :
    (∀ a b : Int, (a - b < 0 ↔ a < b) ∧ (0 < a - b ↔ b < a)) ∧
    ([1, 3, 5, 7] : List Int).Pairwise (fun a b => a - b < 0) ∧
    ([2, 3, 4, 7, 8] : List Int).Pairwise (fun a b => a - b < 0) ∧
    find_union (σ := List (Int × Int)) ⟨[1, 3, 5, 7], 11⟩ ⟨[2, 3, 4, 7, 8], 11⟩
      (fun a b => a - b) (fun a b s => (true, s ++ [(a, b)])) []
      = (true, [(3, 3), (7, 7)]) := by
  have hc : ∀ a b : Int, (a - b < 0 ↔ a < b) ∧ (0 < a - b ↔ b < a) := by
    intro a b; constructor <;> constructor <;> intro h <;> omega
  have p1 : ([1, 3, 5, 7] : List Int).Pairwise (fun a b => a - b < 0) := by decide
  have p2 : ([2, 3, 4, 7, 8] : List Int).Pairwise (fun a b => a - b < 0) := by decide
  refine ⟨hc, p1, p2, ?_⟩
  have h := (find_union_naive (σ := List (Int × Int)) (fun a => a) (fun a b => a - b)
    (fun a b s => (true, s ++ [(a, b)])) ⟨[1, 3, 5, 7], 11⟩ ⟨[2, 3, 4, 7, 8], 11⟩ []
    hc p1 p2 (fun _ _ _ => rfl)).1
  rw [h]
  decide

theorem pairwise_getElem? {α : Type} {R : α → α → Prop} {l : List α} (h : l.Pairwise R)
    {i j : Nat} {x y : α} (hi : l[i]? = some x) (hj : l[j]? = some y) (hij : i < j) :
    R x y := by
  rw [List.pairwise_iff_getElem] at h
  obtain ⟨hi1, rfl⟩ := List.getElem?_eq_some_iff.mp hi
  obtain ⟨hj1, rfl⟩ := List.getElem?_eq_some_iff.mp hj
  exact h i j hi1 hj1 hij

/-- What `binary_search` returns on an array sorted by a key that `comp`
follows. -/
theorem binary_search_loop_spec {α : Type} (key : α → Int) (array : List α) (e : α)
    (comp : α → α → Int)
    (hs : array.Pairwise (fun a b => key a < key b))
    (hc : ∀ x ∈ array, (comp e x < 0 ↔ key e < key x) ∧ (0 < comp e x ↔ key x < key e)) :
    ∀ (d : Nat) (low high : Int), (high + 1 - low).toNat = d →
      0 ≤ low → high < array.length → low ≤ high + 1 →
      (∀ (i : Nat) x, array[i]? = some x → (i : Int) < low → key x < key e) →
      (∀ (i : Nat) x, array[i]? = some x → high < (i : Int) → key e < key x) →
      (binary_search_loop array e comp low high < 0 ∧
        ∃ x, array[(- binary_search_loop array e comp low high - 1).toNat]? = some x ∧
          key x = key e) ∨
      (0 ≤ binary_search_loop array e comp low high ∧
        binary_search_loop array e comp low high ≤ array.length ∧
        (∀ (i : Nat) x, array[i]? = some x → (i : Int) < binary_search_loop array e comp low high →
          key x < key e) ∧
        (∀ (i : Nat) x, array[i]? = some x → binary_search_loop array e comp low high ≤ (i : Int) →
          key e < key x)) := by
  intro d
  induction d using Nat.strong_induction_on with
  | _ d ih =>
    intro low high hd h0 hh hle hlo hhi
    rw [binary_search_loop]
    by_cases c : low ≤ high
    · rw [if_pos c]
      simp only []
      have hm1 : low ≤ (low + high) / 2 := by omega
      have hm2 : (low + high) / 2 ≤ high := by omega
      have hlt : ((low + high) / 2).toNat < array.length := by omega
      have hget : array[((low + high) / 2).toNat]? = some array[((low + high) / 2).toNat] :=
        List.getElem?_eq_getElem hlt
      rw [hget]
      simp only []
      have hmem : array[((low + high) / 2).toNat] ∈ array := List.getElem_mem _
      have hcm := hc _ hmem
      by_cases c1 : comp e array[((low + high) / 2).toNat] < 0
      · rw [if_pos c1]
        refine ih _ ?_ low ((low + high) / 2 - 1) rfl h0 (by omega) (by omega) hlo ?_
        · omega
        · intro i x hx hi
          by_cases e1 : i = ((low + high) / 2).toNat
          · subst e1
            rw [hget] at hx
            cases hx
            exact hcm.1.mp c1
          · have := pairwise_getElem? hs hget hx (by omega)
            exact lt_trans (hcm.1.mp c1) this
      · rw [if_neg c1]
        by_cases c2 : comp e array[((low + high) / 2).toNat] > 0
        · rw [if_pos c2]
          refine ih _ ?_ ((low + high) / 2 + 1) high rfl (by omega) hh (by omega) ?_ hhi
          · omega
          · intro i x hx hi
            by_cases e1 : i = ((low + high) / 2).toNat
            · subst e1
              rw [hget] at hx
              cases hx
              exact hcm.2.mp c2
            · have := pairwise_getElem? hs hx hget (by omega)
              exact lt_trans this (hcm.2.mp c2)
        · rw [if_neg c2]
          left
          refine ⟨by omega, array[((low + high) / 2).toNat], ?_, ?_⟩
          · have : (- (- ((low + high) / 2) - 1) - 1).toNat = ((low + high) / 2).toNat := by
              omega
            rw [this, hget]
          · have n1 : ¬ key e < key array[((low + high) / 2).toNat] :=
              fun h => c1 (hcm.1.mpr h)
            have n2 : ¬ key array[((low + high) / 2).toNat] < key e :=
              fun h => c2 (hcm.2.mpr h)
            omega
    · rw [if_neg c]
      right
      refine ⟨h0, by omega, hlo, ?_⟩
      intro i x hx hi
      exact hhi i x hx (by omega)

theorem mem_take_index {α : Type} (l : List α) (r : Nat) (x : α) (h : x ∈ l.take r) :
    ∃ i, i < r ∧ l[i]? = some x := by
  obtain ⟨i, hi⟩ := List.mem_iff_getElem?.mp h
  rw [List.getElem?_take] at hi
  by_cases c : i < r
  · rw [if_pos c] at hi
    exact ⟨i, c, hi⟩
  · rw [if_neg c] at hi
    cases hi

theorem mem_drop_index {α : Type} (l : List α) (r : Nat) (x : α) (h : x ∈ l.drop r) :
    ∃ i, r ≤ i ∧ l[i]? = some x := by
  obtain ⟨i, hi⟩ := List.mem_iff_getElem?.mp h
  rw [List.getElem?_drop] at hi
  exact ⟨r + i, by omega, hi⟩

/-- What `add` does on a list sorted by a key that `comp` follows. -/
theorem add_spec {α : Type} (key : α → Int) (list : LIST α) (e : α) (comp : α → α → Int)
    (enter : Bool)
    (hs : list.array.Pairwise (fun a b => key a < key b))
    (hc : ∀ x ∈ list.array, (comp e x < 0 ↔ key e < key x) ∧ (0 < comp e x ↔ key x < key e)) :
    (∃ i x, list.array[i]? = some x ∧ key x = key e ∧ add list e comp enter = (list, some i)) ∨
    ((∀ x ∈ list.array, key x ≠ key e) ∧
      ((enter = false ∧ add list e comp enter = (list, none)) ∨
       (enter = true ∧ ∃ r, r ≤ list.array.length ∧
          (∀ x ∈ list.array.take r, key x < key e) ∧
          (∀ x ∈ list.array.drop r, key e < key x) ∧
          add list e comp enter =
            ({ array := list.array.take r ++ e :: list.array.drop r,
               total := if list.array.length ≥ list.total then list.total + 10
                        else list.total }, some r)))) := by
  have hb := binary_search_loop_spec key list.array e comp hs hc _ 0
    ((list.array.length : Int) - 1) rfl (le_refl _) (by omega) (by omega)
    (fun i x _ hi => by omega) (fun i x hx hi => by
      have := (List.getElem?_eq_some_iff.mp hx).1
      omega)
  unfold add binary_search
  simp only []
  rcases hb with ⟨h1, x, h2, h3⟩ | ⟨h1, h2, h3, h4⟩
  · left
    exact ⟨_, x, h2, h3, by rw [if_pos h1]⟩
  · right
    have hlo : ∀ x ∈ list.array.take
        (binary_search_loop list.array e comp 0 ((list.array.length : Int) - 1)).toNat,
        key x < key e := by
      intro x hx
      obtain ⟨i, hi, hx⟩ := mem_take_index _ _ _ hx
      exact h3 i x hx (by omega)
    have hhi : ∀ x ∈ list.array.drop
        (binary_search_loop list.array e comp 0 ((list.array.length : Int) - 1)).toNat,
        key e < key x := by
      intro x hx
      obtain ⟨i, hi, hx⟩ := mem_drop_index _ _ _ hx
      exact h4 i x hx (by omega)
    have hne : ∀ x ∈ list.array, key x ≠ key e := by
      intro x hx
      rw [← List.take_append_drop
        (binary_search_loop list.array e comp 0 ((list.array.length : Int) - 1)).toNat
        list.array] at hx
      rcases List.mem_append.mp hx with h | h
      · have := hlo x h; omega
      · have := hhi x h; omega
    refine ⟨hne, ?_⟩
    rw [if_neg (by omega)]
    cases enter with
    | false => left; exact ⟨rfl, by simp⟩
    | true =>
      right
      refine ⟨rfl, _, by omega, hlo, hhi, ?_⟩
      simp

theorem lookup_list_spec {α : Type} (key : α → Int) (list : LIST α) (e : α)
    (comp : α → α → Int)
    (hs : list.array.Pairwise (fun a b => key a < key b))
    (hc : ∀ x ∈ list.array, (comp e x < 0 ↔ key e < key x) ∧ (0 < comp e x ↔ key x < key e)) :
    (∃ x ∈ list.array, key x = key e ∧ lookup_list list e comp = some x) ∨
    ((∀ x ∈ list.array, key x ≠ key e) ∧ lookup_list list e comp = none) := by
  unfold lookup_list
  rcases add_spec key list e comp false hs hc with ⟨i, x, h1, h2, h3⟩ | ⟨h1, h2⟩
  · left
    refine ⟨x, List.mem_iff_getElem?.mpr ⟨i, h1⟩, h2, ?_⟩
    rw [h3]
    exact h1
  · right
    refine ⟨h1, ?_⟩
    rcases h2 with ⟨_, h3⟩ | ⟨h3, _⟩
    · rw [h3]
    · cases h3

theorem wrap32_small (a b : Int) (ha : small a) (hb : small b) : wrap32 (a - b) = a - b := by
  unfold small at ha hb
  unfold wrap32
  omega

theorem comp_small (a b : Int) (ha : small a) (hb : small b) :
    (wrap32 (a - b) < 0 ↔ a < b) ∧ (0 < wrap32 (a - b) ↔ b < a) := by
  rw [wrap32_small a b ha hb]
  constructor <;> constructor <;> intro h <;> omega

/-- What `matrix_index` returns on a well-formed `atom_list`. -/
theorem matrix_index_spec (G : Globals) (hG : ListsOK G) (a : Int) (ha : small a) :
    (∃ e ∈ G.atom_list.array, e.atom = a ∧ matrix_index G.atom_list a = e.mat_index) ∨
    ((∀ e ∈ G.atom_list.array, e.atom ≠ a) ∧ matrix_index G.atom_list a = -1) := by
  unfold matrix_index
  rcases lookup_list_spec (fun e : ATOM_STRUCT => e.atom) G.atom_list
      { atom := a, mat_index := 0 } comp_atom hG.atoms_sorted
      (fun x hx => comp_small a x.atom ha (hG.atoms_small x hx)) with
    ⟨x, h1, h2, h3⟩ | ⟨h1, h2⟩
  · left
    exact ⟨x, h1, h2, by rw [h3]⟩
  · right
    exact ⟨h1, by rw [h2]⟩

theorem matrix_index_ne (G : Globals) (hG : ListsOK G) (a : Int) (ha : small a)
    (h : matrix_index G.atom_list a ≠ -1) :
    ∃ e ∈ G.atom_list.array, e.atom = a ∧ matrix_index G.atom_list a = e.mat_index ∧
      0 ≤ e.mat_index ∧ e.mat_index < (G.num_weights : Int) := by
  rcases matrix_index_spec G hG a ha with ⟨e, h1, h2, h3⟩ | ⟨_, h2⟩
  · exact ⟨e, h1, h2, h3, hG.cols e h1⟩
  · exact absurd h2 h

theorem union_proc_col (G : Globals) (a1 a2 : WGT_STRUCT) (st : RsvState)
    (he : a1.d_atom = a2.d_atom) (hc : matrix_index G.atom_list a1.d_atom ≠ -1) :
    union_proc G a1 a2 st = (true,
      { glob_v := st.glob_v.set (matrix_index G.atom_list a1.d_atom).toNat (a1.weight * a2.weight)
        glob_const := st.glob_const
        glob_bool := if a1.weight * a2.weight ≠ 0 then true else st.glob_bool
        failed := st.failed }) := by
  unfold union_proc
  have : ¬ a1.d_atom ≠ a2.d_atom := by simpa using he
  rw [if_neg this]
  simp only []
  rw [if_pos hc]
  by_cases hp : a1.weight * a2.weight ≠ 0
  · simp only [hp, if_true, ne_eq, not_false_eq_true]
  · simp only [hp, if_false]

theorem union_proc_unused (G : Globals) (a1 a2 : WGT_STRUCT) (st : RsvState)
    (he : a1.d_atom = a2.d_atom) (hc : matrix_index G.atom_list a1.d_atom = -1)
    (u : IDF_STRUCT)
    (hu : lookup_list G.unused_wgts { u_atom := a1.d_atom, idf := 0 } comp_unused = some u) :
    union_proc G a1 a2 st = (true,
      { glob_v := st.glob_v
        glob_const := st.glob_const + a1.weight * a2.weight * idf_of G a1.d_atom
        glob_bool := st.glob_bool
        failed := st.failed }) := by
  unfold union_proc idf_of
  have : ¬ a1.d_atom ≠ a2.d_atom := by simpa using he
  rw [if_neg this]
  simp only []
  have : ¬ matrix_index G.atom_list a1.d_atom ≠ -1 := by simpa using hc
  rw [if_neg this, hu]

/-- The state after the calls of `union_proc` on a list of pairs of equal,
pairwise different concepts. -/
theorem union_fold_spec (G : Globals) (hG : ListsOK G)
    (ps : List (WGT_STRUCT × WGT_STRUCT)) (st : RsvState)
    (heq : ∀ p ∈ ps, p.1.d_atom = p.2.d_atom) (hsm : ∀ p ∈ ps, small p.1.d_atom)
    (hun : ∀ p ∈ ps, rsv_col G p = -1 →
      ∃ u, lookup_list G.unused_wgts { u_atom := p.1.d_atom, idf := 0 } comp_unused = some u)
    (hsort : ps.Pairwise (fun p q => p.1.d_atom < q.1.d_atom))
    (hlen : G.num_weights < st.glob_v.length) :
    (ps.foldl (fun s p => (union_proc G p.1 p.2 s).2) st).failed = st.failed ∧
    (ps.foldl (fun s p => (union_proc G p.1 p.2 s).2) st).glob_v.length = st.glob_v.length ∧
    (∀ p ∈ ps, rsv_col G p ≠ -1 →
      (ps.foldl (fun s p => (union_proc G p.1 p.2 s).2) st).glob_v.getD (rsv_col G p).toNat 0
        = rsv_prod p) ∧
    (∀ k, (∀ p ∈ ps, rsv_col G p = -1 ∨ (rsv_col G p).toNat ≠ k) →
      (ps.foldl (fun s p => (union_proc G p.1 p.2 s).2) st).glob_v.getD k 0
        = st.glob_v.getD k 0) ∧
    (ps.foldl (fun s p => (union_proc G p.1 p.2 s).2) st).glob_const
      = st.glob_const + ((ps.filter (fun p => rsv_col G p = -1)).map
          (fun p => rsv_prod p * idf_of G p.1.d_atom)).sum ∧
    ((ps.foldl (fun s p => (union_proc G p.1 p.2 s).2) st).glob_bool = true ↔
      st.glob_bool = true ∨ ∃ p ∈ ps, rsv_col G p ≠ -1 ∧ rsv_prod p ≠ 0) := by
  induction ps using List.reverseRecOn with
  | nil => simp
  | append_singleton l a ih =>
    have hsort' := List.pairwise_append.mp hsort
    obtain ⟨i1, i2, i3, i4, i5, i6⟩ := ih
      (fun p hp => heq p (List.mem_append_left _ hp))
      (fun p hp => hsm p (List.mem_append_left _ hp))
      (fun p hp => hun p (List.mem_append_left _ hp)) hsort'.1
    have ha : a ∈ l ++ [a] := List.mem_append_right _ (List.mem_singleton_self a)
    rw [List.foldl_append]
    simp only [List.foldl_cons, List.foldl_nil]
    by_cases hc : rsv_col G a ≠ -1
    · obtain ⟨e, he1, he2, he3, he4, he5⟩ := matrix_index_ne G hG a.1.d_atom (hsm a ha) hc
      rw [union_proc_col G a.1 a.2 _ (heq a ha) hc]
      simp only []
      have hcol : (rsv_col G a).toNat < (List.foldl (fun s p => (union_proc G p.1 p.2 s).2)
          st l).glob_v.length := by
        rw [i2]
        unfold rsv_col
        omega
      refine ⟨i1, by rw [List.length_set, i2], ?_, ?_, ?_, ?_⟩
      · intro p hp hpc
        rcases List.mem_append.mp hp with h | h
        · have hne : (matrix_index G.atom_list a.1.d_atom).toNat ≠ (rsv_col G p).toNat := by
            intro hh
            obtain ⟨e1, f1, f2, f3, f4, f5⟩ :=
              matrix_index_ne G hG p.1.d_atom (hsm p (List.mem_append_left _ h)) hpc
            have hn : e.mat_index = e1.mat_index := by
              unfold rsv_col at hh
              omega
            have := hG.cols_inj e he1 e1 f1 hn
            have hlt := hsort'.2.2 p h a (List.mem_singleton_self a)
            omega
          rw [List.getD_eq_getElem?_getD, List.getElem?_set_ne hne,
            ← List.getD_eq_getElem?_getD]
          exact i3 p h hpc
        · rw [List.mem_singleton] at h
          subst h
          rw [List.getD_eq_getElem?_getD]
          unfold rsv_col at hcol ⊢
          rw [List.getElem?_set_self hcol]
          rfl
      · intro k hk
        have hne : (matrix_index G.atom_list a.1.d_atom).toNat ≠ k := by
          rcases hk a ha with h | h
          · exact absurd h hc
          · exact h
        rw [List.getD_eq_getElem?_getD, List.getElem?_set_ne hne,
          ← List.getD_eq_getElem?_getD]
        exact i4 k (fun p hp => hk p (List.mem_append_left _ hp))
      · rw [i5, List.filter_append]
        have : [a].filter (fun p => decide (rsv_col G p = -1)) = [] := by
          simp [hc]
        rw [this, List.append_nil]
      · by_cases hp0 : a.1.weight * a.2.weight ≠ 0
        · simp only [hp0, if_true, ne_eq, not_false_eq_true, true_iff]
          right
          exact ⟨a, ha, hc, hp0⟩
        · simp only [hp0, if_false]
          rw [i6]
          constructor
          · rintro (h | ⟨p, hp, h1, h2⟩)
            · exact Or.inl h
            · exact Or.inr ⟨p, List.mem_append_left _ hp, h1, h2⟩
          · rintro (h | ⟨p, hp, h1, h2⟩)
            · exact Or.inl h
            · rcases List.mem_append.mp hp with h | h
              · exact Or.inr ⟨p, h, h1, h2⟩
              · rw [List.mem_singleton] at h
                subst h
                exact absurd h2 hp0
    · have hc' : rsv_col G a = -1 := by
        by_contra h
        exact hc h
      obtain ⟨u, hu⟩ := hun a ha hc'
      rw [union_proc_unused G a.1 a.2 _ (heq a ha) hc' u hu]
      simp only []
      refine ⟨i1, i2, ?_, ?_, ?_, ?_⟩
      · intro p hp hpc
        rcases List.mem_append.mp hp with h | h
        · exact i3 p h hpc
        · rw [List.mem_singleton] at h
          subst h
          exact absurd hc' hpc
      · intro k hk
        exact i4 k (fun p hp => hk p (List.mem_append_left _ hp))
      · rw [i5, List.filter_append]
        have : [a].filter (fun p => decide (rsv_col G p = -1)) = [a] := by
          simp [hc']
        rw [this, List.map_append, List.sum_append]
        simp [rsv_prod, add_assoc]
      · rw [i6]
        constructor
        · rintro (h | ⟨p, hp, h1, h2⟩)
          · exact Or.inl h
          · exact Or.inr ⟨p, List.mem_append_left _ hp, h1, h2⟩
        · rintro (h | ⟨p, hp, h1, h2⟩)
          · exact Or.inl h
          · rcases List.mem_append.mp hp with h | h
            · exact Or.inr ⟨p, h, h1, h2⟩
            · rw [List.mem_singleton] at h
              subst h
              exact absurd hc' h1

theorem alloc_vector_getD (n k : Nat) : (alloc_vector n).getD k 0 = 0 := by
  unfold alloc_vector
  rw [List.getD_eq_getElem?_getD, List.getElem?_replicate]
  split_ifs <;> rfl

theorem comp_wgt_zero (a b : WGT_STRUCT) (ha : small a.d_atom) (hb : small b.d_atom)
    (h : comp_wgt a b = 0) : a.d_atom = b.d_atom := by
  unfold comp_wgt at h
  rw [wrap32_small _ _ ha hb] at h
  omega

theorem shared_props (q d : DOC_STRUCT) (hq : vector_ok q) (hd : vector_ok d) :
    (∀ p ∈ shared q d, p.1 ∈ q.docatoms.array ∧ p.2 ∈ d.docatoms.array ∧
      p.1.d_atom = p.2.d_atom ∧ small p.1.d_atom) ∧
    (shared q d).Pairwise (fun p r => p.1.d_atom < r.1.d_atom) := by
  constructor
  · intro p hp
    obtain ⟨a, b⟩ := p
    obtain ⟨h1, h2, h3⟩ := (mem_naive_union comp_wgt _ _ a b).mp hp
    exact ⟨h1, h2, comp_wgt_zero a b (hq.2 a h1) (hd.2 b h2) h3, hq.2 a h1⟩
  · exact naive_union_sorted (fun a : WGT_STRUCT => a.d_atom) comp_wgt _ _
      (fun a ha b hb h => comp_wgt_zero a b (hq.2 a ha) (hd.2 b hb) h) hq.1 hd.1

/-- The run of `find_union` inside `calc_rsv`. -/
theorem calc_rsv_union (G : Globals) (q d : DOC_STRUCT)
    (hqv : vector_ok q) (hdv : vector_ok d)
    (hun : ∀ p ∈ shared q d, rsv_col G p = -1 →
      ∃ u, lookup_list G.unused_wgts { u_atom := p.1.d_atom, idf := 0 } comp_unused = some u)
    (st : RsvState) :
    find_union q.docatoms d.docatoms comp_wgt (union_proc G) st
      = (true, (shared q d).foldl (fun s p => (union_proc G p.1 p.2 s).2) st) := by
  unfold find_union shared
  apply find_union_loop_eq (fun a : WGT_STRUCT => a.d_atom) comp_wgt (union_proc G) _ _ st
    hqv.1 hdv.1
  · intro a ha b hb
    exact comp_small a.d_atom b.d_atom (hqv.2 a ha) (hdv.2 b hb)
  · intro a ha b hb h0 s
    have he := comp_wgt_zero a b (hqv.2 a ha) (hdv.2 b hb) h0
    by_cases hc : matrix_index G.atom_list a.d_atom ≠ -1
    · rw [union_proc_col G a b s he hc]
    · have hc' : matrix_index G.atom_list a.d_atom = -1 := by
        by_contra h
        exact hc h
      have hm : (a, b) ∈ shared q d := (mem_naive_union comp_wgt _ _ a b).mpr ⟨ha, hb, h0⟩
      obtain ⟨u, hu⟩ := hun (a, b) hm hc'
      rw [union_proc_unused G a b s he hc' u hu]

/-- C5: for a query vector and a document vector that are sorted weight
lists, on well-formed `atom_list` and `unused_wgts` that hold an IDF for
every shared concept without a column, `calc_rsv` with a zero-initialised
`v` returns; afterwards `v` holds `weightQuery * weightDoc` at the column of
every shared concept that has a column and zero at every other place, `c` is
the sum of `weightQuery * weightDoc * idf` over the shared concepts without
a column, and the returned `BOOL` is `TRUE` iff some entry of `v` is not
zero.  For a vector against itself the entry at the column of each of its
optimized concepts is the square of its weight. -/
theorem calc_rsv_spec (G : Globals) (hG : ListsOK G) (d1 d2 : Int) (q d : DOC_STRUCT)
    (hq : lookup_list G.doc_list { index := d1, docatoms := create_list } comp_doc = some q)
    (hd : lookup_list G.doc_list { index := d2, docatoms := create_list } comp_doc = some d)
    (hqv : vector_ok q) (hdv : vector_ok d)
    (hun : ∀ p ∈ shared q d, rsv_col G p = -1 →
      ∃ u, lookup_list G.unused_wgts { u_atom := p.1.d_atom, idf := 0 } comp_unused = some u) :
    ∃ b v1 c, calc_rsv G d1 d2 (alloc_vector G.num_weights) = some (b, v1, c) ∧
      (∀ p ∈ shared q d, rsv_col G p ≠ -1 →
        v1.getD (rsv_col G p).toNat 0 = p.1.weight * p.2.weight) ∧
      (∀ k, (∀ p ∈ shared q d, rsv_col G p = -1 ∨ (rsv_col G p).toNat ≠ k) →
        v1.getD k 0 = 0) ∧
      c = (((shared q d).filter (fun p => rsv_col G p = -1)).map
        (fun p => p.1.weight * p.2.weight * idf_of G p.1.d_atom)).sum ∧
      (b = true ↔ ∃ k, v1.getD k 0 ≠ 0) ∧
      (d2 = d1 → ∀ a ∈ q.docatoms.array, matrix_index G.atom_list a.d_atom ≠ -1 →
        v1.getD (matrix_index G.atom_list a.d_atom).toNat 0 = a.weight ^ 2) := by
  obtain ⟨sp, ssort⟩ := shared_props q d hqv hdv
  obtain ⟨f1, f2, f3, f4, f5, f6⟩ := union_fold_spec G hG (shared q d)
    { glob_v := alloc_vector G.num_weights, glob_const := 0, glob_bool := false,
      failed := false }
    (fun p hp => (sp p hp).2.2.1) (fun p hp => (sp p hp).2.2.2) hun ssort
    (by simp [alloc_vector])
  have hrun : calc_rsv G d1 d2 (alloc_vector G.num_weights)
      = some (((shared q d).foldl (fun s p => (union_proc G p.1 p.2 s).2)
          { glob_v := alloc_vector G.num_weights, glob_const := 0, glob_bool := false,
            failed := false }).glob_bool,
        ((shared q d).foldl (fun s p => (union_proc G p.1 p.2 s).2)
          { glob_v := alloc_vector G.num_weights, glob_const := 0, glob_bool := false,
            failed := false }).glob_v,
        ((shared q d).foldl (fun s p => (union_proc G p.1 p.2 s).2)
          { glob_v := alloc_vector G.num_weights, glob_const := 0, glob_bool := false,
            failed := false }).glob_const) := by
    unfold calc_rsv
    rw [hq, hd]
    simp only []
    rw [calc_rsv_union G q d hqv hdv hun]
    simp only [f1]
    rfl
  have h3 : ∀ p ∈ shared q d, rsv_col G p ≠ -1 →
      ((shared q d).foldl (fun s p => (union_proc G p.1 p.2 s).2)
          { glob_v := alloc_vector G.num_weights, glob_const := 0, glob_bool := false,
            failed := false }).glob_v.getD (rsv_col G p).toNat 0
        = p.1.weight * p.2.weight := f3
  refine ⟨_, _, _, hrun, h3, ?_, ?_, ?_, ?_⟩
  · intro k hk
    rw [f4 k hk]
    exact alloc_vector_getD _ _
  · rw [f5]
    simp [rsv_prod]
  · rw [f6]
    constructor
    · rintro (h | ⟨p, hp, h1, h2⟩)
      · cases h
      · exact ⟨(rsv_col G p).toNat, by rw [f3 p hp h1]; exact h2⟩
    · rintro ⟨k, hk⟩
      right
      by_contra hno
      apply hk
      rw [f4 k ?_]
      · exact alloc_vector_getD _ _
      · intro p hp
        by_cases h1 : rsv_col G p = -1
        · exact Or.inl h1
        · right
          intro h2
          apply hno
          refine ⟨p, hp, h1, ?_⟩
          rw [← f3 p hp h1, h2]
          exact hk
  · intro he a ha hc
    subst he
    have hqd : q = d := by
      rw [hq] at hd
      exact Option.some.inj hd
    subst hqd
    have hm : (a, a) ∈ shared q q := by
      refine (mem_naive_union comp_wgt _ _ a a).mpr ⟨ha, ha, ?_⟩
      simp [comp_wgt, wrap32]
    have := h3 (a, a) hm hc
    simp only [rsv_col] at this
    rw [this]
    ring

theorem example_globals_ok : ListsOK example_globals := by
  constructor
  · simp [example_globals]
  · simp [example_globals, small]
  · simp [example_globals]
  · simp [example_globals]
  · simp [example_globals]
  · simp [example_globals, small]

theorem example_docs_ok : ∀ d ∈ example_docs.array, vector_ok d := by
  simp [example_docs, vector_ok, small]

set_option maxRecDepth 100000 in
theorem calc_rsv_spec_witness :
    calc_rsv example_globals (-1) 7 (alloc_vector 2) = some (true, [8, 0, 0], 15) ∧
    ∃ q d b v1 c,
      lookup_list example_globals.doc_list { index := -1, docatoms := create_list } comp_doc
        = some q ∧
      lookup_list example_globals.doc_list { index := 7, docatoms := create_list } comp_doc
        = some d ∧
      calc_rsv example_globals (-1) 7 (alloc_vector example_globals.num_weights)
        = some (b, v1, c) ∧
      (∀ p ∈ shared q d, rsv_col example_globals p ≠ -1 →
        v1.getD (rsv_col example_globals p).toNat 0 = p.1.weight * p.2.weight) ∧
      (∀ k, (∀ p ∈ shared q d, rsv_col example_globals p = -1 ∨
          (rsv_col example_globals p).toNat ≠ k) → v1.getD k 0 = 0) ∧
      c = (((shared q d).filter (fun p => rsv_col example_globals p = -1)).map
        (fun p => p.1.weight * p.2.weight * idf_of example_globals p.1.d_atom)).sum ∧
      (b = true ↔ ∃ k, v1.getD k 0 ≠ 0) := by
  refine ⟨by decide!, ?_⟩
  have hq : lookup_list example_globals.doc_list { index := -1, docatoms := create_list }
      comp_doc = some (example_docs.array.getD 0 ⟨0, create_list⟩) := by decide!
  have hd : lookup_list example_globals.doc_list { index := 7, docatoms := create_list }
      comp_doc = some (example_docs.array.getD 1 ⟨0, create_list⟩) := by decide!
  have hun : ∀ p ∈ shared (example_docs.array.getD 0 ⟨0, create_list⟩)
      (example_docs.array.getD 1 ⟨0, create_list⟩), rsv_col example_globals p = -1 →
      ∃ u, lookup_list example_globals.unused_wgts { u_atom := p.1.d_atom, idf := 0 }
        comp_unused = some u := by
    have hs : shared (example_docs.array.getD 0 ⟨0, create_list⟩)
        (example_docs.array.getD 1 ⟨0, create_list⟩) = [(⟨1, 2⟩, ⟨1, 4⟩), (⟨2, 3⟩, ⟨2, 1⟩)] := by
      decide!
    rw [hs]
    intro p hp hc
    simp only [List.mem_cons, List.mem_singleton, List.not_mem_nil, or_false] at hp
    rcases hp with rfl | rfl
    · exact absurd hc (by decide!)
    · exact ⟨⟨2, 5⟩, by decide!⟩
  obtain ⟨b, v1, c, h1, h2, h3, h4, h5, _⟩ := calc_rsv_spec example_globals example_globals_ok
    (-1) 7 _ _ hq hd (example_docs_ok _ (by simp [example_docs]))
    (example_docs_ok _ (by simp [example_docs])) hun
  exact ⟨_, _, b, v1, c, hq, hd, h1, h2, h3, h4, h5⟩

/-- A property of the state that every call of the callback keeps is kept
by `find_union`. -/
theorem find_union_loop_inv {α σ : Type} (compare : α → α → Int)
    (call : α → α → σ → Bool × σ) (P : σ → Prop)
    (hP : ∀ a b s, P s → P (call a b s).2) :
    ∀ (l1 l2 : List α) (s : σ), P s → P (find_union_loop compare call l1 l2 s).2 := by
  intro l1
  induction l1 with
  | nil =>
    intro l2 s h
    simpa [find_union_loop] using h
  | cons a l1 ihA =>
    intro l2
    induction l2 with
    | nil =>
      intro s h
      simpa [find_union_loop] using h
    | cons b l2 ihB =>
      intro s h
      rw [find_union_loop]
      simp only []
      split_ifs
      · exact ihA _ _ h
      · exact ihB _ h
      · exact ihA _ _ (hP a b s h)
      · exact hP a b s h

theorem union_proc_length (G : Globals) (a b : WGT_STRUCT) (s : RsvState) :
    (union_proc G a b s).2.glob_v.length = s.glob_v.length := by
  unfold union_proc
  by_cases h1 : a.d_atom ≠ b.d_atom
  · rw [if_pos h1]
  · rw [if_neg h1]
    simp only []
    by_cases h2 : matrix_index G.atom_list a.d_atom ≠ -1
    · rw [if_pos h2]
      by_cases h3 : a.weight * b.weight ≠ 0
      · rw [if_pos h3]; simp
      · rw [if_neg h3]; simp
    · rw [if_neg h2]
      cases lookup_list G.unused_wgts { u_atom := a.d_atom, idf := 0 } comp_unused <;> rfl

theorem calc_rsv_length (G : Globals) (d1 d2 : Int) (v v1 : List ℚ) (b : Bool) (c : ℚ)
    (h : calc_rsv G d1 d2 v = some (b, v1, c)) : v1.length = v.length := by
  unfold calc_rsv at h
  cases hq : lookup_list G.doc_list { index := d1, docatoms := create_list } comp_doc with
  | none => rw [hq] at h; cases h
  | some q =>
    cases hd : lookup_list G.doc_list { index := d2, docatoms := create_list } comp_doc with
    | none => rw [hq, hd] at h; cases h
    | some d =>
      rw [hq, hd] at h
      have hl := find_union_loop_inv comp_wgt (union_proc G)
        (fun s => s.glob_v.length = v.length)
        (fun a b s hs => by
          show (union_proc G a b s).2.glob_v.length = v.length
          rw [union_proc_length]; exact hs)
        q.docatoms.array d.docatoms.array
        { glob_v := v, glob_const := 0, glob_bool := false, failed := false } rfl
      simp only [] at h
      split_ifs at h
      simp only [Option.some.injEq, Prod.mk.injEq] at h
      rw [← h.2.1]
      exact hl

/-- The entries of the row `build_row` makes. -/
theorem build_row_spec (n : Nat) (type : Char) (v1 v2 : List ℚ) (c1 c2 : ℚ)
    (h1 : v1.length = n + 1) :
    (build_row n type v1 v2 c1 c2).length = n + 1 ∧
    (∀ k, k < n → (build_row n type v1 v2 c1 c2).getD k 0
      = (if type = '-' ∨ type = 'C' then (1 : ℚ) else -1) * (v1.getD k 0 - v2.getD k 0)) ∧
    (build_row n type v1 v2 c1 c2).getD n 0
      = (if type = '-' ∨ type = 'C' then (1 : ℚ) else -1) * (EPSILON + c1 - c2) := by
  unfold build_row
  simp only []
  have key := loop_inv
    (fun i (w : List ℚ) => w.length = n + 1 ∧ ∀ k, w.getD k 0 =
      if k < i then (v1.getD k 0 - v2.getD k 0)
        * (if type = '-' ∨ type = 'C' then (1 : ℚ) else -1)
      else v1.getD k 0)
    0 n (fun i w => w.set i ((w.getD i 0 - v2.getD i 0)
      * (if type = '-' ∨ type = 'C' then (1 : ℚ) else -1))) v1
    ⟨h1, fun k => by simp⟩
    (by
      intro i w _ hi ⟨hl, hw⟩
      refine ⟨by rw [List.length_set]; exact hl, fun k => ?_⟩
      rw [List.getD_eq_getElem?_getD, List.getElem?_set]
      by_cases e : i = k
      · subst e
        have : i < w.length := by omega
        simp only [this, if_true, Option.getD_some]
        rw [hw i]
        simp
      · simp only [e, if_false]
        rw [← List.getD_eq_getElem?_getD, hw k]
        split_ifs <;> first | rfl | omega)
  rw [Nat.zero_add] at key
  obtain ⟨kl, kw⟩ := key
  refine ⟨by rw [List.length_set]; exact kl, fun k hk => ?_, ?_⟩
  · rw [List.getD_eq_getElem?_getD, List.getElem?_set_ne (by omega),
      ← List.getD_eq_getElem?_getD, kw k, if_pos hk]
    ring
  · rw [List.getD_eq_getElem?_getD, List.getElem?_set_self (by omega)]
    simp only [Option.getD_some]
    ring

/-- The loop `cost [i] -= v1 [i]` of `enum_pref`. -/
theorem cost_fold_spec (n : Nat) (cost v1 : List ℚ) (hc : cost.length = n + 1) :
    (forLoop 0 n (fun i cost => cost.set i (cost.getD i 0 - v1.getD i 0)) cost).length
      = n + 1 ∧
    ∀ k, k ≤ n →
      (forLoop 0 n (fun i cost => cost.set i (cost.getD i 0 - v1.getD i 0)) cost).getD k 0
        = cost.getD k 0 - v1.getD k 0 := by
  have key := forLoop_inv
    (fun i (w : List ℚ) => w.length = n + 1 ∧ ∀ k, w.getD k 0 =
      if k < i then cost.getD k 0 - v1.getD k 0 else cost.getD k 0)
    0 n (fun i cost => cost.set i (cost.getD i 0 - v1.getD i 0)) cost (by omega)
    ⟨hc, fun k => by simp⟩
    (by
      intro i w _ hi ⟨hl, hw⟩
      refine ⟨by rw [List.length_set]; exact hl, fun k => ?_⟩
      rw [List.getD_eq_getElem?_getD, List.getElem?_set]
      by_cases e : i = k
      · subst e
        have : i < w.length := by omega
        simp only [this, if_true, Option.getD_some]
        rw [hw i]
        simp
      · simp only [e, if_false]
        rw [← List.getD_eq_getElem?_getD, hw k]
        split_ifs <;> first | rfl | omega)
  obtain ⟨kl, kw⟩ := key
  refine ⟨kl, fun k hk => ?_⟩
  rw [kw k, if_pos (by omega)]

theorem enum_pref_line_none (G : Globals) (dryrun : Bool) (st : EnumState) (p : Pref)
    (h : ¬ pref_ok G p) : enum_pref_line G dryrun st p = none := by
  unfold enum_pref_line
  unfold pref_ok at h
  cases h1 : calc_rsv G p.d p.d1 (alloc_vector G.num_weights) with
  | none => rfl
  | some r1 =>
    cases h2 : calc_rsv G p.d p.d2 (alloc_vector G.num_weights) with
    | none => rfl
    | some r2 =>
      rw [h1, h2] at h
      simp at h

theorem enum_pref_line_eq (G : Globals) (dryrun : Bool) (st : EnumState) (p : Pref)
    (h : pref_ok G p) :
    enum_pref_line G dryrun st p
      = some (if pref_kept G p = true then line_state G dryrun st p else st) := by
  unfold enum_pref_line pref_kept line_state pref_row
  unfold pref_ok at h
  cases h1 : calc_rsv G p.d p.d1 (alloc_vector G.num_weights) with
  | none => rw [h1] at h; simp at h
  | some r1 =>
    cases h2 : calc_rsv G p.d p.d2 (alloc_vector G.num_weights) with
    | none => rw [h2] at h; simp at h
    | some r2 =>
      obtain ⟨nz1, v1, c1⟩ := r1
      obtain ⟨nz2, v2, c2⟩ := r2
      simp only []
      cases nz1 <;> cases nz2 <;> cases dryrun <;>
        by_cases t1 : p.type = '+' <;> by_cases t2 : p.type = '-' <;>
        by_cases t3 : p.type = 'C' <;>
        simp_all

theorem stored_rows_cons (G : Globals) (p : Pref) (ps : List Pref) :
    stored_rows G (p :: ps)
      = if (pref_kept G p && decide (p.type ≠ 'C')) = true
        then pref_row G p :: stored_rows G ps else stored_rows G ps := by
  unfold stored_rows
  rw [List.filter_cons]
  split_ifs <;> simp

theorem cost_rows_cons (G : Globals) (p : Pref) (ps : List Pref) :
    cost_rows G (p :: ps)
      = if (pref_kept G p && decide (p.type = '-' ∨ p.type = 'C')) = true
        then pref_row G p :: cost_rows G ps else cost_rows G ps := by
  unfold cost_rows
  rw [List.filter_cons]
  split_ifs <;> simp

/-- The dry run of the loop of `enum_pref`. -/
theorem enum_fold_dry (G : Globals) (prefs : List Pref) (hok : ∀ p ∈ prefs, pref_ok G p) :
    ∀ st : EnumState, ∃ st1, prefs.foldlM (enum_pref_line G true) st = some st1 ∧
      st1.idx = st.idx + (stored_rows G prefs).length ∧
      st1.num_plus = st.num_plus
        + (prefs.filter (fun p => pref_kept G p && decide (p.type = '+'))).length ∧
      st1.num_minus = st.num_minus
        + (prefs.filter (fun p => pref_kept G p && decide (p.type = '-'))).length ∧
      st1.rsv_eq = st.rsv_eq ∧ st1.cost = st.cost := by
  induction prefs with
  | nil =>
    intro st
    exact ⟨st, rfl, by simp [stored_rows], by simp, by simp, rfl, rfl⟩
  | cons p ps ih =>
    intro st
    have hp := hok p (List.mem_cons_self _ _)
    rw [List.foldlM_cons, enum_pref_line_eq G true st p hp]
    obtain ⟨st1, h1, h2, h3, h4, h5, h6⟩ :=
      ih (fun q hq => hok q (List.mem_cons_of_mem _ hq))
        (if pref_kept G p = true then line_state G true st p else st)
    refine ⟨st1, h1, ?_, ?_, ?_, ?_, ?_⟩
    · rw [h2, stored_rows_cons]
      by_cases hk : pref_kept G p = true
      · by_cases t : p.type = 'C'
        · simp [hk, t, line_state]
        · simp [hk, t, line_state]; omega
      · simp [hk]
    · rw [h3, List.filter_cons]
      by_cases hk : pref_kept G p = true
      · by_cases t : p.type = '+'
        · simp [hk, t, line_state]; omega
        · simp [hk, t, line_state]
      · simp [hk]
    · rw [h4, List.filter_cons]
      by_cases hk : pref_kept G p = true
      · by_cases t : p.type = '-'
        · simp [hk, t, line_state]; omega
        · simp [hk, t, line_state]
      · simp [hk]
    · rw [h5]
      by_cases hk : pref_kept G p = true
      · simp [hk, line_state]
      · simp [hk]
    · rw [h6]
      by_cases hk : pref_kept G p = true
      · simp [hk, line_state]
      · simp [hk]

/-- The real pass of the loop of `enum_pref`. -/
theorem enum_fold_real (G : Globals) (prefs : List Pref) (hok : ∀ p ∈ prefs, pref_ok G p) :
    ∀ st : EnumState, st.cost.length = G.num_weights + 1 →
      st.idx + (stored_rows G prefs).length ≤ st.rsv_eq.length →
      ∃ st1, prefs.foldlM (enum_pref_line G false) st = some st1 ∧
      st1.idx = st.idx + (stored_rows G prefs).length ∧
      st1.num_plus = st.num_plus
        + (prefs.filter (fun p => pref_kept G p && decide (p.type = '+'))).length ∧
      st1.num_minus = st.num_minus
        + (prefs.filter (fun p => pref_kept G p && decide (p.type = '-'))).length ∧
      st1.rsv_eq.length = st.rsv_eq.length ∧
      (∀ j : Nat, st1.rsv_eq[j]? =
        if st.idx ≤ j ∧ j < st.idx + (stored_rows G prefs).length
        then (stored_rows G prefs)[j - st.idx]? else st.rsv_eq[j]?) ∧
      st1.cost.length = G.num_weights + 1 ∧
      ∀ k, k ≤ G.num_weights →
        st1.cost.getD k 0
          = st.cost.getD k 0 - ((cost_rows G prefs).map (fun r => r.getD k 0)).sum := by
  induction prefs with
  | nil =>
    intro st hc _
    refine ⟨st, rfl, by simp [stored_rows], by simp, by simp, rfl, ?_, hc, ?_⟩
    · intro j
      have : ¬ (st.idx ≤ j ∧ j < st.idx + (stored_rows G []).length) := by
        simp [stored_rows]
      rw [if_neg this]
    · intro k _
      simp [cost_rows]
  | cons p ps ih =>
    intro st hc hidx
    have hp := hok p (List.mem_cons_self _ _)
    rw [List.foldlM_cons, enum_pref_line_eq G false st p hp]
    rw [stored_rows_cons] at hidx ⊢
    rw [cost_rows_cons]
    by_cases hk : pref_kept G p = true
    · rw [if_pos hk]
      by_cases tC : p.type = 'C'
      · -- a cost-only line
        have e1 : (pref_kept G p && decide (p.type ≠ 'C')) = false := by simp [tC]
        have e2 : (pref_kept G p && decide (p.type = '-' ∨ p.type = 'C')) = true := by
          simp [hk, tC]
        simp only [e1, e2, if_true, Bool.false_eq_true, if_false] at hidx ⊢
        obtain ⟨cl, cv⟩ := cost_fold_spec G.num_weights st.cost (pref_row G p) hc
        have hs : line_state G false st p =
            { st with
              cost := forLoop 0 G.num_weights (fun i cost =>
                cost.set i (cost.getD i 0 - (pref_row G p).getD i 0)) st.cost } := by
          simp [line_state, tC]
        obtain ⟨st1, h1, h2, h3, h4, h5, h6, h7, h8⟩ :=
          ih (fun q hq => hok q (List.mem_cons_of_mem _ hq)) (line_state G false st p)
            (by rw [hs]; exact cl) (by rw [hs]; exact hidx)
        rw [hs] at h2 h3 h4 h5 h6 h8
        refine ⟨st1, h1, h2, ?_, ?_, h5, h6, h7, ?_⟩
        · rw [h3, List.filter_cons]; simp [tC]
        · rw [h4, List.filter_cons]; simp [tC]
        · intro k hk1
          rw [h8 k hk1]
          simp only [] 
          rw [cv k hk1]
          simp only [List.map_cons, List.sum_cons]
          ring
      · -- a stored line
        have e1 : (pref_kept G p && decide (p.type ≠ 'C')) = true := by simp [hk, tC]
        simp only [e1, if_true, List.length_cons] at hidx ⊢
        have hlt : st.idx < st.rsv_eq.length := by omega
        by_cases tm : p.type = '-'
        · have e2 : (pref_kept G p && decide (p.type = '-' ∨ p.type = 'C')) = true := by
            simp [hk, tm]
          simp only [e2, if_true]
          obtain ⟨cl, cv⟩ := cost_fold_spec G.num_weights st.cost (pref_row G p) hc
          have hs : line_state G false st p =
              { idx := st.idx + 1, num_plus := st.num_plus, num_minus := st.num_minus + 1,
                rsv_eq := st.rsv_eq.set st.idx (pref_row G p),
                cost := forLoop 0 G.num_weights (fun i cost =>
                  cost.set i (cost.getD i 0 - (pref_row G p).getD i 0)) st.cost } := by
            simp [line_state, tm]
          obtain ⟨st1, h1, h2, h3, h4, h5, h6, h7, h8⟩ :=
            ih (fun q hq => hok q (List.mem_cons_of_mem _ hq)) (line_state G false st p)
              (by rw [hs]; exact cl) (by rw [hs]; simp only [List.length_set]; omega)
          rw [hs] at h2 h3 h4 h5 h6 h8
          simp only [List.length_set] at h2 h3 h4 h5 h6 h8
          refine ⟨st1, h1, by omega, ?_, ?_, h5, ?_, h7, ?_⟩
          · rw [h3, List.filter_cons]; simp [tm]
          · rw [h4, List.filter_cons]; simp [hk, tm]; omega
          · intro j
            rw [h6 j, List.getElem?_set]
            by_cases c1 : j = st.idx
            · subst c1
              simp [hlt]
            · by_cases c2 : st.idx + 1 ≤ j ∧ j < st.idx + 1 + (stored_rows G ps).length
              · have c3 : st.idx ≤ j ∧ j < st.idx + ((stored_rows G ps).length + 1) := by omega
                have c4 : j - st.idx = (j - (st.idx + 1)) + 1 := by omega
                rw [if_pos c2, if_pos c3, c4, List.getElem?_cons_succ]
              · have c3 : ¬ (st.idx ≤ j ∧ j < st.idx + ((stored_rows G ps).length + 1)) := by
                  omega
                have c5 : ¬ st.idx = j := fun h => c1 h.symm
                rw [if_neg c2, if_neg c3, if_neg c5]
          · intro k hk1
            rw [h8 k hk1, cv k hk1]
            simp only [List.map_cons, List.sum_cons]
            ring
        · have e2 : (pref_kept G p && decide (p.type = '-' ∨ p.type = 'C')) = false := by
            simp [tm, tC]
          simp only [e2, Bool.false_eq_true, if_false]
          have hs : line_state G false st p =
              { idx := st.idx + 1
                num_plus := if p.type = '+' then st.num_plus + 1 else st.num_plus
                num_minus := st.num_minus
                rsv_eq := st.rsv_eq.set st.idx (pref_row G p), cost := st.cost } := by
            simp [line_state, tm, tC]
          obtain ⟨st1, h1, h2, h3, h4, h5, h6, h7, h8⟩ :=
            ih (fun q hq => hok q (List.mem_cons_of_mem _ hq)) (line_state G false st p)
              (by rw [hs]; exact hc) (by rw [hs]; simp only [List.length_set]; omega)
          rw [hs] at h2 h3 h4 h5 h6 h8
          simp only [List.length_set] at h2 h3 h4 h5 h6 h8
          refine ⟨st1, h1, by omega, ?_, ?_, h5, ?_, h7, h8⟩
          · rw [h3, List.filter_cons]
            by_cases tp : p.type = '+'
            · simp [hk, tp]; omega
            · simp [tp]
          · rw [h4, List.filter_cons]; simp [tm]
          · intro j
            rw [h6 j, List.getElem?_set]
            by_cases c1 : j = st.idx
            · subst c1
              simp [hlt]
            · by_cases c2 : st.idx + 1 ≤ j ∧ j < st.idx + 1 + (stored_rows G ps).length
              · have c3 : st.idx ≤ j ∧ j < st.idx + ((stored_rows G ps).length + 1) := by omega
                have c4 : j - st.idx = (j - (st.idx + 1)) + 1 := by omega
                rw [if_pos c2, if_pos c3, c4, List.getElem?_cons_succ]
              · have c3 : ¬ (st.idx ≤ j ∧ j < st.idx + ((stored_rows G ps).length + 1)) := by
                  omega
                have c5 : ¬ st.idx = j := fun h => c1 h.symm
                rw [if_neg c2, if_neg c3, if_neg c5]
    · have e1 : (pref_kept G p && decide (p.type ≠ 'C')) = false := by simp [hk]
      have e2 : (pref_kept G p && decide (p.type = '-' ∨ p.type = 'C')) = false := by
        simp [hk]
      simp only [hk, e1, e2, Bool.false_eq_true, if_false] at hidx ⊢
      obtain ⟨st1, h1, h2, h3, h4, h5, h6, h7, h8⟩ :=
        ih (fun q hq => hok q (List.mem_cons_of_mem _ hq)) st hc hidx
      refine ⟨st1, h1, h2, ?_, ?_, h5, h6, h7, h8⟩
      · rw [h3, List.filter_cons]; simp [hk]
      · rw [h4, List.filter_cons]; simp [hk]

theorem pref_ok_of_some (G : Globals) (p : Pref) (r1 r2 : Bool × List ℚ × ℚ)
    (h1 : calc_rsv G p.d p.d1 (alloc_vector G.num_weights) = some r1)
    (h2 : calc_rsv G p.d p.d2 (alloc_vector G.num_weights) = some r2) : pref_ok G p := by
  unfold pref_ok
  rw [h1, h2]
  exact ⟨rfl, rfl⟩

/-- C6: for a line whose two calls of `calc_rsv` return `(nz1, v1, c1)` for
the first and `(nz2, v2, c2)` for the second document field, the row
`enum_pref` builds has the coefficient `sign * (v1 [k] - v2 [k])` in every
column `k` and the constant `sign * (EPSILON + c1 - c2)`, with `sign = +1`
for the types `-` and `C` and `sign = -1` for the type `+`; when the line is
not dropped, the real pass works with this row (it stores it for a type
other than `C` and subtracts it from the cost for the types `-` and `C`). -/
theorem pref_row_spec (G : Globals) (p : Pref) (nz1 nz2 : Bool) (v1 v2 : List ℚ)
    (c1 c2 : ℚ)
    (h1 : calc_rsv G p.d p.d1 (alloc_vector G.num_weights) = some (nz1, v1, c1))
    (h2 : calc_rsv G p.d p.d2 (alloc_vector G.num_weights) = some (nz2, v2, c2)) :
    (pref_row G p).length = G.num_weights + 1 ∧
    (∀ k, k < G.num_weights →
      (pref_row G p).getD k 0 = pref_sign p.type * (v1.getD k 0 - v2.getD k 0)) ∧
    (pref_row G p).getD G.num_weights 0 = pref_sign p.type * (EPSILON + c1 - c2) ∧
    (p.type = '-' ∨ p.type = 'C' → pref_sign p.type = 1) ∧
    (p.type = '+' → pref_sign p.type = -1) ∧
    (nz1 = true ∨ nz2 = true →
      ∀ st, enum_pref_line G false st p = some (line_state G false st p)) := by
  have hl : v1.length = G.num_weights + 1 := by
    rw [calc_rsv_length G _ _ _ _ _ _ h1]
    simp [alloc_vector]
  obtain ⟨b1, b2, b3⟩ := build_row_spec G.num_weights p.type v1 v2 c1 c2 hl
  have hrow : pref_row G p = build_row G.num_weights p.type v1 v2 c1 c2 := by
    unfold pref_row
    rw [h1, h2]
  rw [hrow]
  refine ⟨b1, b2, b3, ?_, ?_, ?_⟩
  · intro h
    simp [pref_sign, h]
  · intro h
    simp [pref_sign, h]
  · intro hnz st
    rw [enum_pref_line_eq G false st p (pref_ok_of_some G p _ _ h1 h2)]
    have : pref_kept G p = true := by
      unfold pref_kept
      rw [h1, h2]
      rcases hnz with h | h <;> simp [h]
    rw [if_pos this]

set_option maxRecDepth 100000 in
theorem pref_row_spec_witness :
    calc_rsv example_globals example_plus.d example_plus.d1
      (alloc_vector example_globals.num_weights) = some (true, [8, 0, 0], 15) ∧
    calc_rsv example_globals example_plus.d example_plus.d2
      (alloc_vector example_globals.num_weights) = some (true, [0, 1, 0], 0) ∧
    pref_row example_globals example_plus = [-8, 1, - (15 + 1 / 100000)] ∧
    (pref_row example_globals example_plus).getD example_globals.num_weights 0
      = pref_sign example_plus.type * (EPSILON + 15 - 0) := by
  have h1 : calc_rsv example_globals example_plus.d example_plus.d1
      (alloc_vector example_globals.num_weights) = some (true, [8, 0, 0], 15) := by decide!
  have h2 : calc_rsv example_globals example_plus.d example_plus.d2
      (alloc_vector example_globals.num_weights) = some (true, [0, 1, 0], 0) := by decide!
  exact ⟨h1, h2, by decide!,
    (pref_row_spec example_globals example_plus true true _ _ 15 0 h1 h2).2.2.1⟩

theorem enum_fold_some_ok (G : Globals) (dryrun : Bool) (prefs : List Pref) :
    ∀ st st1 : EnumState, prefs.foldlM (enum_pref_line G dryrun) st = some st1 →
      ∀ p ∈ prefs, pref_ok G p := by
  induction prefs with
  | nil => intro _ _ _ p hp; cases hp
  | cons q qs ih =>
    intro st st1 h p hp
    rw [List.foldlM_cons] at h
    by_cases hq : pref_ok G q
    · rw [enum_pref_line_eq G dryrun st q hq] at h
      rcases List.mem_cons.mp hp with e | e
      · rw [e]; exact hq
      · exact ih _ st1 h p e
    · rw [enum_pref_line_none G dryrun st q hq] at h
      cases h

theorem enum_pref_some (G : Globals) (dryrun : Bool) (prefs : List Pref)
    (rsv_eq : List (List ℚ)) (cost : List ℚ) (r : Nat × List (List ℚ) × List ℚ)
    (h : enum_pref G prefs dryrun rsv_eq cost = some r) :
    ∃ st1, prefs.foldlM (enum_pref_line G dryrun) ⟨0, 0, 0, rsv_eq, cost⟩ = some st1 ∧
      r = (st1.idx, st1.rsv_eq, st1.cost) := by
  unfold enum_pref at h
  cases hf : prefs.foldlM (enum_pref_line G dryrun) ⟨0, 0, 0, rsv_eq, cost⟩ with
  | none => rw [hf] at h; cases h
  | some st1 =>
    rw [hf] at h
    simp only [] at h
    split_ifs at h
    exact ⟨st1, rfl, (Option.some.inj h).symm⟩

/-- C7: when the real pass of `enum_pref`, started with a zero cost vector
and an array `rsv_eq` with room for the rows to store, returns, every one of
the `n + 1` components of the cost row is the negated sum of the
corresponding components of the rows built for the lines of type `-` and
`C` that are not dropped, and of nothing else. -/
theorem cost_row_spec (G : Globals) (prefs : List Pref) (rsv_eq rsv1 : List (List ℚ))
    (idx : Nat) (cost1 : List ℚ)
    (hlen : (stored_rows G prefs).length ≤ rsv_eq.length)
    (h : enum_pref G prefs false rsv_eq (alloc_vector G.num_weights)
      = some (idx, rsv1, cost1)) :
    ∀ k, k ≤ G.num_weights →
      cost1.getD k 0 = - ((cost_rows G prefs).map (fun r => r.getD k 0)).sum := by
  obtain ⟨st1, hf, hr⟩ := enum_pref_some G false prefs rsv_eq _ _ h
  have hok := enum_fold_some_ok G false prefs _ st1 hf
  obtain ⟨st2, g1, _, _, _, _, _, _, g8⟩ := enum_fold_real G prefs hok
    ⟨0, 0, 0, rsv_eq, alloc_vector G.num_weights⟩ (by simp [alloc_vector])
    (by simpa using hlen)
  rw [hf] at g1
  cases g1
  simp only [Prod.mk.injEq] at hr
  intro k hk
  rw [hr.2.2, g8 k hk, alloc_vector_getD]
  ring

set_option maxRecDepth 100000 in
theorem cost_row_spec_witness :
    (stored_rows example_globals example_prefs).length ≤ [([] : List ℚ), []].length ∧
    enum_pref example_globals example_prefs false [[], []]
        (alloc_vector example_globals.num_weights)
      = some (2, [[-8, 1, - (1499999 / 100000)], [-8, 1, - (1500001 / 100000)]],
          [8, -1, 749999 / 50000]) ∧
    cost_rows example_globals example_prefs
      = [[-8, 1, - (1499999 / 100000)], [0, 0, 1 / 100000]] ∧
    ∀ k, k ≤ example_globals.num_weights →
      ([8, -1, 749999 / 50000] : List ℚ).getD k 0
        = - ((cost_rows example_globals example_prefs).map (fun r => r.getD k 0)).sum := by
  have h1 : (stored_rows example_globals example_prefs).length
      ≤ [([] : List ℚ), []].length := by decide!
  have h2 : enum_pref example_globals example_prefs false [[], []]
        (alloc_vector example_globals.num_weights)
      = some (2, [[-8, 1, - (1499999 / 100000)], [-8, 1, - (1500001 / 100000)]],
          [8, -1, 749999 / 50000]) := by decide!
  exact ⟨h1, h2, by decide!, cost_row_spec example_globals example_prefs _ _ _ _ h1 h2⟩

set_option maxRecDepth 100000 in
/-- C8, as stated, fails: the row of a satisfied preference that is not
dropped is stored in `rsv_eq [0]` by the real pass of `enum_pref`, and the
cost row stays zero. -/
theorem plus_row_stored :
    example_plus.type = '+' ∧ pref_kept example_globals example_plus = true ∧
    pref_row example_globals example_plus = [-8, 1, - (15 + 1 / 100000)] ∧
    enum_pref example_globals [example_plus] false [[]]
        (alloc_vector example_globals.num_weights)
      = some (1, [[-8, 1, - (15 + 1 / 100000)]], [0, 0, 0]) := by
  decide!

/-- C8, amended: in the real pass of `enum_pref`, the row of a line of type
`+` that is not dropped is stored as the row `rsv_eq [idx]` and counted, and
the cost row is left as it is; the row of a line of type `C` that is not
dropped is not stored and not counted, it is only subtracted from the cost
row. -/
theorem plus_stored_cost_only (G : Globals) (p : Pref) (st : EnumState)
    (hok : pref_ok G p) (hk : pref_kept G p = true) :
    (p.type = '+' → enum_pref_line G false st p = some
      { idx := st.idx + 1, num_plus := st.num_plus + 1, num_minus := st.num_minus,
        rsv_eq := st.rsv_eq.set st.idx (pref_row G p), cost := st.cost }) ∧
    (p.type = 'C' → enum_pref_line G false st p = some
      { idx := st.idx, num_plus := st.num_plus, num_minus := st.num_minus,
        rsv_eq := st.rsv_eq,
        cost := forLoop 0 G.num_weights (fun i cost =>
          cost.set i (cost.getD i 0 - (pref_row G p).getD i 0)) st.cost }) := by
  rw [enum_pref_line_eq G false st p hok, if_pos hk]
  constructor
  · intro h
    simp [line_state, h]
  · intro h
    simp [line_state, h]

set_option maxRecDepth 100000 in
theorem plus_stored_cost_only_witness :
    pref_ok example_globals example_plus ∧ pref_kept example_globals example_plus = true ∧
    example_plus.type = '+' ∧
    enum_pref_line example_globals false ⟨0, 0, 0, [[]], [0, 0, 0]⟩ example_plus
      = some { idx := 1, num_plus := 1, num_minus := 0
               rsv_eq := [pref_row example_globals example_plus], cost := [0, 0, 0] } := by
  have hok : pref_ok example_globals example_plus := by
    unfold pref_ok
    decide!
  have hk : pref_kept example_globals example_plus = true := by decide!
  refine ⟨hok, hk, rfl, ?_⟩
  have h := (plus_stored_cost_only example_globals example_plus ⟨0, 0, 0, [[]], [0, 0, 0]⟩
    hok hk).1 rfl
  rw [h]
  rfl

theorem stored_count (G : Globals) (prefs : List Pref)
    (ht : ∀ p ∈ prefs, p.type = '+' ∨ p.type = '-' ∨ p.type = 'C') :
    (stored_rows G prefs).length
      = (prefs.filter (fun p => pref_kept G p && decide (p.type = '+'))).length
        + (prefs.filter (fun p => pref_kept G p && decide (p.type = '-'))).length ∧
    (stored_rows G prefs).length
      = (prefs.filter (fun p => pref_kept G p
          && decide (p.type = '+' ∨ p.type = '-'))).length := by
  induction prefs with
  | nil => simp [stored_rows]
  | cons p ps ih =>
    obtain ⟨i1, i2⟩ := ih (fun q hq => ht q (List.mem_cons_of_mem _ hq))
    rw [stored_rows_cons, List.filter_cons, List.filter_cons, List.filter_cons]
    simp only [Bool.decide_or] at i2 ⊢
    by_cases hk : pref_kept G p = true
    · rcases ht p (List.mem_cons_self _ _) with t | t | t
      · simp [hk, t]; omega
      · simp [hk, t]; omega
      · simp [hk, t]; omega
    · simp [hk]; omega

/-- C9: for a preference file with types in `+`, `-`, `C` on which every
call of `calc_rsv` returns, the dry run of `enum_pref` returns the number of
lines of type `+` or `-` for which `calc_rsv` reports optimized overlap with
one of the two documents and leaves `rsv_eq` and `cost` as they are; the real
pass, on the array of that many rows `calc_equations` allocates, returns the
same number and leaves in `rsv_eq` the rows of exactly these lines, in the
order of the file. -/
theorem enum_pref_counts (G : Globals) (prefs : List Pref) (rsv_eq : List (List ℚ))
    (cost : List ℚ)
    (ht : ∀ p ∈ prefs, p.type = '+' ∨ p.type = '-' ∨ p.type = 'C')
    (hok : ∀ p ∈ prefs, pref_ok G p) (hc : cost.length = G.num_weights + 1) :
    enum_pref G prefs true rsv_eq cost
      = some ((prefs.filter (fun p => pref_kept G p
          && decide (p.type = '+' ∨ p.type = '-'))).length, rsv_eq, cost) ∧
    (∃ cost1, enum_pref G prefs false
        (List.replicate (prefs.filter (fun p => pref_kept G p
          && decide (p.type = '+' ∨ p.type = '-'))).length []) cost
      = some ((prefs.filter (fun p => pref_kept G p
          && decide (p.type = '+' ∨ p.type = '-'))).length, stored_rows G prefs, cost1)) ∧
    stored_rows G prefs = (prefs.filter (fun p => pref_kept G p
          && decide (p.type = '+' ∨ p.type = '-'))).map (pref_row G) := by
  obtain ⟨c1, c2⟩ := stored_count G prefs ht
  refine ⟨?_, ?_, ?_⟩
  · obtain ⟨st1, h1, h2, h3, h4, h5, h6⟩ := enum_fold_dry G prefs hok ⟨0, 0, 0, rsv_eq, cost⟩
    unfold enum_pref
    rw [h1]
    simp only []
    have : st1.num_plus + st1.num_minus = st1.idx := by
      rw [h2, h3, h4]
      simp only [Nat.zero_add]
      exact c1.symm
    rw [if_pos this, h2, h5, h6, ← c2]
    simp
  · rw [← c2]
    obtain ⟨st1, h1, h2, h3, h4, h5, h6, h7, h8⟩ := enum_fold_real G prefs hok
      ⟨0, 0, 0, List.replicate (stored_rows G prefs).length [], cost⟩ hc (by simp)
    refine ⟨st1.cost, ?_⟩
    unfold enum_pref
    rw [h1]
    simp only []
    have : st1.num_plus + st1.num_minus = st1.idx := by
      rw [h2, h3, h4]
      simp only [Nat.zero_add]
      exact c1.symm
    rw [if_pos this, h2]
    simp only [Nat.zero_add, Option.some.injEq, Prod.mk.injEq, true_and, and_true]
    apply List.ext_getElem?
    intro j
    rw [h6 j]
    simp only [Nat.zero_add, Nat.zero_le, true_and, Nat.sub_zero]
    by_cases hj : j < (stored_rows G prefs).length
    · rw [if_pos hj]
    · rw [if_neg hj]
      rw [List.getElem?_eq_none (by simp; omega), List.getElem?_eq_none (by omega)]
  · unfold stored_rows
    congr 1
    apply List.filter_congr
    intro p hp
    rcases ht p hp with t | t | t <;> simp [t]

set_option maxRecDepth 100000 in
theorem enum_pref_counts_witness :
    (∀ p ∈ example_prefs, p.type = '+' ∨ p.type = '-' ∨ p.type = 'C') ∧
    (∀ p ∈ example_prefs, pref_ok example_globals p) ∧
    enum_pref example_globals example_prefs true [] (alloc_vector 2)
      = some (2, [], alloc_vector 2) ∧
    (∃ cost1, enum_pref example_globals example_prefs false (List.replicate 2 [])
        (alloc_vector 2)
      = some (2, [[-8, 1, - (1499999 / 100000)], [-8, 1, - (1500001 / 100000)]], cost1)) := by
  have ht : ∀ p ∈ example_prefs, p.type = '+' ∨ p.type = '-' ∨ p.type = 'C' := by decide
  have hok : ∀ p ∈ example_prefs, pref_ok example_globals p := by
    unfold pref_ok
    decide!
  have hn : (example_prefs.filter (fun p => pref_kept example_globals p
      && decide (p.type = '+' ∨ p.type = '-'))).length = 2 := by decide!
  have hs : stored_rows example_globals example_prefs
      = [[-8, 1, - (1499999 / 100000)], [-8, 1, - (1500001 / 100000)]] := by decide!
  obtain ⟨h1, ⟨cost1, h2⟩, _⟩ := enum_pref_counts example_globals example_prefs []
    (alloc_vector 2) ht hok (by decide)
  rw [hn] at h1 h2
  rw [hs] at h2
  exact ⟨ht, hok, h1, cost1, h2⟩

theorem first_seen_snoc (l : List Int) (a : Int) :
    first_seen (l ++ [a])
      = if a ∈ first_seen l then first_seen l else first_seen l ++ [a] := by
  simp [first_seen, List.foldl_append]

theorem mem_first_seen (l : List Int) (a : Int) : a ∈ first_seen l ↔ a ∈ l := by
  induction l using List.reverseRecOn with
  | nil => simp [first_seen]
  | append_singleton l b ih =>
    rw [first_seen_snoc]
    by_cases hb : b ∈ first_seen l
    · rw [if_pos hb]
      simp only [List.mem_append, List.mem_singleton]
      constructor
      · intro h; exact Or.inl (ih.mp h)
      · rintro (h | h)
        · exact ih.mpr h
        · rw [h]; exact hb
    · rw [if_neg hb]
      simp only [List.mem_append, List.mem_singleton, ih]

theorem first_seen_nodup (l : List Int) : (first_seen l).Nodup := by
  induction l using List.reverseRecOn with
  | nil => simp [first_seen]
  | append_singleton l b ih =>
    rw [first_seen_snoc]
    by_cases hb : b ∈ first_seen l
    · rw [if_pos hb]; exact ih
    · rw [if_neg hb]
      rw [List.nodup_append]
      refine ⟨ih, List.nodup_singleton b, ?_⟩
      intro x hx hx2
      rw [List.mem_singleton] at hx2
      subst hx2
      exact hb hx

theorem pairwise_key_inj {α : Type} (key : α → Int) (l : List α)
    (h : l.Pairwise (fun a b => key a < key b)) (x y : α) (hx : x ∈ l) (hy : y ∈ l)
    (he : key x = key y) : x = y := by
  induction l with
  | nil => cases hx
  | cons a l ih =>
    have h' := List.pairwise_cons.mp h
    rcases List.mem_cons.mp hx with e1 | e1 <;> rcases List.mem_cons.mp hy with e2 | e2
    · rw [e1, e2]
    · have := h'.1 y e2
      rw [e1] at he
      omega
    · have := h'.1 x e1
      rw [e2] at he
      omega
    · exact ih h'.2 e1 e2

theorem lookup_list_mem {α : Type} (list : LIST α) (e x : α) (comp : α → α → Int)
    (h : lookup_list list e comp = some x) : x ∈ list.array := by
  unfold lookup_list at h
  cases hr : (add list e comp false).2 with
  | none => rw [hr] at h; cases h
  | some i =>
    rw [hr] at h
    exact List.mem_iff_getElem?.mpr ⟨i, h⟩

theorem add_atom_serialized (seq : List Int) (st : SerialState) (a : Int) (ha : small a)
    (hJ : Serialized seq st) : Serialized (seq ++ [a]) (add_atom a st) := by
  have hs := add_spec (fun e : ATOM_STRUCT => e.atom) st.atom_list
    { atom := a, mat_index := -1 } comp_atom true hJ.sorted
    (fun x hx => comp_small a x.atom ha (hJ.atoms_small x hx))
  unfold add_atom add_list
  rcases hs with ⟨i, x, h1, h2, h3⟩ | ⟨hne, h2⟩
  · -- the concept has its column already
    have hx : x ∈ st.atom_list.array := List.mem_iff_getElem?.mpr ⟨i, h1⟩
    have hm : ¬ x.mat_index = -1 := by
      have := (hJ.index x hx).1
      omega
    simp only [h3, h1, hm, if_false]
    have hin : a ∈ first_seen seq := (mem_first_seen seq a).mpr ((hJ.mem a).mpr ⟨x, hx, h2⟩)
    have hfs : first_seen (seq ++ [a]) = first_seen seq := by
      rw [first_seen_snoc, if_pos hin]
    refine ⟨hJ.sorted, hJ.atoms_small, ?_, ?_, ?_, ?_⟩
    · rw [hfs]; exact hJ.serial
    · rw [hfs]; exact hJ.count
    · rw [hfs]; exact hJ.index
    · intro b
      rw [List.mem_append, List.mem_singleton]
      constructor
      · rintro (h | h)
        · exact (hJ.mem b).mp h
        · rw [h]; exact ⟨x, hx, h2⟩
      · intro h
        exact Or.inl ((hJ.mem b).mpr h)
  · -- a new concept
    rcases h2 with ⟨h, _⟩ | ⟨_, r, hr, hlo, hhi, h3⟩
    · cases h
    · have hnot : a ∉ first_seen seq := by
        intro h
        obtain ⟨e, he, hea⟩ := (hJ.mem a).mp ((mem_first_seen seq a).mp h)
        exact hne e he hea
      have hfs : first_seen (seq ++ [a]) = first_seen seq ++ [a] := by
        rw [first_seen_snoc, if_neg hnot]
      have hlen : (st.atom_list.array.take r).length = r := by
        rw [List.length_take]; omega
      have hget : (st.atom_list.array.take r
          ++ ({ atom := a, mat_index := -1 } : ATOM_STRUCT) :: st.atom_list.array.drop r)[r]?
          = some ({ atom := a, mat_index := -1 } : ATOM_STRUCT) := by
        rw [List.getElem?_append_right (by omega), hlen]
        simp
      have hset : (st.atom_list.array.take r
          ++ ({ atom := a, mat_index := -1 } : ATOM_STRUCT) :: st.atom_list.array.drop r).set r
            ({ atom := a, mat_index := st.serial } : ATOM_STRUCT)
          = st.atom_list.array.take r
            ++ ({ atom := a, mat_index := st.serial } : ATOM_STRUCT)
              :: st.atom_list.array.drop r := by
        rw [List.set_append_right _ _ (by omega), hlen]
        simp
      simp only [h3, hget, if_true, hset]
      have hsplit := List.take_append_drop r st.atom_list.array
      have hsorted := hJ.sorted
      rw [← hsplit] at hsorted
      have hp := List.pairwise_append.mp hsorted
      have hold : ∀ e, e ∈ st.atom_list.array.take r ∨ e ∈ st.atom_list.array.drop r →
          e ∈ st.atom_list.array := by
        intro e he
        rw [← hsplit]
        exact List.mem_append.mpr he
      refine ⟨?_, ?_, ?_, ?_, ?_, ?_⟩
      · rw [List.pairwise_append]
        refine ⟨hp.1, ?_, ?_⟩
        · rw [List.pairwise_cons]
          exact ⟨fun y hy => hhi y hy, hp.2.1⟩
        · intro x hx y hy
          rcases List.mem_cons.mp hy with e | e
          · rw [e]; exact hlo x hx
          · exact hp.2.2 x hx y e
      · intro e he
        rcases List.mem_append.mp he with h | h
        · exact hJ.atoms_small e (hold e (Or.inl h))
        · rcases List.mem_cons.mp h with e1 | e1
          · rw [e1]; exact ha
          · exact hJ.atoms_small e (hold e (Or.inr e1))
      · rw [hfs, hJ.serial]
        simp
      · rw [hfs]
        simp only [List.length_append, List.length_cons, List.length_take, List.length_drop,
          List.length_nil]
        have := hJ.count
        omega
      · intro e he
        have holdidx : ∀ e, e ∈ st.atom_list.array →
            0 ≤ e.mat_index ∧ (first_seen (seq ++ [a]))[e.mat_index.toNat]? = some e.atom := by
          intro e he
          obtain ⟨i1, i2⟩ := hJ.index e he
          refine ⟨i1, ?_⟩
          have hl := (List.getElem?_eq_some_iff.mp i2).1
          rw [hfs, List.getElem?_append_left hl]
          exact i2
        rcases List.mem_append.mp he with h | h
        · exact holdidx e (hold e (Or.inl h))
        · rcases List.mem_cons.mp h with e1 | e1
          · rw [e1]
            simp only []
            rw [hJ.serial, hfs]
            refine ⟨by omega, ?_⟩
            simp
          · exact holdidx e (hold e (Or.inr e1))
      · intro b
        rw [List.mem_append, List.mem_singleton]
        constructor
        · rintro (h | h)
          · obtain ⟨e, he, hb⟩ := (hJ.mem b).mp h
            rw [← hsplit] at he
            rcases List.mem_append.mp he with h1 | h1
            · exact ⟨e, List.mem_append_left _ h1, hb⟩
            · exact ⟨e, List.mem_append_right _ (List.mem_cons_of_mem _ h1), hb⟩
          · exact ⟨{ atom := a, mat_index := st.serial },
              List.mem_append_right _ (List.mem_cons_self _ _), h.symm⟩
        · rintro ⟨e, he, hb⟩
          rcases List.mem_append.mp he with h1 | h1
          · exact Or.inl ((hJ.mem b).mpr ⟨e, hold e (Or.inl h1), hb⟩)
          · rcases List.mem_cons.mp h1 with e1 | e1
            · right
              rw [← hb, e1]
            · exact Or.inl ((hJ.mem b).mpr ⟨e, hold e (Or.inr e1), hb⟩)

theorem add_atoms_serialized (l : List Int) :
    ∀ (seq : List Int) (st : SerialState), (∀ a ∈ l, small a) → Serialized seq st →
      Serialized (seq ++ l) (l.foldl (fun s a => add_atom a s) st) := by
  induction l with
  | nil =>
    intro seq st _ hJ
    simpa using hJ
  | cons a l ih =>
    intro seq st hs hJ
    have h1 := add_atom_serialized seq st a (hs a (List.mem_cons_self _ _)) hJ
    have h2 := ih (seq ++ [a]) (add_atom a st)
      (fun b hb => hs b (List.mem_cons_of_mem _ hb)) h1
    simpa using h2

/-- The run of `find_union` with `enum_primary` inside `serialize_atoms`. -/
theorem serialize_union (q d : DOC_STRUCT) (hq : vector_ok q) (hd : vector_ok d)
    (seq : List Int) (st : SerialState) (hJ : Serialized seq st) :
    Serialized (seq ++ (shared q d).map (fun p => p.1.d_atom))
      (find_union q.docatoms d.docatoms comp_wgt enum_primary st).2 := by
  have h := find_union_loop_eq (fun a : WGT_STRUCT => a.d_atom) comp_wgt enum_primary
    q.docatoms.array d.docatoms.array st hq.1 hd.1
    (fun a ha b hb => comp_small a.d_atom b.d_atom (hq.2 a ha) (hd.2 b hb))
    (fun _ _ _ _ _ _ => rfl)
  unfold find_union
  rw [h]
  simp only []
  have hf : ∀ (ps : List (WGT_STRUCT × WGT_STRUCT)) (s : SerialState),
      ps.foldl (fun s p => (enum_primary p.1 p.2 s).2) s
        = (ps.map (fun p => p.1.d_atom)).foldl (fun s a => add_atom a s) s := by
    intro ps
    induction ps with
    | nil => intro s; rfl
    | cons p ps ih => intro s; simp only [List.foldl_cons, List.map_cons]; rw [ih]; rfl
  rw [hf]
  apply add_atoms_serialized _ seq st _ hJ
  intro a ha
  rw [List.mem_map] at ha
  obtain ⟨p, hp, rfl⟩ := ha
  exact ((shared_props q d hq hd).1 p hp).2.2.2

theorem serialize_line_serialized (doc_list : LIST DOC_STRUCT)
    (hdocs : ∀ d ∈ doc_list.array, vector_ok d) (p : Pref) (seq : List Int)
    (st st1 : SerialState) (hJ : Serialized seq st)
    (h : serialize_line doc_list st p = some st1) :
    Serialized (seq ++ seen_line doc_list p) st1 := by
  unfold serialize_line at h
  unfold seen_line
  by_cases ht : p.type = '+' ∨ p.type = 'C'
  · rw [if_pos ht] at h ⊢
    cases h
    simpa using hJ
  · rw [if_neg ht] at h ⊢
    cases hq : lookup_list doc_list { index := p.d, docatoms := create_list } comp_doc with
    | none => rw [hq] at h; cases h
    | some q =>
      cases h1 : lookup_list doc_list { index := p.d1, docatoms := create_list } comp_doc with
      | none => rw [hq, h1] at h; cases h
      | some d1 =>
        cases h2 : lookup_list doc_list { index := p.d2, docatoms := create_list }
            comp_doc with
        | none => rw [hq, h1, h2] at h; cases h
        | some d2 =>
          rw [hq, h1, h2] at h
          simp only [Option.some.injEq] at h
          subst h
          have vq := hdocs q (lookup_list_mem _ _ _ _ hq)
          have v1 := hdocs d1 (lookup_list_mem _ _ _ _ h1)
          have v2 := hdocs d2 (lookup_list_mem _ _ _ _ h2)
          have s1 := serialize_union q d1 vq v1 seq st hJ
          have s2 := serialize_union q d2 vq v2 _ _ s1
          simp only []
          rw [← List.append_assoc]
          exact s2

theorem serialize_fold_serialized (doc_list : LIST DOC_STRUCT)
    (hdocs : ∀ d ∈ doc_list.array, vector_ok d) (prefs : List Pref) :
    ∀ (seq : List Int) (st st1 : SerialState), Serialized seq st →
      prefs.foldlM (serialize_line doc_list) st = some st1 →
      Serialized (seq ++ seen doc_list prefs) st1 := by
  induction prefs with
  | nil =>
    intro seq st st1 hJ h
    simp only [List.foldlM_nil] at h
    cases h
    simpa [seen] using hJ
  | cons p ps ih =>
    intro seq st st1 hJ h
    rw [List.foldlM_cons] at h
    cases hl : serialize_line doc_list st p with
    | none => rw [hl] at h; cases h
    | some st2 =>
      rw [hl] at h
      have := ih _ st2 st1 (serialize_line_serialized doc_list hdocs p seq st st2 hJ hl) h
      rw [seen, ← List.append_assoc]
      exact this

theorem serialized_init : Serialized [] { atom_list := create_list, serial := 0 } := by
  constructor <;> simp [create_list, first_seen]

theorem matrix_index_sorted (atom_list : LIST ATOM_STRUCT)
    (hs : atom_list.array.Pairwise (fun a b => a.atom < b.atom))
    (hsm : ∀ e ∈ atom_list.array, small e.atom) (a : Int) (ha : small a) :
    (∃ e ∈ atom_list.array, e.atom = a ∧ matrix_index atom_list a = e.mat_index) ∨
    ((∀ e ∈ atom_list.array, e.atom ≠ a) ∧ matrix_index atom_list a = -1) := by
  unfold matrix_index
  rcases lookup_list_spec (fun e : ATOM_STRUCT => e.atom) atom_list
      { atom := a, mat_index := 0 } comp_atom hs
      (fun x hx => comp_small a x.atom ha (hsm x hx)) with
    ⟨x, h1, h2, h3⟩ | ⟨h1, h2⟩
  · left
    exact ⟨x, h1, h2, by rw [h3]⟩
  · right
    exact ⟨h1, by rw [h2]⟩

theorem init_weights_output (atom_list : LIST ATOM_STRUCT) (n : Nat)
    (idfs : List (Int × ℚ)) :
    ∀ st : InitState,
      (idfs.foldl (init_weights_line atom_list n) st).output
        = st.output ++ idfs.filter (fun l => decide (matrix_index atom_list l.1 = -1)) := by
  induction idfs with
  | nil => intro st; simp
  | cons l ls ih =>
    intro st
    rw [List.foldl_cons, ih, List.filter_cons]
    by_cases h : matrix_index atom_list l.1 = -1
    · simp [init_weights_line, h]
    · simp [init_weights_line, h]

theorem mem_seen (doc_list : LIST DOC_STRUCT) (prefs : List Pref) (a : Int) :
    a ∈ seen doc_list prefs ↔ ∃ p ∈ prefs, a ∈ seen_line doc_list p := by
  induction prefs with
  | nil => simp [seen]
  | cons p ps ih =>
    rw [seen, List.mem_append, ih]
    simp

/-- C10: when `serialize_atoms` returns on a preference file whose documents
have sorted weight vectors, the concepts in `atom_list` are exactly those
handed to `add_atom`, that is those the query of a line not of type `+` or
`C` shares with its first or its second document; the `mat_index` of each is
its place in the order of first occurrence, so the values are exactly
`0 .. count_list (atom_list) - 1`, each carried by exactly one concept;
`matrix_index` returns that place for these concepts and `-1` for every
other concept, and `init_weights` prints exactly the lines of the IDF file
whose concept is not among them, with the IDF as read. -/
theorem serialize_atoms_spec (doc_list : LIST DOC_STRUCT) (prefs : List Pref)
    (st : SerialState) (idfs : List (Int × ℚ)) (x : Nat → ℚ)
    (hdocs : ∀ d ∈ doc_list.array, vector_ok d) (hidfs : ∀ l ∈ idfs, small l.1)
    (h : serialize_atoms doc_list prefs = some st) :
    count_list st.atom_list = (first_seen (seen doc_list prefs)).length ∧
    (∀ e ∈ st.atom_list.array, 0 ≤ e.mat_index ∧
      (first_seen (seen doc_list prefs))[e.mat_index.toNat]? = some e.atom) ∧
    (∀ i : Nat, i < count_list st.atom_list →
      ∃ e ∈ st.atom_list.array, e.mat_index = (i : Int) ∧
        ∀ e1 ∈ st.atom_list.array, e1.mat_index = (i : Int) → e1 = e) ∧
    (∀ a, (∃ e ∈ st.atom_list.array, e.atom = a) ↔ a ∈ seen doc_list prefs) ∧
    (∀ a, a ∈ seen doc_list prefs ↔ ∃ p ∈ prefs, a ∈ seen_line doc_list p) ∧
    (∀ a, a ∈ seen doc_list prefs → 0 ≤ matrix_index st.atom_list a ∧
      (first_seen (seen doc_list prefs))[(matrix_index st.atom_list a).toNat]? = some a) ∧
    (∀ a, small a → a ∉ seen doc_list prefs → matrix_index st.atom_list a = -1) ∧
    (init_weights st.atom_list (count_list st.atom_list) idfs x).output
      = idfs.filter (fun l => decide (l.1 ∉ seen doc_list prefs)) := by
  have hJ := serialize_fold_serialized doc_list hdocs prefs [] _ st serialized_init h
  rw [List.nil_append] at hJ
  have hinj : ∀ e ∈ st.atom_list.array, ∀ e1 ∈ st.atom_list.array,
      e.mat_index = e1.mat_index → e = e1 := by
    intro e he e1 he1 hm
    have a1 := (hJ.index e he).2
    have a2 := (hJ.index e1 he1).2
    rw [hm, a2] at a1
    exact pairwise_key_inj (fun e : ATOM_STRUCT => e.atom) _ hJ.sorted e e1 he he1
      (Option.some.inj a1).symm
  have hmi : ∀ a, a ∈ seen doc_list prefs →
      ∃ e ∈ st.atom_list.array, e.atom = a ∧ matrix_index st.atom_list a = e.mat_index := by
    intro a ha
    obtain ⟨e, he, hea⟩ := (hJ.mem a).mp ha
    have hsm : small a := by rw [← hea]; exact hJ.atoms_small e he
    rcases matrix_index_sorted st.atom_list hJ.sorted hJ.atoms_small a hsm with h1 | ⟨h1, _⟩
    · exact h1
    · exact absurd hea (h1 e he)
  refine ⟨hJ.count, hJ.index, ?_, fun a => (hJ.mem a).symm, mem_seen doc_list prefs, ?_, ?_, ?_⟩
  · intro i hi
    unfold count_list at hi
    rw [hJ.count] at hi
    have hget : (first_seen (seen doc_list prefs))[i]?
        = some (first_seen (seen doc_list prefs))[i] := List.getElem?_eq_getElem hi
    have hmem : (first_seen (seen doc_list prefs))[i] ∈ seen doc_list prefs :=
      (mem_first_seen _ _).mp (List.getElem_mem _)
    obtain ⟨e, he, hea⟩ := (hJ.mem _).mp hmem
    obtain ⟨i1, i2⟩ := hJ.index e he
    have hlt := (List.getElem?_eq_some_iff.mp i2).1
    have hidx : e.mat_index.toNat = i := by
      have hnd := first_seen_nodup (seen doc_list prefs)
      have e2 : (first_seen (seen doc_list prefs))[e.mat_index.toNat]
          = (first_seen (seen doc_list prefs))[i] := by
        have := List.getElem?_eq_some_iff.mp i2
        rw [this.2, hea]
      exact (List.Nodup.getElem_inj_iff hnd).mp e2
    refine ⟨e, he, by omega, ?_⟩
    intro e1 he1 hm
    exact hinj e1 he1 e he (by omega)
  · intro a ha
    obtain ⟨e, he, hea, hm⟩ := hmi a ha
    rw [hm, ← hea]
    exact hJ.index e he
  · intro a hsm ha
    rcases matrix_index_sorted st.atom_list hJ.sorted hJ.atoms_small a hsm with
      ⟨e, he, hea, _⟩ | ⟨_, h1⟩
    · exact absurd ((hJ.mem a).mpr ⟨e, he, hea⟩) ha
    · exact h1
  · unfold init_weights
    rw [init_weights_output]
    simp only [List.nil_append]
    apply List.filter_congr
    intro l hl
    by_cases hs : l.1 ∈ seen doc_list prefs
    · obtain ⟨e, he, hea, hm⟩ := hmi l.1 hs
      have := (hJ.index e he).1
      have hne : ¬ matrix_index st.atom_list l.1 = -1 := by omega
      simp [hs, hne]
    · have : matrix_index st.atom_list l.1 = -1 := by
        rcases matrix_index_sorted st.atom_list hJ.sorted hJ.atoms_small l.1
            (hidfs l hl) with ⟨e, he, hea, _⟩ | ⟨_, h1⟩
        · exact absurd ((hJ.mem l.1).mpr ⟨e, he, hea⟩) hs
        · exact h1
      simp [hs, this]

set_option maxRecDepth 100000 in
theorem serialize_atoms_spec_witness :
    (∀ d ∈ example_docs.array, vector_ok d) ∧ (∀ l ∈ example_idfs, small l.1) ∧
    serialize_atoms example_docs example_prefs
      = some { atom_list := { array := [⟨1, 1⟩, ⟨2, 2⟩, ⟨3, 0⟩], total := 11 }, serial := 3 } ∧
    first_seen (seen example_docs example_prefs) = [3, 1, 2] ∧
    count_list ({ array := [⟨1, 1⟩, ⟨2, 2⟩, ⟨3, 0⟩], total := 11 } : LIST ATOM_STRUCT)
      = (first_seen (seen example_docs example_prefs)).length ∧
    (init_weights { array := [⟨1, 1⟩, ⟨2, 2⟩, ⟨3, 0⟩], total := 11 }
        (count_list ({ array := [⟨1, 1⟩, ⟨2, 2⟩, ⟨3, 0⟩], total := 11 } : LIST ATOM_STRUCT))
        example_idfs (fun _ => 0)).output
      = [(4, 7)] := by
  have hd : ∀ d ∈ example_docs.array, vector_ok d := by
    simp [example_docs, vector_ok, small]
  have hi : ∀ l ∈ example_idfs, small l.1 := by
    simp [example_idfs, small]
  have hs : serialize_atoms example_docs example_prefs
      = some { atom_list := { array := [⟨1, 1⟩, ⟨2, 2⟩, ⟨3, 0⟩], total := 11 }, serial := 3 } := by
    decide!
  have hf : first_seen (seen example_docs example_prefs) = [3, 1, 2] := by decide!
  have hflt : example_idfs.filter (fun l => decide (l.1 ∉ seen example_docs example_prefs))
      = [(4, 7)] := by decide!
  obtain ⟨c1, _, _, _, _, _, _, c8⟩ := serialize_atoms_spec example_docs example_prefs _
    example_idfs (fun _ => 0) hd hi hs
  rw [hflt] at c8
  exact ⟨hd, hi, hs, hf, c1, c8⟩

theorem serialize_atoms_serialized (doc_list : LIST DOC_STRUCT) (prefs : List Pref)
    (st : SerialState) (hdocs : ∀ d ∈ doc_list.array, vector_ok d)
    (h : serialize_atoms doc_list prefs = some st) :
    Serialized (seen doc_list prefs) st := by
  have hJ := serialize_fold_serialized doc_list hdocs prefs [] _ st serialized_init h
  rw [List.nil_append] at hJ
  exact hJ

theorem serialized_matrix_index (seq : List Int) (st : SerialState) (hJ : Serialized seq st)
    (a : Int) :
    (a ∈ seq → ∃ e ∈ st.atom_list.array, e.atom = a ∧
      matrix_index st.atom_list a = e.mat_index ∧ 0 ≤ e.mat_index) ∧
    (small a → a ∉ seq → matrix_index st.atom_list a = -1) := by
  constructor
  · intro ha
    obtain ⟨e, he, hea⟩ := (hJ.mem a).mp ha
    have hsm : small a := by rw [← hea]; exact hJ.atoms_small e he
    rcases matrix_index_sorted st.atom_list hJ.sorted hJ.atoms_small a hsm with
      ⟨e1, he1, h1, h2⟩ | ⟨h1, _⟩
    · exact ⟨e1, he1, h1, h2, (hJ.index e1 he1).1⟩
    · exact absurd hea (h1 e he)
  · intro hsm ha
    rcases matrix_index_sorted st.atom_list hJ.sorted hJ.atoms_small a hsm with
      ⟨e, he, hea, _⟩ | ⟨_, h1⟩
    · exact absurd ((hJ.mem a).mpr ⟨e, he, hea⟩) ha
    · exact h1

theorem serialize_line_lookups (doc_list : LIST DOC_STRUCT) (st st1 : SerialState) (p : Pref)
    (h : serialize_line doc_list st p = some st1) (ht : ¬ (p.type = '+' ∨ p.type = 'C')) :
    ∃ query doc1 doc2,
      lookup_list doc_list { index := p.d, docatoms := create_list } comp_doc = some query ∧
      lookup_list doc_list { index := p.d1, docatoms := create_list } comp_doc = some doc1 ∧
      lookup_list doc_list { index := p.d2, docatoms := create_list } comp_doc = some doc2 := by
  unfold serialize_line at h
  rw [if_neg ht] at h
  cases hq : lookup_list doc_list { index := p.d, docatoms := create_list } comp_doc with
  | none => rw [hq] at h; simp at h
  | some query =>
    cases h1 : lookup_list doc_list { index := p.d1, docatoms := create_list } comp_doc with
    | none => rw [hq, h1] at h; simp at h
    | some doc1 =>
      cases h2 : lookup_list doc_list { index := p.d2, docatoms := create_list } comp_doc with
      | none => rw [hq, h1, h2] at h; simp at h
      | some doc2 => exact ⟨query, doc1, doc2, rfl, rfl, rfl⟩

theorem serialize_fold_lookups (doc_list : LIST DOC_STRUCT) (prefs : List Pref) :
    ∀ st st1 : SerialState, prefs.foldlM (serialize_line doc_list) st = some st1 →
      ∀ p ∈ prefs, ¬ (p.type = '+' ∨ p.type = 'C') →
      ∃ query doc1 doc2,
        lookup_list doc_list { index := p.d, docatoms := create_list } comp_doc = some query ∧
        lookup_list doc_list { index := p.d1, docatoms := create_list } comp_doc = some doc1 ∧
        lookup_list doc_list { index := p.d2, docatoms := create_list } comp_doc
          = some doc2 := by
  induction prefs with
  | nil => intro st st1 _ p hp; simp at hp
  | cons p0 ps ih =>
    intro st st1 h p hp ht
    rw [List.foldlM_cons] at h
    cases h0 : serialize_line doc_list st p0 with
    | none => rw [h0] at h; simp at h
    | some st2 =>
      rw [h0] at h
      rcases List.mem_cons.mp hp with rfl | hp1
      · exact serialize_line_lookups doc_list st st2 p h0 ht
      · exact ih st2 st1 h p hp1 ht

/-- C11, counterexample: on a preference file with the one line `C -1 7 7`
`serialize_atoms` gives no concept a column, although the query `-1` shares
the concept `1` with the document `7`: `matrix_index` returns `-1` for it. -/
theorem costonly_not_scanned :
    example_costonly.type = 'C' ∧
    ∃ st query doc,
      serialize_atoms example_docs [example_costonly] = some st ∧
      lookup_list example_docs { index := example_costonly.d, docatoms := create_list }
        comp_doc = some query ∧
      lookup_list example_docs { index := example_costonly.d1, docatoms := create_list }
        comp_doc = some doc ∧
      (⟨1, 2⟩, ⟨1, 4⟩) ∈ shared query doc ∧
      count_list st.atom_list = 0 ∧
      matrix_index st.atom_list 1 = -1 := by
  refine ⟨rfl, { atom_list := create_list, serial := 0 },
    { index := -1, docatoms := { array := [⟨1, 2⟩, ⟨2, 3⟩, ⟨3, 1 / 2⟩], total := 11 } },
    { index := 7, docatoms := { array := [⟨1, 4⟩, ⟨2, 1⟩, ⟨4, 9⟩], total := 11 } },
    by decide!, by decide!, by decide!, by decide!, by decide!, by decide!⟩

/-- C11, amended: `serialize_atoms` scans the lines of type `-` and skips
both the lines of type `+` and those of type `C` (a skipped line leaves
`atom_list` and `serial` as they are).  When it returns, every concept the
query of a scanned line shares with one of its two documents has a column
(`matrix_index >= 0`), and a concept shared in no scanned line, such as one
shared in lines of type `C` only, has none (`matrix_index = -1`). -/
theorem serialize_scans_unsatisfied (doc_list : LIST DOC_STRUCT) (prefs : List Pref)
    (st : SerialState) (hdocs : ∀ d ∈ doc_list.array, vector_ok d)
    (h : serialize_atoms doc_list prefs = some st) :
    (∀ p ∈ prefs, p.type ≠ '+' → p.type ≠ 'C' →
      ∃ query doc1 doc2,
        lookup_list doc_list { index := p.d, docatoms := create_list } comp_doc = some query ∧
        lookup_list doc_list { index := p.d1, docatoms := create_list } comp_doc = some doc1 ∧
        lookup_list doc_list { index := p.d2, docatoms := create_list } comp_doc = some doc2 ∧
        ∀ w ∈ shared query doc1 ++ shared query doc2,
          0 ≤ matrix_index st.atom_list w.1.d_atom) ∧
    (∀ (p : Pref) (st0 : SerialState), p.type = '+' ∨ p.type = 'C' →
      serialize_line doc_list st0 p = some st0) ∧
    (∀ a, small a →
      (∀ p ∈ prefs, p.type ≠ '+' → p.type ≠ 'C' → ∀ query doc1 doc2,
        lookup_list doc_list { index := p.d, docatoms := create_list } comp_doc = some query →
        lookup_list doc_list { index := p.d1, docatoms := create_list } comp_doc = some doc1 →
        lookup_list doc_list { index := p.d2, docatoms := create_list } comp_doc = some doc2 →
        ∀ w ∈ shared query doc1 ++ shared query doc2, w.1.d_atom ≠ a) →
      matrix_index st.atom_list a = -1) := by
  have hJ := serialize_atoms_serialized doc_list prefs st hdocs h
  refine ⟨?_, ?_, ?_⟩
  · intro p hp t1 t2
    have ht : ¬ (p.type = '+' ∨ p.type = 'C') := by
      rintro (c | c)
      · exact t1 c
      · exact t2 c
    obtain ⟨query, doc1, doc2, l0, l1, l2⟩ :=
      serialize_fold_lookups doc_list prefs _ st h p hp ht
    refine ⟨query, doc1, doc2, l0, l1, l2, ?_⟩
    intro w hw
    have hmem : w.1.d_atom ∈ seen doc_list prefs := by
      rw [mem_seen]
      refine ⟨p, hp, ?_⟩
      unfold seen_line
      rw [if_neg ht, l0, l1, l2]
      simp only [← List.map_append]
      exact List.mem_map_of_mem _ hw
    obtain ⟨e, _, _, hm, h0⟩ := (serialized_matrix_index _ st hJ w.1.d_atom).1 hmem
    rw [hm]
    exact h0
  · intro p st0 hp
    unfold serialize_line
    rw [if_pos hp]
  · intro a hsm hno
    apply (serialized_matrix_index _ st hJ a).2 hsm
    intro hmem
    rw [mem_seen] at hmem
    obtain ⟨p, hp, hin⟩ := hmem
    unfold seen_line at hin
    by_cases ht : p.type = '+' ∨ p.type = 'C'
    · rw [if_pos ht] at hin
      simp at hin
    · rw [if_neg ht] at hin
      have t1 : p.type ≠ '+' := fun c => ht (Or.inl c)
      have t2 : p.type ≠ 'C' := fun c => ht (Or.inr c)
      obtain ⟨query, doc1, doc2, l0, l1, l2⟩ :=
        serialize_fold_lookups doc_list prefs _ st h p hp ht
      rw [l0, l1, l2] at hin
      simp only [← List.map_append] at hin
      obtain ⟨w, hw, hwa⟩ := List.mem_map.mp hin
      exact hno p hp t1 t2 query doc1 doc2 l0 l1 l2 w hw hwa

set_option maxRecDepth 100000 in
theorem serialize_scans_unsatisfied_witness :
    (∀ d ∈ example_docs.array, vector_ok d) ∧
    serialize_atoms example_docs example_prefs
      = some { atom_list := { array := [⟨1, 1⟩, ⟨2, 2⟩, ⟨3, 0⟩], total := 11 }, serial := 3 } ∧
    (∀ p ∈ example_prefs, p.type ≠ '+' → p.type ≠ 'C' →
      ∃ query doc1 doc2,
        lookup_list example_docs { index := p.d, docatoms := create_list } comp_doc
          = some query ∧
        lookup_list example_docs { index := p.d1, docatoms := create_list } comp_doc
          = some doc1 ∧
        lookup_list example_docs { index := p.d2, docatoms := create_list } comp_doc
          = some doc2 ∧
        ∀ w ∈ shared query doc1 ++ shared query doc2,
          0 ≤ matrix_index { array := [⟨1, 1⟩, ⟨2, 2⟩, ⟨3, 0⟩], total := 11 } w.1.d_atom) := by
  have hd : ∀ d ∈ example_docs.array, vector_ok d := example_docs_ok
  have hs : serialize_atoms example_docs example_prefs
      = some { atom_list := { array := [⟨1, 1⟩, ⟨2, 2⟩, ⟨3, 0⟩], total := 11 }, serial := 3 } := by
    decide!
  exact ⟨hd, hs, (serialize_scans_unsatisfied example_docs example_prefs _ hd hs).1⟩

theorem calc_equations_bounds (c1 c2 : ℚ) (G : Globals) (prefs : List Pref) (x : Nat → ℚ)
    (translation : List (List ℚ)) (g : Matrix)
    (h : calc_equations c1 c2 G prefs x translation = some g) :
    g.num_weights = G.num_weights ∧ g.translation = translation ∧
    g.min_weights = (bound_rows c1 c2 G.num_weights x).1 ∧
    g.max_weights = (bound_rows c1 c2 G.num_weights x).2 := by
  unfold calc_equations at h
  cases h1 : enum_pref G prefs true [] (alloc_vector G.num_weights) with
  | none => rw [h1] at h; simp at h
  | some r1 =>
    obtain ⟨np, r, cost⟩ := r1
    rw [h1] at h
    simp only at h
    cases h2 : enum_pref G prefs false (List.replicate np []) cost with
    | none => rw [h2] at h; simp at h
    | some r2 =>
      obtain ⟨a, rsv, cost2⟩ := r2
      rw [h2] at h
      simp only [Option.some.injEq] at h
      subst h
      exact ⟨rfl, rfl, rfl, rfl⟩

theorem row_value_unit (n i : Nat) (a c : ℚ) (w : Nat → ℚ) (hi : i < n) :
    row_value n (((alloc_vector n).set i a).set n c) w = a * w i + c := by
  unfold row_value
  rw [unit_row_getD n i n a c hi (le_refl n), if_pos rfl]
  have : ∀ k ∈ Finset.range n,
      (((alloc_vector n).set i a).set n c).getD k 0 * w k = if k = i then a * w i else 0 := by
    intro k hk
    have hk1 : k < n := Finset.mem_range.mp hk
    rw [unit_row_getD n i k a c hi (by omega)]
    have : ¬ k = n := by omega
    rw [if_neg this]
    by_cases hki : k = i
    · rw [if_pos hki, if_pos hki, hki]
    · rw [if_neg hki, if_neg hki, zero_mul]
  rw [Finset.sum_congr rfl this, Finset.sum_ite_eq']
  rw [if_pos (Finset.mem_range.mpr hi)]

theorem bound_rows_getD (c1 c2 : ℚ) (n : Nat) (x : Nat → ℚ) (i : Nat) (hi : i < n) :
    (bound_rows c1 c2 n x).1.length = n ∧ (bound_rows c1 c2 n x).2.length = n ∧
    (bound_rows c1 c2 n x).1.getD i [] = ((alloc_vector n).set i 1).set n (- c1 * x i) ∧
    (bound_rows c1 c2 n x).2.getD i [] = ((alloc_vector n).set i (-1)).set n (c2 * x i) := by
  rw [bound_rows_eq]
  simp [List.getD_eq_getElem?_getD, hi]

/-- C12: in the matrix `calc_equations` leaves, for every column
`i < num_weights` and IDF vector `x`, the row `min_weights [i]` has the
coefficient `1.0` at `i`, zero at every other column and the constant
`- C1 * x [i]`, so its value at a weight vector `w` is `w [i] - C1 * x [i]`;
the row `max_weights [i]` has `-1.0` at `i`, zero elsewhere and the constant
`C2 * x [i]`, so its value is `C2 * x [i] - w [i]`.  Hence the first is not
negative iff `w [i] >= C1 * x [i]`, the second iff `w [i] <= C2 * x [i]`, and
with the macros of limits.h (the default `C1 = 0.5`, `C2 = 2.0`) both are
not negative at `w = x` whenever `x [i] >= 0`. -/
theorem bound_rows_spec (c1 c2 : ℚ) (G : Globals) (prefs : List Pref) (x : Nat → ℚ)
    (translation : List (List ℚ)) (g : Matrix) (i : Nat) (w : Nat → ℚ)
    (h : calc_equations c1 c2 G prefs x translation = some g) (hi : i < G.num_weights) :
    g.min_weights.length = G.num_weights ∧ g.max_weights.length = G.num_weights ∧
    (∀ k, k < G.num_weights →
      (g.min_weights.getD i []).getD k 0 = if k = i then 1 else 0) ∧
    (g.min_weights.getD i []).getD G.num_weights 0 = - c1 * x i ∧
    (∀ k, k < G.num_weights →
      (g.max_weights.getD i []).getD k 0 = if k = i then -1 else 0) ∧
    (g.max_weights.getD i []).getD G.num_weights 0 = c2 * x i ∧
    row_value G.num_weights (g.min_weights.getD i []) w = w i - c1 * x i ∧
    row_value G.num_weights (g.max_weights.getD i []) w = c2 * x i - w i ∧
    (0 ≤ row_value G.num_weights (g.min_weights.getD i []) w ↔ c1 * x i ≤ w i) ∧
    (0 ≤ row_value G.num_weights (g.max_weights.getD i []) w ↔ w i ≤ c2 * x i) ∧
    (C1 false false = 1 / 2 ∧ C2 false false = 2) ∧
    (∀ P10 P20 : Bool, C1 P10 P20 < 1 ∧ 1 < C2 P10 P20) ∧
    (∀ P10 P20 : Bool, c1 = C1 P10 P20 → c2 = C2 P10 P20 → 0 ≤ x i →
      0 ≤ row_value G.num_weights (g.min_weights.getD i []) x ∧
      0 ≤ row_value G.num_weights (g.max_weights.getD i []) x) := by
  obtain ⟨_, _, hmin, hmax⟩ := calc_equations_bounds c1 c2 G prefs x translation g h
  obtain ⟨l1, l2, r1, r2⟩ := bound_rows_getD c1 c2 G.num_weights x i hi
  rw [hmin, hmax, r1, r2]
  have v1 : ∀ w : Nat → ℚ, row_value G.num_weights
      (((alloc_vector G.num_weights).set i 1).set G.num_weights (- c1 * x i)) w
      = w i - c1 * x i := by
    intro w
    rw [row_value_unit _ _ _ _ _ hi]
    ring
  have v2 : ∀ w : Nat → ℚ, row_value G.num_weights
      (((alloc_vector G.num_weights).set i (-1)).set G.num_weights (c2 * x i)) w
      = c2 * x i - w i := by
    intro w
    rw [row_value_unit _ _ _ _ _ hi]
    ring
  have hC : ∀ P10 P20 : Bool, C1 P10 P20 < 1 ∧ 1 < C2 P10 P20 := by
    intro P10 P20
    cases P10 <;> cases P20 <;> norm_num [C1, C2]
  refine ⟨l1, l2, ?_, ?_, ?_, ?_, v1 w, v2 w, ?_, ?_, ?_, hC, ?_⟩
  · intro k hk
    rw [unit_row_getD _ _ _ _ _ hi (by omega)]
    have : ¬ k = G.num_weights := by omega
    rw [if_neg this]
  · rw [unit_row_getD _ _ _ _ _ hi (le_refl _), if_pos rfl]
  · intro k hk
    rw [unit_row_getD _ _ _ _ _ hi (by omega)]
    have : ¬ k = G.num_weights := by omega
    rw [if_neg this]
  · rw [unit_row_getD _ _ _ _ _ hi (le_refl _), if_pos rfl]
  · rw [v1 w]
    constructor <;> intro a <;> linarith
  · rw [v2 w]
    constructor <;> intro a <;> linarith
  · constructor <;> norm_num [C1, C2]
  · intro P10 P20 e1 e2 hx
    rw [v1 x, v2 x]
    obtain ⟨a, b⟩ := hC P10 P20
    rw [← e1] at a
    rw [← e2] at b
    constructor <;> nlinarith

set_option maxRecDepth 100000 in
theorem bound_rows_spec_witness :
    calc_equations (1 / 2) 2 example_globals example_prefs example_x [[1, 0, 3], [0, 1, 1 / 2]]
      = some { num_weights := 2
               num_prefs := 2
               translation := [[1, 0, 3], [0, 1, 1 / 2]]
               rsv_eq := [[-8, 1, - (1499999 / 100000)], [-8, 1, - (1500001 / 100000)]]
               min_weights := [[1, 0, - (3 / 2)], [0, 1, - (1 / 4)]]
               max_weights := [[-1, 0, 6], [0, -1, 1]]
               cost := [8, -1, 749999 / 50000] } ∧
    (1 : Nat) < example_globals.num_weights ∧
    row_value 2 [0, 1, - (1 / 4)] example_x = example_x 1 - 1 / 2 * example_x 1 ∧
    row_value 2 [0, -1, 1] example_x = 2 * example_x 1 - example_x 1 := by
  have h : calc_equations (1 / 2) 2 example_globals example_prefs example_x
      [[1, 0, 3], [0, 1, 1 / 2]]
      = some { num_weights := 2
               num_prefs := 2
               translation := [[1, 0, 3], [0, 1, 1 / 2]]
               rsv_eq := [[-8, 1, - (1499999 / 100000)], [-8, 1, - (1500001 / 100000)]]
               min_weights := [[1, 0, - (3 / 2)], [0, 1, - (1 / 4)]]
               max_weights := [[-1, 0, 6], [0, -1, 1]]
               cost := [8, -1, 749999 / 50000] } := by decide!
  have hi : (1 : Nat) < example_globals.num_weights := by decide
  have k := bound_rows_spec (1 / 2) 2 example_globals example_prefs example_x _ _ 1 example_x
    h hi
  exact ⟨h, hi, k.2.2.2.2.2.2.1, k.2.2.2.2.2.2.2.1⟩

theorem serialized_cols (seq : List Int) (st : SerialState) (hJ : Serialized seq st) :
    (∀ e ∈ st.atom_list.array, 0 ≤ e.mat_index ∧
      e.mat_index.toNat < st.atom_list.array.length) ∧
    (∀ e ∈ st.atom_list.array, ∀ e1 ∈ st.atom_list.array,
      e.mat_index = e1.mat_index → e = e1) ∧
    (∀ i : Nat, i < st.atom_list.array.length →
      ∃ e ∈ st.atom_list.array, e.mat_index = (i : Int)) := by
  refine ⟨?_, ?_, ?_⟩
  · intro e he
    obtain ⟨i1, i2⟩ := hJ.index e he
    have hlt := (List.getElem?_eq_some_iff.mp i2).1
    rw [hJ.count]
    exact ⟨i1, hlt⟩
  · intro e he e1 he1 hm
    have a1 := (hJ.index e he).2
    have a2 := (hJ.index e1 he1).2
    rw [hm, a2] at a1
    exact pairwise_key_inj (fun e : ATOM_STRUCT => e.atom) _ hJ.sorted e e1 he he1
      (Option.some.inj a1).symm
  · intro i hi
    rw [hJ.count] at hi
    have hmem : (first_seen seq)[i] ∈ seq := (mem_first_seen _ _).mp (List.getElem_mem _)
    obtain ⟨e, he, hea⟩ := (hJ.mem _).mp hmem
    obtain ⟨i1, i2⟩ := hJ.index e he
    have hidx : e.mat_index.toNat = i := by
      have hnd := first_seen_nodup seq
      have e2 : (first_seen seq)[e.mat_index.toNat]? = (first_seen seq)[i]? := by
        rw [i2, hea, List.getElem?_eq_getElem hi]
      have hlt := (List.getElem?_eq_some_iff.mp i2).1
      rw [List.getElem?_eq_getElem hlt, List.getElem?_eq_getElem hi] at e2
      exact (List.Nodup.getElem_inj_iff hnd).mp (Option.some.inj e2)
    exact ⟨e, he, by omega⟩

theorem init_weights_line_length (atom_list : LIST ATOM_STRUCT) (n : Nat) (st : InitState)
    (l : Int × ℚ) :
    (init_weights_line atom_list n st l).translation.length = st.translation.length := by
  unfold init_weights_line
  by_cases h : matrix_index atom_list l.1 = -1
  · simp [h]
  · simp [h]

theorem init_weights_fold_length (atom_list : LIST ATOM_STRUCT) (n : Nat)
    (idfs : List (Int × ℚ)) :
    ∀ st : InitState, (idfs.foldl (init_weights_line atom_list n) st).translation.length
      = st.translation.length := by
  induction idfs with
  | nil => intro st; rfl
  | cons l ls ih =>
    intro st
    rw [List.foldl_cons, ih, init_weights_line_length]

theorem init_weights_keep (atom_list : LIST ATOM_STRUCT) (n c : Nat) (post : List (Int × ℚ)) :
    ∀ st : InitState,
      (∀ l ∈ post, matrix_index atom_list l.1 = -1 ∨
        (0 ≤ matrix_index atom_list l.1 ∧ matrix_index atom_list l.1 ≠ (c : Int))) →
      (post.foldl (init_weights_line atom_list n) st).x c = st.x c ∧
      (post.foldl (init_weights_line atom_list n) st).translation.getD c []
        = st.translation.getD c [] := by
  induction post with
  | nil => intro st _; exact ⟨rfl, rfl⟩
  | cons l ls ih =>
    intro st h
    rw [List.foldl_cons]
    obtain ⟨a, b⟩ := ih (init_weights_line atom_list n st l)
      (fun l1 h1 => h l1 (List.mem_cons_of_mem _ h1))
    rw [a, b]
    unfold init_weights_line
    rcases h l (List.mem_cons_self _ _) with h1 | ⟨h1, h2⟩
    · simp [h1]
    · have hne : ¬ matrix_index atom_list l.1 = -1 := by omega
      have hc : ¬ c = (matrix_index atom_list l.1).toNat := by omega
      have hc1 : ¬ (matrix_index atom_list l.1).toNat = c := by omega
      simp only [ne_eq, hne, not_false_eq_true, ↓reduceIte, upd, hc]
      refine ⟨trivial, ?_⟩
      rw [List.getD_eq_getElem?_getD, List.getD_eq_getElem?_getD, List.getElem?_set_ne hc1]

theorem init_weights_line_hit (atom_list : LIST ATOM_STRUCT) (n : Nat) (st : InitState)
    (l : Int × ℚ) (h0 : 0 ≤ matrix_index atom_list l.1)
    (hlt : (matrix_index atom_list l.1).toNat < st.translation.length) :
    (init_weights_line atom_list n st l).x (matrix_index atom_list l.1).toNat = l.2 ∧
    (init_weights_line atom_list n st l).translation.getD (matrix_index atom_list l.1).toNat []
      = translation_row n (matrix_index atom_list l.1).toNat l.2 := by
  unfold init_weights_line
  have hne : ¬ matrix_index atom_list l.1 = -1 := by omega
  simp only [ne_eq, hne, not_false_eq_true, ↓reduceIte, upd]
  refine ⟨trivial, ?_⟩
  rw [List.getD_eq_getElem?_getD, List.getElem?_set_self hlt]
  rfl

theorem last_occurrence (idfs : List (Int × ℚ)) (a : Int) (h : ∃ l ∈ idfs, l.1 = a) :
    ∃ pre v post, idfs = pre ++ (a, v) :: post ∧ ∀ l ∈ post, l.1 ≠ a := by
  induction idfs with
  | nil => simp at h
  | cons l0 ls ih =>
    by_cases hl : ∃ l ∈ ls, l.1 = a
    · obtain ⟨pre, v, post, e, hp⟩ := ih hl
      exact ⟨l0 :: pre, v, post, by rw [e]; rfl, hp⟩
    · obtain ⟨l, hmem, hla⟩ := h
      rcases List.mem_cons.mp hmem with rfl | h1
      · refine ⟨[], l.2, ls, ?_, ?_⟩
        · rw [← hla]; rfl
        · intro l1 h1 c
          exact hl ⟨l1, h1, c⟩
      · exact absurd ⟨l, h1, hla⟩ hl

theorem init_weights_last (seq : List Int) (st : SerialState) (hJ : Serialized seq st)
    (n : Nat) (idfs : List (Int × ℚ)) (x : Nat → ℚ)
    (hn : n = count_list st.atom_list) (hidfs : ∀ l ∈ idfs, small l.1)
    (e : ATOM_STRUCT) (he : e ∈ st.atom_list.array) (pre post : List (Int × ℚ)) (v : ℚ)
    (hsplit : idfs = pre ++ (e.atom, v) :: post) (hpost : ∀ l ∈ post, l.1 ≠ e.atom) :
    (init_weights st.atom_list n idfs x).x e.mat_index.toNat = v ∧
    (init_weights st.atom_list n idfs x).translation.getD e.mat_index.toNat []
      = translation_row n e.mat_index.toNat v := by
  obtain ⟨c1, c2, _⟩ := serialized_cols seq st hJ
  have hmi : matrix_index st.atom_list e.atom = e.mat_index := by
    rcases matrix_index_sorted st.atom_list hJ.sorted hJ.atoms_small e.atom
        (hJ.atoms_small e he) with ⟨e1, he1, h1, h2⟩ | ⟨h1, _⟩
    · rw [h2, pairwise_key_inj (fun e : ATOM_STRUCT => e.atom) _ hJ.sorted e1 e he1 he h1]
    · exact absurd rfl (h1 e he)
  unfold init_weights
  rw [hsplit, List.foldl_append, List.foldl_cons]
  have hkeep := init_weights_keep st.atom_list n e.mat_index.toNat post
    (init_weights_line st.atom_list n
      (List.foldl (init_weights_line st.atom_list n)
        { x := x, translation := List.replicate n [], unused_wgts := create_list,
          output := [] } pre) (e.atom, v)) (by
      intro l hl
      have hsm : small l.1 := hidfs l (by rw [hsplit]; simp [hl])
      rcases matrix_index_sorted st.atom_list hJ.sorted hJ.atoms_small l.1 hsm with
        ⟨e1, he1, h1, h2⟩ | ⟨_, h1⟩
      · right
        rw [h2]
        have p1 := (c1 e1 he1).1
        have p2 := (c1 e he).1
        refine ⟨p1, ?_⟩
        intro c
        have : e1 = e := c2 e1 he1 e he (by omega)
        rw [this] at h1
        exact hpost l hl h1.symm
      · left; exact h1)
  rw [hkeep.1, hkeep.2]
  have hit := init_weights_line_hit st.atom_list n
    (List.foldl (init_weights_line st.atom_list n)
        { x := x, translation := List.replicate n [], unused_wgts := create_list,
          output := [] } pre) (e.atom, v)
    (by rw [hmi]; exact (c1 e he).1)
    (by
      rw [init_weights_fold_length, hmi]
      simp only [List.length_replicate]
      rw [hn]
      exact (c1 e he).2)
  rw [hmi] at hit
  exact hit

/-- C13: after `serialize_atoms`, with `num_weights = count_list (atom_list)`
as in `main`, and on an IDF file that has a line for every concept of
`atom_list`: `init_weights` leaves in `x [col]` the IDF of the concept with
the column `col` (the IDF of its last line, its only line when the concept
numbers of the file are pairwise distinct), and `translation` holds exactly
one row per column `col < num_weights`, with the coefficient `1.0` at `col`,
zero at every other column and the constant `x [col]`. -/
theorem init_weights_spec (doc_list : LIST DOC_STRUCT) (prefs : List Pref)
    (st : SerialState) (idfs : List (Int × ℚ)) (x : Nat → ℚ)
    (hdocs : ∀ d ∈ doc_list.array, vector_ok d) (hidfs : ∀ l ∈ idfs, small l.1)
    (h : serialize_atoms doc_list prefs = some st)
    (hall : ∀ e ∈ st.atom_list.array, ∃ l ∈ idfs, l.1 = e.atom) :
    (∀ e ∈ st.atom_list.array, ∀ (pre post : List (Int × ℚ)) (v : ℚ),
      idfs = pre ++ (e.atom, v) :: post → (∀ l ∈ post, l.1 ≠ e.atom) →
      (init_weights st.atom_list (count_list st.atom_list) idfs x).x e.mat_index.toNat = v ∧
      (init_weights st.atom_list (count_list st.atom_list) idfs x).translation.getD
          e.mat_index.toNat []
        = translation_row (count_list st.atom_list) e.mat_index.toNat v) ∧
    ((idfs.map Prod.fst).Nodup → ∀ l ∈ idfs, ∀ e ∈ st.atom_list.array, e.atom = l.1 →
      (init_weights st.atom_list (count_list st.atom_list) idfs x).x e.mat_index.toNat
        = l.2) ∧
    (init_weights st.atom_list (count_list st.atom_list) idfs x).translation.length
      = count_list st.atom_list ∧
    (∀ col, col < count_list st.atom_list →
      (∃ e ∈ st.atom_list.array, e.mat_index = (col : Int)) ∧
      ((init_weights st.atom_list (count_list st.atom_list) idfs x).translation.getD
        col []).length = count_list st.atom_list + 1 ∧
      (∀ k, k < count_list st.atom_list →
        ((init_weights st.atom_list (count_list st.atom_list) idfs x).translation.getD
          col []).getD k 0 = if k = col then 1 else 0) ∧
      ((init_weights st.atom_list (count_list st.atom_list) idfs x).translation.getD
          col []).getD (count_list st.atom_list) 0
        = (init_weights st.atom_list (count_list st.atom_list) idfs x).x col) ∧
    (init_weights st.atom_list (count_list st.atom_list) idfs x).translation
      = translation_rows (count_list st.atom_list)
          (init_weights st.atom_list (count_list st.atom_list) idfs x).x := by
  have hJ := serialize_atoms_serialized doc_list prefs st hdocs h
  obtain ⟨c1, c2, c3⟩ := serialized_cols _ st hJ
  have hlast := fun e he pre post v hs hp =>
    init_weights_last _ st hJ (count_list st.atom_list) idfs x rfl hidfs e he pre post v hs hp
  have hlen : (init_weights st.atom_list (count_list st.atom_list) idfs x).translation.length
      = count_list st.atom_list := by
    unfold init_weights
    rw [init_weights_fold_length]
    simp
  have hrow : ∀ col, col < count_list st.atom_list →
      (init_weights st.atom_list (count_list st.atom_list) idfs x).translation.getD col []
        = translation_row (count_list st.atom_list) col
            ((init_weights st.atom_list (count_list st.atom_list) idfs x).x col) ∧
      ∃ e ∈ st.atom_list.array, e.mat_index = (col : Int) := by
    intro col hcol
    obtain ⟨e, he, hm⟩ := c3 col hcol
    obtain ⟨pre, v, post, hs, hp⟩ := last_occurrence idfs e.atom (hall e he)
    obtain ⟨a, b⟩ := hlast e he pre post v hs hp
    have ht : e.mat_index.toNat = col := by omega
    rw [ht] at a b
    rw [a, b]
    exact ⟨rfl, e, he, hm⟩
  refine ⟨hlast, ?_, hlen, ?_, ?_⟩
  · intro hnd l hl e he hea
    obtain ⟨pre, post, hs⟩ := List.append_of_mem hl
    have hp : ∀ l1 ∈ post, l1.1 ≠ e.atom := by
      intro l1 h1 c
      rw [hs, List.map_append, List.map_cons] at hnd
      have n1 := (List.nodup_cons.mp (List.Nodup.of_append_right hnd)).1
      apply n1
      rw [← hea, ← c]
      exact List.mem_map_of_mem _ h1
    have hs1 : idfs = pre ++ (e.atom, l.2) :: post := by rw [hs, hea]
    exact (hlast e he pre post l.2 hs1 hp).1
  · intro col hcol
    obtain ⟨a, b⟩ := hrow col hcol
    rw [a]
    unfold translation_row
    refine ⟨b, unit_row_length _ _ _ _, ?_, ?_⟩
    · intro k hk
      rw [unit_row_getD _ _ _ _ _ hcol (by omega)]
      have : ¬ k = count_list st.atom_list := by omega
      rw [if_neg this]
    · rw [unit_row_getD _ _ _ _ _ hcol (le_refl _), if_pos rfl]
  · rw [translation_rows_eq]
    apply List.ext_getElem
    · rw [hlen]; simp
    · intro i h1 h2
      have hi : i < count_list st.atom_list := by rw [← hlen]; exact h1
      have := (hrow i hi).1
      rw [List.getD_eq_getElem _ _ h1] at this
      rw [this]
      simp

set_option maxRecDepth 100000 in
theorem init_weights_spec_witness :
    (∀ d ∈ example_docs.array, vector_ok d) ∧ (∀ l ∈ example_idfs, small l.1) ∧
    serialize_atoms example_docs example_prefs
      = some { atom_list := { array := [⟨1, 1⟩, ⟨2, 2⟩, ⟨3, 0⟩], total := 11 }, serial := 3 } ∧
    (∀ e ∈ ([⟨1, 1⟩, ⟨2, 2⟩, ⟨3, 0⟩] : List ATOM_STRUCT), ∃ l ∈ example_idfs, l.1 = e.atom) ∧
    (init_weights { array := [⟨1, 1⟩, ⟨2, 2⟩, ⟨3, 0⟩], total := 11 } 3 example_idfs
      (fun _ => 0)).x 1 = 3 ∧
    (init_weights { array := [⟨1, 1⟩, ⟨2, 2⟩, ⟨3, 0⟩], total := 11 } 3 example_idfs
      (fun _ => 0)).translation.length = 3 ∧
    (init_weights { array := [⟨1, 1⟩, ⟨2, 2⟩, ⟨3, 0⟩], total := 11 } 3 example_idfs
      (fun _ => 0)).translation = [[1, 0, 0, 1 / 2], [0, 1, 0, 3], [0, 0, 1, 5]] := by
  have hd : ∀ d ∈ example_docs.array, vector_ok d := example_docs_ok
  have hi : ∀ l ∈ example_idfs, small l.1 := by simp [example_idfs, small]
  have hs : serialize_atoms example_docs example_prefs
      = some { atom_list := { array := [⟨1, 1⟩, ⟨2, 2⟩, ⟨3, 0⟩], total := 11 }, serial := 3 } := by
    decide!
  have ha : ∀ e ∈ ([⟨1, 1⟩, ⟨2, 2⟩, ⟨3, 0⟩] : List ATOM_STRUCT),
      ∃ l ∈ example_idfs, l.1 = e.atom := by
    simp [example_idfs]
  obtain ⟨_, k2, k3, _, _⟩ := init_weights_spec example_docs example_prefs _ example_idfs
    (fun _ => 0) hd hi hs ha
  have hnd : (example_idfs.map Prod.fst).Nodup := by decide
  have x1 := k2 hnd (1, 3) (by simp [example_idfs]) ⟨1, 1⟩ (by simp) rfl
  exact ⟨hd, hi, hs, ha, x1, k3, by decide!⟩

theorem rowval_unit (n : Nat) (g : Matrix) (i k : Nat) (hk : 1 ≤ k) (hk2 : k ≤ n) :
    rowval n g (fun j => if j = k then 1 else 0) i = elt g i k + elt g i (n + 1) := by
  unfold rowval
  have h1 : ∀ j ∈ Finset.range n,
      elt g i (j + 1) * (if j + 1 = k then (1 : ℚ) else 0)
        = (if j + 1 = k then (1 : ℚ) else 0) * elt g i (j + 1) := by
    intro j _
    rw [mul_comm]
  rw [Finset.sum_congr rfl h1, sum_unit n k 1 (fun j => elt g i (j + 1)) hk hk2]
  have : k - 1 + 1 = k := by omega
  simp only [this, one_mul]

theorem rowval_coeff (n : Nat) (g : Matrix) (i k : Nat) (hk : 1 ≤ k) (hk2 : k ≤ n) :
    elt g i k = rowval n g (fun j => if j = k then 1 else 0) i - rowval n g (fun _ => 0) i := by
  rw [rowval_unit n g i k hk hk2, rowval_zero]
  ring

theorem builder_rowval_translation (C1 C2 : ℚ) (n : Nat) (x : Nat → ℚ)
    (rsv : List (List ℚ)) (cost : List ℚ) (hrsv : ∀ r ∈ rsv, r.length = n + 1)
    (hcost : cost.length = n + 1) (i : Nat) (hi : 1 ≤ i) (hi2 : i ≤ n) (t : Nat → ℚ) :
    rowval n (transform n (3 * n + rsv.length) x (builder_matrix C1 C2 n x rsv cost)) t i
      = t i + x (i - 1) := by
  have hd := builder_dim C1 C2 n x rsv cost hrsv hcost
  obtain ⟨_, hT⟩ := transform_elt hd x
  unfold rowval
  rw [hT i (n + 1) hi (by omega) (by omega) (by omega)]
  have h1 : ¬ (n + 1 = n + 1 ∧ n + 1 ≤ i) := by omega
  rw [if_neg h1, builder_elt_translation C1 C2 n x rsv cost hrsv hcost i (n + 1) hi hi2
    (by omega) (by omega), if_pos rfl]
  have hs : (∑ k in Finset.range n,
      elt (transform n (3 * n + rsv.length) x (builder_matrix C1 C2 n x rsv cost)) i (k + 1)
        * t (k + 1)) = t i := by
    have : ∀ k ∈ Finset.range n,
        elt (transform n (3 * n + rsv.length) x (builder_matrix C1 C2 n x rsv cost)) i (k + 1)
          * t (k + 1)
        = (if k + 1 = i then (1 : ℚ) else 0) * t (k + 1) := by
      intro k hk
      rw [Finset.mem_range] at hk
      rw [hT i (k + 1) hi (by omega) (by omega) (by omega)]
      have h2 : ¬ (k + 1 = n + 1 ∧ n + 1 ≤ i) := by omega
      rw [if_neg h2, builder_elt_translation C1 C2 n x rsv cost hrsv hcost i (k + 1) hi hi2
        (by omega) (by omega)]
      have : ¬ k + 1 = n + 1 := by omega
      rw [if_neg this]
    rw [Finset.sum_congr rfl this, sum_unit n i 1 (fun k => t (k + 1)) hi hi2]
    have : i - 1 + 1 = i := by omega
    simp only [this, one_mul]
  rw [hs]

theorem nameval_neg (n : Nat) (g0 : Matrix) (t : Nat → ℚ) (j : Nat) (hj : 1 ≤ j) :
    nameval n g0 t (- (j : Int)) = rowval n g0 t j := by
  have hp : ¬ (0 : Int) < - (j : Int) := by omega
  simp only [nameval, hp, if_false, neg_neg, Int.toNat_ofNat]

/-- While the translation row `i` of a builder matrix has not been
exchanged, either a row not marked in `trans` carries the lower bound of the
same column, with the same coefficients and a constant smaller by
`C1 * x [i - 1]`, or that lower bound is a column variable and row `i` has
the coefficient `1` in its column and `0` elsewhere. -/
theorem translation_shadow (C1 C2 : ℚ) (n : Nat) (x : Nat → ℚ) (rsv : List (List ℚ))
    (cost : List ℚ) (hrsv : ∀ r ∈ rsv, r.length = n + 1) (hcost : cost.length = n + 1)
    (hx : ∀ i, i < n → 0 ≤ x i) (hC : C1 < 1) {q : Nat} {s : State}
    (hI : Inv n (3 * n + rsv.length) q
      (transform n (3 * n + rsv.length) x (builder_matrix C1 C2 n x rsv cost)) s)
    (i : Nat) (hi : 1 ≤ i) (hi2 : i ≤ n) (hnb : s.nb i = - (i : Int)) :
    (∃ r, 1 ≤ r ∧ r ≤ 3 * n + rsv.length ∧ s.trans r = false ∧ r ≠ i ∧
      (∀ k, 1 ≤ k → k ≤ n → elt s.g r k = elt s.g i k) ∧
      elt s.g r (n + 1) = elt s.g i (n + 1) - C1 * x (i - 1)) ∨
    (∃ k0, 1 ≤ k0 ∧ k0 ≤ n ∧ s.ba k0 < 0 ∧
      ∀ k, 1 ≤ k → k ≤ n → elt s.g i k = if k = k0 then 1 else 0) := by
  have hrow : ∀ v : Nat → ℚ, ∃ t : Nat → ℚ,
      (∀ k, 1 ≤ k → k ≤ n → v k = nameval n
        (transform n (3 * n + rsv.length) x (builder_matrix C1 C2 n x rsv cost)) t (s.ba k)) ∧
      (∀ r, 1 ≤ r → r ≤ 3 * n + rsv.length → rowval n s.g v r = nameval n
        (transform n (3 * n + rsv.length) x (builder_matrix C1 C2 n x rsv cost)) t (s.nb r)) ∧
      rowval n s.g v i = t i + x (i - 1) := by
    intro v
    obtain ⟨t, hc, hr, _⟩ := hI.rep v
    refine ⟨t, hc, hr, ?_⟩
    rw [hr i hi (by omega), hnb, nameval_neg n _ t i hi,
      builder_rowval_translation C1 C2 n x rsv cost hrsv hcost i hi hi2]
  rcases hI.names.cov (n + rsv.length + i) (by omega) (by omega) with
    ⟨k0, a, b, c⟩ | ⟨r, a, b, c⟩
  · right
    have hv : ∀ v : Nat → ℚ, rowval n s.g v i = v k0 + C1 * x (i - 1) := by
      intro v
      obtain ⟨t, hc, _, h3⟩ := hrow v
      have h4 := hc k0 a b
      rw [c] at h4
      rw [nameval_neg n _ t _ (by omega),
        builder_rowval_min C1 C2 n x rsv cost hrsv hcost i hi hi2 (hx _ (by omega)) hC] at h4
      rw [h3, h4]
      ring
    refine ⟨k0, a, b, by rw [c]; omega, ?_⟩
    intro k hk hk2
    rw [rowval_coeff n s.g i k hk hk2, hv, hv]
    by_cases e : k0 = k
    · simp [e]
    · have e1 : ¬ k = k0 := fun h => e h.symm
      simp [e, e1]
  · left
    have hv : ∀ v : Nat → ℚ, rowval n s.g v i = rowval n s.g v r + C1 * x (i - 1) := by
      intro v
      obtain ⟨t, _, hr, h3⟩ := hrow v
      have h4 := hr r a b
      rw [c] at h4
      rw [nameval_neg n _ t _ (by omega),
        builder_rowval_min C1 C2 n x rsv cost hrsv hcost i hi hi2 (hx _ (by omega)) hC] at h4
      rw [h3, h4]
      ring
    have htr : s.trans r = false := by
      rcases hI.names.rows r a b with ⟨_, b1, _⟩ | ⟨a1, _⟩
      · rw [c] at b1; omega
      · exact a1
    have hne : r ≠ i := by
      intro e
      rw [e, hnb] at c
      omega
    refine ⟨r, a, b, htr, hne, ?_, ?_⟩
    · intro k hk hk2
      rw [rowval_coeff n s.g r k hk hk2, rowval_coeff n s.g i k hk hk2, hv, hv]
      ring
    · have := hv (fun _ => 0)
      rw [rowval_zero, rowval_zero] at this
      rw [this]
      ring

theorem shadow_neg {c d a : ℚ} (hd : 0 < d) (ha : a < 0) : ¬ (c - d) / a ≤ c / a := by
  intro h
  have h1 : (c - d) / a = c / a - d / a := sub_div c d a
  have h2 : d / a < 0 := div_neg_of_pos_of_neg hd ha
  linarith

theorem shadow_pos {c d a : ℚ} (hd : 0 < d) (ha : 0 < a) : ¬ c / a ≤ (c - d) / a := by
  intro h
  have h1 : (c - d) / a = c / a - d / a := sub_div c d a
  have h2 : 0 < d / a := div_pos hd ha
  linarith

theorem eliminate_step_row (C1 C2 : ℚ) (n : Nat) (x : Nat → ℚ) (rsv : List (List ℚ))
    (cost : List ℚ) (hrsv : ∀ r ∈ rsv, r.length = n + 1) (hcost : cost.length = n + 1)
    (hx : ∀ i, i < n → 0 < x i) (h0 : 0 < C1) (hC : C1 < 1) {q : Nat} {s s1 : State}
    (hq : 1 ≤ q) (hq2 : q ≤ n)
    (hI : Inv n (3 * n + rsv.length) q
      (transform n (3 * n + rsv.length) x (builder_matrix C1 C2 n x rsv cost)) s)
    (hT : ∀ i, 1 ≤ i → i ≤ n → s.nb i = - (i : Int))
    (hs : eliminate_step n (3 * n + rsv.length) q s = some s1) :
    n < eliminate_row n (3 * n + rsv.length) q s ∧
    eliminate_row n (3 * n + rsv.length) q s ≤ 3 * n + rsv.length ∧
    ∀ i, 1 ≤ i → i ≤ n → s1.nb i = - (i : Int) := by
  have hx0 : ∀ i, i < n → 0 ≤ x i := fun i hi => le_of_lt (hx i hi)
  unfold eliminate_step at hs
  unfold eliminate_row
  by_cases hc : elt s.g (3 * n + rsv.length + 1) q > 0
  · simp only [hc, if_true] at hs ⊢
    obtain ⟨hg, hspec⟩ := elim_search_neg_spec hI.dim q s.trans hI.feas
    by_cases hp0 : (elim_search_neg n (3 * n + rsv.length) q s.trans s.g).p = 0
    · simp [hp0] at hs
    · simp only [hp0, if_false, Option.some.injEq] at hs
      obtain ⟨p1, p2, p3, p4, p5⟩ := hspec hp0
      have hlt : n < (elim_search_neg n (3 * n + rsv.length) q s.trans s.g).p := by
        by_contra hle
        have hle1 : (elim_search_neg n (3 * n + rsv.length) q s.trans s.g).p ≤ n := by omega
        rcases translation_shadow C1 C2 n x rsv cost hrsv hcost hx0 hC hI _ p1 hle1
            (hT _ p1 hle1) with ⟨r, a, b, c, _, e, f⟩ | ⟨k0, a, b, c, e⟩
        · have h5 := p5 r a b c (by rw [e q hq hq2]; exact p4)
          rw [e q hq hq2, f] at h5
          exact shadow_neg (mul_pos h0 (hx _ (by omega))) p4 h5
        · rw [e q hq hq2] at p4
          split_ifs at p4 <;> linarith
      refine ⟨hlt, p2, ?_⟩
      intro i hi hi2
      subst hs
      have : ¬ i = (elim_search_neg n (3 * n + rsv.length) q s.trans s.g).p := by omega
      simp only [upd, this, if_false]
      exact hT i hi hi2
  · simp only [hc, if_false] at hs ⊢
    obtain ⟨hg, hspec⟩ := elim_search_pos_spec hI.dim q s.trans hI.feas
    by_cases hp0 : (elim_search_pos n (3 * n + rsv.length) q s.trans s.g).p = 0
    · simp [hp0] at hs
    · simp only [hp0, if_false, Option.some.injEq] at hs
      obtain ⟨p1, p2, p3, p4, p5⟩ := hspec hp0
      have hlt : n < (elim_search_pos n (3 * n + rsv.length) q s.trans s.g).p := by
        by_contra hle
        have hle1 : (elim_search_pos n (3 * n + rsv.length) q s.trans s.g).p ≤ n := by omega
        rcases translation_shadow C1 C2 n x rsv cost hrsv hcost hx0 hC hI _ p1 hle1
            (hT _ p1 hle1) with ⟨r, a, b, c, _, e, f⟩ | ⟨k0, a, b, c, e⟩
        · have h5 := p5 r a b c (by rw [e q hq hq2]; exact p4)
          rw [e q hq hq2, f] at h5
          exact shadow_pos (mul_pos h0 (hx _ (by omega))) p4 h5
        · rw [e q hq hq2] at p4
          by_cases hk : q = k0
          · have := hI.names.ba_old q (le_refl q) hq2
            rw [hk] at this
            omega
          · rw [if_neg hk] at p4
            exact lt_irrefl _ p4
      refine ⟨hlt, p2, ?_⟩
      intro i hi hi2
      subst hs
      have : ¬ i = (elim_search_pos n (3 * n + rsv.length) q s.trans s.g).p := by omega
      simp only [upd, this, if_false]
      exact hT i hi hi2

theorem pivot_iter_row (C1 C2 : ℚ) (n : Nat) (x : Nat → ℚ) (rsv : List (List ℚ))
    (cost : List ℚ) (hrsv : ∀ r ∈ rsv, r.length = n + 1) (hcost : cost.length = n + 1)
    (hx : ∀ i, i < n → 0 < x i) (h0 : 0 < C1) (hC : C1 < 1) {s s1 : State}
    (hI : Inv n (3 * n + rsv.length) (n + 1)
      (transform n (3 * n + rsv.length) x (builder_matrix C1 C2 n x rsv cost)) s)
    (hT : ∀ i, 1 ≤ i → i ≤ n → s.nb i = - (i : Int))
    (hs : pivot_iter n (3 * n + rsv.length) s = Iter.next s1) :
    n < pivot_row n (3 * n + rsv.length) s ∧
    pivot_row n (3 * n + rsv.length) s ≤ 3 * n + rsv.length ∧
    ∀ i, 1 ≤ i → i ≤ n → s1.nb i = - (i : Int) := by
  have hx0 : ∀ i, i < n → 0 ≤ x i := fun i hi => le_of_lt (hx i hi)
  unfold pivot_iter at hs
  unfold pivot_row
  by_cases hq0 : (piv_search n (3 * n + rsv.length) s.g).q = 0
  · simp [hq0] at hs
  · obtain ⟨q1, q2, _⟩ := piv_search_spec s.g n (3 * n + rsv.length) hq0
    by_cases hp0 : (row_search n (3 * n + rsv.length)
        (piv_search n (3 * n + rsv.length) s.g).q s.trans s.g).p = 0
    · simp [hq0, hp0] at hs
    · simp only [hq0, hp0, if_false, Iter.next.injEq] at hs
      obtain ⟨p1, p2, p3, p4, p5⟩ := row_search_spec s.g n (3 * n + rsv.length) _ s.trans hp0
      have hlt : n < (row_search n (3 * n + rsv.length)
          (piv_search n (3 * n + rsv.length) s.g).q s.trans s.g).p := by
        by_contra hle
        have hle1 : (row_search n (3 * n + rsv.length)
          (piv_search n (3 * n + rsv.length) s.g).q s.trans s.g).p ≤ n := by omega
        rcases translation_shadow C1 C2 n x rsv cost hrsv hcost hx0 hC hI _ p1 hle1
            (hT _ p1 hle1) with ⟨r, a, b, c, _, e, f⟩ | ⟨k0, a, b, c, e⟩
        · have h5 := p5 r a b c (by rw [e _ q1 q2]; exact p4)
          rw [e _ q1 q2, f] at h5
          exact shadow_neg (mul_pos h0 (hx _ (by omega))) p4 h5
        · rw [e _ q1 q2] at p4
          split_ifs at p4 <;> linarith
      refine ⟨hlt, p2, ?_⟩
      intro i hi hi2
      subst hs
      have : ¬ i = (row_search n (3 * n + rsv.length)
          (piv_search n (3 * n + rsv.length) s.g).q s.trans s.g).p := by omega
      simp only [upd, this, if_false]
      exact hT i hi hi2

theorem eliminate_rows_above (C1 C2 : ℚ) (n : Nat) (x : Nat → ℚ) (rsv : List (List ℚ))
    (cost : List ℚ) (hrsv : ∀ r ∈ rsv, r.length = n + 1) (hcost : cost.length = n + 1)
    (hx : ∀ i, i < n → 0 < x i) (h0 : 0 < C1) (hC : C1 < 1) (cnt : Nat) :
    ∀ (q : Nat) (s : State), 1 ≤ q → q + cnt = n + 1 →
      Inv n (3 * n + rsv.length) q
        (transform n (3 * n + rsv.length) x (builder_matrix C1 C2 n x rsv cost)) s →
      (∀ i, 1 ≤ i → i ≤ n → s.nb i = - (i : Int)) →
      ∀ p ∈ eliminate_rows n (3 * n + rsv.length) q cnt s,
        n < p ∧ p ≤ 3 * n + rsv.length := by
  induction cnt with
  | zero =>
    intro q s _ _ _ _ p hp
    simp [eliminate_rows] at hp
  | succ c ih =>
    intro q s hq hqc hI hT p hp
    unfold eliminate_rows at hp
    cases hs : eliminate_step n (3 * n + rsv.length) q s with
    | none => rw [hs] at hp; simp at hp
    | some s1 =>
      rw [hs] at hp
      obtain ⟨r1, r2, r3⟩ := eliminate_step_row C1 C2 n x rsv cost hrsv hcost hx h0 hC hq
        (by omega) hI hT hs
      rcases List.mem_cons.mp hp with e | hp1
      · rw [e]; exact ⟨r1, r2⟩
      · exact ih (q + 1) s1 (by omega) (by omega)
          (eliminate_step_inv hq (by omega) hI hs) r3 p hp1

theorem eliminate_inv_rows (C1 C2 : ℚ) (n : Nat) (x : Nat → ℚ) (rsv : List (List ℚ))
    (cost : List ℚ) (hrsv : ∀ r ∈ rsv, r.length = n + 1) (hcost : cost.length = n + 1)
    (hx : ∀ i, i < n → 0 < x i) (h0 : 0 < C1) (hC : C1 < 1) {s s1 : State}
    (hI : Inv n (3 * n + rsv.length) 1
      (transform n (3 * n + rsv.length) x (builder_matrix C1 C2 n x rsv cost)) s)
    (hT : ∀ i, 1 ≤ i → i ≤ n → s.nb i = - (i : Int))
    (hs : eliminate n (3 * n + rsv.length) s = some s1) :
    Inv n (3 * n + rsv.length) (n + 1)
      (transform n (3 * n + rsv.length) x (builder_matrix C1 C2 n x rsv cost)) s1 ∧
    ∀ i, 1 ≤ i → i ≤ n → s1.nb i = - (i : Int) := by
  unfold eliminate at hs
  exact forLoopM_inv (fun q s => Inv n (3 * n + rsv.length) q
      (transform n (3 * n + rsv.length) x (builder_matrix C1 C2 n x rsv cost)) s ∧
      ∀ i, 1 ≤ i → i ≤ n → s.nb i = - (i : Int)) 1 n _ s s1 (by omega) ⟨hI, hT⟩
    (fun q s s1 a b c d => ⟨eliminate_step_inv a b c.1 d,
      (eliminate_step_row C1 C2 n x rsv cost hrsv hcost hx h0 hC a b c.1 c.2 d).2.2⟩) hs

theorem pivot_rows_above (C1 C2 : ℚ) (n : Nat) (x : Nat → ℚ) (rsv : List (List ℚ))
    (cost : List ℚ) (hrsv : ∀ r ∈ rsv, r.length = n + 1) (hcost : cost.length = n + 1)
    (hx : ∀ i, i < n → 0 < x i) (h0 : 0 < C1) (hC : C1 < 1) (fuel : Nat) :
    ∀ (s : State),
      Inv n (3 * n + rsv.length) (n + 1)
        (transform n (3 * n + rsv.length) x (builder_matrix C1 C2 n x rsv cost)) s →
      (∀ i, 1 ≤ i → i ≤ n → s.nb i = - (i : Int)) →
      ∀ p ∈ pivot_rows fuel n (3 * n + rsv.length) s, n < p ∧ p ≤ 3 * n + rsv.length := by
  induction fuel with
  | zero =>
    intro s _ _ p hp
    simp [pivot_rows] at hp
  | succ f ih =>
    intro s hI hT p hp
    unfold pivot_rows at hp
    cases hs : pivot_iter n (3 * n + rsv.length) s with
    | optimal => rw [hs] at hp; simp at hp
    | infeasible => rw [hs] at hp; simp at hp
    | next s1 =>
      rw [hs] at hp
      obtain ⟨r1, r2, r3⟩ := pivot_iter_row C1 C2 n x rsv cost hrsv hcost hx h0 hC hI hT hs
      rcases List.mem_cons.mp hp with e | hp1
      · rw [e]; exact ⟨r1, r2⟩
      · exact ih s1 (pivot_iter_inv hI hs) r3 p hp1

/-- C14, amended: in every run of `simplex` on a builder matrix whose IDF
values are all strictly positive, with `0 < C1 < 1`, every pivot row `p`
chosen by `eliminate` or by the loop, for any number of passes, lies in
`n + 1 .. m`: no row of the Translation block (rows `1 .. n`) is chosen.
The rows of that block are eligible like the others (only a row `eliminate`
has used is marked in `trans`), and each loses the search to the lower bound
of its column, which has the same coefficients and a smaller constant. -/
theorem translation_rows_not_pivot (C1 C2 : ℚ) (n : Nat) (x : Nat → ℚ)
    (rsv : List (List ℚ)) (cost : List ℚ) (fuel : Nat)
    (hrsv : ∀ r ∈ rsv, r.length = n + 1) (hcost : cost.length = n + 1)
    (hx : ∀ i, i < n → 0 < x i) (h0 : 0 < C1) (hC : C1 < 1) :
    ∀ p ∈ simplex_rows fuel n (3 * n + rsv.length) (builder_matrix C1 C2 n x rsv cost) x,
      n < p ∧ p ≤ 3 * n + rsv.length := by
  have hd := builder_dim C1 C2 n x rsv cost hrsv hcost
  have hc0 : ∀ i, 1 ≤ i → i ≤ n → 0 ≤ elt (builder_matrix C1 C2 n x rsv cost) i (n + 1) := by
    intro i hi hi2
    rw [builder_elt_translation C1 C2 n x rsv cost hrsv hcost i (n + 1) hi hi2 (by omega)
      (by omega), if_pos rfl]
    exact le_of_lt (hx _ (by omega))
  have hI0 := init_inv (transform_elt hd x).1 (transform_feasible hd x hc0)
  have hT0 : ∀ i, 1 ≤ i → i ≤ n →
      (init_state n (3 * n + rsv.length)
        (transform n (3 * n + rsv.length) x (builder_matrix C1 C2 n x rsv cost))).nb i
        = - (i : Int) := by
    intro i hi hi2
    exact init_nb _ i hi (by omega) _ n
  intro p hp
  unfold simplex_rows at hp
  rcases List.mem_append.mp hp with h1 | h1
  · exact eliminate_rows_above C1 C2 n x rsv cost hrsv hcost hx h0 hC n 1 _ (le_refl 1)
      (by omega) hI0 hT0 p h1
  · cases he : eliminate n (3 * n + rsv.length) (init_state n (3 * n + rsv.length)
        (transform n (3 * n + rsv.length) x (builder_matrix C1 C2 n x rsv cost))) with
    | none => rw [he] at h1; simp at h1
    | some s =>
      rw [he] at h1
      obtain ⟨hI1, hT1⟩ := eliminate_inv_rows C1 C2 n x rsv cost hrsv hcost hx h0 hC hI0 hT0 he
      simp only at h1
      rw [check_elim_feasible s.trans hI1.feas] at h1
      exact pivot_rows_above C1 C2 n x rsv cost hrsv hcost hx h0 hC fuel s hI1 hT1 p h1

set_option maxRecDepth 100000 in
/-- C14, counterexample: on the builder matrix of one concept with the IDF
`0.0` and one RSV row, `eliminate` chooses row `1`, the row of the
Translation block, as its pivot row, and `simplex` returns `TRUE`. -/
theorem translation_row_chosen :
    simplex_rows 10 1 4 example_zero_matrix (fun _ => 0) = [1] ∧
    (simplex 10 1 4 example_zero_matrix (fun _ => 0)).map (fun r => (r.1, r.2.2 0))
      = some (true, 0) ∧
    ¬ ∀ p ∈ simplex_rows 10 1 4 example_zero_matrix (fun _ => 0), 1 < p := by
  have h : simplex_rows 10 1 4 example_zero_matrix (fun _ => 0) = [1] := by decide!
  refine ⟨h, by decide!, ?_⟩
  rw [h]
  simp

set_option maxRecDepth 100000 in
theorem translation_rows_not_pivot_witness :
    (∀ r ∈ ([[2, -1, 0]] : List (List ℚ)), r.length = 2 + 1) ∧
    ([0, 2, -1] : List ℚ).length = 2 + 1 ∧
    (∀ i, i < 2 → (0 : ℚ) < if i = 0 then 2 else 1) ∧
    simplex_rows 10 2 7 (builder_matrix (1 / 2) 2 2 (fun i => if i = 0 then 2 else 1)
      [[2, -1, 0]] [0, 2, -1]) (fun i => if i = 0 then 2 else 1) = [4, 3, 7] ∧
    ∀ p ∈ simplex_rows 10 2 (3 * 2 + ([[2, -1, 0]] : List (List ℚ)).length)
        (builder_matrix (1 / 2) 2 2 (fun i => if i = 0 then 2 else 1)
          [[2, -1, 0]] [0, 2, -1]) (fun i => if i = 0 then 2 else 1),
      2 < p ∧ p ≤ 3 * 2 + ([[2, -1, 0]] : List (List ℚ)).length := by
  have h1 : ∀ r ∈ ([[2, -1, 0]] : List (List ℚ)), r.length = 2 + 1 := by simp
  have h2 : ([0, 2, -1] : List ℚ).length = 2 + 1 := rfl
  have h3 : ∀ i, i < 2 → (0 : ℚ) < if i = 0 then 2 else 1 := by
    intro i _
    split_ifs <;> norm_num
  exact ⟨h1, h2, h3, by decide!,
    translation_rows_not_pivot (1 / 2) 2 2 (fun i => if i = 0 then 2 else 1) [[2, -1, 0]]
      [0, 2, -1] 10 h1 h2 h3 (by norm_num) (by norm_num)⟩

theorem piv_search_max (g : Matrix) (n m : Nat) :
    ((piv_search n m g).q = 0 ∧ ∀ j, 1 ≤ j → j ≤ n → elt g (m + 1) j ≤ 0) ∨
    (1 ≤ (piv_search n m g).q ∧ (piv_search n m g).q ≤ n ∧
      0 < elt g (m + 1) (piv_search n m g).q ∧
      (∀ j, 1 ≤ j → j ≤ n → elt g (m + 1) j ≤ elt g (m + 1) (piv_search n m g).q) ∧
      (∀ j, 1 ≤ j → j < (piv_search n m g).q →
        elt g (m + 1) j < elt g (m + 1) (piv_search n m g).q)) := by
  unfold piv_search
  have key := forLoop_inv
    (fun k (r : Piv) =>
      (r.q = 0 ∧ r.max = 0 ∧ ∀ j, 1 ≤ j → j < k → elt g (m + 1) j ≤ 0) ∨
      (1 ≤ r.q ∧ r.q < k ∧ r.max = elt g (m + 1) r.q ∧ 0 < elt g (m + 1) r.q ∧
        (∀ j, 1 ≤ j → j < k → elt g (m + 1) j ≤ elt g (m + 1) r.q) ∧
        (∀ j, 1 ≤ j → j < r.q → elt g (m + 1) j < elt g (m + 1) r.q)))
    1 n (fun k s =>
    let temp := elt g (m + 1) k
    if temp > s.max then ⟨k, temp⟩ else s) ⟨0, 0⟩ (by omega)
    (Or.inl ⟨rfl, rfl, fun j a b => by omega⟩)
    (by
      intro k r hk hk2 hinv
      obtain ⟨rq, rmax⟩ := r
      simp only at hinv
      by_cases hgt : elt g (m + 1) k > rmax
      · simp only [hgt, if_true]
        right
        rcases hinv with ⟨_, h2, h3⟩ | ⟨_, _, h3, h4, h5, _⟩
        · rw [h2] at hgt
          refine ⟨hk, by omega, trivial, hgt, ?_, ?_⟩
          · intro j a b
            by_cases e : j = k
            · rw [e]
            · exact le_trans (h3 j a (by omega)) (le_of_lt hgt)
          · intro j a b
            exact lt_of_le_of_lt (h3 j a b) hgt
        · rw [h3] at hgt
          refine ⟨hk, by omega, trivial, lt_trans h4 hgt, ?_, ?_⟩
          · intro j a b
            by_cases e : j = k
            · rw [e]
            · exact le_trans (h5 j a (by omega)) (le_of_lt hgt)
          · intro j a b
            exact lt_of_le_of_lt (h5 j a b) hgt
      · simp only [hgt, if_false]
        have hle := not_lt.mp hgt
        rcases hinv with ⟨h1, h2, h3⟩ | ⟨h1, h2, h3, h4, h5, h6⟩
        · left
          refine ⟨h1, h2, ?_⟩
          intro j a b
          by_cases e : j = k
          · rw [e, ← h2]; exact hle
          · exact h3 j a (by omega)
        · right
          refine ⟨h1, by omega, h3, h4, ?_, h6⟩
          intro j a b
          by_cases e : j = k
          · rw [e, ← h3]; exact hle
          · exact h5 j a (by omega))
  rcases key with ⟨h1, _, h3⟩ | ⟨h1, h2, _, h4, h5, h6⟩
  · left
    exact ⟨h1, fun j a b => h3 j a (by omega)⟩
  · right
    exact ⟨h1, by omega, h4, fun j a b => h5 j a (by omega), h6⟩

/-- C15: in a pass of the loop of `simplex` the entering column `q` of step
PIV is the smallest index in `1 .. n` whose cost-row coefficient is the
maximum of the coefficients of the cost row, provided that maximum is
strictly positive; `q` is `0` exactly when no coefficient is strictly
positive, and then the pass leaves the loop: the loop ends in the same
state and `simplex` returns `TRUE`. -/
theorem entering_column (n m : Nat) (s : State) :
    ((piv_search n m s.g).q = 0 ↔ ∀ j, 1 ≤ j → j ≤ n → elt s.g (m + 1) j ≤ 0) ∧
    ((piv_search n m s.g).q ≠ 0 →
      1 ≤ (piv_search n m s.g).q ∧ (piv_search n m s.g).q ≤ n ∧
      0 < elt s.g (m + 1) (piv_search n m s.g).q ∧
      (∀ j, 1 ≤ j → j ≤ n → elt s.g (m + 1) j ≤ elt s.g (m + 1) (piv_search n m s.g).q) ∧
      (∀ j, 1 ≤ j → j < (piv_search n m s.g).q →
        elt s.g (m + 1) j < elt s.g (m + 1) (piv_search n m s.g).q)) ∧
    (pivot_iter n m s = Iter.optimal ↔ (piv_search n m s.g).q = 0) ∧
    ((∀ j, 1 ≤ j → j ≤ n → elt s.g (m + 1) j ≤ 0) →
      ∀ fuel, pivot_loop (fuel + 1) n m s = some (true, s)) ∧
    (∀ (fuel : Nat) (g0 : Matrix) (x : Nat → ℚ) (s0 : State),
      eliminate n m (init_state n m (transform n m x g0)) = some s0 →
      s = { s0 with g := check_elim n m s0.trans s0.g } →
      (∀ j, 1 ≤ j → j ≤ n → elt s.g (m + 1) j ≤ 0) →
      simplex (fuel + 1) n m g0 x = some (true, s.g, loes n m s x)) := by
  have hiff : (piv_search n m s.g).q = 0 ↔ ∀ j, 1 ≤ j → j ≤ n → elt s.g (m + 1) j ≤ 0 := by
    constructor
    · intro h0
      rcases piv_search_max s.g n m with ⟨_, h2⟩ | ⟨h1, _⟩
      · exact h2
      · omega
    · intro hall
      rcases piv_search_max s.g n m with ⟨h1, _⟩ | ⟨h1, h2, h3, _⟩
      · exact h1
      · exact absurd h3 (not_lt.mpr (hall _ h1 h2))
  have hopt : pivot_iter n m s = Iter.optimal ↔ (piv_search n m s.g).q = 0 := by
    unfold pivot_iter
    constructor
    · intro h
      by_contra hq
      simp only [hq, if_false] at h
      split_ifs at h
    · intro h
      simp only [h, if_true]
  have hloop : (∀ j, 1 ≤ j → j ≤ n → elt s.g (m + 1) j ≤ 0) →
      ∀ fuel, pivot_loop (fuel + 1) n m s = some (true, s) := by
    intro hall fuel
    unfold pivot_loop
    rw [hopt.mpr (hiff.mpr hall)]
  refine ⟨hiff, ?_, hopt, hloop, ?_⟩
  · intro hne
    rcases piv_search_max s.g n m with ⟨h1, _⟩ | h
    · exact absurd h1 hne
    · exact h
  · intro fuel g0 x s0 he hs hall
    unfold simplex
    rw [he]
    simp only
    rw [← hs, hloop hall fuel]

/-- The leaving row of the loop of `simplex`: `p` is the first row not
marked in `trans` with a negative coefficient in column `q` whose quotient
`c[i] / a[iq]` is the largest, provided that quotient is larger than the
literal `-99999999999.9`; `p` is `0` when no such row has a quotient above
that literal. -/
theorem row_search_first (g : Matrix) (n m q : Nat) (trans : Nat → Bool) :
    ((row_search n m q trans g).p = 0 ∧
      ∀ i, 1 ≤ i → i ≤ m → trans i = false → elt g i q < 0 →
        elt g i (n + 1) / elt g i q ≤ - INFINITY) ∨
    (1 ≤ (row_search n m q trans g).p ∧ (row_search n m q trans g).p ≤ m ∧
      trans (row_search n m q trans g).p = false ∧
      elt g (row_search n m q trans g).p q < 0 ∧
      - INFINITY < elt g (row_search n m q trans g).p (n + 1)
        / elt g (row_search n m q trans g).p q ∧
      (∀ i, 1 ≤ i → i ≤ m → trans i = false → elt g i q < 0 →
        elt g i (n + 1) / elt g i q
          ≤ elt g (row_search n m q trans g).p (n + 1)
            / elt g (row_search n m q trans g).p q) ∧
      (∀ i, 1 ≤ i → i < (row_search n m q trans g).p → trans i = false → elt g i q < 0 →
        elt g i (n + 1) / elt g i q
          < elt g (row_search n m q trans g).p (n + 1)
            / elt g (row_search n m q trans g).p q)) := by
  unfold row_search
  have key := forLoop_inv
    (fun i (r : Search) =>
      ((r.p = 0 ∧ r.max = - INFINITY) ∨
        (1 ≤ r.p ∧ r.p < i ∧ trans r.p = false ∧ elt g r.p q < 0 ∧
          r.max = elt g r.p (n + 1) / elt g r.p q ∧ - INFINITY < r.max ∧
          ∀ i1, 1 ≤ i1 → i1 < r.p → trans i1 = false → elt g i1 q < 0 →
            elt g i1 (n + 1) / elt g i1 q < r.max)) ∧
      ∀ i1, 1 ≤ i1 → i1 < i → trans i1 = false → elt g i1 q < 0 →
        elt g i1 (n + 1) / elt g i1 q ≤ r.max)
    1 m (fun i s =>
    if ! trans i then
      let temp := elt g i q
      if temp < 0 then
        let quot := elt g i (n + 1) / temp
        if quot > s.max then { s with p := i, max := quot } else s
      else s
    else s) ⟨g, 0, - INFINITY⟩ (by omega)
    ⟨Or.inl ⟨rfl, rfl⟩, fun i1 a b => by omega⟩
    (by
      intro i r hi hi2 ⟨hp, hall⟩
      obtain ⟨rg, rp, rmax⟩ := r
      simp only at hp hall
      have hkeep : ((rp = 0 ∧ rmax = - INFINITY) ∨
          (1 ≤ rp ∧ rp < i + 1 ∧ trans rp = false ∧ elt g rp q < 0 ∧
            rmax = elt g rp (n + 1) / elt g rp q ∧ - INFINITY < rmax ∧
            ∀ i1, 1 ≤ i1 → i1 < rp → trans i1 = false → elt g i1 q < 0 →
              elt g i1 (n + 1) / elt g i1 q < rmax)) := by
        rcases hp with hp | ⟨p1, p2, p3, p4, p5, p6, p7⟩
        · exact Or.inl hp
        · exact Or.inr ⟨p1, by omega, p3, p4, p5, p6, p7⟩
      have hlow : - INFINITY ≤ rmax := by
        rcases hp with ⟨_, h2⟩ | ⟨_, _, _, _, _, p6, _⟩
        · rw [h2]
        · exact le_of_lt p6
      by_cases ht : trans i = false
      · by_cases hneg : elt g i q < 0
        · simp only [ht, Bool.not_false, if_true, hneg]
          by_cases hgt : elt g i (n + 1) / elt g i q > rmax
          · simp only [hgt, if_true]
            refine ⟨Or.inr ⟨hi, by omega, ht, hneg, trivial, lt_of_le_of_lt hlow hgt, ?_⟩, ?_⟩
            · intro i1 a b c d
              exact lt_of_le_of_lt (hall i1 a b c d) hgt
            · intro i1 a b c d
              by_cases e : i1 = i
              · subst e; exact le_refl _
              · exact le_trans (hall i1 a (by omega) c d) (le_of_lt hgt)
          · simp only [hgt, if_false]
            refine ⟨hkeep, ?_⟩
            intro i1 a b c d
            by_cases e : i1 = i
            · subst e; exact not_lt.mp hgt
            · exact hall i1 a (by omega) c d
        · simp only [ht, Bool.not_false, if_true, hneg, if_false]
          refine ⟨hkeep, ?_⟩
          intro i1 a b c d
          by_cases e : i1 = i
          · subst e; exact absurd d hneg
          · exact hall i1 a (by omega) c d
      · have ht' : trans i = true := by simpa using ht
        simp only [ht', Bool.not_true, Bool.false_eq_true, if_false]
        refine ⟨hkeep, ?_⟩
        intro i1 a b c d
        by_cases e : i1 = i
        · subst e; rw [ht'] at c; exact absurd c (by simp)
        · exact hall i1 a (by omega) c d)
  obtain ⟨k2, k3⟩ := key
  rcases k2 with ⟨h1, h2⟩ | ⟨p1, p2, p3, p4, p5, p6, p7⟩
  · left
    refine ⟨h1, fun i a b c d => ?_⟩
    have := k3 i a (by omega) c d
    rw [h2] at this
    exact this
  · right
    rw [p5] at p6 p7
    refine ⟨p1, by omega, p3, p4, p6, fun i a b c d => ?_, p7⟩
    have := k3 i a (by omega) c d
    rw [p5] at this
    exact this

theorem pivot_loop_false {n m : Nat} (fuel : Nat) :
    ∀ {s s1 : State}, pivot_loop fuel n m s = some (false, s1) →
      (piv_search n m s1.g).q ≠ 0 ∧
      (row_search n m (piv_search n m s1.g).q s1.trans s1.g).p = 0 := by
  induction fuel with
  | zero =>
    intro s s1 hs
    simp [pivot_loop] at hs
  | succ f ih =>
    intro s s1 hs
    unfold pivot_loop at hs
    cases hit : pivot_iter n m s with
    | optimal => rw [hit] at hs; simp at hs
    | infeasible =>
      rw [hit] at hs
      simp only [Option.some.injEq, Prod.mk.injEq, true_and] at hs
      subst hs
      unfold pivot_iter at hit
      by_cases hq0 : (piv_search n m s.g).q = 0
      · simp [hq0] at hit
      · by_cases hp0 : (row_search n m (piv_search n m s.g).q s.trans s.g).p = 0
        · exact ⟨hq0, hp0⟩
        · simp [hq0, hp0] at hit
    | next s2 =>
      rw [hit] at hs
      exact ih hs

/-- A return of `FALSE` leaves the vector `x` as it was passed in, and comes
from a pass of the loop that has a column `q` and finds no row `p`. -/
theorem simplex_false_x {n m fuel : Nat} {g g1 : Matrix} {x x1 : Nat → ℚ}
    (h : simplex fuel n m g x = some (false, g1, x1)) :
    x1 = x ∧ ∃ s : State, g1 = s.g ∧ (piv_search n m s.g).q ≠ 0 ∧
      (row_search n m (piv_search n m s.g).q s.trans s.g).p = 0 := by
  unfold simplex at h
  cases he : eliminate n m (init_state n m (transform n m x g)) with
  | none => simp [he] at h
  | some s =>
    simp only [he] at h
    cases hl : pivot_loop fuel n m { s with g := check_elim n m s.trans s.g } with
    | none => simp [hl] at h
    | some r =>
      obtain ⟨b, s1⟩ := r
      cases b with
      | true => simp [hl] at h
      | false =>
        simp only [hl, Option.some.injEq, Prod.mk.injEq, true_and] at h
        obtain ⟨h1, h2⟩ := h
        exact ⟨h2.symm, s1, h1.symm, pivot_loop_false fuel hl⟩

set_option maxRecDepth 100000 in
/-- C16 at the builder matrix for the IDF vector `[2.0, 1.0e12]`: after the
elimination the loop has the entering column `q = 1`, and row `7`, the upper
bound of the second weight, is not marked in `trans`, has the coefficient
`-1` in column `1` and the constant `999999999999`, so its ratio
`constant / (- coefficient)` is not negative; the quotient
`-999999999999` is not above the literal `-99999999999.9` that stands for
minus infinity, the search ends with `p = 0`, and `simplex` returns `FALSE`
with `x` as passed in. -/
theorem leaving_row_sentinel :
    (eliminate 2 7 (init_state 2 7 (transform 2 7 example_large_idf example_large_matrix))).map
      (fun (s : State) => ((piv_search 2 7 (check_elim 2 7 s.trans s.g)).q, s.trans 7,
        elt (check_elim 2 7 s.trans s.g) 7 1, elt (check_elim 2 7 s.trans s.g) 7 3,
        (row_search 2 7 1 s.trans (check_elim 2 7 s.trans s.g)).p))
      = some (1, false, -1, 999999999999, 0) ∧
    (simplex 10 2 7 example_large_matrix example_large_idf).map
      (fun r => (r.1, r.2.2 0, r.2.2 1)) = some (false, 2, 1000000000000) ∧
    (999999999999 : ℚ) / (- -1) ≥ 0 ∧ ¬ ((999999999999 : ℚ) / -1 > - INFINITY) := by
  refine ⟨by decide!, by decide!, by norm_num, by norm_num [INFINITY]⟩

theorem loes_sum (n m : Nat) (s : State) (x : Nat → ℚ) :
    ∀ k, loes n m s x k = x k + ∑ i in Finset.range m,
      (if s.nb (i + 1) = ((k + 1 : Nat) : Int) then elt s.g (i + 1) (n + 1) else 0) := by
  unfold loes
  have key := forLoop_inv
    (fun i (xc : Nat → ℚ) => ∀ k, xc k = x k + ∑ j in Finset.range (i - 1),
      (if s.nb (j + 1) = ((k + 1 : Nat) : Int) then elt s.g (j + 1) (n + 1) else 0))
    1 m (fun i x =>
    let temp2 := s.nb i
    let j := temp2.natAbs
    if temp2 > 0 then upd x (j - 1) (x (j - 1) + elt s.g i (n + 1)) else x) x (by omega)
    (by intro k; simp)
    (by
      intro i xc hi hi2 hinv k
      have e1 : i + 1 - 1 = (i - 1) + 1 := by omega
      have e2 : i - 1 + 1 = i := by omega
      rw [e1, Finset.sum_range_succ, e2, ← add_assoc, ← hinv k]
      by_cases hpos : s.nb i > 0
      · simp only [hpos, if_true, upd]
        by_cases hk : k = (s.nb i).natAbs - 1
        · have hnb : s.nb i = ((k + 1 : Nat) : Int) := by omega
          rw [if_pos hk, if_pos hnb, ← hk]
        · have hnb : ¬ s.nb i = ((k + 1 : Nat) : Int) := by omega
          rw [if_neg hk, if_neg hnb, add_zero]
      · have hnb : ¬ s.nb i = ((k + 1 : Nat) : Int) := by omega
        simp only [hpos, if_false]
        rw [if_neg hnb, add_zero])
  intro k
  have := key k
  simp only [Nat.add_sub_cancel] at this
  exact this

theorem pivot_loop_true {n m : Nat} (fuel : Nat) :
    ∀ {s s1 : State}, pivot_loop fuel n m s = some (true, s1) →
      pivot_iter n m s1 = Iter.optimal := by
  induction fuel with
  | zero =>
    intro s s1 hs
    simp [pivot_loop] at hs
  | succ f ih =>
    intro s s1 hs
    unfold pivot_loop at hs
    cases hit : pivot_iter n m s with
    | optimal =>
      rw [hit] at hs
      simp only [Option.some.injEq, Prod.mk.injEq, true_and] at hs
      rw [← hs]
      exact hit
    | infeasible => rw [hit] at hs; simp at hs
    | next s2 =>
      rw [hit] at hs
      exact ih hs

/-- C17: step LOES leaves in `x [k]` the value passed in plus the final
constants `elt ( i, n + 1 )` of all rows `i` in `1 .. m` whose identity
`nb [i]` is `k + 1`, that is `j = k + 1 > 0` with `x [j - 1]` the entry; a
row with `nb [i] < 0` adds to no entry, and an entry whose index plus one is
the identity of no row is not changed.  When `simplex` returns `TRUE`, the
loop has ended with the `break` of a pass that found no column, and the
vector returned is the result of this step on the vector passed in. -/
theorem loes_adds (n m : Nat) (s : State) (x : Nat → ℚ) :
    (∀ k, loes n m s x k = x k + ∑ i in Finset.range m,
      (if s.nb (i + 1) = ((k + 1 : Nat) : Int) then elt s.g (i + 1) (n + 1) else 0)) ∧
    (∀ i, 1 ≤ i → i ≤ m → s.nb i < 0 → ∀ k : Nat,
      (if s.nb i = ((k + 1 : Nat) : Int) then elt s.g i (n + 1) else 0) = 0) ∧
    (∀ k, (∀ i, 1 ≤ i → i ≤ m → s.nb i ≠ ((k + 1 : Nat) : Int)) → loes n m s x k = x k) ∧
    (∀ k i, 1 ≤ i → i ≤ m → s.nb i = ((k + 1 : Nat) : Int) →
      (∀ i1, 1 ≤ i1 → i1 ≤ m → s.nb i1 = ((k + 1 : Nat) : Int) → i1 = i) →
      loes n m s x k = x k + elt s.g i (n + 1)) ∧
    (∀ (fuel : Nat) (g0 g1 : Matrix) (x1 : Nat → ℚ),
      simplex fuel n m g0 x = some (true, g1, x1) →
      ∃ s1 : State, g1 = s1.g ∧ pivot_iter n m s1 = Iter.optimal ∧ x1 = loes n m s1 x) := by
  refine ⟨loes_sum n m s x, ?_, ?_, ?_, ?_⟩
  · intro i _ _ hneg k
    have : ¬ s.nb i = ((k + 1 : Nat) : Int) := by omega
    rw [if_neg this]
  · intro k hno
    rw [loes_sum]
    have : ∀ i ∈ Finset.range m,
        (if s.nb (i + 1) = ((k + 1 : Nat) : Int) then elt s.g (i + 1) (n + 1) else 0)
          = (0 : ℚ) := by
      intro i hi
      rw [Finset.mem_range] at hi
      rw [if_neg (hno (i + 1) (by omega) (by omega))]
    rw [Finset.sum_congr rfl this]
    simp
  · intro k i hi hi2 hnb huniq
    rw [loes_sum]
    have : ∀ j ∈ Finset.range m,
        (if s.nb (j + 1) = ((k + 1 : Nat) : Int) then elt s.g (j + 1) (n + 1) else 0)
          = if j = i - 1 then elt s.g i (n + 1) else 0 := by
      intro j hj
      rw [Finset.mem_range] at hj
      by_cases e : j = i - 1
      · have e1 : j + 1 = i := by omega
        rw [if_pos e, e1, if_pos hnb]
      · rw [if_neg e]
        have : ¬ s.nb (j + 1) = ((k + 1 : Nat) : Int) := by
          intro c
          have := huniq (j + 1) (by omega) (by omega) c
          omega
        rw [if_neg this]
    rw [Finset.sum_congr rfl this, Finset.sum_ite_eq']
    have hm : i - 1 ∈ Finset.range m := by simp; omega
    rw [if_pos hm]
  · intro fuel g0 g1 x1 h
    unfold simplex at h
    cases he : eliminate n m (init_state n m (transform n m x g0)) with
    | none => simp [he] at h
    | some s0 =>
      simp only [he] at h
      cases hl : pivot_loop fuel n m { s0 with g := check_elim n m s0.trans s0.g } with
      | none => simp [hl] at h
      | some r =>
        obtain ⟨b, s1⟩ := r
        cases b with
        | false => simp [hl] at h
        | true =>
          simp only [hl, Option.some.injEq, Prod.mk.injEq, true_and] at h
          obtain ⟨h1, h2⟩ := h
          exact ⟨s1, h1.symm, pivot_loop_true fuel hl, h2.symm⟩

theorem enum_results_loop (x : Nat → ℚ) (l : List ATOM_STRUCT) :
    ∀ out : List (Int × ℚ), enum_loop (enum_results x) l out
      = (true, out ++ l.map (fun e => (e.atom, x e.mat_index.toNat))) := by
  induction l with
  | nil => intro out; simp [enum_loop]
  | cons e l ih =>
    intro out
    unfold enum_loop
    simp only [enum_results, if_true]
    have := ih (out ++ [(e.atom, x e.mat_index.toNat)])
    simp only [enum_results] at this
    rw [this]
    simp

theorem print_results_eq (atom_list : LIST ATOM_STRUCT) (x : Nat → ℚ)
    (out : List (Int × ℚ)) :
    print_results atom_list x out
      = some (out ++ atom_list.array.map (fun e => (e.atom, x e.mat_index.toNat))) := by
  unfold print_results enum_list
  rw [if_pos rfl, enum_results_loop]
  rfl

/-- C18: after `serialize_atoms`, on an IDF file with pairwise distinct
concept numbers that has a line for every concept of `atom_list`, the lines
printed by `init_weights` and then by `print_results ( x )` are the lines of
the IDF file whose concept has no column, as read and in the order of the
file, followed by one line `(atom, x [mat_index])` for every element of
`atom_list` in ascending order of `atom`; the concept numbers of these lines
are those of the IDF file, each exactly once. -/
theorem emission_lines (doc_list : LIST DOC_STRUCT) (prefs : List Pref)
    (st : SerialState) (idfs : List (Int × ℚ)) (x0 x1 : Nat → ℚ)
    (hdocs : ∀ d ∈ doc_list.array, vector_ok d) (hidfs : ∀ l ∈ idfs, small l.1)
    (hnd : (idfs.map Prod.fst).Nodup)
    (h : serialize_atoms doc_list prefs = some st)
    (hall : ∀ e ∈ st.atom_list.array, ∃ l ∈ idfs, l.1 = e.atom) :
    ∃ lines : List (Int × ℚ),
      print_results st.atom_list x1
        (init_weights st.atom_list (count_list st.atom_list) idfs x0).output = some lines ∧
      lines = idfs.filter (fun l => decide (matrix_index st.atom_list l.1 = -1))
        ++ st.atom_list.array.map (fun e => (e.atom, x1 e.mat_index.toNat)) ∧
      (lines.map Prod.fst).Perm (idfs.map Prod.fst) ∧
      (lines.map Prod.fst).Nodup ∧
      (∀ l ∈ idfs, matrix_index st.atom_list l.1 = -1 → l ∈ lines) ∧
      (∀ l ∈ idfs, ∀ e ∈ st.atom_list.array, e.atom = l.1 →
        (l.1, x1 e.mat_index.toNat) ∈ lines ∧
        matrix_index st.atom_list l.1 = e.mat_index) ∧
      st.atom_list.array.Pairwise (fun a b => a.atom < b.atom) := by
  have hJ := serialize_atoms_serialized doc_list prefs st hdocs h
  obtain ⟨c1, _, _⟩ := serialized_cols _ st hJ
  have hmi : ∀ e ∈ st.atom_list.array, matrix_index st.atom_list e.atom = e.mat_index := by
    intro e he
    rcases matrix_index_sorted st.atom_list hJ.sorted hJ.atoms_small e.atom
        (hJ.atoms_small e he) with ⟨e1, he1, h1, h2⟩ | ⟨h1, _⟩
    · rw [h2, pairwise_key_inj (fun e : ATOM_STRUCT => e.atom) _ hJ.sorted e1 e he1 he h1]
    · exact absurd rfl (h1 e he)
  have hout : (init_weights st.atom_list (count_list st.atom_list) idfs x0).output
      = idfs.filter (fun l => decide (matrix_index st.atom_list l.1 = -1)) := by
    unfold init_weights
    rw [init_weights_output]
    simp
  have hperm : ((idfs.filter (fun l => decide (matrix_index st.atom_list l.1 = -1))
      ++ st.atom_list.array.map (fun e => (e.atom, x1 e.mat_index.toNat))).map Prod.fst).Perm
      (idfs.map Prod.fst) := by
    rw [List.map_append]
    have hsplit := (List.filter_append_perm
      (fun l : Int × ℚ => decide (matrix_index st.atom_list l.1 = -1)) idfs).map Prod.fst
    rw [List.map_append] at hsplit
    refine List.Perm.trans ?_ hsplit
    apply List.Perm.append_left
    have n1 : ((st.atom_list.array.map (fun e => (e.atom, x1 e.mat_index.toNat))).map
        Prod.fst).Nodup := by
      rw [List.map_map]
      have : (st.atom_list.array.map (fun e : ATOM_STRUCT => e.atom)).Pairwise (· < ·) :=
        List.pairwise_map.mpr hJ.sorted
      exact this.imp (fun hab => ne_of_lt hab)
    have n2 : ((idfs.filter (fun l => !decide (matrix_index st.atom_list l.1 = -1))).map
        Prod.fst).Nodup :=
      hnd.sublist ((List.filter_sublist _).map Prod.fst)
    rw [List.perm_ext_iff_of_nodup n1 n2]
    intro a
    simp only [List.map_map, List.mem_map, List.mem_filter, Function.comp,
      Bool.not_eq_true', decide_eq_false_iff_not]
    constructor
    · rintro ⟨e, he, rfl⟩
      obtain ⟨l, hl, hle⟩ := hall e he
      refine ⟨l, ⟨hl, ?_⟩, hle⟩
      rw [hle, hmi e he]
      have := (c1 e he).1
      omega
    · rintro ⟨l, ⟨hl, hne⟩, rfl⟩
      rcases matrix_index_sorted st.atom_list hJ.sorted hJ.atoms_small l.1 (hidfs l hl) with
        ⟨e, he, h1, _⟩ | ⟨_, h1⟩
      · exact ⟨e, he, h1⟩
      · exact absurd h1 hne
  refine ⟨_, ?_, rfl, hperm, ?_, ?_, ?_, hJ.sorted⟩
  · rw [print_results_eq, hout]
  · exact (List.Perm.nodup_iff hperm).mpr hnd
  · intro l hl hm
    apply List.mem_append_left
    rw [List.mem_filter]
    exact ⟨hl, by simp [hm]⟩
  · intro l hl e he hea
    refine ⟨?_, by rw [← hea]; exact hmi e he⟩
    apply List.mem_append_right
    rw [List.mem_map]
    exact ⟨e, he, by rw [hea]⟩

set_option maxRecDepth 100000 in
theorem emission_lines_witness :
    (∀ d ∈ example_docs.array, vector_ok d) ∧ (∀ l ∈ example_idfs, small l.1) ∧
    (example_idfs.map Prod.fst).Nodup ∧
    serialize_atoms example_docs example_prefs
      = some { atom_list := { array := [⟨1, 1⟩, ⟨2, 2⟩, ⟨3, 0⟩], total := 11 }, serial := 3 } ∧
    (∀ e ∈ ([⟨1, 1⟩, ⟨2, 2⟩, ⟨3, 0⟩] : List ATOM_STRUCT), ∃ l ∈ example_idfs, l.1 = e.atom) ∧
    ∃ lines : List (Int × ℚ),
      print_results { array := [⟨1, 1⟩, ⟨2, 2⟩, ⟨3, 0⟩], total := 11 } example_x
        (init_weights { array := [⟨1, 1⟩, ⟨2, 2⟩, ⟨3, 0⟩], total := 11 } 3 example_idfs
          (fun _ => 0)).output = some lines ∧
      lines = [(4, 7), (1, 1 / 2), (2, 1 / 2), (3, 3)] ∧
      (lines.map Prod.fst).Perm (example_idfs.map Prod.fst) := by
  have hd : ∀ d ∈ example_docs.array, vector_ok d := example_docs_ok
  have hi : ∀ l ∈ example_idfs, small l.1 := by simp [example_idfs, small]
  have hnd : (example_idfs.map Prod.fst).Nodup := by decide
  have hs : serialize_atoms example_docs example_prefs
      = some { atom_list := { array := [⟨1, 1⟩, ⟨2, 2⟩, ⟨3, 0⟩], total := 11 }, serial := 3 } := by
    decide!
  have ha : ∀ e ∈ ([⟨1, 1⟩, ⟨2, 2⟩, ⟨3, 0⟩] : List ATOM_STRUCT),
      ∃ l ∈ example_idfs, l.1 = e.atom := by
    simp [example_idfs]
  obtain ⟨lines, k1, k2, k3, _⟩ := emission_lines example_docs example_prefs _ example_idfs
    (fun _ => 0) example_x hd hi hnd hs ha
  refine ⟨hd, hi, hnd, hs, ha, lines, k1, ?_, k3⟩
  rw [k2]
  decide!

set_option maxRecDepth 100000 in
/-- C19, counterexample: on the builder matrix for the IDF vector `[2, 1]`
with the RSV row `[2, -1, 0]` and the cost row `[0, 2, -1]` the loop ends
with no positive cost coefficient; step LOES turns `x = [2, 1]` into
`[1, 2]`, and step LOES applied once more to that vector, with no pivot in
between, gives `[0, 3]`, so `print_results` prints other lines than after
the first application. -/
theorem loes_twice_differs :
    (final_state 10 2 7
        (builder_matrix (1 / 2) 2 2 (fun i => if i = 0 then 2 else 1) [[2, -1, 0]] [0, 2, -1])
        (fun i => if i = 0 then 2 else 1)).map
      (fun (s : State) => (piv_search 2 7 s.g).q) = some 0 ∧
    (final_state 10 2 7
        (builder_matrix (1 / 2) 2 2 (fun i => if i = 0 then 2 else 1) [[2, -1, 0]] [0, 2, -1])
        (fun i => if i = 0 then 2 else 1)).bind
      (fun (s : State) =>
        print_results example_atoms (loes 2 7 s (fun i => if i = 0 then 2 else 1)) [])
      = some [(5, 1), (6, 2)] ∧
    (final_state 10 2 7
        (builder_matrix (1 / 2) 2 2 (fun i => if i = 0 then 2 else 1) [[2, -1, 0]] [0, 2, -1])
        (fun i => if i = 0 then 2 else 1)).bind
      (fun (s : State) =>
        print_results example_atoms
          (loes 2 7 s (loes 2 7 s (fun i => if i = 0 then 2 else 1))) [])
      = some [(5, 0), (6, 3)] := by
  refine ⟨by decide!, by decide!, by decide!⟩

/-- C19, amended: `print_results` only reads `x` and `atom_list`, so applied
a second time to the same vector it prints the same lines.  Step LOES adds
to `x`: applied a second time, with no pivot in between, it adds the same
amounts again, so the second vector is the first plus the change the first
application made, and it is the first vector exactly when the first
application changed no entry; only then are the lines printed after the
second application those printed after the first for every `atom_list`. -/
theorem emission_twice (n m : Nat) (s : State) (x : Nat → ℚ) :
    (∀ (atom_list : LIST ATOM_STRUCT) (out : List (Int × ℚ)),
      print_results atom_list x out
        = some (out ++ atom_list.array.map (fun e => (e.atom, x e.mat_index.toNat)))) ∧
    (∀ k, loes n m s (loes n m s x) k = loes n m s x k + (loes n m s x k - x k)) ∧
    (loes n m s (loes n m s x) = loes n m s x ↔ loes n m s x = x) ∧
    (loes n m s x = x →
      ∀ atom_list : LIST ATOM_STRUCT,
        print_results atom_list (loes n m s (loes n m s x)) []
          = print_results atom_list (loes n m s x) []) := by
  have h2 : ∀ k, loes n m s (loes n m s x) k = loes n m s x k + (loes n m s x k - x k) := by
    intro k
    rw [loes_sum n m s (loes n m s x) k, loes_sum n m s x k]
    ring
  refine ⟨fun atom_list out => print_results_eq atom_list x out, h2, ?_, ?_⟩
  · constructor
    · intro h
      funext k
      have a := h2 k
      rw [h] at a
      linarith
    · intro h
      rw [h, h]
  · intro h atom_list
    rw [h, h]

/-- C20: on a list strictly ascending under a comparator `comp` that follows
integer keys, `add_list` returns a pointer to the stored element comparing
equal to `elt` and leaves the list as it is when there is one; otherwise it
inserts `elt` and returns a pointer to it, the count grows by one, the
elements stored are the old ones and `elt`, so the keys are the old keys
plus the key of `elt`, and the list is strictly ascending again. -/
theorem add_list_spec {α : Type} (key : α → Int) (comp : α → α → Int) (list : LIST α)
    (elt : α)
    (hcmp : ∀ a b, (comp a b < 0 ↔ key a < key b) ∧ (0 < comp a b ↔ key b < key a))
    (hs : list.array.Pairwise (fun a b => comp a b < 0)) :
    ((∃ x ∈ list.array, comp elt x = 0) →
      ∃ i x, list.array[i]? = some x ∧ comp elt x = 0 ∧
        add_list list elt comp = (list, some i)) ∧
    ((∀ x ∈ list.array, comp elt x ≠ 0) →
      ∃ i, (add_list list elt comp).2 = some i ∧
        (add_list list elt comp).1.array[i]? = some elt ∧
        count_list (add_list list elt comp).1 = count_list list + 1 ∧
        (∀ y, y ∈ (add_list list elt comp).1.array ↔ y = elt ∨ y ∈ list.array) ∧
        (add_list list elt comp).1.array.Perm (elt :: list.array) ∧
        ((add_list list elt comp).1.array.map key).Perm (key elt :: list.array.map key) ∧
        (add_list list elt comp).1.array.Pairwise (fun a b => comp a b < 0)) := by
  have hs1 : list.array.Pairwise (fun a b => key a < key b) :=
    hs.imp (fun {a b} h => (hcmp a b).1.mp h)
  have hzero : ∀ a b, comp a b = 0 ↔ key a = key b := by
    intro a b
    obtain ⟨h1, h2⟩ := hcmp a b
    constructor
    · intro h
      have n1 : ¬ key a < key b := fun c => by have := h1.mpr c; omega
      have n2 : ¬ key b < key a := fun c => by have := h2.mpr c; omega
      omega
    · intro h
      have n1 : ¬ comp a b < 0 := fun c => by have := h1.mp c; omega
      have n2 : ¬ 0 < comp a b := fun c => by have := h2.mp c; omega
      omega
  have hspec := add_spec key list elt comp true hs1 (fun x _ => hcmp elt x)
  unfold add_list
  constructor
  · rintro ⟨x, hx, hx0⟩
    rcases hspec with ⟨i, y, h1, h2, h3⟩ | ⟨hne, _⟩
    · exact ⟨i, y, h1, (hzero elt y).mpr h2.symm, h3⟩
    · exact absurd ((hzero elt x).mp hx0).symm (hne x hx)
  · intro hno
    rcases hspec with ⟨i, y, h1, h2, _⟩ | ⟨_, ⟨hf, _⟩ | ⟨_, r, hr, hlo, hhi, hadd⟩⟩
    · have hy : y ∈ list.array := by
        obtain ⟨hlt, heq⟩ := List.getElem?_eq_some_iff.mp h1
        rw [← heq]
        exact List.getElem_mem _
      exact absurd ((hzero elt y).mpr h2.symm) (hno y hy)
    · exact absurd hf (by simp)
    · rw [hadd]
      have hperm : (list.array.take r ++ elt :: list.array.drop r).Perm (elt :: list.array) := by
        have hmid : (list.array.take r ++ elt :: list.array.drop r).Perm
            (elt :: (list.array.take r ++ list.array.drop r)) := List.perm_middle
        rw [List.take_append_drop] at hmid
        exact hmid
      refine ⟨r, rfl, ?_, ?_, ?_, hperm, ?_, ?_⟩
      · simp only
        rw [List.getElem?_append_right (by simp)]
        simp [Nat.min_eq_left hr]
      · simp only [count_list, List.length_append, List.length_cons, List.length_take,
          List.length_drop]
        omega
      · intro y
        simp only
        rw [hperm.mem_iff, List.mem_cons]
      · simp only
        have := hperm.map key
        simpa using this
      · simp only
        rw [List.pairwise_append]
        refine ⟨(hs.sublist (List.take_sublist r _)), ?_, ?_⟩
        · rw [List.pairwise_cons]
          refine ⟨fun y hy => (hcmp elt y).1.mpr (hhi y hy), hs.sublist (List.drop_sublist r _)⟩
        · intro a ha b hb
          rcases List.mem_cons.mp hb with rfl | hb1
          · exact (hcmp a b).1.mpr (hlo a ha)
          · exact (hcmp a b).1.mpr (lt_trans (hlo a ha) (hhi b hb1))

theorem add_list_spec_witness :
    (∀ a b : Int, (a - b < 0 ↔ a < b) ∧ (0 < a - b ↔ b < a)) ∧
    ([1, 3, 5] : List Int).Pairwise (fun a b => a - b < 0) ∧
    add_list (⟨[1, 3, 5], 11⟩ : LIST Int) 4 (fun a b => a - b) = (⟨[1, 3, 4, 5], 11⟩, some 2) ∧
    add_list (⟨[1, 3, 5], 11⟩ : LIST Int) 3 (fun a b => a - b) = (⟨[1, 3, 5], 11⟩, some 1) ∧
    ((∃ x ∈ ([1, 3, 5] : List Int), (3 : Int) - x = 0) →
      ∃ (i : Nat) (x : Int), ([1, 3, 5] : List Int)[i]? = some x ∧ (3 : Int) - x = 0 ∧
        add_list (⟨[1, 3, 5], 11⟩ : LIST Int) 3 (fun a b => a - b)
          = (⟨[1, 3, 5], 11⟩, some i)) := by
  have h1 : ∀ a b : Int, (a - b < 0 ↔ a < b) ∧ (0 < a - b ↔ b < a) := by
    intro a b
    constructor <;> constructor <;> intro h <;> omega
  have h2 : ([1, 3, 5] : List Int).Pairwise (fun a b => a - b < 0) := by decide
  exact ⟨h1, h2, by decide!, by decide!,
    (add_list_spec (fun a : Int => a) (fun a b => a - b) ⟨[1, 3, 5], 11⟩ 3 h1 h2).1⟩

theorem delete_loop_spec {α : Type} (array : List α) (first : Nat) (hf : first < array.length) :
    (loop first (array.length - first) (fun i (arr : List α) =>
      match arr[i + 1]? with
      | some e => arr.set i e
      | none => arr) array).take (array.length - 1) = array.eraseIdx first := by
  have key := loop_inv
    (fun j (arr : List α) => arr.length = array.length ∧
      ∀ k, arr[k]? = if first ≤ k ∧ k < j ∧ k + 1 < array.length then array[k + 1]?
        else array[k]?)
    first (array.length - first) (fun i (arr : List α) =>
      match arr[i + 1]? with
      | some e => arr.set i e
      | none => arr) array
    ⟨rfl, fun k => by
      have : ¬ (first ≤ k ∧ k < first ∧ k + 1 < array.length) := by omega
      rw [if_neg this]⟩
    (by
      intro i arr hi hi2 ⟨hlen, hinv⟩
      have hnext := hinv (i + 1)
      have hn1 : ¬ (first ≤ i + 1 ∧ i + 1 < i ∧ i + 1 + 1 < array.length) := by omega
      rw [if_neg hn1] at hnext
      by_cases hlast : i + 1 < array.length
      · have hget : array[i + 1]? = some array[i + 1] := List.getElem?_eq_getElem hlast
        rw [hget] at hnext
        simp only [hnext]
        refine ⟨by simp [hlen], ?_⟩
        intro k
        by_cases e : k = i
        · subst e
          rw [List.getElem?_set_self (by omega)]
          have : first ≤ k ∧ k < k + 1 ∧ k + 1 < array.length := by omega
          rw [if_pos this, hget]
        · rw [List.getElem?_set_ne (fun c => e c.symm), hinv k]
          by_cases c : first ≤ k ∧ k < i ∧ k + 1 < array.length
          · have c1 : first ≤ k ∧ k < i + 1 ∧ k + 1 < array.length := by omega
            rw [if_pos c, if_pos c1]
          · have c1 : ¬ (first ≤ k ∧ k < i + 1 ∧ k + 1 < array.length) := by omega
            rw [if_neg c, if_neg c1]
      · have hget : array[i + 1]? = none := List.getElem?_eq_none (by omega)
        rw [hget] at hnext
        simp only [hnext]
        refine ⟨hlen, ?_⟩
        intro k
        rw [hinv k]
        by_cases c : first ≤ k ∧ k < i ∧ k + 1 < array.length
        · have c1 : first ≤ k ∧ k < i + 1 ∧ k + 1 < array.length := by omega
          rw [if_pos c, if_pos c1]
        · have c1 : ¬ (first ≤ k ∧ k < i + 1 ∧ k + 1 < array.length) := by omega
          rw [if_neg c, if_neg c1])
  obtain ⟨hlen, hinv⟩ := key
  have e : first + (array.length - first) = array.length := by omega
  rw [e] at hinv
  apply List.ext_getElem?
  intro k
  rw [List.getElem?_take, List.getElem?_eraseIdx]
  by_cases hk : k < array.length - 1
  · rw [if_pos hk, hinv k]
    by_cases c : k < first
    · have c1 : ¬ (first ≤ k ∧ k < array.length ∧ k + 1 < array.length) := by omega
      rw [if_neg c1, if_pos c]
    · have c1 : first ≤ k ∧ k < array.length ∧ k + 1 < array.length := by omega
      rw [if_pos c1, if_neg c]
  · rw [if_neg hk]
    have c : ¬ k < first := by omega
    rw [if_neg c, List.getElem?_eq_none (by omega)]

theorem binary_search_spec {α : Type} (key : α → Int) (array : List α) (e : α)
    (comp : α → α → Int)
    (hs : array.Pairwise (fun a b => key a < key b))
    (hc : ∀ x ∈ array, (comp e x < 0 ↔ key e < key x) ∧ (0 < comp e x ↔ key x < key e)) :
    (∃ (i : Nat) (x : α), array[i]? = some x ∧ key x = key e ∧
      binary_search array array.length e comp = - (i : Int) - 1) ∨
    (∃ r : Nat, r ≤ array.length ∧ binary_search array array.length e comp = (r : Int) ∧
      (∀ x ∈ array.take r, key x < key e) ∧ (∀ x ∈ array.drop r, key e < key x)) := by
  have hb := binary_search_loop_spec key array e comp hs hc _ 0
    ((array.length : Int) - 1) rfl (le_refl _) (by omega) (by omega)
    (fun i x _ hi => by omega) (fun i x hx hi => by
      have := (List.getElem?_eq_some_iff.mp hx).1
      omega)
  unfold binary_search
  rcases hb with ⟨h1, x, h2, h3⟩ | ⟨h1, h2, h3, h4⟩
  · left
    refine ⟨_, x, h2, h3, ?_⟩
    omega
  · right
    refine ⟨(binary_search_loop array e comp 0 ((array.length : Int) - 1)).toNat, by omega,
      by omega, ?_, ?_⟩
    · intro x hx
      obtain ⟨i, hi, hx⟩ := mem_take_index _ _ _ hx
      exact h3 i x hx (by omega)
    · intro x hx
      obtain ⟨i, hi, hx⟩ := mem_drop_index _ _ _ hx
      exact h4 i x hx (by omega)

theorem delete_list_spec {α : Type} (key : α → Int) (list : LIST α) (e : α)
    (comp : α → α → Int)
    (hs : list.array.Pairwise (fun a b => key a < key b))
    (hc : ∀ x ∈ list.array, (comp e x < 0 ↔ key e < key x) ∧ (0 < comp e x ↔ key x < key e)) :
    (∃ (i : Nat) (x : α), list.array[i]? = some x ∧ key x = key e ∧
      delete_list list e comp
        = some { array := list.array.eraseIdx i, total := list.total }) ∨
    ((∀ x ∈ list.array, key x ≠ key e) ∧ delete_list list e comp = none) := by
  unfold delete_list
  simp only []
  rcases binary_search_spec key list.array e comp hs hc with
    ⟨i, x, h1, h2, h3⟩ | ⟨r, hr, h3, hlo, hhi⟩
  · left
    refine ⟨i, x, h1, h2, ?_⟩
    rw [h3, if_pos (by omega)]
    have e1 : (- (- (i : Int) - 1) - 1).toNat = i := by omega
    rw [e1, delete_loop_spec list.array i (List.getElem?_eq_some_iff.mp h1).1]
  · right
    constructor
    · intro x hx
      rw [← List.take_append_drop r list.array] at hx
      rcases List.mem_append.mp hx with h | h
      · have := hlo x h; omega
      · have := hhi x h; omega
    · rw [h3, if_neg (by omega)]

theorem comp_zero_iff {α : Type} (key : α → Int) (comp : α → α → Int)
    (hcmp : ∀ a b, (comp a b < 0 ↔ key a < key b) ∧ (0 < comp a b ↔ key b < key a))
    (a b : α) : comp a b = 0 ↔ key a = key b := by
  obtain ⟨h1, h2⟩ := hcmp a b
  constructor
  · intro h
    have n1 : ¬ key a < key b := fun c => by have := h1.mpr c; omega
    have n2 : ¬ key b < key a := fun c => by have := h2.mpr c; omega
    omega
  · intro h
    have n1 : ¬ comp a b < 0 := fun c => by have := h1.mp c; omega
    have n2 : ¬ 0 < comp a b := fun c => by have := h2.mp c; omega
    omega

theorem reachable_sorted {α : Type} (key : α → Int) (comp : α → α → Int)
    (hcmp : ∀ a b, (comp a b < 0 ↔ key a < key b) ∧ (0 < comp a b ↔ key b < key a))
    (list : LIST α) (h : Reachable comp list) :
    list.array.Pairwise (fun a b => key a < key b) := by
  induction h with
  | create => simp [create_list]
  | add list elt _ ih =>
    rcases add_spec key list elt comp true ih (fun x _ => hcmp elt x) with
      ⟨i, y, _, _, h3⟩ | ⟨_, ⟨hf, _⟩ | ⟨_, r, hr, hlo, hhi, hadd⟩⟩
    · unfold add_list
      rw [h3]
      exact ih
    · exact absurd hf (by simp)
    · unfold add_list
      rw [hadd]
      simp only
      rw [List.pairwise_append]
      refine ⟨ih.sublist (List.take_sublist r _), ?_, ?_⟩
      · rw [List.pairwise_cons]
        exact ⟨fun y hy => hhi y hy, ih.sublist (List.drop_sublist r _)⟩
      · intro a ha b hb
        rcases List.mem_cons.mp hb with rfl | hb1
        · exact hlo a ha
        · exact lt_trans (hlo a ha) (hhi b hb1)
  | delete list list1 elt _ hd ih =>
    rcases delete_list_spec key list elt comp ih (fun x _ => hcmp elt x) with
      ⟨i, x, _, _, h3⟩ | ⟨_, h3⟩
    · rw [h3] at hd
      cases hd
      exact ih.sublist (List.eraseIdx_sublist _ _)
    · rw [h3] at hd
      cases hd

/-- C21: for a comparator that follows integer keys, so that it is a strict
total order on the keys, every list obtained from `create_list` by calls of
`add_list` and of `delete_list` (each with its assertion holding, that is on
a key that is present) holds its elements in strictly ascending order of
the keys: no two of its elements have the same key or compare equal. -/
theorem sortedness_invariant {α : Type} (key : α → Int) (comp : α → α → Int)
    (list : LIST α)
    (hcmp : ∀ a b, (comp a b < 0 ↔ key a < key b) ∧ (0 < comp a b ↔ key b < key a))
    (h : Reachable comp list) :
    list.array.Pairwise (fun a b => comp a b < 0) ∧
    list.array.Pairwise (fun a b => key a < key b) ∧
    (list.array.map key).Nodup ∧
    (∀ a ∈ list.array, ∀ b ∈ list.array, comp a b = 0 → a = b) := by
  have hs := reachable_sorted key comp hcmp list h
  refine ⟨hs.imp (fun {a b} hab => (hcmp a b).1.mpr hab), hs, ?_, ?_⟩
  · have : (list.array.map key).Pairwise (· < ·) := List.pairwise_map.mpr hs
    exact this.imp (fun hab => ne_of_lt hab)
  · intro a ha b hb h0
    exact pairwise_key_inj key _ hs a b ha hb ((comp_zero_iff key comp hcmp a b).mp h0)

set_option maxRecDepth 100000 in
theorem sortedness_invariant_witness :
    (∀ a b : Int, (a - b < 0 ↔ a < b) ∧ (0 < a - b ↔ b < a)) ∧
    Reachable (fun a b : Int => a - b) ⟨[1, 4], 11⟩ ∧
    delete_list
      (add_list (add_list (add_list (create_list : LIST Int) 3 (fun a b => a - b)).1 1
        (fun a b => a - b)).1 4 (fun a b => a - b)).1 3 (fun a b => a - b)
      = some ⟨[1, 4], 11⟩ ∧
    ([1, 4] : List Int).Pairwise (fun a b => a - b < 0) := by
  have h1 : ∀ a b : Int, (a - b < 0 ↔ a < b) ∧ (0 < a - b ↔ b < a) := by
    intro a b
    constructor <;> constructor <;> intro h <;> omega
  have hd : delete_list
      (add_list (add_list (add_list (create_list : LIST Int) 3 (fun a b => a - b)).1 1
        (fun a b => a - b)).1 4 (fun a b => a - b)).1 3 (fun a b => a - b)
      = some ⟨[1, 4], 11⟩ := by decide!
  have hr : Reachable (fun a b : Int => a - b) ⟨[1, 4], 11⟩ :=
    Reachable.delete _ _ 3
      (Reachable.add _ 4 (Reachable.add _ 1 (Reachable.add _ 3 Reachable.create))) hd
  exact ⟨h1, hr, hd,
    (sortedness_invariant (fun a : Int => a) (fun a b => a - b) ⟨[1, 4], 11⟩ h1 hr).1⟩

/-- C22: on a list strictly ascending under a comparator `comp` that follows
integer keys, `lookup_list` returns the stored element that compares equal
to the key when there is one and `NULL` otherwise, and leaves the list as it
is.  `binary_search` returns `- i - 1` for the index `i` of the element
comparing equal, and otherwise the index `r` at which the key keeps the
array sorted: the entries before `r` are smaller, those from `r` on are
larger. -/
theorem lookup_list_correct {α : Type} (key : α → Int) (comp : α → α → Int) (list : LIST α)
    (elt : α)
    (hcmp : ∀ a b, (comp a b < 0 ↔ key a < key b) ∧ (0 < comp a b ↔ key b < key a))
    (hs : list.array.Pairwise (fun a b => comp a b < 0)) :
    (add list elt comp false).1 = list ∧
    ((∃ x ∈ list.array, comp elt x = 0) →
      ∃ (i : Nat) (x : α), list.array[i]? = some x ∧ comp elt x = 0 ∧
        (∀ y ∈ list.array, comp elt y = 0 → y = x) ∧
        binary_search list.array list.array.length elt comp = - (i : Int) - 1 ∧
        lookup_list list elt comp = some x) ∧
    ((∀ x ∈ list.array, comp elt x ≠ 0) →
      lookup_list list elt comp = none ∧
      ∃ r : Nat, r ≤ list.array.length ∧
        binary_search list.array list.array.length elt comp = (r : Int) ∧
        (∀ x ∈ list.array.take r, comp x elt < 0) ∧
        (∀ x ∈ list.array.drop r, comp elt x < 0) ∧
        (list.array.take r ++ elt :: list.array.drop r).Pairwise
          (fun a b => comp a b < 0)) := by
  have hs1 : list.array.Pairwise (fun a b => key a < key b) :=
    hs.imp (fun {a b} h => (hcmp a b).1.mp h)
  have hz := comp_zero_iff key comp hcmp
  have hbs := binary_search_spec key list.array elt comp hs1 (fun x _ => hcmp elt x)
  have hlk : ∀ (i : Nat) (x : α), list.array[i]? = some x →
      binary_search list.array list.array.length elt comp = - (i : Int) - 1 →
      lookup_list list elt comp = some x := by
    intro i x hx hb
    unfold lookup_list add
    simp only []
    rw [hb, if_pos (by omega)]
    simp only []
    have e1 : (- (- (i : Int) - 1) - 1).toNat = i := by omega
    rw [e1, hx]
  refine ⟨?_, ?_, ?_⟩
  · unfold add
    simp only []
    by_cases hneg : binary_search list.array list.array.length elt comp < 0
    · rw [if_pos hneg]
    · rw [if_neg hneg]
      simp
  · rintro ⟨x0, hx0, h0⟩
    rcases hbs with ⟨i, x, h1, h2, h3⟩ | ⟨r, _, _, hlo, hhi⟩
    · have hxm : x ∈ list.array := by
        obtain ⟨hlt, heq⟩ := List.getElem?_eq_some_iff.mp h1
        rw [← heq]
        exact List.getElem_mem _
      refine ⟨i, x, h1, (hz elt x).mpr h2.symm, ?_, h3, hlk i x h1 h3⟩
      intro y hy hy0
      exact pairwise_key_inj key _ hs1 y x hy hxm (by rw [h2, ← (hz elt y).mp hy0])
    · exfalso
      have hk := (hz elt x0).mp h0
      rw [← List.take_append_drop r list.array] at hx0
      rcases List.mem_append.mp hx0 with h | h
      · have := hlo x0 h; omega
      · have := hhi x0 h; omega
  · intro hno
    rcases hbs with ⟨i, x, h1, h2, _⟩ | ⟨r, hr, h3, hlo, hhi⟩
    · have hxm : x ∈ list.array := by
        obtain ⟨hlt, heq⟩ := List.getElem?_eq_some_iff.mp h1
        rw [← heq]
        exact List.getElem_mem _
      exact absurd ((hz elt x).mpr h2.symm) (hno x hxm)
    · constructor
      · unfold lookup_list add
        simp only []
        rw [h3, if_neg (by omega)]
        simp
      · refine ⟨r, hr, h3, fun x hx => (hcmp x elt).1.mpr (hlo x hx),
          fun x hx => (hcmp elt x).1.mpr (hhi x hx), ?_⟩
        rw [List.pairwise_append]
        refine ⟨hs.sublist (List.take_sublist r _), ?_, ?_⟩
        · rw [List.pairwise_cons]
          exact ⟨fun y hy => (hcmp elt y).1.mpr (hhi y hy),
            hs.sublist (List.drop_sublist r _)⟩
        · intro a ha b hb
          rcases List.mem_cons.mp hb with rfl | hb1
          · exact (hcmp a b).1.mpr (hlo a ha)
          · exact (hcmp a b).1.mpr (lt_trans (hlo a ha) (hhi b hb1))

set_option maxRecDepth 100000 in
theorem lookup_list_correct_witness :
    (∀ a b : Int, (a - b < 0 ↔ a < b) ∧ (0 < a - b ↔ b < a)) ∧
    ([1, 3, 5] : List Int).Pairwise (fun a b => a - b < 0) ∧
    lookup_list (⟨[1, 3, 5], 11⟩ : LIST Int) 3 (fun a b => a - b) = some 3 ∧
    lookup_list (⟨[1, 3, 5], 11⟩ : LIST Int) 4 (fun a b => a - b) = none ∧
    binary_search ([1, 3, 5] : List Int) 3 3 (fun a b => a - b) = -2 ∧
    binary_search ([1, 3, 5] : List Int) 3 4 (fun a b => a - b) = 2 ∧
    (add (⟨[1, 3, 5], 11⟩ : LIST Int) 4 (fun a b => a - b) false).1 = ⟨[1, 3, 5], 11⟩ := by
  have h1 : ∀ a b : Int, (a - b < 0 ↔ a < b) ∧ (0 < a - b ↔ b < a) := by
    intro a b
    constructor <;> constructor <;> intro h <;> omega
  have h2 : ([1, 3, 5] : List Int).Pairwise (fun a b => a - b < 0) := by decide
  exact ⟨h1, h2, by decide!, by decide!, by decide!, by decide!,
    (lookup_list_correct (fun a : Int => a) (fun a b => a - b) ⟨[1, 3, 5], 11⟩ 4 h1 h2).1⟩

/-- C23: on a list strictly ascending under a comparator `comp` that follows
integer keys, `delete_list` removes the stored element comparing equal to
`elt` when there is one: the other elements stay, in their order, and the
count goes down by one.  When no stored element compares equal, the
`assert ( result < 0 )` is violated and nothing is removed. -/
theorem delete_list_correct {α : Type} (key : α → Int) (comp : α → α → Int) (list : LIST α)
    (elt : α)
    (hcmp : ∀ a b, (comp a b < 0 ↔ key a < key b) ∧ (0 < comp a b ↔ key b < key a))
    (hs : list.array.Pairwise (fun a b => comp a b < 0)) :
    ((∃ x ∈ list.array, comp elt x = 0) →
      ∃ (i : Nat) (x : α) (list1 : LIST α), list.array[i]? = some x ∧ comp elt x = 0 ∧
        delete_list list elt comp = some list1 ∧
        list1.array = list.array.eraseIdx i ∧
        list1.array = list.array.take i ++ list.array.drop (i + 1) ∧
        count_list list1 + 1 = count_list list ∧
        (∀ y, y ∈ list1.array ↔ y ∈ list.array ∧ y ≠ x) ∧
        list1.array.Sublist list.array) ∧
    ((∀ x ∈ list.array, comp elt x ≠ 0) → delete_list list elt comp = none) := by
  have hs1 : list.array.Pairwise (fun a b => key a < key b) :=
    hs.imp (fun {a b} h => (hcmp a b).1.mp h)
  have hz := comp_zero_iff key comp hcmp
  have hd := delete_list_spec key list elt comp hs1 (fun x _ => hcmp elt x)
  constructor
  · rintro ⟨x0, hx0, h0⟩
    rcases hd with ⟨i, x, h1, h2, h3⟩ | ⟨hne, _⟩
    · obtain ⟨hlt, heq⟩ := List.getElem?_eq_some_iff.mp h1
      refine ⟨i, x, _, h1, (hz elt x).mpr h2.symm, h3, rfl, ?_, ?_, ?_,
        List.eraseIdx_sublist _ _⟩
      · simp only
        rw [List.eraseIdx_eq_take_drop_succ]
      · simp only [count_list]
        rw [List.length_eraseIdx_of_lt hlt]
        omega
      · intro y
        simp only
        rw [List.mem_eraseIdx_iff_getElem?]
        constructor
        · rintro ⟨j, hj, hy⟩
          have hym : y ∈ list.array := by
            obtain ⟨hlt1, heq1⟩ := List.getElem?_eq_some_iff.mp hy
            rw [← heq1]
            exact List.getElem_mem _
          refine ⟨hym, ?_⟩
          intro c
          rw [c] at hy
          rcases Nat.lt_or_gt_of_ne hj with hlt2 | hgt2
          · exact lt_irrefl _ (pairwise_getElem? hs1 hy h1 hlt2)
          · exact lt_irrefl _ (pairwise_getElem? hs1 h1 hy hgt2)
        · rintro ⟨hym, hne⟩
          obtain ⟨j, hj⟩ := List.mem_iff_getElem?.mp hym
          refine ⟨j, ?_, hj⟩
          intro c
          rw [c, h1] at hj
          exact hne (Option.some.inj hj).symm
    · exact absurd ((hz elt x0).mp h0).symm (hne x0 hx0)
  · intro hno
    rcases hd with ⟨i, x, h1, h2, _⟩ | ⟨_, h3⟩
    · have hxm : x ∈ list.array := by
        obtain ⟨hlt, heq⟩ := List.getElem?_eq_some_iff.mp h1
        rw [← heq]
        exact List.getElem_mem _
      exact absurd ((hz elt x).mpr h2.symm) (hno x hxm)
    · exact h3

set_option maxRecDepth 100000 in
theorem delete_list_correct_witness :
    (∀ a b : Int, (a - b < 0 ↔ a < b) ∧ (0 < a - b ↔ b < a)) ∧
    ([1, 3, 5] : List Int).Pairwise (fun a b => a - b < 0) ∧
    delete_list (⟨[1, 3, 5], 11⟩ : LIST Int) 3 (fun a b => a - b) = some ⟨[1, 5], 11⟩ ∧
    (∀ x ∈ ([1, 3, 5] : List Int), (4 : Int) - x ≠ 0) ∧
    delete_list (⟨[1, 3, 5], 11⟩ : LIST Int) 4 (fun a b => a - b) = none := by
  have h1 : ∀ a b : Int, (a - b < 0 ↔ a < b) ∧ (0 < a - b ↔ b < a) := by
    intro a b
    constructor <;> constructor <;> intro h <;> omega
  have h2 : ([1, 3, 5] : List Int).Pairwise (fun a b => a - b < 0) := by decide
  have h3 : ∀ x ∈ ([1, 3, 5] : List Int), (4 : Int) - x ≠ 0 := by decide
  exact ⟨h1, h2, by decide!, h3,
    (delete_list_correct (fun a : Int => a) (fun a b => a - b) ⟨[1, 3, 5], 11⟩ 4 h1 h2).2 h3⟩

theorem dump_loop_true {α σ : Type} (call : α → σ → Bool × σ)
    (hcall : ∀ a s, (call a s).1 = true) :
    ∀ (l : List α) (s : σ),
      dump_loop call l true s = (true, l.foldl (fun s e => (call e s).2) s) := by
  intro l
  induction l with
  | nil => intro s; rfl
  | cons e l ih =>
    intro s
    unfold dump_loop
    simp only [if_true]
    rw [hcall e s, ih]
    rfl

theorem find_diff_loop_eq {α σ : Type} (key : α → Int) (compare : α → α → Int)
    (call : α → σ → Bool × σ) (hcall : ∀ a s, (call a s).1 = true) :
    ∀ (l1 l2 : List α) (s : σ),
      l1.Pairwise (fun a b => key a < key b) → l2.Pairwise (fun a b => key a < key b) →
      (∀ a ∈ l1, ∀ b ∈ l2, (compare a b < 0 ↔ key a < key b) ∧
        (0 < compare a b ↔ key b < key a)) →
      ∃ done rest, l1 = done ++ rest ∧
        naive_diff compare l1 l2 = naive_diff compare done l2 ++ rest ∧
        find_diff_loop compare call l1 l2 s
          = (true, (naive_diff compare done l2).foldl (fun s e => (call e s).2) s, rest) := by
  intro l1
  induction l1 with
  | nil =>
    intro l2 s _ _ _
    exact ⟨[], [], rfl, by simp [naive_diff], by simp [find_diff_loop, naive_diff]⟩
  | cons a l1 ihA =>
    intro l2
    induction l2 with
    | nil =>
      intro s _ _ _
      refine ⟨[], a :: l1, rfl, by simp [naive_diff], by simp [find_diff_loop, naive_diff]⟩
    | cons b l2 ihB =>
      intro s h1 h2 hc
      have h1' := List.pairwise_cons.mp h1
      have h2' := List.pairwise_cons.mp h2
      have hab := hc a (List.mem_cons_self _ _) b (List.mem_cons_self _ _)
      rw [find_diff_loop]
      simp only []
      by_cases c1 : compare a b < 0
      · rw [if_pos c1, hcall a s]
        simp only [if_true]
        obtain ⟨done, rest, e1, e2, e3⟩ := ihA (b :: l2) (call a s).2 h1'.2 h2
          (fun a1 ha b1 hb => hc a1 (List.mem_cons_of_mem _ ha) b1 hb)
        have hall : (b :: l2).all (fun b1 => decide (compare a b1 ≠ 0)) = true := by
          rw [List.all_eq_true]
          intro b1 hb1
          have hk : key a < key b1 := by
            rcases List.mem_cons.mp hb1 with e | e
            · rw [e]; exact hab.1.mp c1
            · exact lt_trans (hab.1.mp c1) (h2'.1 b1 e)
          have := (hc a (List.mem_cons_self _ _) b1 hb1).1.mpr hk
          simp only [decide_eq_true_eq]
          omega
        refine ⟨a :: done, rest, by rw [e1]; rfl, ?_, ?_⟩
        · unfold naive_diff at e2 ⊢
          rw [List.filter_cons, if_pos hall, List.filter_cons, if_pos hall, e2]
          rfl
        · rw [e3]
          unfold naive_diff
          rw [List.filter_cons, if_pos hall]
          rfl
      · rw [if_neg c1]
        by_cases c2 : compare a b > 0
        · rw [if_pos c2]
          obtain ⟨done, rest, e1, e2, e3⟩ := ihB s h1 h2'.2
            (fun a1 ha b1 hb => hc a1 ha b1 (List.mem_cons_of_mem _ hb))
          have hskip : ∀ a1 ∈ a :: l1, compare a1 b ≠ 0 := by
            intro a1 ha1
            have hk : key b < key a1 := by
              rcases List.mem_cons.mp ha1 with e | e
              · rw [e]; exact hab.2.mp c2
              · exact lt_trans (hab.2.mp c2) (h1'.1 a1 e)
            have := (hc a1 ha1 b (List.mem_cons_self _ _)).2.mpr hk
            omega
          have hsame : ∀ l : List α, (∀ a1 ∈ l, a1 ∈ a :: l1) →
              naive_diff compare l (b :: l2) = naive_diff compare l l2 := by
            intro l hl
            unfold naive_diff
            apply List.filter_congr
            intro a1 ha1
            rw [List.all_cons]
            have := hskip a1 (hl a1 ha1)
            simp [this]
          refine ⟨done, rest, e1, ?_, ?_⟩
          · rw [hsame (a :: l1) (fun _ h => h), e2, hsame done (fun a1 h => by
              rw [e1]; exact List.mem_append_left _ h)]
          · rw [e3, hsame done (fun a1 h => by rw [e1]; exact List.mem_append_left _ h)]
        · rw [if_neg c2]
          have c0 : compare a b = 0 := by omega
          have hk : key a = key b := by
            have n1 : ¬ key a < key b := fun h => c1 (hab.1.mpr h)
            have n2 : ¬ key b < key a := fun h => c2 (hab.2.mpr h)
            omega
          obtain ⟨done, rest, e1, e2, e3⟩ := ihA l2 s h1'.2 h2'.2
            (fun a1 ha b1 hb => hc a1 (List.mem_cons_of_mem _ ha) b1 (List.mem_cons_of_mem _ hb))
          have hskip : ∀ a1 ∈ l1, compare a1 b ≠ 0 := by
            intro a1 ha1
            have hk1 : key b < key a1 := by rw [← hk]; exact h1'.1 a1 ha1
            have := (hc a1 (List.mem_cons_of_mem _ ha1) b (List.mem_cons_self _ _)).2.mpr hk1
            omega
          have hsame : ∀ l : List α, (∀ a1 ∈ l, a1 ∈ l1) →
              naive_diff compare l (b :: l2) = naive_diff compare l l2 := by
            intro l hl
            unfold naive_diff
            apply List.filter_congr
            intro a1 ha1
            rw [List.all_cons]
            have := hskip a1 (hl a1 ha1)
            simp [this]
          have hdrop : naive_diff compare (a :: l1) (b :: l2)
              = naive_diff compare l1 (b :: l2) := by
            unfold naive_diff
            rw [List.filter_cons]
            have : ¬ (b :: l2).all (fun b1 => decide (compare a b1 ≠ 0)) = true := by
              rw [List.all_cons]
              simp [c0]
            rw [if_neg this]
          refine ⟨a :: done, rest, by rw [e1]; rfl, ?_, ?_⟩
          · rw [hdrop, hsame l1 (fun _ h => h), e2]
            have hd2 : naive_diff compare (a :: done) (b :: l2)
                = naive_diff compare done (b :: l2) := by
              unfold naive_diff
              rw [List.filter_cons]
              have : ¬ (b :: l2).all (fun b1 => decide (compare a b1 ≠ 0)) = true := by
                rw [List.all_cons]
                simp [c0]
              rw [if_neg this]
            rw [hd2, hsame done (fun a1 h => by rw [e1]; exact List.mem_append_left _ h)]
          · rw [e3]
            have hd2 : naive_diff compare (a :: done) (b :: l2)
                = naive_diff compare done (b :: l2) := by
              unfold naive_diff
              rw [List.filter_cons]
              have : ¬ (b :: l2).all (fun b1 => decide (compare a b1 ≠ 0)) = true := by
                rw [List.all_cons]
                simp [c0]
              rw [if_neg this]
            rw [hd2, hsame done (fun a1 h => by rw [e1]; exact List.mem_append_left _ h)]

/-- C24: for two lists strictly ascending under a comparator that follows
integer keys and a callback that always returns `TRUE`, `find_diff` returns
`TRUE` and its calls of `call` are, in order, on the elements of the first
list whose key no element of the second list has: each of them once, in
ascending order, and on no other element. -/
theorem find_diff_spec {α σ : Type} (key : α → Int) (compare : α → α → Int)
    (call : α → σ → Bool × σ) (list1 list2 : LIST α) (s : σ)
    (hcmp : ∀ a b, (compare a b < 0 ↔ key a < key b) ∧ (0 < compare a b ↔ key b < key a))
    (h1 : list1.array.Pairwise (fun a b => compare a b < 0))
    (h2 : list2.array.Pairwise (fun a b => compare a b < 0))
    (hcall : ∀ a s, (call a s).1 = true) :
    find_diff list1 list2 compare call s
      = (true, (naive_diff compare list1.array list2.array).foldl
          (fun s e => (call e s).2) s) ∧
    (∀ a, a ∈ naive_diff compare list1.array list2.array ↔
      a ∈ list1.array ∧ ∀ b ∈ list2.array, compare a b ≠ 0) ∧
    (naive_diff compare list1.array list2.array).Sublist list1.array ∧
    (naive_diff compare list1.array list2.array).Pairwise (fun a b => compare a b < 0) := by
  have k1 : list1.array.Pairwise (fun a b => key a < key b) :=
    h1.imp (fun {a b} h => (hcmp a b).1.mp h)
  have k2 : list2.array.Pairwise (fun a b => key a < key b) :=
    h2.imp (fun {a b} h => (hcmp a b).1.mp h)
  obtain ⟨done, rest, e1, e2, e3⟩ := find_diff_loop_eq key compare call hcall
    list1.array list2.array s k1 k2 (fun a _ b _ => hcmp a b)
  refine ⟨?_, ?_, List.filter_sublist _, h1.sublist (List.filter_sublist _)⟩
  · unfold find_diff
    simp only []
    rw [e3]
    simp only []
    rw [dump_loop_true call hcall, e2, List.foldl_append]
  · intro a
    unfold naive_diff
    rw [List.mem_filter, List.all_eq_true]
    simp

set_option maxRecDepth 100000 in
theorem find_diff_spec_witness :
    (∀ a b : Int, (a - b < 0 ↔ a < b) ∧ (0 < a - b ↔ b < a)) ∧
    ([1, 3, 5, 7, 9] : List Int).Pairwise (fun a b => a - b < 0) ∧
    ([2, 3, 4, 7] : List Int).Pairwise (fun a b => a - b < 0) ∧
    find_diff (σ := List Int) ⟨[1, 3, 5, 7, 9], 11⟩ ⟨[2, 3, 4, 7], 11⟩
      (fun a b => a - b) (fun a s => (true, s ++ [a])) [] = (true, [1, 5, 9]) := by
  have h0 : ∀ a b : Int, (a - b < 0 ↔ a < b) ∧ (0 < a - b ↔ b < a) := by
    intro a b
    constructor <;> constructor <;> intro h <;> omega
  have h1 : ([1, 3, 5, 7, 9] : List Int).Pairwise (fun a b => a - b < 0) := by decide
  have h2 : ([2, 3, 4, 7] : List Int).Pairwise (fun a b => a - b < 0) := by decide
  have h := (find_diff_spec (σ := List Int) (fun a => a) (fun a b => a - b)
    (fun a s => (true, s ++ [a])) ⟨[1, 3, 5, 7, 9], 11⟩ ⟨[2, 3, 4, 7], 11⟩ [] h0 h1 h2
    (fun _ _ => rfl)).1
  refine ⟨h0, h1, h2, ?_⟩
  rw [h]
  decide

theorem merge_loop_eq {α σ : Type} (compare : α → α → Int)
    (call : α → σ → Bool × σ) (hcall : ∀ a s, (call a s).1 = true) :
    ∀ (l1 l2 : List α) (s : σ),
      ∃ done r1 r2, merge_order compare l1 l2 = done ++ (r1 ++ r2) ∧
        merge_loop compare call l1 l2 s
          = (true, done.foldl (fun s e => (call e s).2) s, r1, r2) := by
  intro l1
  induction l1 with
  | nil =>
    intro l2 s
    refine ⟨[], [], l2, ?_, ?_⟩
    · cases l2 <;> simp [merge_order]
    · cases l2 <;> simp [merge_loop]
  | cons a l1 ihA =>
    intro l2
    induction l2 with
    | nil =>
      intro s
      exact ⟨[], a :: l1, [], by simp [merge_order], by simp [merge_loop]⟩
    | cons b l2 ihB =>
      intro s
      rw [merge_loop, merge_order]
      simp only []
      by_cases c1 : compare a b < 0
      · rw [if_pos c1, if_pos c1, hcall a s]
        simp only [if_true]
        obtain ⟨done, r1, r2, e1, e2⟩ := ihA (b :: l2) (call a s).2
        exact ⟨a :: done, r1, r2, by rw [e1]; rfl, by rw [e2]; rfl⟩
      · rw [if_neg c1, if_neg c1]
        by_cases c2 : compare a b > 0
        · rw [if_pos c2, if_pos c2, hcall b s]
          simp only [if_true]
          obtain ⟨done, r1, r2, e1, e2⟩ := ihB (call b s).2
          exact ⟨b :: done, r1, r2, by rw [e1]; rfl, by rw [e2]; rfl⟩
        · rw [if_neg c2, if_neg c2, hcall a s]
          simp only [if_true]
          obtain ⟨done, r1, r2, e1, e2⟩ := ihA l2 (call a s).2
          exact ⟨a :: done, r1, r2, by rw [e1]; rfl, by rw [e2]; rfl⟩

theorem merge_lists_eq {α σ : Type} (compare : α → α → Int)
    (call : α → σ → Bool × σ) (hcall : ∀ a s, (call a s).1 = true)
    (list1 list2 : LIST α) (s : σ) :
    merge_lists list1 list2 call compare s
      = (true, (merge_order compare list1.array list2.array).foldl
          (fun s e => (call e s).2) s) := by
  obtain ⟨done, r1, r2, e1, e2⟩ := merge_loop_eq compare call hcall list1.array list2.array s
  unfold merge_lists
  simp only []
  rw [e2]
  simp only []
  rw [dump_loop_true call hcall]
  simp only []
  rw [dump_loop_true call hcall, e1, List.foldl_append, List.foldl_append]

theorem merge_order_mem {α : Type} (key : α → Int) (compare : α → α → Int) :
    ∀ (l1 l2 : List α),
      l1.Pairwise (fun a b => key a < key b) → l2.Pairwise (fun a b => key a < key b) →
      (∀ a ∈ l1, ∀ b ∈ l2, (compare a b < 0 ↔ key a < key b) ∧
        (0 < compare a b ↔ key b < key a)) →
      ∀ x, x ∈ merge_order compare l1 l2 ↔
        x ∈ l1 ∨ (x ∈ l2 ∧ ∀ a ∈ l1, key a ≠ key x) := by
  intro l1
  induction l1 with
  | nil =>
    intro l2 _ _ _ x
    cases l2 <;> simp [merge_order]
  | cons a l1 ihA =>
    intro l2
    induction l2 with
    | nil =>
      intro _ _ _ x
      simp [merge_order]
    | cons b l2 ihB =>
      intro h1 h2 hc x
      have h1' := List.pairwise_cons.mp h1
      have h2' := List.pairwise_cons.mp h2
      have hab := hc a (List.mem_cons_self _ _) b (List.mem_cons_self _ _)
      rw [merge_order]
      by_cases c1 : compare a b < 0
      · rw [if_pos c1, List.mem_cons, ihA (b :: l2) h1'.2 h2
          (fun a1 ha b1 hb => hc a1 (List.mem_cons_of_mem _ ha) b1 hb)]
        have hk := hab.1.mp c1
        constructor
        · rintro (rfl | h | ⟨h, hn⟩)
          · exact Or.inl (List.mem_cons_self _ _)
          · exact Or.inl (List.mem_cons_of_mem _ h)
          · right
            refine ⟨h, ?_⟩
            intro a1 ha1
            rcases List.mem_cons.mp ha1 with rfl | h3
            · rcases List.mem_cons.mp h with rfl | h4
              · omega
              · have := h2'.1 x h4; omega
            · exact hn a1 h3
        · rintro (h | ⟨h, hn⟩)
          · rcases List.mem_cons.mp h with rfl | h3
            · exact Or.inl rfl
            · exact Or.inr (Or.inl h3)
          · exact Or.inr (Or.inr ⟨h, fun a1 ha1 => hn a1 (List.mem_cons_of_mem _ ha1)⟩)
      · rw [if_neg c1]
        by_cases c2 : compare a b > 0
        · rw [if_pos c2, List.mem_cons, ihB h1 h2'.2
            (fun a1 ha b1 hb => hc a1 ha b1 (List.mem_cons_of_mem _ hb))]
          have hk := hab.2.mp c2
          constructor
          · rintro (rfl | h | ⟨h, hn⟩)
            · right
              refine ⟨List.mem_cons_self _ _, ?_⟩
              intro a1 ha1
              rcases List.mem_cons.mp ha1 with rfl | h3
              · omega
              · have := h1'.1 a1 h3; omega
            · exact Or.inl h
            · exact Or.inr ⟨List.mem_cons_of_mem _ h, hn⟩
          · rintro (h | ⟨h, hn⟩)
            · exact Or.inr (Or.inl h)
            · rcases List.mem_cons.mp h with rfl | h3
              · exact Or.inl rfl
              · exact Or.inr (Or.inr ⟨h3, hn⟩)
        · rw [if_neg c2, List.mem_cons, ihA l2 h1'.2 h2'.2
            (fun a1 ha b1 hb => hc a1 (List.mem_cons_of_mem _ ha) b1 (List.mem_cons_of_mem _ hb))]
          have hk : key a = key b := by
            have n1 : ¬ key a < key b := fun h => c1 (hab.1.mpr h)
            have n2 : ¬ key b < key a := fun h => c2 (hab.2.mpr h)
            omega
          constructor
          · rintro (rfl | h | ⟨h, hn⟩)
            · exact Or.inl (List.mem_cons_self _ _)
            · exact Or.inl (List.mem_cons_of_mem _ h)
            · right
              refine ⟨List.mem_cons_of_mem _ h, ?_⟩
              intro a1 ha1
              rcases List.mem_cons.mp ha1 with rfl | h3
              · have := h2'.1 x h; omega
              · exact hn a1 h3
          · rintro (h | ⟨h, hn⟩)
            · rcases List.mem_cons.mp h with rfl | h3
              · exact Or.inl rfl
              · exact Or.inr (Or.inl h3)
            · rcases List.mem_cons.mp h with rfl | h3
              · exact absurd hk (hn a (List.mem_cons_self _ _))
              · exact Or.inr (Or.inr ⟨h3, fun a1 ha1 => hn a1 (List.mem_cons_of_mem _ ha1)⟩)

theorem merge_order_sorted {α : Type} (key : α → Int) (compare : α → α → Int) :
    ∀ (l1 l2 : List α),
      l1.Pairwise (fun a b => key a < key b) → l2.Pairwise (fun a b => key a < key b) →
      (∀ a ∈ l1, ∀ b ∈ l2, (compare a b < 0 ↔ key a < key b) ∧
        (0 < compare a b ↔ key b < key a)) →
      (merge_order compare l1 l2).Pairwise (fun a b => key a < key b) := by
  intro l1
  induction l1 with
  | nil =>
    intro l2 _ h2 _
    cases l2 with
    | nil => simp [merge_order]
    | cons b l2 => simpa [merge_order] using h2
  | cons a l1 ihA =>
    intro l2
    induction l2 with
    | nil =>
      intro h1 _ _
      simpa [merge_order] using h1
    | cons b l2 ihB =>
      intro h1 h2 hc
      have h1' := List.pairwise_cons.mp h1
      have h2' := List.pairwise_cons.mp h2
      have hab := hc a (List.mem_cons_self _ _) b (List.mem_cons_self _ _)
      rw [merge_order]
      by_cases c1 : compare a b < 0
      · rw [if_pos c1, List.pairwise_cons]
        have hc1 : ∀ a1 ∈ l1, ∀ b1 ∈ b :: l2, (compare a1 b1 < 0 ↔ key a1 < key b1) ∧
            (0 < compare a1 b1 ↔ key b1 < key a1) :=
          fun a1 ha b1 hb => hc a1 (List.mem_cons_of_mem _ ha) b1 hb
        refine ⟨?_, ihA (b :: l2) h1'.2 h2 hc1⟩
        intro x hx
        have hk := hab.1.mp c1
        rcases (merge_order_mem key compare l1 (b :: l2) h1'.2 h2 hc1 x).mp hx with h | ⟨h, _⟩
        · exact h1'.1 x h
        · rcases List.mem_cons.mp h with rfl | h3
          · exact hk
          · exact lt_trans hk (h2'.1 x h3)
      · rw [if_neg c1]
        by_cases c2 : compare a b > 0
        · rw [if_pos c2, List.pairwise_cons]
          have hc1 : ∀ a1 ∈ a :: l1, ∀ b1 ∈ l2, (compare a1 b1 < 0 ↔ key a1 < key b1) ∧
              (0 < compare a1 b1 ↔ key b1 < key a1) :=
            fun a1 ha b1 hb => hc a1 ha b1 (List.mem_cons_of_mem _ hb)
          refine ⟨?_, ihB h1 h2'.2 hc1⟩
          intro x hx
          have hk := hab.2.mp c2
          rcases (merge_order_mem key compare (a :: l1) l2 h1 h2'.2 hc1 x).mp hx with
            h | ⟨h, _⟩
          · rcases List.mem_cons.mp h with rfl | h3
            · exact hk
            · exact lt_trans hk (h1'.1 x h3)
          · exact h2'.1 x h
        · rw [if_neg c2, List.pairwise_cons]
          have hk : key a = key b := by
            have n1 : ¬ key a < key b := fun h => c1 (hab.1.mpr h)
            have n2 : ¬ key b < key a := fun h => c2 (hab.2.mpr h)
            omega
          have hc1 : ∀ a1 ∈ l1, ∀ b1 ∈ l2, (compare a1 b1 < 0 ↔ key a1 < key b1) ∧
              (0 < compare a1 b1 ↔ key b1 < key a1) :=
            fun a1 ha b1 hb => hc a1 (List.mem_cons_of_mem _ ha) b1 (List.mem_cons_of_mem _ hb)
          refine ⟨?_, ihA l2 h1'.2 h2'.2 hc1⟩
          intro x hx
          rcases (merge_order_mem key compare l1 l2 h1'.2 h2'.2 hc1 x).mp hx with h | ⟨h, _⟩
          · exact h1'.1 x h
          · rw [hk]; exact h2'.1 x h

/-- C25: for two lists strictly ascending under a comparator that follows
integer keys and a callback that always returns `TRUE`, `merge_lists`
returns `TRUE` and its calls of `call` are on a sequence of elements that is
strictly ascending in the keys, so every key occurs once, and that consists
of the elements of the first list and those elements of the second list
whose key no element of the first list has: the keys are those of the union,
with the element of the first list for a key in both. -/
theorem merge_lists_spec {α σ : Type} (key : α → Int) (compare : α → α → Int)
    (call : α → σ → Bool × σ) (list1 list2 : LIST α) (s : σ)
    (hcmp : ∀ a b, (compare a b < 0 ↔ key a < key b) ∧ (0 < compare a b ↔ key b < key a))
    (h1 : list1.array.Pairwise (fun a b => compare a b < 0))
    (h2 : list2.array.Pairwise (fun a b => compare a b < 0))
    (hcall : ∀ a s, (call a s).1 = true) :
    merge_lists list1 list2 call compare s
      = (true, (merge_order compare list1.array list2.array).foldl
          (fun s e => (call e s).2) s) ∧
    (∀ x, x ∈ merge_order compare list1.array list2.array ↔
      x ∈ list1.array ∨ (x ∈ list2.array ∧ ∀ a ∈ list1.array, compare a x ≠ 0)) ∧
    (merge_order compare list1.array list2.array).Pairwise (fun a b => compare a b < 0) ∧
    ((merge_order compare list1.array list2.array).map key).Nodup ∧
    (∀ k, k ∈ (merge_order compare list1.array list2.array).map key ↔
      k ∈ list1.array.map key ∨ k ∈ list2.array.map key) := by
  have k1 : list1.array.Pairwise (fun a b => key a < key b) :=
    h1.imp (fun {a b} h => (hcmp a b).1.mp h)
  have k2 : list2.array.Pairwise (fun a b => key a < key b) :=
    h2.imp (fun {a b} h => (hcmp a b).1.mp h)
  have hz := comp_zero_iff key compare hcmp
  have hmem := merge_order_mem key compare list1.array list2.array k1 k2
    (fun a _ b _ => hcmp a b)
  have hsort := merge_order_sorted key compare list1.array list2.array k1 k2
    (fun a _ b _ => hcmp a b)
  refine ⟨merge_lists_eq compare call hcall list1 list2 s, ?_,
    hsort.imp (fun {a b} hab => (hcmp a b).1.mpr hab), ?_, ?_⟩
  · intro x
    rw [hmem x]
    constructor
    · rintro (h | ⟨h, hn⟩)
      · exact Or.inl h
      · exact Or.inr ⟨h, fun a ha c => hn a ha ((hz a x).mp c)⟩
    · rintro (h | ⟨h, hn⟩)
      · exact Or.inl h
      · exact Or.inr ⟨h, fun a ha c => hn a ha ((hz a x).mpr c)⟩
  · have : ((merge_order compare list1.array list2.array).map key).Pairwise (· < ·) :=
      List.pairwise_map.mpr hsort
    exact this.imp (fun hab => ne_of_lt hab)
  · intro k
    simp only [List.mem_map]
    constructor
    · rintro ⟨x, hx, rfl⟩
      rcases (hmem x).mp hx with h | ⟨h, _⟩
      · exact Or.inl ⟨x, h, rfl⟩
      · exact Or.inr ⟨x, h, rfl⟩
    · rintro (⟨x, hx, rfl⟩ | ⟨x, hx, rfl⟩)
      · exact ⟨x, (hmem x).mpr (Or.inl hx), rfl⟩
      · by_cases hex : ∃ a ∈ list1.array, key a = key x
        · obtain ⟨a, ha, hk⟩ := hex
          exact ⟨a, (hmem a).mpr (Or.inl ha), hk⟩
        · exact ⟨x, (hmem x).mpr (Or.inr ⟨hx, fun a ha c => hex ⟨a, ha, c⟩⟩), rfl⟩

set_option maxRecDepth 100000 in
theorem merge_lists_spec_witness :
    (∀ a b : Int × Nat, (a.1 - b.1 < 0 ↔ a.1 < b.1) ∧ (0 < a.1 - b.1 ↔ b.1 < a.1)) ∧
    ([(1, 0), (3, 0), (5, 0)] : List (Int × Nat)).Pairwise (fun a b => a.1 - b.1 < 0) ∧
    ([(2, 1), (3, 1), (6, 1)] : List (Int × Nat)).Pairwise (fun a b => a.1 - b.1 < 0) ∧
    merge_lists (σ := List (Int × Nat)) ⟨[(1, 0), (3, 0), (5, 0)], 11⟩
      ⟨[(2, 1), (3, 1), (6, 1)], 11⟩ (fun a s => (true, s ++ [a])) (fun a b => a.1 - b.1) []
      = (true, [(1, 0), (2, 1), (3, 0), (5, 0), (6, 1)]) := by
  have h0 : ∀ a b : Int × Nat, (a.1 - b.1 < 0 ↔ a.1 < b.1) ∧ (0 < a.1 - b.1 ↔ b.1 < a.1) := by
    intro a b
    constructor <;> constructor <;> intro h <;> omega
  have h1 : ([(1, 0), (3, 0), (5, 0)] : List (Int × Nat)).Pairwise
      (fun a b => a.1 - b.1 < 0) := by decide
  have h2 : ([(2, 1), (3, 1), (6, 1)] : List (Int × Nat)).Pairwise
      (fun a b => a.1 - b.1 < 0) := by decide
  have h := (merge_lists_spec (σ := List (Int × Nat)) (fun a => a.1) (fun a b => a.1 - b.1)
    (fun a s => (true, s ++ [a])) ⟨[(1, 0), (3, 0), (5, 0)], 11⟩
    ⟨[(2, 1), (3, 1), (6, 1)], 11⟩ [] h0 h1 h2 (fun _ _ => rfl)).1
  refine ⟨h0, h1, h2, ?_⟩
  rw [h]
  decide!

/-- A call of `add_doc` keeps `doc_list` sorted by `index`, keeps the
records it holds, and leaves a record with the index `d` in it; a record it
adds has the empty list of `create_list`. -/
theorem add_doc_spec (doc_list : LIST DOC_STRUCT) (d : Int) (hd : small d)
    (hs : doc_list.array.Pairwise (fun a b => a.index < b.index))
    (hsm : ∀ r ∈ doc_list.array, small r.index) :
    (add_doc d doc_list).array.Pairwise (fun a b => a.index < b.index) ∧
    (∀ r ∈ (add_doc d doc_list).array, small r.index) ∧
    (∀ r, r ∈ (add_doc d doc_list).array →
      r ∈ doc_list.array ∨ r = { index := d, docatoms := create_list }) ∧
    (∀ r ∈ doc_list.array, r ∈ (add_doc d doc_list).array) ∧
    (∃ r ∈ (add_doc d doc_list).array, r.index = d) := by
  unfold add_doc add_list
  rcases add_spec (fun r : DOC_STRUCT => r.index) doc_list
      { index := d, docatoms := create_list } comp_doc true hs
      (fun x hx => comp_small d x.index hd (hsm x hx)) with
    ⟨i, y, h1, h2, h3⟩ | ⟨_, ⟨hf, _⟩ | ⟨_, r, hr, hlo, hhi, hadd⟩⟩
  · rw [h3]
    have hy : y ∈ doc_list.array := by
      obtain ⟨hlt, heq⟩ := List.getElem?_eq_some_iff.mp h1
      rw [← heq]
      exact List.getElem_mem _
    exact ⟨hs, hsm, fun r hr => Or.inl hr, fun r hr => hr, y, hy, h2⟩
  · exact absurd hf (by simp)
  · rw [hadd]
    simp only
    have hperm : (doc_list.array.take r ++
        ({ index := d, docatoms := create_list } : DOC_STRUCT) :: doc_list.array.drop r).Perm
        (({ index := d, docatoms := create_list } : DOC_STRUCT) :: doc_list.array) := by
      have hmid : (doc_list.array.take r ++
          ({ index := d, docatoms := create_list } : DOC_STRUCT) :: doc_list.array.drop r).Perm
          (({ index := d, docatoms := create_list } : DOC_STRUCT)
            :: (doc_list.array.take r ++ doc_list.array.drop r)) := List.perm_middle
      rw [List.take_append_drop] at hmid
      exact hmid
    refine ⟨?_, ?_, ?_, ?_, ?_⟩
    · rw [List.pairwise_append]
      refine ⟨hs.sublist (List.take_sublist r _), ?_, ?_⟩
      · rw [List.pairwise_cons]
        exact ⟨fun y hy => hhi y hy, hs.sublist (List.drop_sublist r _)⟩
      · intro a ha b hb
        rcases List.mem_cons.mp hb with rfl | hb1
        · exact hlo a ha
        · exact lt_trans (hlo a ha) (hhi b hb1)
    · intro x hx
      rcases List.mem_cons.mp (hperm.mem_iff.mp hx) with rfl | h
      · exact hd
      · exact hsm x h
    · intro x hx
      rcases List.mem_cons.mp (hperm.mem_iff.mp hx) with rfl | h
      · exact Or.inr rfl
      · exact Or.inl h
    · intro x hx
      exact hperm.mem_iff.mpr (List.mem_cons_of_mem _ hx)
    · exact ⟨_, hperm.mem_iff.mpr (List.mem_cons_self _ _), rfl⟩

theorem process_pref_fold (prefs : List Pref)
    (hp : ∀ p ∈ prefs, small p.d ∧ small p.d1 ∧ small p.d2) :
    ∀ doc_list : LIST DOC_STRUCT,
      doc_list.array.Pairwise (fun a b => a.index < b.index) →
      (∀ r ∈ doc_list.array, small r.index) →
      (∀ r ∈ doc_list.array, r.docatoms = create_list) →
      (prefs.foldl (fun doc_list p => add_doc p.d2 (add_doc p.d1 (add_doc p.d doc_list)))
        doc_list).array.Pairwise (fun a b => a.index < b.index) ∧
      (∀ r ∈ (prefs.foldl (fun doc_list p => add_doc p.d2 (add_doc p.d1 (add_doc p.d doc_list)))
        doc_list).array, small r.index ∧ r.docatoms = create_list) ∧
      (∀ r ∈ doc_list.array, r ∈ (prefs.foldl
        (fun doc_list p => add_doc p.d2 (add_doc p.d1 (add_doc p.d doc_list))) doc_list).array) ∧
      (∀ p ∈ prefs, ∀ id, id = p.d ∨ id = p.d1 ∨ id = p.d2 →
        ∃ r ∈ (prefs.foldl (fun doc_list p => add_doc p.d2 (add_doc p.d1 (add_doc p.d doc_list)))
          doc_list).array, r.index = id) := by
  induction prefs with
  | nil =>
    intro doc_list hs hsm he
    exact ⟨hs, fun r hr => ⟨hsm r hr, he r hr⟩, fun r hr => hr, fun p hp => by simp at hp⟩
  | cons p ps ih =>
    intro doc_list hs hsm he
    obtain ⟨q0, q1, q2⟩ := hp p (List.mem_cons_self _ _)
    obtain ⟨a1, a2, a3, a4, a5⟩ := add_doc_spec doc_list p.d q0 hs hsm
    obtain ⟨b1, b2, b3, b4, b5⟩ := add_doc_spec _ p.d1 q1 a1 a2
    obtain ⟨c1, c2, c3, c4, c5⟩ := add_doc_spec _ p.d2 q2 b1 b2
    have he3 : ∀ r ∈ (add_doc p.d2 (add_doc p.d1 (add_doc p.d doc_list))).array,
        r.docatoms = create_list := by
      intro r hr
      rcases c3 r hr with h | rfl
      · rcases b3 r h with h | rfl
        · rcases a3 r h with h | rfl
          · exact he r h
          · rfl
        · rfl
      · rfl
    rw [List.foldl_cons]
    obtain ⟨i1, i2, i3, i4⟩ := ih (fun p1 h1 => hp p1 (List.mem_cons_of_mem _ h1)) _ c1 c2 he3
    refine ⟨i1, i2, fun r hr => i3 r (c4 r (b4 r (a4 r hr))), ?_⟩
    intro p1 hp1 id hid
    rcases List.mem_cons.mp hp1 with rfl | h
    · rcases hid with rfl | rfl | rfl
      · obtain ⟨r, hr, e⟩ := a5
        exact ⟨r, i3 r (c4 r (b4 r hr)), e⟩
      · obtain ⟨r, hr, e⟩ := b5
        exact ⟨r, i3 r (c4 r hr), e⟩
      · obtain ⟨r, hr, e⟩ := c5
        exact ⟨r, i3 r hr, e⟩
    · exact i4 p1 h id hid

theorem process_pref_spec (prefs : List Pref)
    (hp : ∀ p ∈ prefs, small p.d ∧ small p.d1 ∧ small p.d2) :
    (process_pref prefs).array.Pairwise (fun a b => a.index < b.index) ∧
    (∀ r ∈ (process_pref prefs).array, small r.index ∧ r.docatoms = create_list) ∧
    (∀ p ∈ prefs, ∀ id, id = p.d ∨ id = p.d1 ∨ id = p.d2 →
      ∃ r ∈ (process_pref prefs).array, r.index = id) := by
  obtain ⟨a, b, _, d⟩ := process_pref_fold prefs hp create_list (by simp [create_list])
    (by simp [create_list]) (by simp [create_list])
  exact ⟨a, b, d⟩

theorem map_set_same {α β : Type} (f : α → β) (l : List α) (i : Nat) (x y : α)
    (hx : l[i]? = some x) (hf : f y = f x) : (l.set i y).map f = l.map f := by
  apply List.ext_getElem?
  intro k
  rw [List.getElem?_map, List.getElem?_map]
  by_cases e : i = k
  · subst e
    rw [List.getElem?_set_self (List.getElem?_eq_some_iff.mp hx).1, hx]
    simp [hf]
  · rw [List.getElem?_set_ne e]

/-- The invariant of the loop of `process_documents` for a document number
`id` that has no line of its own in the document file. -/
theorem process_documents_line_inv (sign_list : LIST SIGN_STRUCT) (dl0 : LIST DOC_STRUCT)
    (id : Int) (hs0 : dl0.array.Pairwise (fun a b => a.index < b.index))
    (hsm0 : ∀ r ∈ dl0.array, small r.index) (st st1 : DocState) (line : DocLine)
    (hline : line ≠ DocLine.doc id) (hlsm : ∀ d, line = DocLine.doc d → small d)
    (h1 : st.doc_list.array.map (fun r => r.index) = dl0.array.map (fun r => r.index))
    (h2 : ∀ r ∈ st.doc_list.array, r.index = id → r.docatoms = create_list)
    (h3 : st.active = true → ∃ r, st.doc_list.array[st.glob_list]? = some r ∧ r.index ≠ id)
    (h : process_documents_line sign_list st line = some st1) :
    st1.doc_list.array.map (fun r => r.index) = dl0.array.map (fun r => r.index) ∧
    (∀ r ∈ st1.doc_list.array, r.index = id → r.docatoms = create_list) ∧
    (st1.active = true → ∃ r, st1.doc_list.array[st1.glob_list]? = some r ∧ r.index ≠ id) := by
  have hs : st.doc_list.array.Pairwise (fun a b => a.index < b.index) := by
    have : (st.doc_list.array.map (fun r => r.index)).Pairwise (· < ·) := by
      rw [h1]; exact List.pairwise_map.mpr hs0
    exact List.pairwise_map.mp this
  have hsm : ∀ r ∈ st.doc_list.array, small r.index := by
    intro r hr
    have : r.index ∈ st.doc_list.array.map (fun r => r.index) := List.mem_map_of_mem _ hr
    rw [h1] at this
    obtain ⟨r0, hr0, e⟩ := List.mem_map.mp this
    rw [← e]
    exact hsm0 r0 hr0
  cases line with
  | doc d =>
    have hd : small d := hlsm d rfl
    have hne : d ≠ id := fun c => hline (by rw [c])
    unfold process_documents_line at h
    simp only [] at h
    rcases add_spec (fun r : DOC_STRUCT => r.index) st.doc_list
        { index := d, docatoms := create_list } comp_doc false hs
        (fun x hx => comp_small d x.index hd (hsm x hx)) with
      ⟨i, y, a1, a2, a3⟩ | ⟨_, ⟨_, a3⟩ | ⟨hf, _⟩⟩
    · rw [a3] at h
      simp only [Option.some.injEq] at h
      subst h
      refine ⟨h1, h2, fun _ => ⟨y, a1, ?_⟩⟩
      simp only at a2
      rw [a2]
      exact hne
    · rw [a3] at h
      simp only [Option.some.injEq] at h
      subst h
      exact ⟨h1, h2, fun c => by simp at c⟩
    · exact absurd hf (by simp)
  | sign d w =>
    unfold process_documents_line at h
    simp only [] at h
    by_cases hact : st.active = true
    · rw [if_pos hact] at h
      obtain ⟨doc, hdoc, hdid⟩ := h3 hact
      cases hl : lookup_list sign_list { sign := d, atoms := create_list } comp_sign with
      | none => rw [hl] at h; simp at h
      | some sgn =>
        rw [hl, hdoc] at h
        simp only [] at h
        cases he : enum_list sgn.atoms (make_docatoms w) ENUM_FORWARD doc.docatoms with
        | none => rw [he] at h; simp at h
        | some r =>
          rw [he] at h
          simp only [Option.some.injEq] at h
          subst h
          simp only
          refine ⟨?_, ?_, ?_⟩
          · rw [map_set_same (fun r : DOC_STRUCT => r.index) _ _ doc
              { index := doc.index, docatoms := r.2 } hdoc rfl, h1]
          · intro r1 hr1 hid
            rcases List.mem_or_eq_of_mem_set hr1 with hm | rfl
            · exact h2 r1 hm hid
            · exact absurd hid hdid
          · intro _
            refine ⟨{ doc with docatoms := r.2 }, ?_, hdid⟩
            rw [List.getElem?_set_self (List.getElem?_eq_some_iff.mp hdoc).1]
    · rw [if_neg hact] at h
      simp only [Option.some.injEq] at h
      subst h
      exact ⟨h1, h2, h3⟩

theorem process_documents_fold (sign_list : LIST SIGN_STRUCT) (dl0 : LIST DOC_STRUCT)
    (id : Int) (hs0 : dl0.array.Pairwise (fun a b => a.index < b.index))
    (hsm0 : ∀ r ∈ dl0.array, small r.index) (lines : List DocLine) :
    ∀ (st st1 : DocState),
      (∀ line ∈ lines, line ≠ DocLine.doc id) →
      (∀ d, DocLine.doc d ∈ lines → small d) →
      st.doc_list.array.map (fun r => r.index) = dl0.array.map (fun r => r.index) →
      (∀ r ∈ st.doc_list.array, r.index = id → r.docatoms = create_list) →
      (st.active = true → ∃ r, st.doc_list.array[st.glob_list]? = some r ∧ r.index ≠ id) →
      lines.foldlM (process_documents_line sign_list) st = some st1 →
      st1.doc_list.array.map (fun r => r.index) = dl0.array.map (fun r => r.index) ∧
      (∀ r ∈ st1.doc_list.array, r.index = id → r.docatoms = create_list) := by
  induction lines with
  | nil =>
    intro st st1 _ _ h1 h2 _ h
    simp only [List.foldlM_nil, Option.pure_def, Option.some.injEq] at h
    subst h
    exact ⟨h1, h2⟩
  | cons l ls ih =>
    intro st st1 hno hlsm h1 h2 h3 h
    rw [List.foldlM_cons] at h
    cases hl : process_documents_line sign_list st l with
    | none => rw [hl] at h; simp at h
    | some st2 =>
      rw [hl] at h
      obtain ⟨a, b, c⟩ := process_documents_line_inv sign_list dl0 id hs0 hsm0 st st2 l
        (hno l (List.mem_cons_self _ _))
        (fun d hd => hlsm d (by rw [← hd]; exact List.mem_cons_self _ _)) h1 h2 h3 hl
      exact ih st2 st1 (fun l1 h1 => hno l1 (List.mem_cons_of_mem _ h1))
        (fun d hd => hlsm d (List.mem_cons_of_mem _ hd)) a b c h

theorem calc_rsv_empty (G : Globals) (d1 d2 : Int) (v : List ℚ) (q d : DOC_STRUCT)
    (hq : lookup_list G.doc_list { index := d1, docatoms := create_list } comp_doc = some q)
    (hd : lookup_list G.doc_list { index := d2, docatoms := create_list } comp_doc = some d)
    (he : q.docatoms = create_list ∨ d.docatoms = create_list) :
    calc_rsv G d1 d2 v = some (false, v, 0) := by
  unfold calc_rsv
  rw [hq, hd]
  simp only []
  unfold find_union
  rcases he with h | h
  · rw [h]
    simp [create_list, find_union_loop]
  · rw [h]
    cases hq1 : q.docatoms.array with
    | nil => simp [create_list, find_union_loop]
    | cons a l => simp [create_list, find_union_loop]

theorem calc_rsv_unknown (G : Globals) (d1 d2 : Int) (v : List ℚ)
    (h : lookup_list G.doc_list { index := d1, docatoms := create_list } comp_doc = none ∨
      lookup_list G.doc_list { index := d2, docatoms := create_list } comp_doc = none) :
    calc_rsv G d1 d2 v = none := by
  unfold calc_rsv
  rcases h with h | h
  · rw [h]
  · rw [h]
    cases lookup_list G.doc_list { index := d1, docatoms := create_list } comp_doc <;> rfl

set_option maxRecDepth 100000 in
/-- C26, counterexample: the preference `- -1 7 9` names the document `9`,
for which the document file has no record.  `process_pref` has entered `9`
into `doc_list` with an empty list, so `calc_rsv ( -1, 9 )` violates no
assertion and returns `FALSE` with the vector and the constant as for an
empty weight vector, and `enum_pref` stores the row
`[6, 6, EPSILON]` of the preference. -/
theorem dangling_document_accepted :
    (∀ line ∈ example_stream, line ≠ DocLine.doc example_dangling.d2) ∧
    (process_documents example_signs (process_pref [example_dangling]) example_stream).map
      (fun dl => calc_rsv
        { doc_list := dl, atom_list := { array := [⟨1, 0⟩, ⟨2, 1⟩], total := 11 },
          unused_wgts := create_list, num_weights := 2 }
        example_dangling.d example_dangling.d2 (alloc_vector 2))
      = some (some (false, [0, 0, 0], 0)) ∧
    (process_documents example_signs (process_pref [example_dangling]) example_stream).map
      (fun dl => enum_pref
        { doc_list := dl, atom_list := { array := [⟨1, 0⟩, ⟨2, 1⟩], total := 11 },
          unused_wgts := create_list, num_weights := 2 }
        [example_dangling] false [[]] (alloc_vector 2))
      = some (some (1, [[6, 6, 1 / 100000]], [-6, -6, - (1 / 100000)])) := by
  refine ⟨by decide, by decide!, by decide!⟩

/-- C26, amended: `calc_rsv` violates an assertion exactly for a number that
is not in `doc_list`.  `process_pref` enters every number a preference names
into `doc_list` with an empty list, and `process_documents` fills the lists
of the numbers that have a line in the document file only; so a number that
a preference names and for which the document file has no record is found
with an empty weight vector, and `calc_rsv` on it returns `FALSE` and leaves
the vector as passed in and the constant `0`: the equations are built as for
an empty document. -/
theorem dangling_record_empty (sign_list : LIST SIGN_STRUCT) (prefs : List Pref)
    (lines : List DocLine) (G : Globals) (p : Pref) (id : Int)
    (hp : ∀ p ∈ prefs, small p.d ∧ small p.d1 ∧ small p.d2)
    (hl : ∀ d, DocLine.doc d ∈ lines → small d)
    (h : process_documents sign_list (process_pref prefs) lines = some G.doc_list)
    (hmem : p ∈ prefs) (hid : id = p.d ∨ id = p.d1 ∨ id = p.d2)
    (hno : ∀ line ∈ lines, line ≠ DocLine.doc id) :
    (∃ r, lookup_list G.doc_list { index := id, docatoms := create_list } comp_doc = some r ∧
      r.index = id ∧ r.docatoms = create_list) ∧
    (∀ (d1 : Int) (v : List ℚ) (q : DOC_STRUCT),
      lookup_list G.doc_list { index := d1, docatoms := create_list } comp_doc = some q →
      calc_rsv G d1 id v = some (false, v, 0) ∧ calc_rsv G id d1 v = some (false, v, 0)) ∧
    (∀ (d1 d2 : Int) (v : List ℚ),
      lookup_list G.doc_list { index := d1, docatoms := create_list } comp_doc = none ∨
      lookup_list G.doc_list { index := d2, docatoms := create_list } comp_doc = none →
      calc_rsv G d1 d2 v = none) := by
  obtain ⟨a1, a2, a3⟩ := process_pref_spec prefs hp
  unfold process_documents at h
  cases hf : lines.foldlM (process_documents_line sign_list)
      { doc_list := process_pref prefs, active := false, glob_list := 0 } with
  | none => rw [hf] at h; simp at h
  | some st =>
    rw [hf] at h
    simp only [Option.map_some', Option.some.injEq] at h
    obtain ⟨b1, b2⟩ := process_documents_fold sign_list (process_pref prefs) id a1
      (fun r hr => (a2 r hr).1) lines _ st hno hl rfl (fun r hr _ => (a2 r hr).2)
      (fun c => by simp at c) hf
    rw [h] at b1 b2
    have hs : G.doc_list.array.Pairwise (fun a b => a.index < b.index) := by
      have : (G.doc_list.array.map (fun r => r.index)).Pairwise (· < ·) := by
        rw [b1]; exact List.pairwise_map.mpr a1
      exact List.pairwise_map.mp this
    have hsm : ∀ r ∈ G.doc_list.array, small r.index := by
      intro r hr
      have : r.index ∈ G.doc_list.array.map (fun r => r.index) := List.mem_map_of_mem _ hr
      rw [b1] at this
      obtain ⟨r0, hr0, e⟩ := List.mem_map.mp this
      rw [← e]
      exact (a2 r0 hr0).1
    have hidsm : small id := by
      obtain ⟨q0, q1, q2⟩ := hp p hmem
      rcases hid with rfl | rfl | rfl
      · exact q0
      · exact q1
      · exact q2
    obtain ⟨r0, hr0, e0⟩ := a3 p hmem id hid
    have hin : ∃ r ∈ G.doc_list.array, r.index = id := by
      have : id ∈ G.doc_list.array.map (fun r => r.index) := by
        rw [b1, ← e0]
        exact List.mem_map_of_mem _ hr0
      obtain ⟨r, hr, e⟩ := List.mem_map.mp this
      exact ⟨r, hr, e⟩
    have hlook : ∃ r, lookup_list G.doc_list { index := id, docatoms := create_list } comp_doc
        = some r ∧ r.index = id ∧ r.docatoms = create_list := by
      rcases lookup_list_spec (fun r : DOC_STRUCT => r.index) G.doc_list
          { index := id, docatoms := create_list } comp_doc hs
          (fun x hx => comp_small id x.index hidsm (hsm x hx)) with
        ⟨x, hx, hk, hlk⟩ | ⟨hne, _⟩
      · exact ⟨x, hlk, hk, b2 x hx hk⟩
      · obtain ⟨r, hr, e⟩ := hin
        exact absurd e (hne r hr)
    refine ⟨hlook, ?_, fun d1 d2 v hn => calc_rsv_unknown G d1 d2 v hn⟩
    intro d1 v q hq
    obtain ⟨r, hr1, _, hr3⟩ := hlook
    exact ⟨calc_rsv_empty G d1 id v q r hq hr1 (Or.inr hr3),
      calc_rsv_empty G id d1 v r q hr1 hq (Or.inl hr3)⟩

set_option maxRecDepth 100000 in
theorem dangling_record_empty_witness :
    (∀ p ∈ [example_dangling], small p.d ∧ small p.d1 ∧ small p.d2) ∧
    (∀ d, DocLine.doc d ∈ example_stream → small d) ∧
    process_documents example_signs (process_pref [example_dangling]) example_stream
      = some example_dangling_docs ∧
    (∀ line ∈ example_stream, line ≠ DocLine.doc 9) ∧
    ∃ r, lookup_list example_dangling_docs { index := 9, docatoms := create_list } comp_doc
        = some r ∧ r.index = 9 ∧ r.docatoms = create_list := by
  have hp : ∀ p ∈ [example_dangling], small p.d ∧ small p.d1 ∧ small p.d2 := by
    simp [example_dangling, small]
  have hl : ∀ d, DocLine.doc d ∈ example_stream → small d := by
    intro d hd
    simp only [example_stream, List.mem_cons, DocLine.doc.injEq, List.mem_singleton,
      List.not_mem_nil, or_false, reduceCtorEq, false_or] at hd
    rcases hd with rfl | rfl <;> simp [small]
  have h : process_documents example_signs (process_pref [example_dangling]) example_stream
      = some example_dangling_docs := by decide!
  have hno : ∀ line ∈ example_stream, line ≠ DocLine.doc 9 := by decide
  exact ⟨hp, hl, h, hno,
    (dangling_record_empty example_signs [example_dangling] example_stream
      { doc_list := example_dangling_docs, atom_list := create_list,
        unused_wgts := create_list, num_weights := 0 }
      example_dangling 9 hp hl h (List.mem_singleton.mpr rfl) (Or.inr (Or.inr rfl)) hno).1⟩

set_option maxRecDepth 100000 in
/-- C27 (fails on the code): on the builder matrix of one concept with the
IDF `4.0e11`, `C1 = 0.5`, `C2 = 2.0`, no RSV row and a zero cost row, the
transformed tableau has the rows `t + 4.0e11` (translation), `t + 2.0e11`
(lower bound) and `- t + 4.0e11` (upper bound), none of them marked, and the
cost coefficient `0`; for column 1 both rows with a positive coefficient
have a quotient that is not below the literal `99999999999.9`, the search
leaves `p = 0`, and the assertion `p != 0` of `eliminate` is violated, so
that `simplex` does not return. -/
theorem eliminate_sentinel :
    (elt (transform 1 3 example_huge_idf example_huge_matrix) 1 1,
      elt (transform 1 3 example_huge_idf example_huge_matrix) 1 2) = (1, 400000000000) ∧
    (elt (transform 1 3 example_huge_idf example_huge_matrix) 2 1,
      elt (transform 1 3 example_huge_idf example_huge_matrix) 2 2) = (1, 200000000000) ∧
    (elt (transform 1 3 example_huge_idf example_huge_matrix) 3 1,
      elt (transform 1 3 example_huge_idf example_huge_matrix) 3 2) = (-1, 400000000000) ∧
    elt (transform 1 3 example_huge_idf example_huge_matrix) 4 1 = 0 ∧
    (elim_search_pos 1 3 1 (fun _ => false)
      (transform 1 3 example_huge_idf example_huge_matrix)).p = 0 ∧
    ¬ ((400000000000 : ℚ) / 1 < INFINITY) ∧ ¬ ((200000000000 : ℚ) / 1 < INFINITY) ∧
    (eliminate_step 1 3 1
      (init_state 1 3 (transform 1 3 example_huge_idf example_huge_matrix))).isNone = true ∧
    (eliminate 1 3
      (init_state 1 3 (transform 1 3 example_huge_idf example_huge_matrix))).isNone = true ∧
    ∀ fuel, (simplex fuel 1 3 example_huge_matrix example_huge_idf).isNone = true := by
  have h : (eliminate 1 3
      (init_state 1 3 (transform 1 3 example_huge_idf example_huge_matrix))).isNone = true := by
    decide!
  refine ⟨by decide!, by decide!, by decide!, by decide!, by decide!, by norm_num [INFINITY],
    by norm_num [INFINITY], by decide!, h, ?_⟩
  intro fuel
  unfold simplex
  cases he : eliminate 1 3
      (init_state 1 3 (transform 1 3 example_huge_idf example_huge_matrix)) with
  | none => rfl
  | some s => rw [he] at h; simp at h

set_option maxRecDepth 100000 in
/-- C28 (fails on the code): on the builder matrix for the IDF vector
`[1.0, 4.0e11]` with `C1 = 0.5`, `C2 = 2.0`, the RSV row
`x[0] - x[1] + 399999999999` and the cost row `[0, -1, 0]`, the elimination
succeeds; in the tableau it leaves, column 1 has the cost coefficient `1`
and is the entering column, the rows 2 and 5 are not marked in `trans` and
have the coefficient `-1` in column 1, with the constants `399999999999.5`
and `199999999999.5`; their quotients are not above the literal
`-99999999999.9`, the row search leaves `p = 0`, and `simplex` returns
`FALSE` whatever the number of passes allowed. -/
theorem pivot_loop_sentinel :
    (eliminate 2 7 (init_state 2 7 (transform 2 7 example_far_idf example_far_matrix))).map
      (fun (s : State) =>
        ((piv_search 2 7 (check_elim 2 7 s.trans s.g)).q,
          elt (check_elim 2 7 s.trans s.g) 8 1,
          (row_search 2 7 1 s.trans (check_elim 2 7 s.trans s.g)).p))
      = some (1, 1, 0) ∧
    (eliminate 2 7 (init_state 2 7 (transform 2 7 example_far_idf example_far_matrix))).map
      (fun (s : State) =>
        (List.range 8).filter (fun i => decide (1 ≤ i) && ! s.trans i &&
          decide (elt (check_elim 2 7 s.trans s.g) i 1 < 0)))
      = some [2, 5] ∧
    (eliminate 2 7 (init_state 2 7 (transform 2 7 example_far_idf example_far_matrix))).map
      (fun (s : State) =>
        (elt (check_elim 2 7 s.trans s.g) 2 1, elt (check_elim 2 7 s.trans s.g) 2 3,
          elt (check_elim 2 7 s.trans s.g) 5 1, elt (check_elim 2 7 s.trans s.g) 5 3))
      = some (-1, 799999999999 / 2, -1, 399999999999 / 2) ∧
    ¬ ((799999999999 / 2 : ℚ) / -1 > - INFINITY) ∧
    ¬ ((399999999999 / 2 : ℚ) / -1 > - INFINITY) ∧
    ∀ fuel, ∃ g1, simplex (fuel + 1) 2 7 example_far_matrix example_far_idf
      = some (false, g1, example_far_idf) := by
  refine ⟨by decide!, by decide!, by decide!, by norm_num [INFINITY], by norm_num [INFINITY], ?_⟩
  intro fuel
  have h1 : (simplex 1 2 7 example_far_matrix example_far_idf).map (fun r => r.1)
      = some false := by decide!
  cases hs : simplex 1 2 7 example_far_matrix example_far_idf with
  | none => rw [hs] at h1; simp at h1
  | some r =>
    obtain ⟨b, g1, x1⟩ := r
    rw [hs] at h1
    simp only [Option.map_some', Option.some.injEq] at h1
    subst h1
    obtain ⟨hx, _⟩ := simplex_false_x hs
    subst hx
    exact ⟨g1, simplex_mono 1 (fuel + 1) _ _ _ (by omega) hs⟩

/-- One step of `eliminate` keeps the sizes of the arrays and the constants
of the rows not marked in `trans` non-negative. -/
theorem eliminate_step_feasible {n m q : Nat} {s s1 : State}
    (hq : 1 ≤ q) (hq2 : q ≤ n) (hd : Dim s.g n m) (hF : Feasible n m s.trans s.g)
    (hs : eliminate_step n m q s = some s1) :
    Dim s1.g n m ∧ Feasible n m s1.trans s1.g := by
  unfold eliminate_step at hs
  by_cases hc : elt s.g (m + 1) q > 0
  · simp only [hc, if_true] at hs
    obtain ⟨hg, hspec⟩ := elim_search_neg_spec hd q s.trans hF
    by_cases hp0 : (elim_search_neg n m q s.trans s.g).p = 0
    · simp [hp0] at hs
    · simp only [hp0, if_false, Option.some.injEq] at hs
      obtain ⟨p1, p2, p3, p4, p5⟩ := hspec hp0
      rw [hg] at hs
      subst hs
      obtain ⟨hd1, hE⟩ := pivot_update_elt hd _ q p1 (by omega) hq (by omega)
      exact ⟨hd1, (feasible_exchange_neg _ q s.trans p1 p2 hq2 hE hF p3 p4 p5).upd_true _⟩
  · simp only [hc, if_false] at hs
    obtain ⟨hg, hspec⟩ := elim_search_pos_spec hd q s.trans hF
    by_cases hp0 : (elim_search_pos n m q s.trans s.g).p = 0
    · simp [hp0] at hs
    · simp only [hp0, if_false, Option.some.injEq] at hs
      obtain ⟨p1, p2, p3, p4, p5⟩ := hspec hp0
      rw [hg] at hs
      subst hs
      obtain ⟨hd1, hE⟩ := pivot_update_elt hd _ q p1 (by omega) hq (by omega)
      exact ⟨hd1, feasible_exchange_pos _ q s.trans p1 p2 hq2 hE hF p3 p4 p5⟩

/-- The whole of `eliminate` keeps the sizes of the arrays and the constants
of the rows not marked in `trans` non-negative. -/
theorem eliminate_feasible {n m : Nat} {s s1 : State}
    (hd : Dim s.g n m) (hF : Feasible n m s.trans s.g)
    (hs : eliminate n m s = some s1) :
    Dim s1.g n m ∧ Feasible n m s1.trans s1.g := by
  unfold eliminate at hs
  exact forLoopM_inv (fun _ (t : State) => Dim t.g n m ∧ Feasible n m t.trans t.g) 1 n
    (fun q s => eliminate_step n m q s) s s1 (by omega) ⟨hd, hF⟩
    (fun i t t1 hi hi2 hI ht => eliminate_step_feasible hi hi2 hI.1 hI.2 ht) hs

/-- C29: feasibility invariant over exact arithmetic.  If the constants of
all rows `1..m` not marked in `trans` are `>= 0` before a step, they are
`>= 0` again after a step of `eliminate` for any column `q` in `1..n`
(whichever the sign of the cost coefficient, so whichever of the two row
searches is run), after the whole of `eliminate`, and after a pass of the
loop of `simplex` that makes a pivot; the two row searches of `eliminate`
and the check after the elimination return the matrix unchanged, so their
clamp-to-zero branches change no value. -/
theorem feasibility_invariant {n m : Nat} (s : State) (hd : Dim s.g n m)
    (hF : Feasible n m s.trans s.g) :
    (∀ q s1, 1 ≤ q → q ≤ n → eliminate_step n m q s = some s1 →
      Feasible n m s1.trans s1.g) ∧
    (∀ q, (elim_search_neg n m q s.trans s.g).g = s.g ∧
      (elim_search_pos n m q s.trans s.g).g = s.g) ∧
    (∀ s1, eliminate n m s = some s1 →
      Feasible n m s1.trans s1.g ∧ check_elim n m s1.trans s1.g = s1.g) ∧
    (∀ s1, pivot_iter n m s = Iter.next s1 → Feasible n m s1.trans s1.g) ∧
    (∀ j s1, pivot_run n m j s = some s1 → Feasible n m s1.trans s1.g) ∧
    check_elim n m s.trans s.g = s.g := by
  refine ⟨?_, ?_, ?_, ?_, ?_, check_elim_feasible s.trans hF⟩
  · intro q s1 hq hq2 hs
    exact (eliminate_step_feasible hq hq2 hd hF hs).2
  · intro q
    exact ⟨(elim_search_neg_spec hd q s.trans hF).1, (elim_search_pos_spec hd q s.trans hF).1⟩
  · intro s1 hs
    have h := eliminate_feasible hd hF hs
    exact ⟨h.2, check_elim_feasible s1.trans h.2⟩
  · intro s1 hs
    exact (pivot_iter_cost hd hF hs).2.1
  · intro j s1 hs
    exact (pivot_run_feasible hd hF j s1 hs).2

set_option maxRecDepth 100000 in
theorem feasibility_invariant_witness :
    Dim example_state.g 1 3 ∧ Feasible 1 3 example_state.trans example_state.g ∧
    (∃ s1, eliminate_step 1 3 1 example_state = some s1 ∧ Feasible 1 3 s1.trans s1.g) ∧
    (∃ s1, pivot_iter 1 3 example_state = Iter.next s1 ∧ Feasible 1 3 s1.trans s1.g) ∧
    check_elim 1 3 example_state.trans example_state.g = example_state.g := by
  have h := feasibility_invariant example_state example_state_dim example_state_feasible
  refine ⟨example_state_dim, example_state_feasible, ?_, ?_, h.2.2.2.2.2⟩
  · have hsome : (eliminate_step 1 3 1 example_state).isSome = true := by decide!
    cases he : eliminate_step 1 3 1 example_state with
    | none => rw [he] at hsome; simp at hsome
    | some s1 => exact ⟨s1, rfl, h.1 1 s1 le_rfl le_rfl he⟩
  · cases he : pivot_iter 1 3 example_state with
    | optimal =>
      have : (match pivot_iter 1 3 example_state with
        | Iter.next _ => true | _ => false) = true := by decide!
      rw [he] at this
      simp at this
    | infeasible =>
      have : (match pivot_iter 1 3 example_state with
        | Iter.next _ => true | _ => false) = true := by decide!
      rw [he] at this
      simp at this
    | next s1 => exact ⟨s1, rfl, h.2.2.2.1 s1 he⟩

/-- The row the first search of `eliminate` leaves in `p`, if any, is one of
the rows `1..m` not marked in `trans`, whatever the matrix. -/
theorem elim_search_neg_p (n m q : Nat) (trans : Nat → Bool) (g : Matrix) :
    (elim_search_neg n m q trans g).p = 0 ∨
      (1 ≤ (elim_search_neg n m q trans g).p ∧ (elim_search_neg n m q trans g).p ≤ m ∧
        trans (elim_search_neg n m q trans g).p = false) := by
  unfold elim_search_neg
  have key := forLoop_inv
    (fun i (r : Search) => r.p = 0 ∨ (1 ≤ r.p ∧ r.p < i ∧ trans r.p = false))
    1 m (fun i s =>
    if ! trans i then
      let temp := elt s.g i q
      if temp < 0 then
        let quot := elt s.g i (n + 1) / temp
        let s1 : Search :=
          if quot ≥ 0 then { s with g := set s.g i (n + 1) 0 } else s
        let quot := if quot ≥ 0 then 0 else quot
        if quot > s1.max then { s1 with p := i, max := quot } else s1
      else s
    else s) ⟨g, 0, - INFINITY⟩ (by omega) (Or.inl rfl)
    (by
      intro i r hi hi2 hp
      have hkeep : r.p = 0 ∨ (1 ≤ r.p ∧ r.p < i + 1 ∧ trans r.p = false) := by
        rcases hp with hp | ⟨p1, p2, p3⟩
        · exact Or.inl hp
        · exact Or.inr ⟨p1, by omega, p3⟩
      by_cases ht : trans i = false
      · simp only [ht, Bool.not_false, if_true]
        split_ifs
        all_goals first
          | exact hkeep
          | exact Or.inr ⟨hi, Nat.lt_succ_self i, ht⟩
      · simp only [Bool.not_eq_false] at ht
        simp only [ht, Bool.not_true, Bool.false_eq_true, if_false]
        exact hkeep)
  rcases key with h | ⟨h1, h2, h3⟩
  · exact Or.inl h
  · exact Or.inr ⟨h1, by omega, h3⟩

/-- The row the second search of `eliminate` leaves in `p`, if any, is one of
the rows `1..m` not marked in `trans`, whatever the matrix. -/
theorem elim_search_pos_p (n m q : Nat) (trans : Nat → Bool) (g : Matrix) :
    (elim_search_pos n m q trans g).p = 0 ∨
      (1 ≤ (elim_search_pos n m q trans g).p ∧ (elim_search_pos n m q trans g).p ≤ m ∧
        trans (elim_search_pos n m q trans g).p = false) := by
  unfold elim_search_pos
  have key := forLoop_inv
    (fun i (r : Search) => r.p = 0 ∨ (1 ≤ r.p ∧ r.p < i ∧ trans r.p = false))
    1 m (fun i s =>
    if ! trans i then
      let temp := elt s.g i q
      if temp > 0 then
        let quot := elt s.g i (n + 1) / temp
        let s1 : Search :=
          if quot < 0 then { s with g := set s.g i (n + 1) 0 } else s
        let quot := if quot < 0 then 0 else quot
        if quot < s1.max then { s1 with p := i, max := quot } else s1
      else s
    else s) ⟨g, 0, INFINITY⟩ (by omega) (Or.inl rfl)
    (by
      intro i r hi hi2 hp
      have hkeep : r.p = 0 ∨ (1 ≤ r.p ∧ r.p < i + 1 ∧ trans r.p = false) := by
        rcases hp with hp | ⟨p1, p2, p3⟩
        · exact Or.inl hp
        · exact Or.inr ⟨p1, by omega, p3⟩
      by_cases ht : trans i = false
      · simp only [ht, Bool.not_false, if_true]
        split_ifs
        all_goals first
          | exact hkeep
          | exact Or.inr ⟨hi, Nat.lt_succ_self i, ht⟩
      · simp only [Bool.not_eq_false] at ht
        simp only [ht, Bool.not_true, Bool.false_eq_true, if_false]
        exact hkeep)
  rcases key with h | ⟨h1, h2, h3⟩
  · exact Or.inl h
  · exact Or.inr ⟨h1, by omega, h3⟩

/-- The bookkeeping of `ba`, `nb` and `trans` holds at the start. -/
theorem init_names (n m : Nat) (g : Matrix) : Names n m 1 (init_state n m g) := by
  constructor
  · intro k hk hk2
    exact init_ba n k hk hk2 g m
  · intro k hk hk2
    omega
  · intro i hi hi2
    right
    refine ⟨rfl, ?_⟩
    rw [init_nb m i hi hi2]
    omega
  · intro j hj hj2
    omega
  · intro i i1 hi hi2 hj hj2 _ hpos
    rw [init_nb m i hi hi2] at hpos
    omega
  · intro j hj hj2
    right
    exact ⟨j, hj, hj2, init_nb m j hj hj2 g n⟩

/-- One step of `eliminate` keeps the bookkeeping, whatever the matrix. -/
theorem eliminate_step_names {n m q : Nat} {s s1 : State}
    (hq : 1 ≤ q) (hq2 : q ≤ n) (hN : Names n m q s)
    (hs : eliminate_step n m q s = some s1) : Names n m (q + 1) s1 := by
  unfold eliminate_step at hs
  by_cases hc : elt s.g (m + 1) q > 0
  · simp only [hc, if_true] at hs
    by_cases hp0 : (elim_search_neg n m q s.trans s.g).p = 0
    · simp [hp0] at hs
    · simp only [hp0, if_false, Option.some.injEq] at hs
      rcases elim_search_neg_p n m q s.trans s.g with h | ⟨p1, p2, p3⟩
      · exact absurd h hp0
      · subst hs
        exact names_eliminate _ _ p1 p2 hq hq2 p3 hN
  · simp only [hc, if_false] at hs
    by_cases hp0 : (elim_search_pos n m q s.trans s.g).p = 0
    · simp [hp0] at hs
    · simp only [hp0, if_false, Option.some.injEq] at hs
      rcases elim_search_pos_p n m q s.trans s.g with h | ⟨p1, p2, p3⟩
      · exact absurd h hp0
      · subst hs
        exact names_eliminate _ _ p1 p2 hq hq2 p3 hN

/-- The bookkeeping after the whole of `eliminate`, whatever the matrix. -/
theorem eliminate_names {n m : Nat} {g : Matrix} {s : State}
    (hs : eliminate n m (init_state n m g) = some s) : Names n m (n + 1) s := by
  unfold eliminate at hs
  exact forLoopM_inv (fun q (t : State) => Names n m q t) 1 n
    (fun q s => eliminate_step n m q s) _ s (by omega) (init_names n m g)
    (fun i t t1 hi hi2 hI ht => eliminate_step_names hi hi2 hI ht) hs

/-- A pass of the loop of `simplex` that makes a pivot keeps the
bookkeeping, whatever the matrix. -/
theorem pivot_iter_names {n m : Nat} {s s1 : State} (hN : Names n m (n + 1) s)
    (hs : pivot_iter n m s = Iter.next s1) : Names n m (n + 1) s1 := by
  unfold pivot_iter at hs
  by_cases hq0 : (piv_search n m s.g).q = 0
  · simp [hq0] at hs
  · obtain ⟨q1, q2, q3⟩ := piv_search_spec s.g n m hq0
    by_cases hp0 : (row_search n m (piv_search n m s.g).q s.trans s.g).p = 0
    · simp [hq0, hp0] at hs
    · simp only [hq0, hp0, if_false, Iter.next.injEq] at hs
      obtain ⟨p1, p2, p3, p4, p5⟩ := row_search_spec s.g n m _ s.trans hp0
      subst hs
      exact names_pivot _ _ _ p1 p2 q1 q2 p3 hN

/-- Any number of passes of the loop keeps the bookkeeping. -/
theorem pivot_run_names {n m : Nat} {s : State} (hN : Names n m (n + 1) s) (j : Nat) :
    ∀ s1, pivot_run n m j s = some s1 → Names n m (n + 1) s1 := by
  induction j with
  | zero =>
    intro s1 h
    simp only [pivot_run, Option.some.injEq] at h
    subst h
    exact hN
  | succ j ih =>
    intro s1 h
    simp only [pivot_run] at h
    cases h1 : pivot_run n m j s with
    | none => simp [h1] at h
    | some s2 =>
      rw [h1] at h
      simp only at h
      cases h2 : pivot_iter n m s2 with
      | optimal => simp [h2] at h
      | infeasible => simp [h2] at h
      | next s3 =>
        rw [h2] at h
        simp only [Option.some.injEq] at h
        subst h
        exact pivot_iter_names (ih s2 h1) h2

/-- The bookkeeping does not depend on the matrix. -/
theorem Names.with_g {n m q : Nat} {s : State} (hN : Names n m q s) (g1 : Matrix) :
    Names n m q { s with g := g1 } :=
  ⟨hN.ba_old, hN.ba_new, hN.rows, hN.pos, hN.inj, hN.cov⟩

/-- The bookkeeping with all columns treated gives the three facts of
`Eliminated`. -/
theorem names_eliminated {n m : Nat} {s : State} (hN : Names n m (n + 1) s) :
    Eliminated n m s := by
  refine ⟨?_, ?_, ?_⟩
  · have hc : ((Finset.Icc 1 m).filter (fun i => s.trans i = true)).card
        = (Finset.Icc 1 n).card := by
      apply Finset.card_bij (fun i _ => (s.nb i).toNat)
      · intro i hi
        simp only [Finset.mem_filter, Finset.mem_Icc] at hi
        obtain ⟨⟨h1, h2⟩, h3⟩ := hi
        rcases hN.rows i h1 h2 with ⟨_, a, b⟩ | ⟨c, _⟩
        · simp only [Finset.mem_Icc]
          omega
        · rw [h3] at c
          cases c
      · intro i hi i1 hi1 heq
        simp only [Finset.mem_filter, Finset.mem_Icc] at hi hi1
        obtain ⟨⟨h1, h2⟩, h3⟩ := hi
        obtain ⟨⟨k1, k2⟩, k3⟩ := hi1
        rcases hN.rows i h1 h2 with ⟨_, a, b⟩ | ⟨c, _⟩
        · rcases hN.rows i1 k1 k2 with ⟨_, a1, b1⟩ | ⟨c1, _⟩
          · exact hN.inj i i1 h1 h2 k1 k2 (by omega) a
          · rw [k3] at c1
            cases c1
        · rw [h3] at c
          cases c
      · intro j hj
        simp only [Finset.mem_Icc] at hj
        obtain ⟨i, a, b, c⟩ := hN.pos j hj.1 (by omega)
        refine ⟨i, ?_, ?_⟩
        · simp only [Finset.mem_filter, Finset.mem_Icc]
          refine ⟨⟨a, b⟩, ?_⟩
          rcases hN.rows i a b with ⟨t, _, _⟩ | ⟨_, d⟩
          · exact t
          · omega
        · rw [c]
          simp
    rw [hc]
    simp
  · intro k hk hk2
    obtain ⟨i, a, b, c⟩ := hN.pos k hk (by omega)
    refine ⟨i, a, b, c, ?_, ?_⟩
    · rcases hN.rows i a b with ⟨t, _, _⟩ | ⟨_, d⟩
      · exact t
      · omega
    · intro p1 h1 h2 h3
      exact hN.inj p1 i h1 h2 a b (by rw [h3, c]) (by omega)
  · intro q hq hq2
    exact hN.ba_new q hq (by omega)

/-- C30: after `eliminate` started from `ba [k] = k`, `nb [i] = -i` and
`trans` all `FALSE` has returned, whatever the matrix, exactly `n` rows are
marked in `trans`, every variable `k` in `1..n` is named by `nb` in exactly
one row and that row is marked, and every `ba [q]` is negative.  After any
number of later pivots of the loop (on the matrix left by `eliminate` or any
other, such as the one left by the check) the same holds; then exactly `n`
rows have `nb [i] > 0`, for each entry `x [k]`, `k < n`, exactly one row
`p` has `nb [p] = k + 1`, step LOES adds the constant of that row to
`x [k]` and nothing else, and it leaves the entries from `n` on as they
are. -/
theorem eliminate_bookkeeping {n m : Nat} {g : Matrix} {s : State}
    (hs : eliminate n m (init_state n m g) = some s) :
    Eliminated n m s ∧
    ∀ g1 j s1, pivot_run n m j { s with g := g1 } = some s1 →
      Eliminated n m s1 ∧
      ((Finset.Icc 1 m).filter (fun i => 0 < s1.nb i)).card = n ∧
      (∀ k, k < n → ∃ p, 1 ≤ p ∧ p ≤ m ∧ s1.nb p = ((k + 1 : Nat) : Int) ∧
        (∀ p1, 1 ≤ p1 → p1 ≤ m → s1.nb p1 = ((k + 1 : Nat) : Int) → p1 = p) ∧
        ∀ x, loes n m s1 x k = x k + elt s1.g p (n + 1)) ∧
      (∀ x k, n ≤ k → loes n m s1 x k = x k) := by
  have hN := eliminate_names hs
  refine ⟨names_eliminated hN, ?_⟩
  intro g1 j s1 hrun
  have hN1 : Names n m (n + 1) s1 := pivot_run_names (hN.with_g g1) j s1 hrun
  have hE := names_eliminated hN1
  refine ⟨hE, ?_, ?_, ?_⟩
  · rw [← hE.1]
    apply congrArg
    apply Finset.filter_congr
    intro i hi
    simp only [Finset.mem_Icc] at hi
    rcases hN1.rows i hi.1 hi.2 with ⟨t, a, _⟩ | ⟨t, a⟩
    · simp [t, a]
    · simp [t]
      omega
  · intro k hk
    obtain ⟨p, a, b, c, _, d⟩ := hE.2.1 (k + 1) (by omega) (by omega)
    refine ⟨p, a, b, c, d, ?_⟩
    intro x
    have := loes_spec x hN1 (k + 1) p (by omega) a b c
    simpa using this
  · intro x k hk
    rw [loes_sum]
    have hz : ∀ i ∈ Finset.range m,
        (if s1.nb (i + 1) = ((k + 1 : Nat) : Int) then elt s1.g (i + 1) (n + 1) else 0)
          = 0 := by
      intro i hi
      simp only [Finset.mem_range] at hi
      have hne : ¬ s1.nb (i + 1) = ((k + 1 : Nat) : Int) := by
        rcases hN1.rows (i + 1) (by omega) (by omega) with ⟨_, _, a⟩ | ⟨_, a⟩
        · push_cast at a ⊢
          omega
        · push_cast
          omega
      rw [if_neg hne]
    rw [Finset.sum_eq_zero hz]
    simp

set_option maxRecDepth 100000 in
theorem eliminate_bookkeeping_witness :
    ∃ s, eliminate 2 7 (init_state 2 7 (transform 2 7 example_idf example_matrix)) = some s ∧
      Eliminated 2 7 s := by
  have hsome : (eliminate 2 7
      (init_state 2 7 (transform 2 7 example_idf example_matrix))).isSome = true := by
    decide!
  cases he : eliminate 2 7 (init_state 2 7 (transform 2 7 example_idf example_matrix)) with
  | none => rw [he] at hsome; simp at hsome
  | some s => exact ⟨s, rfl, (eliminate_bookkeeping he).1⟩

/-- When the second search of `eliminate` leaves `p = 0` on a feasible
tableau, no eligible row has a quotient below the literal that stands for
infinity. -/
theorem elim_search_pos_none {g : Matrix} {n m : Nat} (h : Dim g n m) (q : Nat)
    (trans : Nat → Bool) (hF : Feasible n m trans g)
    (hp : (elim_search_pos n m q trans g).p = 0) :
    ∀ i, 1 ≤ i → i ≤ m → trans i = false → 0 < elt g i q →
      INFINITY ≤ elt g i (n + 1) / elt g i q := by
  unfold elim_search_pos at hp
  have key := forLoop_inv
    (fun i (r : Search) => r.g = g ∧ (r.p = 0 → r.max = INFINITY) ∧
      ∀ i1, 1 ≤ i1 → i1 < i → trans i1 = false → 0 < elt g i1 q →
        r.max ≤ elt g i1 (n + 1) / elt g i1 q)
    1 m (fun i s =>
    if ! trans i then
      let temp := elt s.g i q
      if temp > 0 then
        let quot := elt s.g i (n + 1) / temp
        let s1 : Search :=
          if quot < 0 then { s with g := set s.g i (n + 1) 0 } else s
        let quot := if quot < 0 then 0 else quot
        if quot < s1.max then { s1 with p := i, max := quot } else s1
      else s
    else s) ⟨g, 0, INFINITY⟩ (by omega)
    ⟨rfl, fun _ => rfl, fun i1 a b => by omega⟩
    (by
      intro i r hi hi2 ⟨hg, hz, hall⟩
      obtain ⟨rg, rp, rmax⟩ := r
      simp only at hg hz hall
      subst hg
      by_cases ht : trans i = false
      · by_cases hpos : elt rg i q > 0
        · have hc : 0 ≤ elt rg i (n + 1) := hF i hi hi2 ht
          have hquot : ¬ elt rg i (n + 1) / elt rg i q < 0 :=
            not_lt.mpr (div_nonneg hc (le_of_lt hpos))
          simp only [ht, Bool.not_false, if_true, hpos, hquot, if_false]
          by_cases hlt : elt rg i (n + 1) / elt rg i q < rmax
          · simp only [hlt, if_true]
            refine ⟨trivial, fun (h0 : i = 0) => absurd h0 (by omega), ?_⟩
            intro i1 a b c d
            by_cases e : i1 = i
            · subst e; exact le_refl _
            · exact le_trans (le_of_lt hlt) (hall i1 a (by omega) c d)
          · simp only [hlt, if_false]
            refine ⟨trivial, hz, ?_⟩
            intro i1 a b c d
            by_cases e : i1 = i
            · subst e; exact not_lt.mp hlt
            · exact hall i1 a (by omega) c d
        · simp only [ht, Bool.not_false, if_true, hpos, if_false]
          refine ⟨trivial, hz, ?_⟩
          intro i1 a b c d
          by_cases e : i1 = i
          · subst e; exact absurd d hpos
          · exact hall i1 a (by omega) c d
      · have ht' : trans i = true := by simpa using ht
        simp only [ht', Bool.not_true, Bool.false_eq_true, if_false]
        refine ⟨trivial, hz, ?_⟩
        intro i1 a b c d
        by_cases e : i1 = i
        · subst e; rw [ht'] at c; exact absurd c (by simp)
        · exact hall i1 a (by omega) c d)
  obtain ⟨k1, k2, k3⟩ := key
  intro i a b c d
  have := k3 i a (by omega) c d
  rw [k2 hp] at this
  exact this

/-- When the first search of `eliminate` leaves `p = 0` on a feasible
tableau, no eligible row has a quotient above the literal that stands for
minus infinity. -/
theorem elim_search_neg_none {g : Matrix} {n m : Nat} (h : Dim g n m) (q : Nat)
    (trans : Nat → Bool) (hF : Feasible n m trans g)
    (hp : (elim_search_neg n m q trans g).p = 0) :
    ∀ i, 1 ≤ i → i ≤ m → trans i = false → elt g i q < 0 →
      elt g i (n + 1) / elt g i q ≤ - INFINITY := by
  unfold elim_search_neg at hp
  have key := forLoop_inv
    (fun i (r : Search) => r.g = g ∧ (r.p = 0 → r.max = - INFINITY) ∧
      ∀ i1, 1 ≤ i1 → i1 < i → trans i1 = false → elt g i1 q < 0 →
        elt g i1 (n + 1) / elt g i1 q ≤ r.max)
    1 m (fun i s =>
    if ! trans i then
      let temp := elt s.g i q
      if temp < 0 then
        let quot := elt s.g i (n + 1) / temp
        let s1 : Search :=
          if quot ≥ 0 then { s with g := set s.g i (n + 1) 0 } else s
        let quot := if quot ≥ 0 then 0 else quot
        if quot > s1.max then { s1 with p := i, max := quot } else s1
      else s
    else s) ⟨g, 0, - INFINITY⟩ (by omega)
    ⟨rfl, fun _ => rfl, fun i1 a b => by omega⟩
    (by
      intro i r hi hi2 ⟨hg, hz, hall⟩
      have hm := h.hm
      obtain ⟨rg, rp, rmax⟩ := r
      simp only at hg hz hall
      subst hg
      by_cases ht : trans i = false
      · by_cases hneg : elt rg i q < 0
        · have hc : 0 ≤ elt rg i (n + 1) := hF i hi hi2 ht
          have hquot : elt rg i (n + 1) / elt rg i q ≤ 0 :=
            div_nonpos_of_nonneg_of_nonpos hc (le_of_lt hneg)
          have hs1 : (if elt rg i (n + 1) / elt rg i q ≥ 0
              then ({ g := set rg i (n + 1) 0, p := rp, max := rmax } : Search)
              else ⟨rg, rp, rmax⟩) = ⟨rg, rp, rmax⟩ := by
            split_ifs with h0
            · have hz0 : elt rg i (n + 1) / elt rg i q = 0 := le_antisymm hquot h0
              have hz2 : elt rg i (n + 1) = 0 := by
                rcases div_eq_zero_iff.mp hz0 with h1 | h1
                · exact h1
                · exact absurd h1 (ne_of_lt hneg)
              have : set rg i (n + 1) 0 = rg := by
                have := set_elt_self h i (n + 1) hi (by omega) (by omega) (by omega)
                rw [hz2] at this
                exact this
              rw [this]
            · rfl
          have hq2' : (if elt rg i (n + 1) / elt rg i q ≥ 0 then (0 : ℚ)
              else elt rg i (n + 1) / elt rg i q) = elt rg i (n + 1) / elt rg i q := by
            split_ifs with h0
            · exact (le_antisymm hquot h0).symm
            · rfl
          simp only [ht, Bool.not_false, if_true, hneg, hs1, hq2']
          by_cases hgt : elt rg i (n + 1) / elt rg i q > rmax
          · simp only [hgt, if_true]
            refine ⟨trivial, fun (h0 : i = 0) => absurd h0 (by omega), ?_⟩
            intro i1 a b c d
            by_cases e : i1 = i
            · subst e; exact le_refl _
            · exact le_trans (hall i1 a (by omega) c d) (le_of_lt hgt)
          · simp only [hgt, if_false]
            refine ⟨trivial, hz, ?_⟩
            intro i1 a b c d
            by_cases e : i1 = i
            · subst e; exact not_lt.mp hgt
            · exact hall i1 a (by omega) c d
        · simp only [ht, Bool.not_false, if_true, hneg, if_false]
          refine ⟨trivial, hz, ?_⟩
          intro i1 a b c d
          by_cases e : i1 = i
          · subst e; exact absurd d hneg
          · exact hall i1 a (by omega) c d
      · have ht' : trans i = true := by simpa using ht
        simp only [ht', Bool.not_true, Bool.false_eq_true, if_false]
        refine ⟨trivial, hz, ?_⟩
        intro i1 a b c d
        by_cases e : i1 = i
        · subst e; rw [ht'] at c; exact absurd c (by simp)
        · exact hall i1 a (by omega) c d)
  obtain ⟨k1, k2, k3⟩ := key
  intro i a b c d
  have := k3 i a (by omega) c d
  rw [k2 hp] at this
  exact this

/-- A loop whose body never aborts on a state that satisfies the invariant
returns. -/
theorem forLoopM_total {σ : Type} (Inv : Nat → σ → Prop) (lo hi : Nat)
    (body : Nat → σ → Option σ) (s : σ) (hle : lo ≤ hi + 1) (h0 : Inv lo s)
    (hstep : ∀ i s, lo ≤ i → i ≤ hi → Inv i s → ∃ s1, body i s = some s1 ∧ Inv (i + 1) s1) :
    ∃ s1, forLoopM lo hi body s = some s1 ∧ Inv (hi + 1) s1 := by
  unfold forLoopM
  have key : ∀ cnt, lo + cnt ≤ hi + 1 → ∃ s1,
      (List.range' lo cnt).foldlM (fun s i => body i s) s = some s1 ∧ Inv (lo + cnt) s1 := by
    intro cnt
    induction cnt with
    | zero =>
      intro _
      exact ⟨s, by simp, by simpa using h0⟩
    | succ c ih =>
      intro hc
      obtain ⟨s2, h2, hI2⟩ := ih (by omega)
      obtain ⟨s3, h3, hI3⟩ := hstep (lo + c) s2 (by omega) (by omega) hI2
      refine ⟨s3, ?_, hI3⟩
      rw [forLoopM_succ, h2]
      simpa using h3
  have e : lo + (hi + 1 - lo) = hi + 1 := by omega
  have := key (hi + 1 - lo) (by omega)
  rw [e] at this
  exact this

/-- While `eliminate` has not treated column `j` and row `n + P + j`, the
lower-bound row of column `j`, has kept its name, that row is not marked and
is still the row `t[j] + (x[j-1] - C1 * x[j-1])` of the start. -/
theorem min_row_fresh (C1 C2 : ℚ) (n : Nat) (x : Nat → ℚ) (rsv : List (List ℚ))
    (cost : List ℚ) (hrsv : ∀ r ∈ rsv, r.length = n + 1) (hcost : cost.length = n + 1)
    (hx : ∀ i, i < n → 0 ≤ x i) (hC : C1 < 1) {q : Nat} {s : State}
    (hI : Inv n (3 * n + rsv.length) q
      (transform n (3 * n + rsv.length) x (builder_matrix C1 C2 n x rsv cost)) s)
    (j : Nat) (hj : 1 ≤ j) (hq : q ≤ j) (hj2 : j ≤ n)
    (hnb : s.nb (n + rsv.length + j) = - ((n + rsv.length + j : Nat) : Int)) :
    s.trans (n + rsv.length + j) = false ∧
    (∀ k, 1 ≤ k → k ≤ n → elt s.g (n + rsv.length + j) k = if k = j then 1 else 0) ∧
    elt s.g (n + rsv.length + j) (n + 1) = x (j - 1) - C1 * x (j - 1) := by
  have hv : ∀ v : Nat → ℚ,
      rowval n s.g v (n + rsv.length + j) = v j + (x (j - 1) - C1 * x (j - 1)) := by
    intro v
    obtain ⟨t, hc, hr, _⟩ := hI.rep v
    have h1 := hr (n + rsv.length + j) (by omega) (by omega)
    rw [hnb, nameval_neg n _ t _ (by omega),
      builder_rowval_min C1 C2 n x rsv cost hrsv hcost j hj hj2 (hx _ (by omega)) hC] at h1
    have h2 := hc j hj hj2
    rw [hI.names.ba_old j hq hj2] at h2
    have hpos : (0 : Int) < (j : Int) := by omega
    simp only [nameval, hpos, if_true, Int.toNat_ofNat] at h2
    rw [h1, h2]
  refine ⟨?_, ?_, ?_⟩
  · rcases hI.names.rows (n + rsv.length + j) (by omega) (by omega) with ⟨_, b1, _⟩ | ⟨a1, _⟩
    · rw [hnb] at b1; omega
    · exact a1
  · intro k hk hk2
    rw [rowval_coeff n s.g _ k hk hk2, hv, hv]
    by_cases e : j = k
    · simp [e]
    · have e1 : ¬ k = j := fun h => e h.symm
      simp [e, e1]
  · have := hv (fun _ => 0)
    rw [rowval_zero] at this
    rw [this]
    ring

/-- While `eliminate` has not treated column `j` and row `2 * n + P + j`,
the upper-bound row of column `j`, has kept its name, that row is not marked
and is still the row `- t[j] + (C2 * x[j-1] - x[j-1])` of the start. -/
theorem max_row_fresh (C1 C2 : ℚ) (n : Nat) (x : Nat → ℚ) (rsv : List (List ℚ))
    (cost : List ℚ) (hrsv : ∀ r ∈ rsv, r.length = n + 1) (hcost : cost.length = n + 1)
    (hx : ∀ i, i < n → 0 ≤ x i) (hC : 1 < C2) {q : Nat} {s : State}
    (hI : Inv n (3 * n + rsv.length) q
      (transform n (3 * n + rsv.length) x (builder_matrix C1 C2 n x rsv cost)) s)
    (j : Nat) (hj : 1 ≤ j) (hq : q ≤ j) (hj2 : j ≤ n)
    (hnb : s.nb (2 * n + rsv.length + j) = - ((2 * n + rsv.length + j : Nat) : Int)) :
    s.trans (2 * n + rsv.length + j) = false ∧
    (∀ k, 1 ≤ k → k ≤ n → elt s.g (2 * n + rsv.length + j) k = if k = j then -1 else 0) ∧
    elt s.g (2 * n + rsv.length + j) (n + 1) = C2 * x (j - 1) - x (j - 1) := by
  have hv : ∀ v : Nat → ℚ,
      rowval n s.g v (2 * n + rsv.length + j) = - v j + (C2 * x (j - 1) - x (j - 1)) := by
    intro v
    obtain ⟨t, hc, hr, _⟩ := hI.rep v
    have h1 := hr (2 * n + rsv.length + j) (by omega) (by omega)
    rw [hnb, nameval_neg n _ t _ (by omega),
      builder_rowval_max C1 C2 n x rsv cost hrsv hcost j hj hj2 (hx _ (by omega)) hC] at h1
    have h2 := hc j hj hj2
    rw [hI.names.ba_old j hq hj2] at h2
    have hpos : (0 : Int) < (j : Int) := by omega
    simp only [nameval, hpos, if_true, Int.toNat_ofNat] at h2
    rw [h1, h2]
  refine ⟨?_, ?_, ?_⟩
  · rcases hI.names.rows (2 * n + rsv.length + j) (by omega) (by omega) with
      ⟨_, b1, _⟩ | ⟨a1, _⟩
    · rw [hnb] at b1; omega
    · exact a1
  · intro k hk hk2
    rw [rowval_coeff n s.g _ k hk hk2, hv, hv]
    by_cases e : j = k
    · simp [e]
    · have e1 : ¬ k = j := fun h => e h.symm
      simp [e, e1]
  · have := hv (fun _ => 0)
    rw [rowval_zero] at this
    rw [this]
    ring

/-- On a builder matrix whose bound rows have constants below the literal
that stands for infinity, a step of `eliminate` finds a pivot row: the
bound rows of the column are eligible, and those of the later columns keep
their names. -/
theorem eliminate_step_found (C1 C2 : ℚ) (n : Nat) (x : Nat → ℚ) (rsv : List (List ℚ))
    (cost : List ℚ) (hrsv : ∀ r ∈ rsv, r.length = n + 1) (hcost : cost.length = n + 1)
    (hx : ∀ i, i < n → 0 ≤ x i) (hC1 : C1 < 1) (hC2 : 1 < C2)
    (hlo : ∀ i, i < n → x i - C1 * x i < INFINITY)
    (hhi : ∀ i, i < n → C2 * x i - x i < INFINITY) {q : Nat} {s : State}
    (hq : 1 ≤ q) (hq2 : q ≤ n)
    (hI : Inv n (3 * n + rsv.length) q
      (transform n (3 * n + rsv.length) x (builder_matrix C1 C2 n x rsv cost)) s)
    (hB : ∀ j, q ≤ j → j ≤ n →
      s.nb (n + rsv.length + j) = - ((n + rsv.length + j : Nat) : Int) ∧
      s.nb (2 * n + rsv.length + j) = - ((2 * n + rsv.length + j : Nat) : Int)) :
    ∃ s1, eliminate_step n (3 * n + rsv.length) q s = some s1 ∧
      Inv n (3 * n + rsv.length) (q + 1)
        (transform n (3 * n + rsv.length) x (builder_matrix C1 C2 n x rsv cost)) s1 ∧
      ∀ j, q + 1 ≤ j → j ≤ n →
        s1.nb (n + rsv.length + j) = - ((n + rsv.length + j : Nat) : Int) ∧
        s1.nb (2 * n + rsv.length + j) = - ((2 * n + rsv.length + j : Nat) : Int) := by
  obtain ⟨tmin, cmin, kmin⟩ := min_row_fresh C1 C2 n x rsv cost hrsv hcost hx hC1 hI q hq
    (le_refl q) hq2 (hB q (le_refl q) hq2).1
  obtain ⟨tmax, cmax, kmax⟩ := max_row_fresh C1 C2 n x rsv cost hrsv hcost hx hC2 hI q hq
    (le_refl q) hq2 (hB q (le_refl q) hq2).2
  have cmin1 := cmin q hq hq2
  have cmax1 := cmax q hq hq2
  rw [if_pos rfl] at cmin1 cmax1
  have key : ∃ s1, eliminate_step n (3 * n + rsv.length) q s = some s1 ∧
      ∃ p, s1.nb = upd s.nb p (s.ba q) ∧ elt s.g p q ≠ 0 := by
    unfold eliminate_step
    by_cases hc : elt s.g (3 * n + rsv.length + 1) q > 0
    · simp only [hc, if_true]
      have hp0 : (elim_search_neg n (3 * n + rsv.length) q s.trans s.g).p ≠ 0 := by
        intro h0
        have := elim_search_neg_none hI.dim q s.trans hI.feas h0 (2 * n + rsv.length + q)
          (by omega) (by omega) tmax (by rw [cmax1]; norm_num)
        rw [kmax, cmax1] at this
        have h1 := hhi (q - 1) (by omega)
        rw [div_neg, div_one] at this
        linarith
      obtain ⟨_, p2⟩ := elim_search_neg_spec hI.dim q s.trans hI.feas
      obtain ⟨_, _, _, p4, _⟩ := p2 hp0
      simp only [hp0, if_false]
      exact ⟨_, rfl, _, rfl, ne_of_lt p4⟩
    · simp only [hc, if_false]
      have hp0 : (elim_search_pos n (3 * n + rsv.length) q s.trans s.g).p ≠ 0 := by
        intro h0
        have := elim_search_pos_none hI.dim q s.trans hI.feas h0 (n + rsv.length + q)
          (by omega) (by omega) tmin (by rw [cmin1]; norm_num)
        rw [kmin, cmin1] at this
        have h1 := hlo (q - 1) (by omega)
        rw [div_one] at this
        linarith
      obtain ⟨_, p2⟩ := elim_search_pos_spec hI.dim q s.trans hI.feas
      obtain ⟨_, _, _, p4, _⟩ := p2 hp0
      simp only [hp0, if_false]
      exact ⟨_, rfl, _, rfl, ne_of_gt p4⟩
  obtain ⟨s1, hs, p, hnb1, hne⟩ := key
  refine ⟨s1, hs, eliminate_step_inv hq hq2 hI hs, ?_⟩
  intro j hj hj2
  obtain ⟨_, c1, _⟩ := min_row_fresh C1 C2 n x rsv cost hrsv hcost hx hC1 hI j (by omega)
    (by omega) hj2 (hB j (by omega) hj2).1
  obtain ⟨_, c2, _⟩ := max_row_fresh C1 C2 n x rsv cost hrsv hcost hx hC2 hI j (by omega)
    (by omega) hj2 (hB j (by omega) hj2).2
  have d1 := c1 q hq hq2
  have d2 := c2 q hq hq2
  rw [if_neg (by omega)] at d1 d2
  have e1 : ¬ n + rsv.length + j = p := by
    intro e
    rw [← e] at hne
    exact hne d1
  have e2 : ¬ 2 * n + rsv.length + j = p := by
    intro e
    rw [← e] at hne
    exact hne d2
  rw [hnb1]
  simp only [upd, e1, e2, if_false]
  exact hB j (by omega) hj2

/-- On a builder matrix with non-negative IDF values, `C1 < 1 < C2` and
bound constants `x[i] - C1 * x[i]` and `C2 * x[i] - x[i]` below the literal
`99999999999.9`, `eliminate` finds a pivot row for every column and
returns, whatever the RSV rows and the cost row. -/
theorem eliminate_returns (C1 C2 : ℚ) (n : Nat) (x : Nat → ℚ) (rsv : List (List ℚ))
    (cost : List ℚ) (hrsv : ∀ r ∈ rsv, r.length = n + 1) (hcost : cost.length = n + 1)
    (hx : ∀ i, i < n → 0 ≤ x i) (hC1 : C1 < 1) (hC2 : 1 < C2)
    (hlo : ∀ i, i < n → x i - C1 * x i < INFINITY)
    (hhi : ∀ i, i < n → C2 * x i - x i < INFINITY) :
    ∃ s, eliminate n (3 * n + rsv.length) (init_state n (3 * n + rsv.length)
        (transform n (3 * n + rsv.length) x (builder_matrix C1 C2 n x rsv cost))) = some s ∧
      Inv n (3 * n + rsv.length) (n + 1)
        (transform n (3 * n + rsv.length) x (builder_matrix C1 C2 n x rsv cost)) s := by
  have hd := builder_dim C1 C2 n x rsv cost hrsv hcost
  have hc0 : ∀ i, 1 ≤ i → i ≤ n → 0 ≤ elt (builder_matrix C1 C2 n x rsv cost) i (n + 1) := by
    intro i hi hi2
    rw [builder_elt_translation C1 C2 n x rsv cost hrsv hcost i (n + 1) hi hi2 (by omega)
      (by omega), if_pos rfl]
    exact hx _ (by omega)
  have hI0 := init_inv (transform_elt hd x).1 (transform_feasible hd x hc0)
  unfold eliminate
  obtain ⟨s1, h1, h2, _⟩ := forLoopM_total
    (fun q (s : State) => Inv n (3 * n + rsv.length) q
        (transform n (3 * n + rsv.length) x (builder_matrix C1 C2 n x rsv cost)) s ∧
      ∀ j, q ≤ j → j ≤ n →
        s.nb (n + rsv.length + j) = - ((n + rsv.length + j : Nat) : Int) ∧
        s.nb (2 * n + rsv.length + j) = - ((2 * n + rsv.length + j : Nat) : Int))
    1 n (fun q s => eliminate_step n (3 * n + rsv.length) q s) _ (by omega)
    ⟨hI0, fun j hj hj2 => ⟨init_nb _ _ (by omega) (by omega) _ n,
      init_nb _ _ (by omega) (by omega) _ n⟩⟩
    (fun i s hi hi2 hJ => eliminate_step_found C1 C2 n x rsv cost hrsv hcost hx hC1 hC2
      hlo hhi hi hi2 hJ.1 hJ.2)
  exact ⟨s1, h1, h2⟩

/-- The value of a row at a point with one non-zero coordinate. -/
theorem rowval_scaled (n : Nat) (g : Matrix) (i k : Nat) (c : ℚ) (hk : 1 ≤ k) (hk2 : k ≤ n) :
    rowval n g (fun j => if j = k then c else 0) i = elt g i k * c + elt g i (n + 1) := by
  unfold rowval
  have h1 : ∀ j ∈ Finset.range n,
      elt g i (j + 1) * (if j + 1 = k then c else 0)
        = (if j + 1 = k then c else 0) * elt g i (j + 1) := by
    intro j _
    rw [mul_comm]
  rw [Finset.sum_congr rfl h1, sum_unit n k c (fun j => elt g i (j + 1)) hk hk2]
  have : k - 1 + 1 = k := by omega
  simp only [this]
  ring

/-- The state in which `simplex` ends when it returns `FALSE`. -/
theorem simplex_false_state {n m fuel : Nat} {g g1 : Matrix} {x x1 : Nat → ℚ}
    (hd : Dim g n m) (h0 : ∀ i, 1 ≤ i → i ≤ n → 0 ≤ elt g i (n + 1))
    (h : simplex fuel n m g x = some (false, g1, x1)) :
    ∃ s, Inv n m (n + 1) (transform n m x g) s ∧ g1 = s.g ∧
      (piv_search n m s.g).q ≠ 0 ∧
      (row_search n m (piv_search n m s.g).q s.trans s.g).p = 0 := by
  unfold simplex at h
  have hI0 := init_inv (transform_elt hd x).1 (transform_feasible hd x h0)
  cases he : eliminate n m (init_state n m (transform n m x g)) with
  | none => simp [he] at h
  | some s =>
    have hI1 := eliminate_inv hI0 he
    simp only [he] at h
    rw [check_elim_feasible s.trans hI1.feas] at h
    cases hl : pivot_loop fuel n m s with
    | none => simp [hl] at h
    | some r =>
      obtain ⟨b, s2⟩ := r
      simp only [hl] at h
      obtain ⟨hI2, _⟩ := pivot_loop_inv fuel hI1 hl
      cases b with
      | true => simp at h
      | false =>
        simp only [Option.some.injEq, Prod.mk.injEq, true_and] at h
        exact ⟨s2, hI2, h.1.symm, pivot_loop_false fuel hl⟩

/-- In every tableau reached from a builder matrix, a column with a
positive cost coefficient has a row not marked in `trans` with a negative
coefficient: the bound rows keep the cost bounded. -/
theorem leaving_row_exists (C1 C2 : ℚ) (n : Nat) (x : Nat → ℚ) (rsv : List (List ℚ))
    (cost : List ℚ) (hrsv : ∀ r ∈ rsv, r.length = n + 1) (hcost : cost.length = n + 1)
    (hx : ∀ i, i < n → 0 ≤ x i) (hC1 : C1 < 1) (hC2 : 1 < C2) {s : State}
    (hI : Inv n (3 * n + rsv.length) (n + 1)
      (transform n (3 * n + rsv.length) x (builder_matrix C1 C2 n x rsv cost)) s)
    (q : Nat) (hq : 1 ≤ q) (hq2 : q ≤ n)
    (hc : 0 < elt s.g (3 * n + rsv.length + 1) q) :
    ∃ i, 1 ≤ i ∧ i ≤ 3 * n + rsv.length ∧ s.trans i = false ∧ elt s.g i q < 0 := by
  by_contra hno
  push_neg at hno
  obtain ⟨B, hB⟩ : ∃ B : ℚ, B = (∑ k in Finset.range n,
      |elt (transform n (3 * n + rsv.length) x (builder_matrix C1 C2 n x rsv cost))
        (3 * n + rsv.length + 1) (k + 1)| * ((x k - C1 * x k) + (C2 * x k - x k)))
      + elt (transform n (3 * n + rsv.length) x (builder_matrix C1 C2 n x rsv cost))
        (3 * n + rsv.length + 1) (n + 1) := ⟨_, rfl⟩
  obtain ⟨lam, hlam⟩ : ∃ lam : ℚ, lam = |B - elt s.g (3 * n + rsv.length + 1) (n + 1)|
      / elt s.g (3 * n + rsv.length + 1) q + 1 := ⟨_, rfl⟩
  have hlam0 : 0 ≤ lam := by
    rw [hlam]
    have := div_nonneg (abs_nonneg (B - elt s.g (3 * n + rsv.length + 1) (n + 1)))
      (le_of_lt hc)
    linarith
  obtain ⟨t, hcv, hr, hz⟩ := hI.rep (fun j => if j = q then lam else 0)
  have hrows : ∀ R, 1 ≤ R → R ≤ 3 * n + rsv.length → 0 ≤ rowval n
      (transform n (3 * n + rsv.length) x (builder_matrix C1 C2 n x rsv cost)) t R := by
    intro R hR hR2
    have hp : ¬ (0 : Int) < - (R : Int) := by omega
    rcases hI.names.cov R hR hR2 with ⟨k, a, b, c⟩ | ⟨i, a, b, c⟩
    · have := hcv k a b
      rw [c] at this
      simp only [nameval, hp, if_false, neg_neg, Int.toNat_ofNat] at this
      rw [← this]
      split_ifs
      · exact hlam0
      · exact le_refl _
    · have h1 := hr i a b
      rw [c, rowval_scaled n s.g i q lam hq hq2] at h1
      simp only [nameval, hp, if_false, neg_neg, Int.toNat_ofNat] at h1
      rw [← h1]
      have htr : s.trans i = false := by
        rcases hI.names.rows i a b with ⟨_, b1, _⟩ | ⟨a1, _⟩
        · omega
        · exact a1
      have := mul_nonneg (hno i a b htr) hlam0
      have := hI.feas i a b htr
      linarith
  have hbox : ∀ k, k < n → |t (k + 1)| ≤ (x k - C1 * x k) + (C2 * x k - x k) := by
    intro k hk
    have h1 := hrows (n + rsv.length + (k + 1)) (by omega) (by omega)
    rw [builder_rowval_min C1 C2 n x rsv cost hrsv hcost (k + 1) (by omega) (by omega)
      (hx _ (by omega)) hC1] at h1
    have h2 := hrows (2 * n + rsv.length + (k + 1)) (by omega) (by omega)
    rw [builder_rowval_max C1 C2 n x rsv cost hrsv hcost (k + 1) (by omega) (by omega)
      (hx _ (by omega)) hC2] at h2
    simp only [Nat.add_sub_cancel] at h1 h2
    have hxk := hx k hk
    have ha : 0 ≤ x k - C1 * x k := by nlinarith
    have hb : 0 ≤ C2 * x k - x k := by nlinarith
    rw [abs_le]
    constructor <;> linarith
  have hle : rowval n
      (transform n (3 * n + rsv.length) x (builder_matrix C1 C2 n x rsv cost)) t
      (3 * n + rsv.length + 1) ≤ B := by
    rw [hB]
    unfold rowval
    apply add_le_add_right
    apply Finset.sum_le_sum
    intro k hk
    simp only [Finset.mem_range] at hk
    calc elt (transform n (3 * n + rsv.length) x (builder_matrix C1 C2 n x rsv cost))
          (3 * n + rsv.length + 1) (k + 1) * t (k + 1)
        ≤ |elt (transform n (3 * n + rsv.length) x (builder_matrix C1 C2 n x rsv cost))
          (3 * n + rsv.length + 1) (k + 1) * t (k + 1)| := le_abs_self _
      _ = |elt (transform n (3 * n + rsv.length) x (builder_matrix C1 C2 n x rsv cost))
          (3 * n + rsv.length + 1) (k + 1)| * |t (k + 1)| := abs_mul _ _
      _ ≤ _ := mul_le_mul_of_nonneg_left (hbox k hk) (abs_nonneg _)
  rw [← hz, rowval_scaled n s.g _ q lam hq hq2] at hle
  have h3 : elt s.g (3 * n + rsv.length + 1) q * lam
      = |B - elt s.g (3 * n + rsv.length + 1) (n + 1)|
        + elt s.g (3 * n + rsv.length + 1) q := by
    rw [hlam]
    field_simp
  have h4 := le_abs_self (B - elt s.g (3 * n + rsv.length + 1) (n + 1))
  linarith

/-- On a builder matrix, `simplex` returns `FALSE` only through the literal
that stands for minus infinity: in the tableau it returns from, the
entering column has rows not marked in `trans` with a negative coefficient,
and the quotient of every such row is at or below `-99999999999.9`. -/
theorem false_by_sentinel (C1 C2 : ℚ) (n fuel : Nat) (x x1 : Nat → ℚ)
    (rsv : List (List ℚ)) (cost : List ℚ) (g1 : Matrix)
    (hrsv : ∀ r ∈ rsv, r.length = n + 1) (hcost : cost.length = n + 1)
    (hx : ∀ i, i < n → 0 ≤ x i) (hC1 : C1 < 1) (hC2 : 1 < C2)
    (h : simplex fuel n (3 * n + rsv.length) (builder_matrix C1 C2 n x rsv cost) x
      = some (false, g1, x1)) :
    ∃ (s : State) (q : Nat), g1 = s.g ∧ 1 ≤ q ∧ q ≤ n ∧
      0 < elt s.g (3 * n + rsv.length + 1) q ∧
      (∃ i, 1 ≤ i ∧ i ≤ 3 * n + rsv.length ∧ s.trans i = false ∧ elt s.g i q < 0) ∧
      ∀ i, 1 ≤ i → i ≤ 3 * n + rsv.length → s.trans i = false → elt s.g i q < 0 →
        elt s.g i (n + 1) / elt s.g i q ≤ - INFINITY := by
  have hd := builder_dim C1 C2 n x rsv cost hrsv hcost
  have hc0 : ∀ i, 1 ≤ i → i ≤ n → 0 ≤ elt (builder_matrix C1 C2 n x rsv cost) i (n + 1) := by
    intro i hi hi2
    rw [builder_elt_translation C1 C2 n x rsv cost hrsv hcost i (n + 1) hi hi2 (by omega)
      (by omega), if_pos rfl]
    exact hx _ (by omega)
  obtain ⟨s, hI, hg, hq0, hp0⟩ := simplex_false_state hd hc0 h
  obtain ⟨q1, q2, q3⟩ := piv_search_spec s.g n (3 * n + rsv.length) hq0
  refine ⟨s, _, hg, q1, q2, q3,
    leaving_row_exists C1 C2 n x rsv cost hrsv hcost hx hC1 hC2 hI _ q1 q2 q3, ?_⟩
  rcases row_search_first s.g n (3 * n + rsv.length)
      (piv_search n (3 * n + rsv.length) s.g).q s.trans with ⟨_, hall⟩ | ⟨hp1, _⟩
  · exact hall
  · omega

/-- The second row search of `eliminate` on a feasible tableau: either it
leaves `p = 0` and no eligible row has a quotient below the literal that
stands for infinity, or `p` is the first eligible row that attains the
smallest quotient, and that quotient is below the literal. -/
theorem elim_search_pos_first {g : Matrix} {n m : Nat} (h : Dim g n m) (q : Nat)
    (trans : Nat → Bool) (hF : Feasible n m trans g) :
    ((elim_search_pos n m q trans g).p = 0 ∧
      ∀ i, 1 ≤ i → i ≤ m → trans i = false → 0 < elt g i q →
        INFINITY ≤ elt g i (n + 1) / elt g i q) ∨
    (1 ≤ (elim_search_pos n m q trans g).p ∧ (elim_search_pos n m q trans g).p ≤ m ∧
      trans (elim_search_pos n m q trans g).p = false ∧
      0 < elt g (elim_search_pos n m q trans g).p q ∧
      elt g (elim_search_pos n m q trans g).p (n + 1)
        / elt g (elim_search_pos n m q trans g).p q < INFINITY ∧
      (∀ i, 1 ≤ i → i ≤ m → trans i = false → 0 < elt g i q →
        elt g (elim_search_pos n m q trans g).p (n + 1)
            / elt g (elim_search_pos n m q trans g).p q
          ≤ elt g i (n + 1) / elt g i q) ∧
      (∀ i, 1 ≤ i → i < (elim_search_pos n m q trans g).p → trans i = false →
        0 < elt g i q →
        elt g (elim_search_pos n m q trans g).p (n + 1)
            / elt g (elim_search_pos n m q trans g).p q
          < elt g i (n + 1) / elt g i q)) := by
  unfold elim_search_pos
  have key := forLoop_inv
    (fun i (r : Search) => r.g = g ∧
      ((r.p = 0 ∧ r.max = INFINITY) ∨
        (1 ≤ r.p ∧ r.p < i ∧ trans r.p = false ∧ 0 < elt g r.p q ∧
          r.max = elt g r.p (n + 1) / elt g r.p q ∧ r.max < INFINITY ∧
          ∀ i1, 1 ≤ i1 → i1 < r.p → trans i1 = false → 0 < elt g i1 q →
            r.max < elt g i1 (n + 1) / elt g i1 q)) ∧
      ∀ i1, 1 ≤ i1 → i1 < i → trans i1 = false → 0 < elt g i1 q →
        r.max ≤ elt g i1 (n + 1) / elt g i1 q)
    1 m (fun i s =>
    if ! trans i then
      let temp := elt s.g i q
      if temp > 0 then
        let quot := elt s.g i (n + 1) / temp
        let s1 : Search :=
          if quot < 0 then { s with g := set s.g i (n + 1) 0 } else s
        let quot := if quot < 0 then 0 else quot
        if quot < s1.max then { s1 with p := i, max := quot } else s1
      else s
    else s) ⟨g, 0, INFINITY⟩ (by omega)
    ⟨rfl, Or.inl ⟨rfl, rfl⟩, fun i1 a b => by omega⟩
    (by
      intro i r hi hi2 ⟨hg, hp, hall⟩
      obtain ⟨rg, rp, rmax⟩ := r
      simp only at hg hp hall
      subst hg
      have hkeep : ((rp = 0 ∧ rmax = INFINITY) ∨
          (1 ≤ rp ∧ rp < i + 1 ∧ trans rp = false ∧ 0 < elt rg rp q ∧
            rmax = elt rg rp (n + 1) / elt rg rp q ∧ rmax < INFINITY ∧
            ∀ i1, 1 ≤ i1 → i1 < rp → trans i1 = false → 0 < elt rg i1 q →
              rmax < elt rg i1 (n + 1) / elt rg i1 q)) := by
        rcases hp with hp | ⟨p1, p2, p3, p4, p5, p6, p7⟩
        · exact Or.inl hp
        · exact Or.inr ⟨p1, by omega, p3, p4, p5, p6, p7⟩
      have hup : rmax ≤ INFINITY := by
        rcases hp with ⟨_, h2⟩ | ⟨_, _, _, _, _, p6, _⟩
        · rw [h2]
        · exact le_of_lt p6
      by_cases ht : trans i = false
      · by_cases hpos : elt rg i q > 0
        · have hc : 0 ≤ elt rg i (n + 1) := hF i hi hi2 ht
          have hquot : ¬ elt rg i (n + 1) / elt rg i q < 0 :=
            not_lt.mpr (div_nonneg hc (le_of_lt hpos))
          simp only [ht, Bool.not_false, if_true, hpos, hquot, if_false]
          by_cases hlt : elt rg i (n + 1) / elt rg i q < rmax
          · simp only [hlt, if_true]
            refine ⟨trivial, Or.inr ⟨hi, Nat.lt_succ_self i, ht, hpos, trivial,
              lt_of_lt_of_le hlt hup, ?_⟩, ?_⟩
            · intro i1 a b c d
              exact lt_of_lt_of_le hlt (hall i1 a b c d)
            · intro i1 a b c d
              by_cases e : i1 = i
              · subst e; exact le_refl _
              · exact le_trans (le_of_lt hlt) (hall i1 a (by omega) c d)
          · simp only [hlt, if_false]
            refine ⟨trivial, hkeep, ?_⟩
            intro i1 a b c d
            by_cases e : i1 = i
            · subst e; exact not_lt.mp hlt
            · exact hall i1 a (by omega) c d
        · simp only [ht, Bool.not_false, if_true, hpos, if_false]
          refine ⟨trivial, hkeep, ?_⟩
          intro i1 a b c d
          by_cases e : i1 = i
          · subst e; exact absurd d hpos
          · exact hall i1 a (by omega) c d
      · have ht' : trans i = true := by simpa using ht
        simp only [ht', Bool.not_true, Bool.false_eq_true, if_false]
        refine ⟨trivial, hkeep, ?_⟩
        intro i1 a b c d
        by_cases e : i1 = i
        · subst e; rw [ht'] at c; exact absurd c (by simp)
        · exact hall i1 a (by omega) c d)
  obtain ⟨_, k2, k3⟩ := key
  rcases k2 with ⟨h1, h2⟩ | ⟨p1, p2, p3, p4, p5, p6, p7⟩
  · left
    refine ⟨h1, fun i a b c d => ?_⟩
    have := k3 i a (by omega) c d
    rw [h2] at this
    exact this
  · right
    rw [p5] at p6 p7
    refine ⟨p1, by omega, p3, p4, p6, fun i a b c d => ?_, p7⟩
    have := k3 i a (by omega) c d
    rw [p5] at this
    exact this

/-- The first row search of `eliminate` on a feasible tableau: either it
leaves `p = 0` and no eligible row has a quotient above the literal that
stands for minus infinity, or `p` is the first eligible row that attains the
largest quotient, and that quotient is above the literal. -/
theorem elim_search_neg_first {g : Matrix} {n m : Nat} (h : Dim g n m) (q : Nat)
    (trans : Nat → Bool) (hF : Feasible n m trans g) :
    ((elim_search_neg n m q trans g).p = 0 ∧
      ∀ i, 1 ≤ i → i ≤ m → trans i = false → elt g i q < 0 →
        elt g i (n + 1) / elt g i q ≤ - INFINITY) ∨
    (1 ≤ (elim_search_neg n m q trans g).p ∧ (elim_search_neg n m q trans g).p ≤ m ∧
      trans (elim_search_neg n m q trans g).p = false ∧
      elt g (elim_search_neg n m q trans g).p q < 0 ∧
      - INFINITY < elt g (elim_search_neg n m q trans g).p (n + 1)
        / elt g (elim_search_neg n m q trans g).p q ∧
      (∀ i, 1 ≤ i → i ≤ m → trans i = false → elt g i q < 0 →
        elt g i (n + 1) / elt g i q
          ≤ elt g (elim_search_neg n m q trans g).p (n + 1)
            / elt g (elim_search_neg n m q trans g).p q) ∧
      (∀ i, 1 ≤ i → i < (elim_search_neg n m q trans g).p → trans i = false →
        elt g i q < 0 →
        elt g i (n + 1) / elt g i q
          < elt g (elim_search_neg n m q trans g).p (n + 1)
            / elt g (elim_search_neg n m q trans g).p q)) := by
  unfold elim_search_neg
  have key := forLoop_inv
    (fun i (r : Search) => r.g = g ∧
      ((r.p = 0 ∧ r.max = - INFINITY) ∨
        (1 ≤ r.p ∧ r.p < i ∧ trans r.p = false ∧ elt g r.p q < 0 ∧
          r.max = elt g r.p (n + 1) / elt g r.p q ∧ - INFINITY < r.max ∧
          ∀ i1, 1 ≤ i1 → i1 < r.p → trans i1 = false → elt g i1 q < 0 →
            elt g i1 (n + 1) / elt g i1 q < r.max)) ∧
      ∀ i1, 1 ≤ i1 → i1 < i → trans i1 = false → elt g i1 q < 0 →
        elt g i1 (n + 1) / elt g i1 q ≤ r.max)
    1 m (fun i s =>
    if ! trans i then
      let temp := elt s.g i q
      if temp < 0 then
        let quot := elt s.g i (n + 1) / temp
        let s1 : Search :=
          if quot ≥ 0 then { s with g := set s.g i (n + 1) 0 } else s
        let quot := if quot ≥ 0 then 0 else quot
        if quot > s1.max then { s1 with p := i, max := quot } else s1
      else s
    else s) ⟨g, 0, - INFINITY⟩ (by omega)
    ⟨rfl, Or.inl ⟨rfl, rfl⟩, fun i1 a b => by omega⟩
    (by
      intro i r hi hi2 ⟨hg, hp, hall⟩
      have hm := h.hm
      obtain ⟨rg, rp, rmax⟩ := r
      simp only at hg hp hall
      subst hg
      have hkeep : ((rp = 0 ∧ rmax = - INFINITY) ∨
          (1 ≤ rp ∧ rp < i + 1 ∧ trans rp = false ∧ elt rg rp q < 0 ∧
            rmax = elt rg rp (n + 1) / elt rg rp q ∧ - INFINITY < rmax ∧
            ∀ i1, 1 ≤ i1 → i1 < rp → trans i1 = false → elt rg i1 q < 0 →
              elt rg i1 (n + 1) / elt rg i1 q < rmax)) := by
        rcases hp with hp | ⟨p1, p2, p3, p4, p5, p6, p7⟩
        · exact Or.inl hp
        · exact Or.inr ⟨p1, by omega, p3, p4, p5, p6, p7⟩
      have hlow : - INFINITY ≤ rmax := by
        rcases hp with ⟨_, h2⟩ | ⟨_, _, _, _, _, p6, _⟩
        · rw [h2]
        · exact le_of_lt p6
      by_cases ht : trans i = false
      · by_cases hneg : elt rg i q < 0
        · have hc : 0 ≤ elt rg i (n + 1) := hF i hi hi2 ht
          have hquot : elt rg i (n + 1) / elt rg i q ≤ 0 :=
            div_nonpos_of_nonneg_of_nonpos hc (le_of_lt hneg)
          have hs1 : (if elt rg i (n + 1) / elt rg i q ≥ 0
              then ({ g := set rg i (n + 1) 0, p := rp, max := rmax } : Search)
              else ⟨rg, rp, rmax⟩) = ⟨rg, rp, rmax⟩ := by
            split_ifs with h0
            · have hz0 : elt rg i (n + 1) / elt rg i q = 0 := le_antisymm hquot h0
              have hz2 : elt rg i (n + 1) = 0 := by
                rcases div_eq_zero_iff.mp hz0 with h1 | h1
                · exact h1
                · exact absurd h1 (ne_of_lt hneg)
              have : set rg i (n + 1) 0 = rg := by
                have := set_elt_self h i (n + 1) hi (by omega) (by omega) (by omega)
                rw [hz2] at this
                exact this
              rw [this]
            · rfl
          have hq2' : (if elt rg i (n + 1) / elt rg i q ≥ 0 then (0 : ℚ)
              else elt rg i (n + 1) / elt rg i q) = elt rg i (n + 1) / elt rg i q := by
            split_ifs with h0
            · exact (le_antisymm hquot h0).symm
            · rfl
          simp only [ht, Bool.not_false, if_true, hneg, hs1, hq2']
          by_cases hgt : elt rg i (n + 1) / elt rg i q > rmax
          · simp only [hgt, if_true]
            refine ⟨trivial, Or.inr ⟨hi, Nat.lt_succ_self i, ht, hneg, trivial,
              lt_of_le_of_lt hlow hgt, ?_⟩, ?_⟩
            · intro i1 a b c d
              exact lt_of_le_of_lt (hall i1 a b c d) hgt
            · intro i1 a b c d
              by_cases e : i1 = i
              · subst e; exact le_refl _
              · exact le_trans (hall i1 a (by omega) c d) (le_of_lt hgt)
          · simp only [hgt, if_false]
            refine ⟨trivial, hkeep, ?_⟩
            intro i1 a b c d
            by_cases e : i1 = i
            · subst e; exact not_lt.mp hgt
            · exact hall i1 a (by omega) c d
        · simp only [ht, Bool.not_false, if_true, hneg, if_false]
          refine ⟨trivial, hkeep, ?_⟩
          intro i1 a b c d
          by_cases e : i1 = i
          · subst e; exact absurd d hneg
          · exact hall i1 a (by omega) c d
      · have ht' : trans i = true := by simpa using ht
        simp only [ht', Bool.not_true, Bool.false_eq_true, if_false]
        refine ⟨trivial, hkeep, ?_⟩
        intro i1 a b c d
        by_cases e : i1 = i
        · subst e; rw [ht'] at c; exact absurd c (by simp)
        · exact hall i1 a (by omega) c d)
  obtain ⟨_, k2, k3⟩ := key
  rcases k2 with ⟨h1, h2⟩ | ⟨p1, p2, p3, p4, p5, p6, p7⟩
  · left
    refine ⟨h1, fun i a b c d => ?_⟩
    have := k3 i a (by omega) c d
    rw [h2] at this
    exact this
  · right
    rw [p5] at p6 p7
    refine ⟨p1, by omega, p3, p4, p6, fun i a b c d => ?_, p7⟩
    have := k3 i a (by omega) c d
    rw [p5] at this
    exact this

/-- What a step of `eliminate` does on a feasible tableau, for a column
`q`: either no eligible row has a quotient within the literal that
stands for infinity, `p` stays `0` and the assertion is violated; or the row
`p` is in `1..m` and not marked, has a negative coefficient and is the first
row attaining the largest quotient (cost coefficient positive) or has a
positive coefficient and is the first row attaining the smallest quotient
(otherwise), the matrix gets the pivot update at `(p, q)` and row `p` is
marked. -/
theorem eliminate_choice {n m q : Nat} (s : State) (hd : Dim s.g n m)
    (hF : Feasible n m s.trans s.g) :
    (eliminate_row n m q s = 0 ∧ eliminate_step n m q s = none ∧
      (0 < elt s.g (m + 1) q → ∀ i, 1 ≤ i → i ≤ m → s.trans i = false → elt s.g i q < 0 →
        elt s.g i (n + 1) / elt s.g i q ≤ - INFINITY) ∧
      (¬ 0 < elt s.g (m + 1) q → ∀ i, 1 ≤ i → i ≤ m → s.trans i = false →
        0 < elt s.g i q → INFINITY ≤ elt s.g i (n + 1) / elt s.g i q)) ∨
    (1 ≤ eliminate_row n m q s ∧ eliminate_row n m q s ≤ m ∧
      s.trans (eliminate_row n m q s) = false ∧
      (∃ s1, eliminate_step n m q s = some s1 ∧
        s1.g = pivot_update n m (eliminate_row n m q s) q s.g ∧
        s1.trans = upd s.trans (eliminate_row n m q s) true) ∧
      (0 < elt s.g (m + 1) q →
        elt s.g (eliminate_row n m q s) q < 0 ∧
        elt s.g (eliminate_row n m q s) (n + 1) / elt s.g (eliminate_row n m q s) q ≤ 0 ∧
        (∀ i, 1 ≤ i → i ≤ m → s.trans i = false → elt s.g i q < 0 →
          elt s.g i (n + 1) / elt s.g i q
            ≤ elt s.g (eliminate_row n m q s) (n + 1) / elt s.g (eliminate_row n m q s) q) ∧
        (∀ i, 1 ≤ i → i < eliminate_row n m q s → s.trans i = false → elt s.g i q < 0 →
          elt s.g i (n + 1) / elt s.g i q
            < elt s.g (eliminate_row n m q s) (n + 1)
              / elt s.g (eliminate_row n m q s) q)) ∧
      (¬ 0 < elt s.g (m + 1) q →
        0 < elt s.g (eliminate_row n m q s) q ∧
        0 ≤ elt s.g (eliminate_row n m q s) (n + 1) / elt s.g (eliminate_row n m q s) q ∧
        (∀ i, 1 ≤ i → i ≤ m → s.trans i = false → 0 < elt s.g i q →
          elt s.g (eliminate_row n m q s) (n + 1) / elt s.g (eliminate_row n m q s) q
            ≤ elt s.g i (n + 1) / elt s.g i q) ∧
        (∀ i, 1 ≤ i → i < eliminate_row n m q s → s.trans i = false → 0 < elt s.g i q →
          elt s.g (eliminate_row n m q s) (n + 1) / elt s.g (eliminate_row n m q s) q
            < elt s.g i (n + 1) / elt s.g i q))) := by
  unfold eliminate_row eliminate_step
  by_cases hc : elt s.g (m + 1) q > 0
  · have hc1 : 0 < elt s.g (m + 1) q := hc
    simp only [hc, hc1, if_true, not_true_eq_false, false_implies, true_implies, and_true]
    have hg := (elim_search_neg_spec hd q s.trans hF).1
    rcases elim_search_neg_first hd q s.trans hF with ⟨h0, hall⟩ | ⟨p1, p2, p3, p4, p5, p6, p7⟩
    · left
      simp only [h0, if_true]
      exact ⟨trivial, trivial, hall⟩
    · right
      have hne : ¬ (elim_search_neg n m q s.trans s.g).p = 0 := by omega
      simp only [hne, if_false, hg]
      refine ⟨p1, p2, p3, ⟨_, rfl, rfl, rfl⟩, p4, ?_, p6, p7⟩
      exact div_nonpos_of_nonneg_of_nonpos (hF _ p1 p2 p3) (le_of_lt p4)
  · have hc1 : ¬ 0 < elt s.g (m + 1) q := hc
    simp only [hc, hc1, if_false, not_false_eq_true, false_implies, true_implies, true_and,
      and_true]
    have hg := (elim_search_pos_spec hd q s.trans hF).1
    rcases elim_search_pos_first hd q s.trans hF with ⟨h0, hall⟩ | ⟨p1, p2, p3, p4, p5, p6, p7⟩
    · left
      simp only [h0, if_true]
      exact ⟨trivial, trivial, hall⟩
    · right
      have hne : ¬ (elim_search_pos n m q s.trans s.g).p = 0 := by omega
      simp only [hne, if_false, hg]
      refine ⟨p1, p2, p3, ⟨_, rfl, rfl, rfl⟩, p4, ?_, p6, p7⟩
      exact div_nonneg (hF _ p1 p2 p3) (le_of_lt p4)

/-- The row a step of `eliminate` chooses is one of the rows `1..m`, is not
marked before the step and is the one row that the step marks, whatever the
matrix. -/
theorem eliminate_step_trans {n m q : Nat} {s s1 : State}
    (hs : eliminate_step n m q s = some s1) :
    1 ≤ eliminate_row n m q s ∧ eliminate_row n m q s ≤ m ∧
    s.trans (eliminate_row n m q s) = false ∧
    s1.trans = upd s.trans (eliminate_row n m q s) true := by
  unfold eliminate_step at hs
  unfold eliminate_row
  by_cases hc : elt s.g (m + 1) q > 0
  · simp only [hc, if_true] at hs ⊢
    by_cases hp0 : (elim_search_neg n m q s.trans s.g).p = 0
    · simp [hp0] at hs
    · simp only [hp0, if_false, Option.some.injEq] at hs
      rcases elim_search_neg_p n m q s.trans s.g with h | ⟨p1, p2, p3⟩
      · exact absurd h hp0
      · subst hs
        exact ⟨p1, p2, p3, rfl⟩
  · simp only [hc, if_false] at hs ⊢
    by_cases hp0 : (elim_search_pos n m q s.trans s.g).p = 0
    · simp [hp0] at hs
    · simp only [hp0, if_false, Option.some.injEq] at hs
      rcases elim_search_pos_p n m q s.trans s.g with h | ⟨p1, p2, p3⟩
      · exact absurd h hp0
      · subst hs
        exact ⟨p1, p2, p3, rfl⟩

/-- The rows chosen by the passes of `eliminate` are rows `1..m` that are not
marked before the first of these passes, and no row is chosen twice,
whatever the matrix. -/
theorem eliminate_rows_nodup (n m : Nat) (cnt : Nat) :
    ∀ (q : Nat) (s : State),
      (∀ p ∈ eliminate_rows n m q cnt s, 1 ≤ p ∧ p ≤ m ∧ s.trans p = false) ∧
      (eliminate_rows n m q cnt s).Nodup := by
  induction cnt with
  | zero =>
    intro q s
    simp [eliminate_rows]
  | succ c ih =>
    intro q s
    cases hs : eliminate_step n m q s with
    | none => simp [eliminate_rows, hs]
    | some s1 =>
      obtain ⟨a1, a2, a3, a4⟩ := eliminate_step_trans hs
      obtain ⟨b1, b2⟩ := ih (q + 1) s1
      have hrest : ∀ p ∈ eliminate_rows n m (q + 1) c s1,
          p ≠ eliminate_row n m q s ∧ s.trans p = false := by
        intro p hp
        have h3 := (b1 p hp).2.2
        rw [a4] at h3
        unfold upd at h3
        by_cases e : p = eliminate_row n m q s
        · simp [e] at h3
        · simp only [e, if_false] at h3
          exact ⟨e, h3⟩
      simp only [eliminate_rows, hs]
      constructor
      · intro p hp
        rcases List.mem_cons.mp hp with e | hp1
        · rw [e]
          exact ⟨a1, a2, a3⟩
        · exact ⟨(b1 p hp1).1, (b1 p hp1).2.1, (hrest p hp1).2⟩
      · refine List.nodup_cons.mpr ⟨?_, b2⟩
        intro hmem
        exact (hrest _ hmem).1 rfl

set_option maxRecDepth 100000 in
/-- C31 (fails on the code): on the builder matrix of one concept with the
IDF `4.0e11`, `C1 = 0.5`, `C2 = 2.0`, no RSV row and the cost row `[1, 0]`,
the cost coefficient of column 1 is `1 > 0` and exactly one row with a
negative coefficient in column 1 is not marked, row 3 (`- t + 4.0e11`), so
row 3 is the first row attaining the largest quotient, `-4.0e11`.  That
quotient is not above the literal `-99999999999.9`: the search leaves
`p = 0`, `eliminate` takes no row, performs no pivot and marks nothing, and
its assertion `p != 0` is violated. -/
theorem eliminate_choice_sentinel :
    elt (transform 1 3 example_huge_idf example_huge_cost_matrix) 4 1 = 1 ∧
    (List.range 4).filter (fun i => decide (1 ≤ i) &&
      decide (elt (transform 1 3 example_huge_idf example_huge_cost_matrix) i 1 < 0))
      = [3] ∧
    (elt (transform 1 3 example_huge_idf example_huge_cost_matrix) 3 1,
      elt (transform 1 3 example_huge_idf example_huge_cost_matrix) 3 2)
      = (-1, 400000000000) ∧
    (400000000000 : ℚ) / -1 ≤ 0 ∧ ¬ ((400000000000 : ℚ) / -1 > - INFINITY) ∧
    eliminate_row 1 3 1
      (init_state 1 3 (transform 1 3 example_huge_idf example_huge_cost_matrix)) = 0 ∧
    (eliminate_step 1 3 1
      (init_state 1 3 (transform 1 3 example_huge_idf example_huge_cost_matrix))).isNone
      = true ∧
    eliminate_rows 1 3 1 1
      (init_state 1 3 (transform 1 3 example_huge_idf example_huge_cost_matrix)) = [] ∧
    (eliminate 1 3
      (init_state 1 3 (transform 1 3 example_huge_idf example_huge_cost_matrix))).isNone
      = true := by
  refine ⟨by decide!, by decide!, by decide!, by norm_num, by norm_num [INFINITY],
    by decide!, by decide!, by decide!, by decide!⟩

/-- The value of a row changes linearly with one coordinate of the point. -/
theorem rowval_upd (n : Nat) (g : Matrix) (t : Nat → ℚ) (q i : Nat) (w : ℚ)
    (hq : 1 ≤ q) (hq2 : q ≤ n) :
    rowval n g (upd t q w) i = rowval n g t i + elt g i q * (w - t q) := by
  unfold rowval
  have h1 : ∀ k ∈ Finset.range n,
      elt g i (k + 1) * upd t q w (k + 1)
        = elt g i (k + 1) * t (k + 1)
          + (if k + 1 = q then (w - t q) else 0) * elt g i (k + 1) := by
    intro k _
    unfold upd
    by_cases e : k + 1 = q
    · simp only [e, if_true]
      ring
    · simp only [e, if_false]
      ring
  rw [Finset.sum_congr rfl h1, Finset.sum_add_distrib,
    sum_unit n q (w - t q) (fun k => elt g i (k + 1)) hq hq2]
  have : q - 1 + 1 = q := by omega
  simp only [this]
  ring

/-- C32: the loop of `simplex` and `eliminate` apply the same function
`pivot_update` to the matrix, and over exact arithmetic it is an exchange
step.  For a matrix with the array sizes of `main`, a pivot position
`(p, q)` with `1 <= p <= m`, `1 <= q <= n` and a pivot element that is not
zero, and every assignment `t` of the column variables: with
`y_i = sum_k a[i][k] * t[k] + c[i]` the values of the old rows, the new
tableau at the assignment `t1` with `t1[q] = y_p` and `t1[k] = t[k]`
elsewhere has the value `y_i` in every row `i != p` of `1..m+1` (translation
and cost rows included) and the value `t[q]` in row `p`. -/
theorem pivot_update_exchange {n m : Nat} (g : Matrix) (hd : Dim g n m) (p q : Nat)
    (hp : 1 ≤ p) (hp2 : p ≤ m) (hq : 1 ≤ q) (hq2 : q ≤ n) (hpiv : elt g p q ≠ 0)
    (t : Nat → ℚ) :
    rowval n (pivot_update n m p q g) (upd t q (rowval n g t p)) p = t q ∧
    (∀ i, 1 ≤ i → i ≤ m + 1 → i ≠ p →
      rowval n (pivot_update n m p q g) (upd t q (rowval n g t p)) i = rowval n g t i) ∧
    (∀ (s s1 : State) (q1 : Nat), eliminate_step n m q1 s = some s1 →
      s1.g = pivot_update n m (eliminate_row n m q1 s) q1
        (if elt s.g (m + 1) q1 > 0 then elim_search_neg n m q1 s.trans s.g
         else elim_search_pos n m q1 s.trans s.g).g) ∧
    (∀ (s s1 : State), pivot_iter n m s = Iter.next s1 →
      s1.g = pivot_update n m (pivot_row n m s) (piv_search n m s.g).q s.g) := by
  obtain ⟨_, hE⟩ := pivot_update_elt hd p q hp (by omega) hq (by omega)
  obtain ⟨r1, r2⟩ := rowval_exchange p q (upd t q (rowval n g t p)) hp (by omega) hq hq2
    hpiv hE
  have hu : ∀ w, upd (upd t q (rowval n g t p)) q w = upd t q w := by
    intro w
    funext k
    unfold upd
    by_cases e : k = q <;> simp [e]
  have htq : upd t q (rowval n g t p) q = rowval n g t p := by simp [upd]
  rw [hu] at r1
  rw [htq, rowval_upd n g t q p _ hq hq2] at r1
  have hW : rowval n (pivot_update n m p q g) (upd t q (rowval n g t p)) p = t q := by
    have h0 : elt g p q *
        (rowval n (pivot_update n m p q g) (upd t q (rowval n g t p)) p - t q) = 0 := by
      linarith
    rcases mul_eq_zero.mp h0 with h1 | h1
    · exact absurd h1 hpiv
    · linarith
  have hid : upd t q (t q) = t := by
    funext k
    unfold upd
    by_cases e : k = q <;> simp [e]
  refine ⟨hW, ?_, ?_, ?_⟩
  · intro i hi hi2 hne
    have := r2 i hi hi2 hne
    rw [hu, hW, hid] at this
    exact this.symm
  · intro s s1 q1 hs
    unfold eliminate_step at hs
    unfold eliminate_row
    by_cases hp0 : (if elt s.g (m + 1) q1 > 0 then elim_search_neg n m q1 s.trans s.g
        else elim_search_pos n m q1 s.trans s.g).p = 0
    · simp [hp0] at hs
    · simp only [hp0, if_false, Option.some.injEq] at hs
      rw [← hs]
  · intro s s1 hs
    unfold pivot_iter at hs
    unfold pivot_row
    by_cases hq0 : (piv_search n m s.g).q = 0
    · simp [hq0] at hs
    · by_cases hp0 : (row_search n m (piv_search n m s.g).q s.trans s.g).p = 0
      · simp [hq0, hp0] at hs
      · simp only [hq0, hp0, if_false, Iter.next.injEq] at hs
        rw [← hs]

set_option maxRecDepth 100000 in
theorem pivot_update_exchange_witness :
    elt example_state.g 3 1 ≠ 0 ∧
    rowval 1 example_state.g (fun _ => 2) 3 = -1 ∧
    rowval 1 (pivot_update 1 3 3 1 example_state.g)
      (upd (fun _ => 2) 1 (rowval 1 example_state.g (fun _ => 2) 3)) 3 = 2 ∧
    rowval 1 (pivot_update 1 3 3 1 example_state.g)
      (upd (fun _ => 2) 1 (rowval 1 example_state.g (fun _ => 2) 3)) 4
      = rowval 1 example_state.g (fun _ => 2) 4 := by
  have h3 : elt example_state.g 3 1 ≠ 0 := by decide!
  have h := pivot_update_exchange example_state.g example_state_dim 3 1 (by omega) (by omega)
    (by omega) (by omega) h3 (fun _ => 2)
  exact ⟨h3, by decide!, h.1, h.2.1 4 (by omega) (by omega) (by omega)⟩

/-- C33: the coordinate transformation at the start of `simplex`, for a
matrix with the array sizes of `main`.  Every coefficient (columns `1..n`
of the rows `1..m+1`) and every entry of the Translation block (rows
`1..n`) is left as it was; the constant of a row `i` in `n+1..m` becomes
`c[i] + sum_k a[i][k] * x0[k]`, reset to zero when that sum is negative; the
constant of the cost row `m + 1` becomes `c[m+1] + sum_k a[m+1][k] * x0[k]`
and is never reset. -/
theorem transform_spec {g : Matrix} {n m : Nat} (hd : Dim g n m) (x : Nat → ℚ) :
    (∀ i k, 1 ≤ i → i ≤ m + 1 → 1 ≤ k → k ≤ n →
      elt (transform n m x g) i k = elt g i k) ∧
    (∀ i k, 1 ≤ i → i ≤ n → 1 ≤ k → k ≤ n + 1 →
      elt (transform n m x g) i k = elt g i k) ∧
    (∀ i, n + 1 ≤ i → i ≤ m →
      elt (transform n m x g) i (n + 1) =
        if elt g i (n + 1) + (∑ k in Finset.range n, elt g i (k + 1) * x k) < 0 then 0
        else elt g i (n + 1) + ∑ k in Finset.range n, elt g i (k + 1) * x k) ∧
    elt (transform n m x g) (m + 1) (n + 1)
      = elt g (m + 1) (n + 1) + ∑ k in Finset.range n, elt g (m + 1) (k + 1) * x k := by
  obtain ⟨_, hE⟩ := transform_elt hd x
  have hm := hd.hm
  refine ⟨?_, ?_, ?_, ?_⟩
  · intro i k hi hi2 hk hk2
    rw [hE i k hi hi2 hk (by omega)]
    have : ¬ (k = n + 1 ∧ n + 1 ≤ i) := by omega
    rw [if_neg this]
  · intro i k hi hi2 hk hk2
    rw [hE i k hi (by omega) hk hk2]
    have : ¬ (k = n + 1 ∧ n + 1 ≤ i) := by omega
    rw [if_neg this]
  · intro i hi hi2
    rw [hE i (n + 1) (by omega) (by omega) (by omega) (by omega)]
    have h1 : n + 1 = n + 1 ∧ n + 1 ≤ i := ⟨rfl, hi⟩
    rw [if_pos h1]
    by_cases hneg : elt g i (n + 1) + (∑ k in Finset.range n, elt g i (k + 1) * x k) < 0
    · rw [if_pos ⟨hi2, hneg⟩, if_pos hneg]
    · rw [if_neg (fun h => hneg h.2), if_neg hneg]
  · rw [hE (m + 1) (n + 1) (by omega) (by omega) (by omega) (by omega)]
    have h1 : n + 1 = n + 1 ∧ n + 1 ≤ m + 1 := ⟨rfl, by omega⟩
    rw [if_pos h1]
    have h2 : ¬ (m + 1 ≤ m ∧
        elt g (m + 1) (n + 1)
          + (∑ k in Finset.range n, elt g (m + 1) (k + 1) * x k) < 0) := by
      intro h
      omega
    rw [if_neg h2]

set_option maxRecDepth 100000 in
theorem transform_spec_witness :
    Dim example_matrix 2 7 ∧
    elt example_matrix 3 3 + (∑ k in Finset.range 2, elt example_matrix 3 (k + 1) * example_idf k)
      = - (1 / 2) ∧
    elt (transform 2 7 example_idf example_matrix) 3 3 = 0 ∧
    elt (transform 2 7 example_idf example_matrix) 8 3 = 1 / 2 ∧
    elt (transform 2 7 example_idf example_matrix) 1 3 = elt example_matrix 1 3 := by
  have hd : Dim example_matrix 2 7 :=
    builder_dim (1 / 2) 2 2 example_idf [[1, -1, 1 / 2]] [-1, 1, -1 / 2]
      (by intro r hr; simp at hr; subst hr; rfl) rfl
  have h := transform_spec hd example_idf
  refine ⟨hd, by decide!, ?_, ?_, h.2.1 1 3 (by omega) (by omega) (by omega) (by omega)⟩
  · exact (h.2.2.1 3 (by omega) (by omega)).trans (by decide!)
  · exact h.2.2.2.trans (by decide!)

/-- C35: with `n = num_weights` and `P = num_prefs`, for every 1-based row
in `1..3n+P+1` and column in `1..n+1` no assertion of `matrix_ptr` is
violated and the pointer is `translation [row-1]` for `row <= n`,
`rsv_eq [row-n-1]` for the next `P` rows, `min_weights [row-n-P-1]` for the
next `n` rows, `max_weights [row-2n-P-1]` for the next `n` rows and `cost`
for `row = 3n+P+1`, each at the column `col - 1`; distinct pairs
`(row, col)` of that range give distinct cells; for every row above
`3n+P+1` the assertion of the cost branch is violated. -/
theorem matrix_ptr_spec (g : Matrix) :
    (∀ row col, 1 ≤ row → row ≤ 3 * g.num_weights + g.num_prefs + 1 →
      1 ≤ col → col ≤ g.num_weights + 1 →
      matrix_ptr g row col =
        if row ≤ g.num_weights then some ⟨Block.translation, row - 1, col - 1⟩
        else if row ≤ g.num_weights + g.num_prefs then
          some ⟨Block.rsv_eq, row - g.num_weights - 1, col - 1⟩
        else if row ≤ 2 * g.num_weights + g.num_prefs then
          some ⟨Block.min_weights, row - g.num_weights - g.num_prefs - 1, col - 1⟩
        else if row ≤ 3 * g.num_weights + g.num_prefs then
          some ⟨Block.max_weights, row - 2 * g.num_weights - g.num_prefs - 1, col - 1⟩
        else some ⟨Block.cost, 0, col - 1⟩) ∧
    (∀ row col row1 col1, 1 ≤ row → row ≤ 3 * g.num_weights + g.num_prefs + 1 →
      1 ≤ col → col ≤ g.num_weights + 1 →
      1 ≤ row1 → row1 ≤ 3 * g.num_weights + g.num_prefs + 1 →
      1 ≤ col1 → col1 ≤ g.num_weights + 1 →
      matrix_ptr g row col = matrix_ptr g row1 col1 → row = row1 ∧ col = col1) ∧
    (∀ row col, 3 * g.num_weights + g.num_prefs + 1 < row →
      1 ≤ col → col ≤ g.num_weights + 1 → matrix_ptr g row col = none) := by
  have hform : ∀ row col, 1 ≤ row → row ≤ 3 * g.num_weights + g.num_prefs + 1 →
      1 ≤ col → col ≤ g.num_weights + 1 →
      matrix_ptr g row col =
        if row ≤ g.num_weights then some ⟨Block.translation, row - 1, col - 1⟩
        else if row ≤ g.num_weights + g.num_prefs then
          some ⟨Block.rsv_eq, row - g.num_weights - 1, col - 1⟩
        else if row ≤ 2 * g.num_weights + g.num_prefs then
          some ⟨Block.min_weights, row - g.num_weights - g.num_prefs - 1, col - 1⟩
        else if row ≤ 3 * g.num_weights + g.num_prefs then
          some ⟨Block.max_weights, row - 2 * g.num_weights - g.num_prefs - 1, col - 1⟩
        else some ⟨Block.cost, 0, col - 1⟩ := by
    intro row col hr hr2 hc hc2
    unfold matrix_ptr
    have e1 : ¬ row = 0 := by omega
    have e2 : ¬ (col = 0 ∨ g.num_weights < col - 1) := by omega
    simp only [e1, e2, if_false]
    by_cases h1 : row ≤ g.num_weights
    · have : row - 1 < g.num_weights := by omega
      simp only [h1, this, if_true]
    · have n1 : ¬ row - 1 < g.num_weights := by omega
      simp only [h1, n1, if_false]
      by_cases h2 : row ≤ g.num_weights + g.num_prefs
      · have : row - 1 - g.num_weights < g.num_prefs := by omega
        have e : row - 1 - g.num_weights = row - g.num_weights - 1 := by omega
        rw [if_pos this, if_pos h2, e]
      · have n2 : ¬ row - 1 - g.num_weights < g.num_prefs := by omega
        simp only [h2, n2, if_false]
        by_cases h3 : row ≤ 2 * g.num_weights + g.num_prefs
        · have : row - 1 - g.num_weights - g.num_prefs < g.num_weights := by omega
          have e : row - 1 - g.num_weights - g.num_prefs
              = row - g.num_weights - g.num_prefs - 1 := by omega
          rw [if_pos this, if_pos h3, e]
        · have n3 : ¬ row - 1 - g.num_weights - g.num_prefs < g.num_weights := by omega
          simp only [h3, n3, if_false]
          by_cases h4 : row ≤ 3 * g.num_weights + g.num_prefs
          · have : row - 1 - g.num_weights - g.num_prefs - g.num_weights
                < g.num_weights := by omega
            have e : row - 1 - g.num_weights - g.num_prefs - g.num_weights
                = row - 2 * g.num_weights - g.num_prefs - 1 := by omega
            rw [if_pos this, if_pos h4, e]
          · have n4 : ¬ row - 1 - g.num_weights - g.num_prefs - g.num_weights
                < g.num_weights := by omega
            have e5 : row - 1 - g.num_weights - g.num_prefs - g.num_weights
                = g.num_weights := by omega
            rw [if_neg n4, if_pos e5, if_neg h4]
  refine ⟨hform, ?_, ?_⟩
  · intro row col row1 col1 hr hr2 hc hc2 hr1 hr12 hc1 hc12 heq
    rw [hform row col hr hr2 hc hc2, hform row1 col1 hr1 hr12 hc1 hc12] at heq
    split_ifs at heq <;>
      simp only [Option.some.injEq, Cell.mk.injEq, reduceCtorEq, false_and, and_false] at heq <;>
      omega
  · intro row col hr hc hc2
    unfold matrix_ptr
    have e1 : ¬ row = 0 := by omega
    have e2 : ¬ (col = 0 ∨ g.num_weights < col - 1) := by omega
    have n1 : ¬ row - 1 < g.num_weights := by omega
    have n2 : ¬ row - 1 - g.num_weights < g.num_prefs := by omega
    have n3 : ¬ row - 1 - g.num_weights - g.num_prefs < g.num_weights := by omega
    have n4 : ¬ row - 1 - g.num_weights - g.num_prefs - g.num_weights
        < g.num_weights := by omega
    have n5 : ¬ row - 1 - g.num_weights - g.num_prefs - g.num_weights
        = g.num_weights := by omega
    simp only [e1, e2, n1, n2, n3, n4, n5, if_false]

/-- The entries of the matrix after the check that follows the elimination:
the constant of a row `1..m` that is not marked in `trans` and is negative
becomes zero, whatever its magnitude; nothing else changes. -/
theorem check_elim_elt {g : Matrix} {n m : Nat} (hd : Dim g n m) (trans : Nat → Bool) :
    Dim (check_elim n m trans g) n m ∧
    ∀ i k, 1 ≤ i → i ≤ m + 1 → 1 ≤ k → k ≤ n + 1 →
      elt (check_elim n m trans g) i k =
        if k = n + 1 ∧ i ≤ m ∧ trans i = false ∧ elt g i (n + 1) < 0 then 0
        else elt g i k := by
  unfold check_elim
  have key := forLoop_inv
    (fun j g1 => Dim g1 n m ∧ ∀ i k, 1 ≤ i → i ≤ m + 1 → 1 ≤ k → k ≤ n + 1 →
      elt g1 i k =
        if k = n + 1 ∧ i < j ∧ trans i = false ∧ elt g i (n + 1) < 0 then 0
        else elt g i k)
    1 m (fun i g =>
    if ! trans i then
      if elt g i (n + 1) < 0 then set g i (n + 1) 0 else g
    else g) g (by omega)
    ⟨hd, fun i k hi hi2 hk hk2 => by
      have : ¬ (k = n + 1 ∧ i < 1 ∧ trans i = false ∧ elt g i (n + 1) < 0) := by omega
      rw [if_neg this]⟩
    (by
      intro j g1 hj hj2 ⟨hd1, hE⟩
      have hcur : elt g1 j (n + 1) = elt g j (n + 1) := by
        rw [hE j (n + 1) hj (by omega) (by omega) (by omega)]
        have : ¬ (n + 1 = n + 1 ∧ j < j ∧ trans j = false ∧ elt g j (n + 1) < 0) := by omega
        rw [if_neg this]
      by_cases ht : trans j = false
      · by_cases hneg : elt g j (n + 1) < 0
        · have hneg1 : elt g1 j (n + 1) < 0 := by rw [hcur]; exact hneg
          simp only [ht, Bool.not_false, if_true, hneg1]
          refine ⟨hd1.set _ _ _, ?_⟩
          intro i k hi hi2 hk hk2
          rw [elt_set_valid hd1 j (n + 1) i k 0 hj (by omega) (by omega) (by omega)
            hi hi2 hk hk2, hE i k hi hi2 hk hk2]
          by_cases e : i = j ∧ k = n + 1
          · obtain ⟨e1, e2⟩ := e
            subst e1
            subst e2
            have : n + 1 = n + 1 ∧ i < i + 1 ∧ trans i = false ∧ elt g i (n + 1) < 0 :=
              ⟨rfl, by omega, ht, hneg⟩
            rw [if_pos ⟨rfl, rfl⟩, if_pos this]
          · rw [if_neg e]
            by_cases c : k = n + 1 ∧ i < j ∧ trans i = false ∧ elt g i (n + 1) < 0
            · rw [if_pos c, if_pos ⟨c.1, by omega, c.2.2⟩]
            · rw [if_neg c]
              have : ¬ (k = n + 1 ∧ i < j + 1 ∧ trans i = false ∧ elt g i (n + 1) < 0) := by
                intro ⟨c1, c2, c3, c4⟩
                by_cases e3 : i = j
                · exact e ⟨e3, c1⟩
                · exact c ⟨c1, by omega, c3, c4⟩
              rw [if_neg this]
        · have hneg1 : ¬ elt g1 j (n + 1) < 0 := by rw [hcur]; exact hneg
          simp only [ht, Bool.not_false, if_true, hneg1, if_false]
          refine ⟨hd1, ?_⟩
          intro i k hi hi2 hk hk2
          rw [hE i k hi hi2 hk hk2]
          by_cases c : k = n + 1 ∧ i < j ∧ trans i = false ∧ elt g i (n + 1) < 0
          · rw [if_pos c, if_pos ⟨c.1, by omega, c.2.2⟩]
          · rw [if_neg c]
            have : ¬ (k = n + 1 ∧ i < j + 1 ∧ trans i = false ∧ elt g i (n + 1) < 0) := by
              intro ⟨c1, c2, c3, c4⟩
              by_cases e3 : i = j
              · subst e3; exact hneg c4
              · exact c ⟨c1, by omega, c3, c4⟩
            rw [if_neg this]
      · have ht' : trans j = true := by simpa using ht
        simp only [ht', Bool.not_true, Bool.false_eq_true, if_false]
        refine ⟨hd1, ?_⟩
        intro i k hi hi2 hk hk2
        rw [hE i k hi hi2 hk hk2]
        by_cases c : k = n + 1 ∧ i < j ∧ trans i = false ∧ elt g i (n + 1) < 0
        · rw [if_pos c, if_pos ⟨c.1, by omega, c.2.2⟩]
        · rw [if_neg c]
          have : ¬ (k = n + 1 ∧ i < j + 1 ∧ trans i = false ∧ elt g i (n + 1) < 0) := by
            intro ⟨c1, c2, c3, c4⟩
            by_cases e3 : i = j
            · subst e3; exact ht c3
            · exact c ⟨c1, by omega, c3, c4⟩
          rw [if_neg this])
  obtain ⟨k1, k2⟩ := key
  refine ⟨k1, ?_⟩
  intro i k hi hi2 hk hk2
  rw [k2 i k hi hi2 hk hk2]
  by_cases c : k = n + 1 ∧ i < m + 1 ∧ trans i = false ∧ elt g i (n + 1) < 0
  · rw [if_pos c, if_pos ⟨c.1, by omega, c.2.2⟩]
  · rw [if_neg c]
    have : ¬ (k = n + 1 ∧ i ≤ m ∧ trans i = false ∧ elt g i (n + 1) < 0) := by
      intro ⟨c1, c2, c3, c4⟩
      exact c ⟨c1, by omega, c3, c4⟩
    rw [if_neg this]

/-- The matrix the second row search of `eliminate` leaves: the constant of a
row `1..m` that is not marked, has a positive coefficient in column `q` and
is negative becomes zero, whatever its magnitude; nothing else changes. -/
theorem elim_search_pos_elt {g : Matrix} {n m : Nat} (hd : Dim g n m) (q : Nat)
    (hq : 1 ≤ q) (hq2 : q ≤ n) (trans : Nat → Bool) :
    Dim (elim_search_pos n m q trans g).g n m ∧
    ∀ i k, 1 ≤ i → i ≤ m + 1 → 1 ≤ k → k ≤ n + 1 →
      elt (elim_search_pos n m q trans g).g i k =
        if k = n + 1 ∧ i ≤ m ∧ trans i = false ∧ elt g i q > 0 ∧ elt g i (n + 1) < 0 then 0
        else elt g i k := by
  unfold elim_search_pos
  have key := forLoop_inv
    (fun j (r : Search) => Dim r.g n m ∧ ∀ i k, 1 ≤ i → i ≤ m + 1 → 1 ≤ k → k ≤ n + 1 →
      elt r.g i k =
        if k = n + 1 ∧ i < j ∧ trans i = false ∧ elt g i q > 0 ∧ elt g i (n + 1) < 0 then 0
        else elt g i k)
    1 m (fun i s =>
    if ! trans i then
      let temp := elt s.g i q
      if temp > 0 then
        let quot := elt s.g i (n + 1) / temp
        let s1 : Search :=
          if quot < 0 then { s with g := set s.g i (n + 1) 0 } else s
        let quot := if quot < 0 then 0 else quot
        if quot < s1.max then { s1 with p := i, max := quot } else s1
      else s
    else s) ⟨g, 0, INFINITY⟩ (by omega)
    ⟨hd, fun i k hi hi2 hk hk2 => by
      have : ¬ (k = n + 1 ∧ i < 1 ∧ trans i = false ∧ elt g i q > 0 ∧ elt g i (n + 1) < 0) := by omega
      rw [if_neg this]⟩
    (by
      intro j r hj hj2 ⟨hd1, hE⟩
      obtain ⟨rg, rp, rmax⟩ := r
      simp only at hd1 hE
      have hcur : elt rg j (n + 1) = elt g j (n + 1) := by
        rw [hE j (n + 1) hj (by omega) (by omega) (by omega)]
        have : ¬ (n + 1 = n + 1 ∧ j < j ∧ trans j = false ∧ elt g j q > 0 ∧ elt g j (n + 1) < 0) := by omega
        rw [if_neg this]
      have hcol : elt rg j q = elt g j q := by
        rw [hE j q hj (by omega) hq (by omega)]
        have : ¬ (q = n + 1 ∧ j < j ∧ trans j = false ∧ elt g j q > 0 ∧ elt g j (n + 1) < 0) := by omega
        rw [if_neg this]
      have fin : ∀ g2 : Matrix,
          (∀ i k, 1 ≤ i → i ≤ m + 1 → 1 ≤ k → k ≤ n + 1 →
            elt g2 i k = if i = j ∧ k = n + 1 ∧ trans j = false ∧ elt g j q > 0 ∧ elt g j (n + 1) < 0 then 0 else elt rg i k) →
          ∀ i k, 1 ≤ i → i ≤ m + 1 → 1 ≤ k → k ≤ n + 1 →
            elt g2 i k =
              if k = n + 1 ∧ i < j + 1 ∧ trans i = false ∧ elt g i q > 0 ∧ elt g i (n + 1) < 0 then 0
              else elt g i k := by
        intro g2 h2 i k hi hi2 hk hk2
        rw [h2 i k hi hi2 hk hk2, hE i k hi hi2 hk hk2]
        by_cases e : i = j ∧ k = n + 1 ∧ trans j = false ∧ elt g j q > 0 ∧ elt g j (n + 1) < 0
        · obtain ⟨e1, e2, e3⟩ := e
          subst e1
          subst e2
          rw [if_pos ⟨rfl, rfl, e3⟩, if_pos ⟨rfl, by omega, e3⟩]
        · rw [if_neg e]
          by_cases c : k = n + 1 ∧ i < j ∧ trans i = false ∧ elt g i q > 0 ∧ elt g i (n + 1) < 0
          · rw [if_pos c, if_pos ⟨c.1, by omega, c.2.2⟩]
          · rw [if_neg c]
            have : ¬ (k = n + 1 ∧ i < j + 1 ∧ trans i = false ∧ elt g i q > 0 ∧ elt g i (n + 1) < 0) := by
              intro ⟨c1, c2, c3⟩
              by_cases e3 : i = j
              · subst e3; exact e ⟨rfl, c1, c3⟩
              · exact c ⟨c1, by omega, c3⟩
            rw [if_neg this]
      have keep : ¬ (trans j = false ∧ elt g j q > 0 ∧ elt g j (n + 1) < 0) →
          ∀ i k, 1 ≤ i → i ≤ m + 1 → 1 ≤ k → k ≤ n + 1 →
            elt rg i k = if i = j ∧ k = n + 1 ∧ trans j = false ∧ elt g j q > 0 ∧ elt g j (n + 1) < 0 then 0 else elt rg i k := by
        intro hn i k _ _ _ _
        have : ¬ (i = j ∧ k = n + 1 ∧ trans j = false ∧ elt g j q > 0 ∧ elt g j (n + 1) < 0) := fun h => hn h.2.2
        rw [if_neg this]
      by_cases ht : trans j = false
      · by_cases htemp : elt g j q > 0
        · have htemp1 : elt rg j q > 0 := by rw [hcol]; exact htemp
          simp only [ht, Bool.not_false, if_true, htemp1]
          by_cases hneg : elt g j (n + 1) < 0
          · have hreset : elt rg j (n + 1) / elt rg j q < 0 := by
              rw [hcur, hcol]
              exact div_neg_of_neg_of_pos hneg htemp
            simp only [hreset, if_true]
            have hg2 : ∀ i k, 1 ≤ i → i ≤ m + 1 → 1 ≤ k → k ≤ n + 1 →
                elt (set rg j (n + 1) 0) i k
                  = if i = j ∧ k = n + 1 ∧ trans j = false ∧ elt g j q > 0 ∧ elt g j (n + 1) < 0 then 0 else elt rg i k := by
              intro i k hi hi2 hk hk2
              rw [elt_set_valid hd1 j (n + 1) i k 0 hj (by omega) (by omega) (by omega)
                hi hi2 hk hk2]
              by_cases e : i = j ∧ k = n + 1
              · rw [if_pos e, if_pos ⟨e.1, e.2, ht, htemp, hneg⟩]
              · rw [if_neg e, if_neg (fun h => e ⟨h.1, h.2.1⟩)]
            split_ifs
            · exact ⟨hd1.set _ _ _, fin _ hg2⟩
            · exact ⟨hd1.set _ _ _, fin _ hg2⟩
          · have hnC : ¬ (trans j = false ∧ elt g j q > 0 ∧ elt g j (n + 1) < 0) := fun h => hneg h.2.2
            by_cases hreset : elt rg j (n + 1) / elt rg j q < 0
            · simp only [hreset, if_true]
              have hz : elt rg j (n + 1) = 0 := by
                rw [hcur, hcol] at hreset
                rw [hcur]
                exact absurd hreset (not_lt.mpr (div_nonneg (not_lt.mp hneg) (le_of_lt htemp)))
              have hg2 : ∀ i k, 1 ≤ i → i ≤ m + 1 → 1 ≤ k → k ≤ n + 1 →
                  elt (set rg j (n + 1) 0) i k
                    = if i = j ∧ k = n + 1 ∧ trans j = false ∧ elt g j q > 0 ∧ elt g j (n + 1) < 0 then 0 else elt rg i k := by
                intro i k hi hi2 hk hk2
                rw [if_neg (fun h => hnC h.2.2),
                  elt_set_valid hd1 j (n + 1) i k 0 hj (by omega) (by omega) (by omega)
                  hi hi2 hk hk2]
                by_cases e : i = j ∧ k = n + 1
                · rw [if_pos e, e.1, e.2, hz]
                · rw [if_neg e]
              split_ifs
              · exact ⟨hd1.set _ _ _, fin _ hg2⟩
              · exact ⟨hd1.set _ _ _, fin _ hg2⟩
            · simp only [hreset, if_false]
              split_ifs
              · exact ⟨hd1, fin _ (keep hnC)⟩
              · exact ⟨hd1, fin _ (keep hnC)⟩
        · have htemp1 : ¬ (elt rg j q > 0) := by rw [hcol]; exact htemp
          simp only [ht, Bool.not_false, if_true, htemp1, if_false]
          exact ⟨hd1, fin _ (keep (fun h => htemp h.2.1))⟩
      · have ht' : trans j = true := by simpa using ht
        simp only [ht', Bool.not_true, Bool.false_eq_true, if_false]
        exact ⟨hd1, fin _ (keep (fun h => ht h.1))⟩)
  obtain ⟨k1, k2⟩ := key
  refine ⟨k1, ?_⟩
  intro i k hi hi2 hk hk2
  rw [k2 i k hi hi2 hk hk2]
  by_cases c : k = n + 1 ∧ i < m + 1 ∧ trans i = false ∧ elt g i q > 0 ∧ elt g i (n + 1) < 0
  · rw [if_pos c, if_pos ⟨c.1, by omega, c.2.2⟩]
  · rw [if_neg c]
    have : ¬ (k = n + 1 ∧ i ≤ m ∧ trans i = false ∧ elt g i q > 0 ∧ elt g i (n + 1) < 0) := by
      intro ⟨c1, c2, c3⟩
      exact c ⟨c1, by omega, c3⟩
    rw [if_neg this]

/-- The matrix the first row search of `eliminate` leaves: the constant of a
row `1..m` that is not marked, has a negative coefficient in column `q` and
is negative becomes zero, whatever its magnitude; nothing else changes. -/
theorem elim_search_neg_elt {g : Matrix} {n m : Nat} (hd : Dim g n m) (q : Nat)
    (hq : 1 ≤ q) (hq2 : q ≤ n) (trans : Nat → Bool) :
    Dim (elim_search_neg n m q trans g).g n m ∧
    ∀ i k, 1 ≤ i → i ≤ m + 1 → 1 ≤ k → k ≤ n + 1 →
      elt (elim_search_neg n m q trans g).g i k =
        if k = n + 1 ∧ i ≤ m ∧ trans i = false ∧ elt g i q < 0 ∧ elt g i (n + 1) < 0 then 0
        else elt g i k := by
  unfold elim_search_neg
  have key := forLoop_inv
    (fun j (r : Search) => Dim r.g n m ∧ ∀ i k, 1 ≤ i → i ≤ m + 1 → 1 ≤ k → k ≤ n + 1 →
      elt r.g i k =
        if k = n + 1 ∧ i < j ∧ trans i = false ∧ elt g i q < 0 ∧ elt g i (n + 1) < 0 then 0
        else elt g i k)
    1 m (fun i s =>
    if ! trans i then
      let temp := elt s.g i q
      if temp < 0 then
        let quot := elt s.g i (n + 1) / temp
        let s1 : Search :=
          if quot ≥ 0 then { s with g := set s.g i (n + 1) 0 } else s
        let quot := if quot ≥ 0 then 0 else quot
        if quot > s1.max then { s1 with p := i, max := quot } else s1
      else s
    else s) ⟨g, 0, - INFINITY⟩ (by omega)
    ⟨hd, fun i k hi hi2 hk hk2 => by
      have : ¬ (k = n + 1 ∧ i < 1 ∧ trans i = false ∧ elt g i q < 0 ∧ elt g i (n + 1) < 0) := by omega
      rw [if_neg this]⟩
    (by
      intro j r hj hj2 ⟨hd1, hE⟩
      obtain ⟨rg, rp, rmax⟩ := r
      simp only at hd1 hE
      have hcur : elt rg j (n + 1) = elt g j (n + 1) := by
        rw [hE j (n + 1) hj (by omega) (by omega) (by omega)]
        have : ¬ (n + 1 = n + 1 ∧ j < j ∧ trans j = false ∧ elt g j q < 0 ∧ elt g j (n + 1) < 0) := by omega
        rw [if_neg this]
      have hcol : elt rg j q = elt g j q := by
        rw [hE j q hj (by omega) hq (by omega)]
        have : ¬ (q = n + 1 ∧ j < j ∧ trans j = false ∧ elt g j q < 0 ∧ elt g j (n + 1) < 0) := by omega
        rw [if_neg this]
      have fin : ∀ g2 : Matrix,
          (∀ i k, 1 ≤ i → i ≤ m + 1 → 1 ≤ k → k ≤ n + 1 →
            elt g2 i k = if i = j ∧ k = n + 1 ∧ trans j = false ∧ elt g j q < 0 ∧ elt g j (n + 1) < 0 then 0 else elt rg i k) →
          ∀ i k, 1 ≤ i → i ≤ m + 1 → 1 ≤ k → k ≤ n + 1 →
            elt g2 i k =
              if k = n + 1 ∧ i < j + 1 ∧ trans i = false ∧ elt g i q < 0 ∧ elt g i (n + 1) < 0 then 0
              else elt g i k := by
        intro g2 h2 i k hi hi2 hk hk2
        rw [h2 i k hi hi2 hk hk2, hE i k hi hi2 hk hk2]
        by_cases e : i = j ∧ k = n + 1 ∧ trans j = false ∧ elt g j q < 0 ∧ elt g j (n + 1) < 0
        · obtain ⟨e1, e2, e3⟩ := e
          subst e1
          subst e2
          rw [if_pos ⟨rfl, rfl, e3⟩, if_pos ⟨rfl, by omega, e3⟩]
        · rw [if_neg e]
          by_cases c : k = n + 1 ∧ i < j ∧ trans i = false ∧ elt g i q < 0 ∧ elt g i (n + 1) < 0
          · rw [if_pos c, if_pos ⟨c.1, by omega, c.2.2⟩]
          · rw [if_neg c]
            have : ¬ (k = n + 1 ∧ i < j + 1 ∧ trans i = false ∧ elt g i q < 0 ∧ elt g i (n + 1) < 0) := by
              intro ⟨c1, c2, c3⟩
              by_cases e3 : i = j
              · subst e3; exact e ⟨rfl, c1, c3⟩
              · exact c ⟨c1, by omega, c3⟩
            rw [if_neg this]
      have keep : ¬ (trans j = false ∧ elt g j q < 0 ∧ elt g j (n + 1) < 0) →
          ∀ i k, 1 ≤ i → i ≤ m + 1 → 1 ≤ k → k ≤ n + 1 →
            elt rg i k = if i = j ∧ k = n + 1 ∧ trans j = false ∧ elt g j q < 0 ∧ elt g j (n + 1) < 0 then 0 else elt rg i k := by
        intro hn i k _ _ _ _
        have : ¬ (i = j ∧ k = n + 1 ∧ trans j = false ∧ elt g j q < 0 ∧ elt g j (n + 1) < 0) := fun h => hn h.2.2
        rw [if_neg this]
      by_cases ht : trans j = false
      · by_cases htemp : elt g j q < 0
        · have htemp1 : elt rg j q < 0 := by rw [hcol]; exact htemp
          simp only [ht, Bool.not_false, if_true, htemp1]
          by_cases hneg : elt g j (n + 1) < 0
          · have hreset : elt rg j (n + 1) / elt rg j q ≥ 0 := by
              rw [hcur, hcol]
              exact le_of_lt (div_pos_of_neg_of_neg hneg htemp)
            simp only [hreset, if_true]
            have hg2 : ∀ i k, 1 ≤ i → i ≤ m + 1 → 1 ≤ k → k ≤ n + 1 →
                elt (set rg j (n + 1) 0) i k
                  = if i = j ∧ k = n + 1 ∧ trans j = false ∧ elt g j q < 0 ∧ elt g j (n + 1) < 0 then 0 else elt rg i k := by
              intro i k hi hi2 hk hk2
              rw [elt_set_valid hd1 j (n + 1) i k 0 hj (by omega) (by omega) (by omega)
                hi hi2 hk hk2]
              by_cases e : i = j ∧ k = n + 1
              · rw [if_pos e, if_pos ⟨e.1, e.2, ht, htemp, hneg⟩]
              · rw [if_neg e, if_neg (fun h => e ⟨h.1, h.2.1⟩)]
            split_ifs
            · exact ⟨hd1.set _ _ _, fin _ hg2⟩
            · exact ⟨hd1.set _ _ _, fin _ hg2⟩
          · have hnC : ¬ (trans j = false ∧ elt g j q < 0 ∧ elt g j (n + 1) < 0) := fun h => hneg h.2.2
            by_cases hreset : elt rg j (n + 1) / elt rg j q ≥ 0
            · simp only [hreset, if_true]
              have hz : elt rg j (n + 1) = 0 := by
                rw [hcur, hcol] at hreset
                rw [hcur]
                have h0 : 0 ≤ elt g j (n + 1) := not_lt.mp hneg
                have h1 : elt g j (n + 1) / elt g j q ≤ 0 :=
                  div_nonpos_of_nonneg_of_nonpos h0 (le_of_lt htemp)
                have h2 : elt g j (n + 1) / elt g j q = 0 := le_antisymm h1 hreset
                rcases div_eq_zero_iff.mp h2 with h3 | h3
                · exact h3
                · exact absurd h3 (ne_of_lt htemp)
              have hg2 : ∀ i k, 1 ≤ i → i ≤ m + 1 → 1 ≤ k → k ≤ n + 1 →
                  elt (set rg j (n + 1) 0) i k
                    = if i = j ∧ k = n + 1 ∧ trans j = false ∧ elt g j q < 0 ∧ elt g j (n + 1) < 0 then 0 else elt rg i k := by
                intro i k hi hi2 hk hk2
                rw [if_neg (fun h => hnC h.2.2),
                  elt_set_valid hd1 j (n + 1) i k 0 hj (by omega) (by omega) (by omega)
                  hi hi2 hk hk2]
                by_cases e : i = j ∧ k = n + 1
                · rw [if_pos e, e.1, e.2, hz]
                · rw [if_neg e]
              split_ifs
              · exact ⟨hd1.set _ _ _, fin _ hg2⟩
              · exact ⟨hd1.set _ _ _, fin _ hg2⟩
            · simp only [hreset, if_false]
              split_ifs
              · exact ⟨hd1, fin _ (keep hnC)⟩
              · exact ⟨hd1, fin _ (keep hnC)⟩
        · have htemp1 : ¬ (elt rg j q < 0) := by rw [hcol]; exact htemp
          simp only [ht, Bool.not_false, if_true, htemp1, if_false]
          exact ⟨hd1, fin _ (keep (fun h => htemp h.2.1))⟩
      · have ht' : trans j = true := by simpa using ht
        simp only [ht', Bool.not_true, Bool.false_eq_true, if_false]
        exact ⟨hd1, fin _ (keep (fun h => ht h.1))⟩)
  obtain ⟨k1, k2⟩ := key
  refine ⟨k1, ?_⟩
  intro i k hi hi2 hk hk2
  rw [k2 i k hi hi2 hk hk2]
  by_cases c : k = n + 1 ∧ i < m + 1 ∧ trans i = false ∧ elt g i q < 0 ∧ elt g i (n + 1) < 0
  · rw [if_pos c, if_pos ⟨c.1, by omega, c.2.2⟩]
  · rw [if_neg c]
    have : ¬ (k = n + 1 ∧ i ≤ m ∧ trans i = false ∧ elt g i q < 0 ∧ elt g i (n + 1) < 0) := by
      intro ⟨c1, c2, c3⟩
      exact c ⟨c1, by omega, c3⟩
    rw [if_neg this]

set_option maxRecDepth 100000 in
/-- C34, counterexample: constants below `- EPSILON` are reset to zero.  In
the worked example the RSV row has the value `-0.5` at `x = idf` and the
coordinate transformation stores `0`; on a tableau whose bound rows have the
constant `-5.0`, the second search of `eliminate` resets the constant of
row 2, the first search that of row 3, and the check after the elimination
those of both rows. -/
theorem clamp_below_epsilon :
    elt example_matrix 3 3
      + (∑ k in Finset.range 2, elt example_matrix 3 (k + 1) * example_idf k) = - (1 / 2) ∧
    (- (1 / 2) : ℚ) < - EPSILON ∧
    elt (transform 2 7 example_idf example_matrix) 3 3 = 0 ∧
    (elt example_negative 2 2, elt example_negative 3 2) = (-5, -5) ∧
    (-5 : ℚ) < - EPSILON ∧
    elt (elim_search_pos 1 3 1 (fun _ => false) example_negative).g 2 2 = 0 ∧
    elt (elim_search_neg 1 3 1 (fun _ => false) example_negative).g 3 2 = 0 ∧
    (elt (check_elim 1 3 (fun _ => false) example_negative) 2 2,
      elt (check_elim 1 3 (fun _ => false) example_negative) 3 2) = (0, 0) := by
  refine ⟨by decide!, by norm_num [EPSILON], by decide!, by decide!, by norm_num [EPSILON],
    by decide!, by decide!, by decide!⟩

/-- C34, amended: the reset to zero does not depend on `EPSILON`.  For a
matrix with the array sizes of `main` and a column `q` in `1..n`: the
coordinate transformation stores `0` for every row `n+1..m` whose new
constant is negative; the searches of `eliminate` store `0` for the constant
of every row `1..m` not marked in `trans` that has a coefficient of the sign
searched for in column `q` and a negative constant; the check after the
elimination stores `0` for the constant of every row `1..m` not marked in
`trans` that is negative; always whatever the magnitude, and no other entry
is changed. -/
theorem clamp_any_negative {g : Matrix} {n m : Nat} (hd : Dim g n m) (q : Nat)
    (hq : 1 ≤ q) (hq2 : q ≤ n) (trans : Nat → Bool) (x : Nat → ℚ) :
    (∀ i k, 1 ≤ i → i ≤ m + 1 → 1 ≤ k → k ≤ n + 1 →
      elt (transform n m x g) i k =
        if k = n + 1 ∧ n + 1 ≤ i then
          (if i ≤ m ∧ elt g i (n + 1) + (∑ k in Finset.range n, elt g i (k + 1) * x k) < 0
           then 0
           else elt g i (n + 1) + ∑ k in Finset.range n, elt g i (k + 1) * x k)
        else elt g i k) ∧
    (∀ i k, 1 ≤ i → i ≤ m + 1 → 1 ≤ k → k ≤ n + 1 →
      elt (elim_search_neg n m q trans g).g i k =
        if k = n + 1 ∧ i ≤ m ∧ trans i = false ∧ elt g i q < 0 ∧ elt g i (n + 1) < 0 then 0
        else elt g i k) ∧
    (∀ i k, 1 ≤ i → i ≤ m + 1 → 1 ≤ k → k ≤ n + 1 →
      elt (elim_search_pos n m q trans g).g i k =
        if k = n + 1 ∧ i ≤ m ∧ trans i = false ∧ elt g i q > 0 ∧ elt g i (n + 1) < 0 then 0
        else elt g i k) ∧
    (∀ i k, 1 ≤ i → i ≤ m + 1 → 1 ≤ k → k ≤ n + 1 →
      elt (check_elim n m trans g) i k =
        if k = n + 1 ∧ i ≤ m ∧ trans i = false ∧ elt g i (n + 1) < 0 then 0
        else elt g i k) :=
  ⟨(transform_elt hd x).2, (elim_search_neg_elt hd q hq hq2 trans).2,
    (elim_search_pos_elt hd q hq hq2 trans).2, (check_elim_elt hd trans).2⟩

set_option maxRecDepth 100000 in
theorem clamp_any_negative_witness :
    Dim example_negative 1 3 ∧
    elt example_negative 2 2 = -5 ∧
    elt (check_elim 1 3 (fun _ => false) example_negative) 2 2 =
      if 2 = 1 + 1 ∧ 2 ≤ 3 ∧ (fun _ => false) 2 = false ∧ elt example_negative 2 (1 + 1) < 0
      then 0 else elt example_negative 2 2 := by
  have hd : Dim example_negative 1 3 := by
    refine ⟨rfl, rfl, ?_, ?_, ?_, ?_, rfl⟩ <;> simp [rows_ok, example_negative]
  exact ⟨hd, by decide!,
    (clamp_any_negative hd 1 (by omega) (by omega) (fun _ => false) (fun _ => 0)).2.2.2
      2 2 (by omega) (by omega) (by omega) (by omega)⟩

/-- The slots the shifting loop of `delete_list` touches when the element is
in the list at index `i`: exactly the slots `i..num`, so the slot `num` is
read, whatever the capacity `total`. -/
theorem delete_list_slots_spec {α : Type} (key : α → Int) (list : LIST α) (e : α)
    (comp : α → α → Int)
    (hs : list.array.Pairwise (fun a b => key a < key b))
    (hc : ∀ x ∈ list.array, (comp e x < 0 ↔ key e < key x) ∧ (0 < comp e x ↔ key x < key e))
    (x : α) (hx : x ∈ list.array) (hk : key x = key e) :
    ∃ (i : Nat) (slots : List Nat), i < list.array.length ∧
      delete_list_slots list e comp = some slots ∧
      ∀ j, j ∈ slots ↔ i ≤ j ∧ j ≤ list.array.length := by
  rcases binary_search_spec key list.array e comp hs hc with
    ⟨i, y, hy, _, hb⟩ | ⟨r, _, _, h3, h4⟩
  · have hi : i < list.array.length := (List.getElem?_eq_some_iff.mp hy).1
    refine ⟨i, loop i (list.array.length - i) (fun i slots => slots ++ [i + 1, i]) [], hi, ?_, ?_⟩
    · unfold delete_list_slots
      have hneg : binary_search list.array list.array.length e comp < 0 := by
        rw [hb]; omega
      have hfirst : (- binary_search list.array list.array.length e comp - 1).toNat = i := by
        rw [hb]; omega
      simp only [hneg, if_true, hfirst]
    · have key1 := loop_inv
        (fun k (acc : List Nat) => ∀ j, j ∈ acc ↔ i < k ∧ i ≤ j ∧ j ≤ k)
        i (list.array.length - i) (fun i slots => slots ++ [i + 1, i]) []
        (by intro j; simp)
        (by
          intro k acc hk1 hk2 hI j
          simp only [List.mem_append, hI j, List.mem_cons, List.mem_singleton,
            List.not_mem_nil, or_false]
          omega)
      have e1 : i + (list.array.length - i) = list.array.length := by omega
      rw [e1] at key1
      intro j
      rw [key1 j]
      omega
  · exfalso
    have h5 : list.array = list.array.take r ++ list.array.drop r :=
      (List.take_append_drop r list.array).symm
    rw [h5] at hx
    rcases List.mem_append.mp hx with h | h
    · have := h3 x h; omega
    · have := h4 x h; omega

set_option maxRecDepth 100000 in
/-- C39 (fails on the code): after `create_list` and one `add_list` the list
has `num = 1` element in an array of `total = 1` slot; `delete_list` of that
element finds it at index 0 and its loop runs the pass `i = 0`, which reads
`arr [1]`, a slot whose index is not below `total`. -/
theorem delete_list_reads_past_end :
    example_full_list.array = [5] ∧ example_full_list.total = 1 ∧
    count_list example_full_list = 1 ∧
    binary_search example_full_list.array 1 5 (fun a b => a - b) = -1 ∧
    delete_list_slots example_full_list 5 (fun a b => a - b) = some [1, 0] ∧
    ¬ (1 < example_full_list.total) ∧
    delete_list example_full_list 5 (fun a b => a - b) = some { array := [], total := 1 } := by
  refine ⟨by decide!, by decide!, by decide!, by decide!, by decide!, by decide!, by decide!⟩

set_option maxRecDepth 100000 in
/-- C40 (fails on the code): for the document id `2147483647` and the query
id `-1`, both 32-bit, the difference `2147483648` wraps to `-2147483648`, so
each of the comparators returns a negative value although the first key is
the greater one. -/
theorem comparators_overflow :
    (-1 : Int) < 2147483647 ∧ wrap32 (2147483647 - -1) = -2147483648 ∧
    comp_doc { index := 2147483647, docatoms := create_list }
      { index := -1, docatoms := create_list } = -2147483648 ∧
    comp_atom { atom := 2147483647, mat_index := 0 } { atom := -1, mat_index := 0 }
      = -2147483648 ∧
    comp_wgt { d_atom := 2147483647, weight := 0 } { d_atom := -1, weight := 0 }
      = -2147483648 ∧
    comp_sign { sign := 2147483647, atoms := create_list } { sign := -1, atoms := create_list }
      = -2147483648 ∧
    comp_unused { u_atom := 2147483647, idf := 0 } { u_atom := -1, idf := 0 }
      = -2147483648 ∧
    (-2147483648 : Int) < 0 := by
  refine ⟨by decide, by decide!, by decide!, by decide!, by decide!, by decide!, by decide!,
    by decide⟩

/-- The sign of the wrapped difference of two 32-bit keys is that of their
order exactly when the difference itself fits in 32 bits; it is zero
exactly for equal keys. -/
theorem wrap32_sign (a b : Int) (ha : -2147483648 ≤ a) (ha2 : a < 2147483648)
    (hb : -2147483648 ≤ b) (hb2 : b < 2147483648) :
    (((wrap32 (a - b) < 0 ↔ a < b) ∧ (0 < wrap32 (a - b) ↔ b < a)) ↔
      (-2147483648 ≤ a - b ∧ a - b < 2147483648)) ∧
    (wrap32 (a - b) = 0 ↔ a = b) := by
  unfold wrap32
  constructor
  · constructor
    · intro ⟨h1, h2⟩
      by_contra hno
      by_cases hab : a < b
      · have := h1.mpr hab
        omega
      · by_cases hba : b < a
        · have := h2.mpr hba
          omega
        · omega
    · intro h
      constructor <;> constructor <;> intro h1 <;> omega
  · constructor <;> intro h1 <;> omega

/-- A sum over the columns of a vector after one entry has been stored. -/
theorem sum_set (n c : Nat) (v : List ℚ) (x : ℚ) (f : Nat → ℚ) (hc : c < n)
    (hl : c < v.length) :
    (∑ k in Finset.range n, (v.set c x).getD k 0 * f k)
      = (∑ k in Finset.range n, v.getD k 0 * f k) + (x - v.getD c 0) * f c := by
  have h1 : ∀ k ∈ Finset.range n, (v.set c x).getD k 0 * f k
      = v.getD k 0 * f k + (if k = c then (x - v.getD c 0) * f c else 0) := by
    intro k _
    rw [List.getD_eq_getElem?_getD, List.getD_eq_getElem?_getD, List.getElem?_set]
    by_cases e : c = k
    · subst e
      simp only [if_true, hl]
      rw [List.getD_eq_getElem?_getD]
      simp only [Option.getD_some]
      ring
    · have e1 : ¬ k = c := fun h => e h.symm
      simp only [e, e1, if_false, add_zero]
  rw [Finset.sum_congr rfl h1, Finset.sum_add_distrib, Finset.sum_ite_eq']
  have hm : c ∈ Finset.range n := by simp; omega
  rw [if_pos hm]

/-- The concept of the column of an entry of `atom_list` is that entry's
concept. -/
theorem column_atom_spec (G : Globals) (hG : ListsOK G) (e : ATOM_STRUCT)
    (he : e ∈ G.atom_list.array) :
    column_atom G.atom_list e.mat_index.toNat = e.atom := by
  unfold column_atom
  have hc := hG.cols e he
  have hcast : ((e.mat_index.toNat : Nat) : Int) = e.mat_index := by omega
  rw [hcast]
  cases hf : G.atom_list.array.find? (fun e1 => e1.mat_index = e.mat_index) with
  | none =>
    have := List.find?_eq_none.mp hf e he
    simp at this
  | some e1 =>
    have hm := List.mem_of_find?_eq_some hf
    have hp := List.find?_some hf
    simp only [decide_eq_true_eq] at hp
    exact hG.cols_inj e1 hm e he hp

/-- The value of the equation that `union_proc` accumulates in `glob_v` and
`glob_const`, at a weight assignment `w` that equals the supplied IDF on the
concepts without a column: every pair of shared weights adds
`weight_q * weight_d * w (concept)`. -/
theorem union_fold_value (G : Globals) (hG : ListsOK G) (w : Int → ℚ)
    (hw : ∀ a u, matrix_index G.atom_list a = -1 →
      lookup_list G.unused_wgts { u_atom := a, idf := 0 } comp_unused = some u →
      w a = u.idf)
    (ps : List (WGT_STRUCT × WGT_STRUCT)) :
    ∀ st : RsvState,
      (∀ p ∈ ps, p.1.d_atom = p.2.d_atom) → (∀ p ∈ ps, small p.1.d_atom) →
      (∀ p ∈ ps, rsv_col G p = -1 →
        ∃ u, lookup_list G.unused_wgts { u_atom := p.1.d_atom, idf := 0 } comp_unused
          = some u) →
      ps.Pairwise (fun p q => p.1.d_atom < q.1.d_atom) →
      G.num_weights < st.glob_v.length →
      (∀ p ∈ ps, rsv_col G p ≠ -1 → st.glob_v.getD (rsv_col G p).toNat 0 = 0) →
      (∑ k in Finset.range G.num_weights,
          (ps.foldl (fun s p => (union_proc G p.1 p.2 s).2) st).glob_v.getD k 0
            * w (column_atom G.atom_list k))
        + (ps.foldl (fun s p => (union_proc G p.1 p.2 s).2) st).glob_const
      = (∑ k in Finset.range G.num_weights,
          st.glob_v.getD k 0 * w (column_atom G.atom_list k))
        + st.glob_const + (ps.map (fun p => rsv_prod p * w p.1.d_atom)).sum := by
  induction ps with
  | nil =>
    intro st _ _ _ _ _ _
    simp
  | cons p ps ih =>
    intro st heq hsm hun hsort hlen hfresh
    have heq1 := heq p (List.mem_cons_self _ _)
    have hsm1 := hsm p (List.mem_cons_self _ _)
    obtain ⟨hlt, hsort1⟩ := List.pairwise_cons.mp hsort
    simp only [List.foldl_cons, List.map_cons, List.sum_cons]
    by_cases hc : matrix_index G.atom_list p.1.d_atom = -1
    · obtain ⟨u, hu⟩ := hun p (List.mem_cons_self _ _) hc
      have hstep : (union_proc G p.1 p.2 st).2 =
          { glob_v := st.glob_v
            glob_const := st.glob_const + p.1.weight * p.2.weight * idf_of G p.1.d_atom
            glob_bool := st.glob_bool
            failed := st.failed } := by
        rw [union_proc_unused G p.1 p.2 st heq1 hc u hu]
      rw [hstep]
      have hidf : idf_of G p.1.d_atom = u.idf := by
        unfold idf_of
        rw [hu]
      rw [ih { glob_v := st.glob_v
               glob_const := st.glob_const + p.1.weight * p.2.weight * idf_of G p.1.d_atom
               glob_bool := st.glob_bool
               failed := st.failed }
        (fun q hq => heq q (List.mem_cons_of_mem _ hq))
        (fun q hq => hsm q (List.mem_cons_of_mem _ hq))
        (fun q hq => hun q (List.mem_cons_of_mem _ hq)) hsort1 hlen
        (fun q hq => hfresh q (List.mem_cons_of_mem _ hq))]
      simp only []
      rw [hidf, hw _ u hc hu]
      unfold rsv_prod
      ring
    · obtain ⟨e, he, hea, hem, hlo, hhi⟩ := matrix_index_ne G hG p.1.d_atom hsm1 hc
      have hcol : column_atom G.atom_list (matrix_index G.atom_list p.1.d_atom).toNat
          = p.1.d_atom := by
        rw [hem, column_atom_spec G hG e he, hea]
      have hcn : (matrix_index G.atom_list p.1.d_atom).toNat < G.num_weights := by
        rw [hem]; omega
      have hstep : (union_proc G p.1 p.2 st).2 =
          { glob_v := st.glob_v.set (matrix_index G.atom_list p.1.d_atom).toNat
              (p.1.weight * p.2.weight)
            glob_const := st.glob_const
            glob_bool := if p.1.weight * p.2.weight ≠ 0 then true else st.glob_bool
            failed := st.failed } := by
        rw [union_proc_col G p.1 p.2 st heq1 hc]
      rw [hstep]
      rw [ih { glob_v := st.glob_v.set (matrix_index G.atom_list p.1.d_atom).toNat
                 (p.1.weight * p.2.weight)
               glob_const := st.glob_const
               glob_bool := if p.1.weight * p.2.weight ≠ 0 then true else st.glob_bool
               failed := st.failed }
        (fun q hq => heq q (List.mem_cons_of_mem _ hq))
        (fun q hq => hsm q (List.mem_cons_of_mem _ hq))
        (fun q hq => hun q (List.mem_cons_of_mem _ hq)) hsort1
        (by simp only [List.length_set]; exact hlen)
        (by
          intro q hq hqc
          simp only []
          have hsmq := hsm q (List.mem_cons_of_mem _ hq)
          obtain ⟨e1, he1, hea1, hem1, hlo1, _⟩ := matrix_index_ne G hG q.1.d_atom hsmq hqc
          have hne : (matrix_index G.atom_list p.1.d_atom).toNat
              ≠ (rsv_col G q).toNat := by
            intro hsame
            unfold rsv_col at hsame
            rw [hem, hem1] at hsame
            have : e.mat_index = e1.mat_index := by omega
            have := hG.cols_inj e he e1 he1 this
            rw [hea, hea1] at this
            have := hlt q hq
            omega
          rw [List.getD_eq_getElem?_getD, List.getElem?_set_ne hne,
            ← List.getD_eq_getElem?_getD]
          exact hfresh q (List.mem_cons_of_mem _ hq) hqc)]
      simp only []
      rw [sum_set G.num_weights _ st.glob_v _ _ hcn (by omega), hcol]
      have h0 := hfresh p (List.mem_cons_self _ _) hc
      unfold rsv_col at h0
      rw [h0]
      unfold rsv_prod
      ring

/-- The sum of a function over the pairs the double loop finds equal, as a
nested sum. -/
theorem naive_union_sum {α : Type} (compare : α → α → Int) (P : α → α → Bool)
    (f : α × α → ℚ) (l2 : List α) :
    ∀ l1 : List α, (∀ a ∈ l1, ∀ b ∈ l2, (compare a b = 0 ↔ P a b = true)) →
      ((naive_union compare l1 l2).map f).sum
        = (l1.map (fun a => ((l2.filter (P a)).map (fun b => f (a, b))).sum)).sum := by
  intro l1
  induction l1 with
  | nil =>
    intro _
    simp [naive_union]
  | cons a l1 ih =>
    intro h
    have hf : l2.filter (fun b => decide (compare a b = 0)) = l2.filter (P a) := by
      apply List.filter_congr
      intro b hb
      have := h a (List.mem_cons_self _ _) b hb
      by_cases hp : P a b = true
      · simp [hp, this.mpr hp]
      · have hn : ¬ compare a b = 0 := fun h0 => hp (this.mp h0)
        simp [hp, hn]
    simp only [naive_union, List.map_append, List.sum_append, List.map_map, List.map_cons,
      List.sum_cons]
    rw [ih (fun a1 ha1 b hb => h a1 (List.mem_cons_of_mem _ ha1) b hb), hf]
    rfl

/-- The sum over the shared pairs of two vectors is the weighted sparse dot
product `rsv_w`. -/
theorem shared_sum (w : Int → ℚ) (q d : DOC_STRUCT) (hqv : vector_ok q) (hdv : vector_ok d) :
    ((shared q d).map (fun p => rsv_prod p * w p.1.d_atom)).sum = rsv_w w q d := by
  unfold shared rsv_w
  rw [naive_union_sum comp_wgt (fun a b => decide (b.d_atom = a.d_atom))
    (fun p => rsv_prod p * w p.1.d_atom) d.docatoms.array q.docatoms.array]
  · rfl
  · intro a ha b hb
    unfold comp_wgt
    rw [wrap32_small a.d_atom b.d_atom (hqv.2 a ha) (hdv.2 b hb)]
    simp only [decide_eq_true_eq]
    constructor <;> intro h <;> omega

/-- The value, at a weight assignment `w` that equals the supplied IDF on the
concepts without a column, of the equation `calc_rsv` of simplex.c stores
for a query and a document: `RSV_w (q, d)`. -/
theorem calc_rsv_value (G : Globals) (hG : ListsOK G) (w : Int → ℚ)
    (hw : ∀ a u, matrix_index G.atom_list a = -1 →
      lookup_list G.unused_wgts { u_atom := a, idf := 0 } comp_unused = some u →
      w a = u.idf)
    (d1 d2 : Int) (q d : DOC_STRUCT)
    (hq : lookup_list G.doc_list { index := d1, docatoms := create_list } comp_doc = some q)
    (hd : lookup_list G.doc_list { index := d2, docatoms := create_list } comp_doc = some d)
    (hqv : vector_ok q) (hdv : vector_ok d)
    (hun : ∀ p ∈ shared q d, rsv_col G p = -1 →
      ∃ u, lookup_list G.unused_wgts { u_atom := p.1.d_atom, idf := 0 } comp_unused = some u) :
    ∃ b v c, calc_rsv G d1 d2 (alloc_vector G.num_weights) = some (b, v, c) ∧
      v.length = G.num_weights + 1 ∧
      (∑ k in Finset.range G.num_weights, v.getD k 0 * w (column_atom G.atom_list k)) + c
        = rsv_w w q d := by
  obtain ⟨hprops, hsort⟩ := shared_props q d hqv hdv
  have hlen0 : (alloc_vector G.num_weights).length = G.num_weights + 1 := by
    simp [alloc_vector]
  have hspec := union_fold_spec G hG (shared q d)
    { glob_v := alloc_vector G.num_weights, glob_const := 0, glob_bool := false,
      failed := false }
    (fun p hp => (hprops p hp).2.2.1) (fun p hp => (hprops p hp).2.2.2) hun hsort
    (by simp only [hlen0]; omega)
  have hval := union_fold_value G hG w hw (shared q d)
    { glob_v := alloc_vector G.num_weights, glob_const := 0, glob_bool := false,
      failed := false }
    (fun p hp => (hprops p hp).2.2.1) (fun p hp => (hprops p hp).2.2.2) hun hsort
    (by simp only [hlen0]; omega)
    (fun p _ _ => alloc_vector_getD _ _)
  have hzero : (∑ k in Finset.range G.num_weights,
      (alloc_vector G.num_weights).getD k 0 * w (column_atom G.atom_list k)) = 0 := by
    apply Finset.sum_eq_zero
    intro k _
    rw [alloc_vector_getD, zero_mul]
  simp only [hzero, zero_add] at hval
  rw [shared_sum w q d hqv hdv] at hval
  refine ⟨((shared q d).foldl (fun s p => (union_proc G p.1 p.2 s).2)
    { glob_v := alloc_vector G.num_weights, glob_const := 0, glob_bool := false,
      failed := false }).glob_bool, _, _, ?_, ?_, hval⟩
  · unfold calc_rsv
    rw [hq, hd]
    simp only []
    rw [calc_rsv_union G q d hqv hdv hun]
    simp only [hspec.1, Bool.false_eq_true, if_false]
  · rw [hspec.2.1, hlen0]

/-- The value of the row `enum_pref` builds for a preference line, at a
weight assignment `w` that equals the supplied IDF on the concepts without a
column: `sign * (RSV_w (q, d1) - RSV_w (q, d2) + EPSILON)`. -/
theorem pref_row_value (G : Globals) (hG : ListsOK G) (w : Int → ℚ)
    (hw : ∀ a u, matrix_index G.atom_list a = -1 →
      lookup_list G.unused_wgts { u_atom := a, idf := 0 } comp_unused = some u →
      w a = u.idf)
    (p : Pref) (q d1 d2 : DOC_STRUCT)
    (hq : lookup_list G.doc_list { index := p.d, docatoms := create_list } comp_doc = some q)
    (h1 : lookup_list G.doc_list { index := p.d1, docatoms := create_list } comp_doc
      = some d1)
    (h2 : lookup_list G.doc_list { index := p.d2, docatoms := create_list } comp_doc
      = some d2)
    (hqv : vector_ok q) (hv1 : vector_ok d1) (hv2 : vector_ok d2)
    (hun1 : ∀ p ∈ shared q d1, rsv_col G p = -1 →
      ∃ u, lookup_list G.unused_wgts { u_atom := p.1.d_atom, idf := 0 } comp_unused = some u)
    (hun2 : ∀ p ∈ shared q d2, rsv_col G p = -1 →
      ∃ u, lookup_list G.unused_wgts { u_atom := p.1.d_atom, idf := 0 } comp_unused
        = some u) :
    row_value G.num_weights (pref_row G p) (fun k => w (column_atom G.atom_list k))
      = pref_sign p.type * (rsv_w w q d1 - rsv_w w q d2 + EPSILON) := by
  obtain ⟨b1, v1, c1, e1, l1, s1⟩ :=
    calc_rsv_value G hG w hw p.d p.d1 q d1 hq h1 hqv hv1 hun1
  obtain ⟨b2, v2, c2, e2, l2, s2⟩ :=
    calc_rsv_value G hG w hw p.d p.d2 q d2 hq h2 hqv hv2 hun2
  obtain ⟨r1, r2, r3⟩ := build_row_spec G.num_weights p.type v1 v2 c1 c2 l1
  unfold row_value pref_row
  rw [e1, e2]
  simp only []
  rw [r3]
  have hsum : (∑ k in Finset.range G.num_weights,
      (build_row G.num_weights p.type v1 v2 c1 c2).getD k 0 * w (column_atom G.atom_list k))
      = pref_sign p.type * ((∑ k in Finset.range G.num_weights,
          v1.getD k 0 * w (column_atom G.atom_list k))
        - ∑ k in Finset.range G.num_weights,
          v2.getD k 0 * w (column_atom G.atom_list k)) := by
    rw [← Finset.sum_sub_distrib, Finset.mul_sum]
    apply Finset.sum_congr rfl
    intro k hk
    rw [r2 k (Finset.mem_range.mp hk)]
    unfold pref_sign
    ring
  rw [hsum, ← s1, ← s2]
  unfold pref_sign
  ring

/-- What `union_proc` of calc_rsv.c does for a pair of weights of one
concept that `atom_list` holds with the weight `w (concept)`. -/
theorem union_proc_c (L : LIST CalcRsv.ATOM_STRUCT) (w : Int → ℚ)
    (hLs : L.array.Pairwise (fun a b => a.atom < b.atom))
    (hLsm : ∀ e ∈ L.array, small e.atom) (hLw : ∀ e ∈ L.array, e.weight = w e.atom)
    (a b : CalcRsv.ATOM_STRUCT) (ha : small a.atom) (he : a.atom = b.atom)
    (hin : ∃ e ∈ L.array, e.atom = a.atom) (st : CalcRsv.RsvState) :
    CalcRsv.union_proc L a b st
      = (true, { glob_rsv := st.glob_rsv + a.weight * b.weight * w a.atom,
                 failed := st.failed }) := by
  unfold CalcRsv.union_proc
  have hne : ¬ a.atom ≠ b.atom := fun h => h he
  simp only [hne, if_false]
  rcases lookup_list_spec (fun x : CalcRsv.ATOM_STRUCT => x.atom) L a CalcRsv.comp_atom hLs
      (fun x hx => comp_small a.atom x.atom ha (hLsm x hx)) with
    ⟨x, hx, hk, hl⟩ | ⟨hno, _⟩
  · rw [hl]
    simp only []
    rw [hLw x hx, hk]
  · obtain ⟨e, he1, he2⟩ := hin
    exact absurd he2 (hno e he1)

/-- The sum that the calls of `union_proc` of calc_rsv.c leave in
`glob_rsv`. -/
theorem union_fold_c (L : LIST CalcRsv.ATOM_STRUCT) (w : Int → ℚ)
    (hLs : L.array.Pairwise (fun a b => a.atom < b.atom))
    (hLsm : ∀ e ∈ L.array, small e.atom) (hLw : ∀ e ∈ L.array, e.weight = w e.atom)
    (ps : List (CalcRsv.ATOM_STRUCT × CalcRsv.ATOM_STRUCT)) :
    ∀ st : CalcRsv.RsvState,
      (∀ p ∈ ps, small p.1.atom ∧ p.1.atom = p.2.atom ∧ ∃ e ∈ L.array, e.atom = p.1.atom) →
      ps.foldl (fun s p => (CalcRsv.union_proc L p.1 p.2 s).2) st
        = { glob_rsv := st.glob_rsv
              + (ps.map (fun p => p.1.weight * p.2.weight * w p.1.atom)).sum,
            failed := st.failed } := by
  induction ps with
  | nil =>
    intro st _
    simp
  | cons p ps ih =>
    intro st h
    obtain ⟨h1, h2, h3⟩ := h p (List.mem_cons_self _ _)
    simp only [List.foldl_cons, List.map_cons, List.sum_cons]
    have hstep : (CalcRsv.union_proc L p.1 p.2 st).2
        = { glob_rsv := st.glob_rsv + p.1.weight * p.2.weight * w p.1.atom,
            failed := st.failed } := by
      rw [union_proc_c L w hLs hLsm hLw p.1 p.2 h1 h2 h3 st]
    rw [hstep, ih { glob_rsv := st.glob_rsv + p.1.weight * p.2.weight * w p.1.atom,
                    failed := st.failed }
      (fun q hq => h q (List.mem_cons_of_mem _ hq))]
    simp only [CalcRsv.RsvState.mk.injEq, and_true]
    ring

/-- The function `calc_rsv` of calc_rsv.c, on an `atom_list` that holds every
shared concept with the weight `w (concept)`, returns `RSV_w (q, d)`. -/
theorem calc_rsv_c_value (L : LIST CalcRsv.ATOM_STRUCT) (w : Int → ℚ) (q d : DOC_STRUCT)
    (hqv : vector_ok q) (hdv : vector_ok d)
    (hLs : L.array.Pairwise (fun a b => a.atom < b.atom))
    (hLsm : ∀ e ∈ L.array, small e.atom) (hLw : ∀ e ∈ L.array, e.weight = w e.atom)
    (hLc : ∀ p ∈ shared q d, ∃ e ∈ L.array, e.atom = p.1.d_atom) :
    CalcRsv.calc_rsv L (to_calc_doc q) (to_calc_doc d) = some (rsv_w w q d) := by
  have hmem : ∀ (l : List WGT_STRUCT) (a : CalcRsv.ATOM_STRUCT), a ∈ l.map to_calc_atom →
      ∃ a0 ∈ l, a = to_calc_atom a0 := by
    intro l a ha
    obtain ⟨a0, h0, h1⟩ := List.mem_map.mp ha
    exact ⟨a0, h0, h1.symm⟩
  have hs1 : (q.docatoms.array.map to_calc_atom).Pairwise (fun a b => a.atom < b.atom) :=
    List.pairwise_map.mpr hqv.1
  have hs2 : (d.docatoms.array.map to_calc_atom).Pairwise (fun a b => a.atom < b.atom) :=
    List.pairwise_map.mpr hdv.1
  have hpairs : ∀ p ∈ naive_union CalcRsv.comp_atom (q.docatoms.array.map to_calc_atom)
      (d.docatoms.array.map to_calc_atom),
      small p.1.atom ∧ p.1.atom = p.2.atom ∧ ∃ e ∈ L.array, e.atom = p.1.atom := by
    intro p hp
    obtain ⟨ha, hb, h0⟩ := (mem_naive_union CalcRsv.comp_atom _ _ p.1 p.2).mp hp
    obtain ⟨a0, ha0, ea⟩ := hmem _ _ ha
    obtain ⟨b0, hb0, eb⟩ := hmem _ _ hb
    have hsa : small a0.d_atom := hqv.2 a0 ha0
    have hsb : small b0.d_atom := hdv.2 b0 hb0
    have h00 : comp_wgt a0 b0 = 0 := by
      rw [ea, eb] at h0
      exact h0
    have hsh : (a0, b0) ∈ shared q d :=
      (mem_naive_union comp_wgt _ _ a0 b0).mpr ⟨ha0, hb0, h00⟩
    have heq := comp_wgt_zero a0 b0 hsa hsb h00
    rw [ea, eb]
    exact ⟨hsa, heq, hLc (a0, b0) hsh⟩
  unfold CalcRsv.calc_rsv find_union
  have hun := find_union_loop_eq (fun a : CalcRsv.ATOM_STRUCT => a.atom) CalcRsv.comp_atom
    (CalcRsv.union_proc L) (q.docatoms.array.map to_calc_atom)
    (d.docatoms.array.map to_calc_atom) { glob_rsv := 0, failed := false } hs1 hs2
    (by
      intro a ha b hb
      obtain ⟨a0, ha0, ea⟩ := hmem _ _ ha
      obtain ⟨b0, hb0, eb⟩ := hmem _ _ hb
      rw [ea, eb]
      exact comp_small a0.d_atom b0.d_atom (hqv.2 a0 ha0) (hdv.2 b0 hb0))
    (by
      intro a ha b hb h0 s
      obtain ⟨h1, h2, h3⟩ := hpairs (a, b)
        ((mem_naive_union CalcRsv.comp_atom _ _ a b).mpr ⟨ha, hb, h0⟩)
      rw [union_proc_c L w hLs hLsm hLw a b h1 h2 h3 s])
  have hdoc1 : (to_calc_doc q).docatoms.array = q.docatoms.array.map to_calc_atom := rfl
  have hdoc2 : (to_calc_doc d).docatoms.array = d.docatoms.array.map to_calc_atom := rfl
  simp only [hdoc1, hdoc2, hun]
  rw [union_fold_c L w hLs hLsm hLw _ _ hpairs]
  simp only [Bool.false_eq_true, if_false, zero_add, Option.some.injEq]
  rw [naive_union_sum CalcRsv.comp_atom (fun a b => decide (b.atom = a.atom))
    (fun p => p.1.weight * p.2.weight * w p.1.atom)]
  · unfold rsv_w
    simp only [List.map_map, List.filter_map, Function.comp_def, to_calc_atom]
  · intro a ha b hb
    obtain ⟨a0, ha0, ea⟩ := hmem _ _ ha
    obtain ⟨b0, hb0, eb⟩ := hmem _ _ hb
    rw [ea, eb]
    unfold CalcRsv.comp_atom to_calc_atom
    simp only [decide_eq_true_eq]
    rw [wrap32_small a0.d_atom b0.d_atom (hqv.2 a0 ha0) (hdv.2 b0 hb0)]
    constructor <;> intro h <;> omega

/-- C36: over exact arithmetic, for a preference line `(type, query, doc1,
doc2)` that is not dropped, on well-formed lists with sorted weight vectors
and an IDF for every shared concept without a column, and for every weight
assignment `w` that equals the supplied IDF on the concepts without a
column: `enum_pref` builds the row `pref_row`, and the sum over the columns
`k` of `row[k] * w (concept of k)` plus the constant of the row equals
`sign * (RSV_w (query, doc1) - RSV_w (query, doc2) + EPSILON)`, where
`RSV_w (q, d)`, the sum over the shared concepts of
`weight_q * weight_d * w`, is what `calc_rsv` of calc_rsv.c returns for the
same vectors on an `atom_list` that holds the weights `w`. -/
theorem rsv_row_refines (G : Globals) (hG : ListsOK G) (w : Int → ℚ)
    (hw : ∀ a u, matrix_index G.atom_list a = -1 →
      lookup_list G.unused_wgts { u_atom := a, idf := 0 } comp_unused = some u →
      w a = u.idf)
    (p : Pref) (q d1 d2 : DOC_STRUCT)
    (hq : lookup_list G.doc_list { index := p.d, docatoms := create_list } comp_doc = some q)
    (h1 : lookup_list G.doc_list { index := p.d1, docatoms := create_list } comp_doc
      = some d1)
    (h2 : lookup_list G.doc_list { index := p.d2, docatoms := create_list } comp_doc
      = some d2)
    (hqv : vector_ok q) (hv1 : vector_ok d1) (hv2 : vector_ok d2)
    (hun1 : ∀ p ∈ shared q d1, rsv_col G p = -1 →
      ∃ u, lookup_list G.unused_wgts { u_atom := p.1.d_atom, idf := 0 } comp_unused = some u)
    (hun2 : ∀ p ∈ shared q d2, rsv_col G p = -1 →
      ∃ u, lookup_list G.unused_wgts { u_atom := p.1.d_atom, idf := 0 } comp_unused = some u)
    (hkept : pref_kept G p = true)
    (L : LIST CalcRsv.ATOM_STRUCT)
    (hLs : L.array.Pairwise (fun a b => a.atom < b.atom))
    (hLsm : ∀ e ∈ L.array, small e.atom) (hLw : ∀ e ∈ L.array, e.weight = w e.atom)
    (hLc1 : ∀ p ∈ shared q d1, ∃ e ∈ L.array, e.atom = p.1.d_atom)
    (hLc2 : ∀ p ∈ shared q d2, ∃ e ∈ L.array, e.atom = p.1.d_atom) :
    (∀ st, enum_pref_line G false st p = some (line_state G false st p)) ∧
    (p.type ≠ 'C' → ∀ st : EnumState,
      (line_state G false st p).rsv_eq = st.rsv_eq.set st.idx (pref_row G p)) ∧
    CalcRsv.calc_rsv L (to_calc_doc q) (to_calc_doc d1) = some (rsv_w w q d1) ∧
    CalcRsv.calc_rsv L (to_calc_doc q) (to_calc_doc d2) = some (rsv_w w q d2) ∧
    row_value G.num_weights (pref_row G p) (fun k => w (column_atom G.atom_list k))
      = pref_sign p.type * (rsv_w w q d1 - rsv_w w q d2 + EPSILON) := by
  refine ⟨?_, ?_, calc_rsv_c_value L w q d1 hqv hv1 hLs hLsm hLw hLc1,
    calc_rsv_c_value L w q d2 hqv hv2 hLs hLsm hLw hLc2,
    pref_row_value G hG w hw p q d1 d2 hq h1 h2 hqv hv1 hv2 hun1 hun2⟩
  · intro st
    obtain ⟨b1, v1, c1, e1, _, _⟩ :=
      calc_rsv_value G hG w hw p.d p.d1 q d1 hq h1 hqv hv1 hun1
    obtain ⟨b2, v2, c2, e2, _, _⟩ :=
      calc_rsv_value G hG w hw p.d p.d2 q d2 hq h2 hqv hv2 hun2
    have hok : pref_ok G p := by
      unfold pref_ok
      rw [e1, e2]
      exact ⟨rfl, rfl⟩
    rw [enum_pref_line_eq G false st p hok, if_pos hkept]
  · intro hC st
    unfold line_state
    simp only [hC, ne_eq, not_false_eq_true, and_self, if_true]

set_option maxRecDepth 100000 in
theorem rsv_row_refines_witness :
    pref_kept example_globals example_plus = true ∧
    pref_row example_globals example_plus = [-8, 1, - (15 + 1 / 100000)] ∧
    rsv_w example_w (example_docs.array.getD 0 ⟨0, create_list⟩)
      (example_docs.array.getD 1 ⟨0, create_list⟩) = 39 ∧
    rsv_w example_w (example_docs.array.getD 0 ⟨0, create_list⟩)
      (example_docs.array.getD 2 ⟨0, create_list⟩) = 3 ∧
    CalcRsv.calc_rsv example_calc_atoms
      (to_calc_doc (example_docs.array.getD 0 ⟨0, create_list⟩))
      (to_calc_doc (example_docs.array.getD 1 ⟨0, create_list⟩))
      = some (rsv_w example_w (example_docs.array.getD 0 ⟨0, create_list⟩)
        (example_docs.array.getD 1 ⟨0, create_list⟩)) ∧
    row_value example_globals.num_weights (pref_row example_globals example_plus)
      (fun k => example_w (column_atom example_globals.atom_list k))
      = pref_sign example_plus.type *
        (rsv_w example_w (example_docs.array.getD 0 ⟨0, create_list⟩)
            (example_docs.array.getD 1 ⟨0, create_list⟩)
          - rsv_w example_w (example_docs.array.getD 0 ⟨0, create_list⟩)
            (example_docs.array.getD 2 ⟨0, create_list⟩) + EPSILON) := by
  have hq : lookup_list example_globals.doc_list
      { index := example_plus.d, docatoms := create_list } comp_doc
      = some (example_docs.array.getD 0 ⟨0, create_list⟩) := by decide!
  have h1 : lookup_list example_globals.doc_list
      { index := example_plus.d1, docatoms := create_list } comp_doc
      = some (example_docs.array.getD 1 ⟨0, create_list⟩) := by decide!
  have h2 : lookup_list example_globals.doc_list
      { index := example_plus.d2, docatoms := create_list } comp_doc
      = some (example_docs.array.getD 2 ⟨0, create_list⟩) := by decide!
  have hs1 : shared (example_docs.array.getD 0 ⟨0, create_list⟩)
      (example_docs.array.getD 1 ⟨0, create_list⟩) = [(⟨1, 2⟩, ⟨1, 4⟩), (⟨2, 3⟩, ⟨2, 1⟩)] := by
    decide!
  have hs2 : shared (example_docs.array.getD 0 ⟨0, create_list⟩)
      (example_docs.array.getD 2 ⟨0, create_list⟩) = [(⟨3, 1 / 2⟩, ⟨3, 2⟩)] := by
    decide!
  have hw : ∀ a u, matrix_index example_globals.atom_list a = -1 →
      lookup_list example_globals.unused_wgts { u_atom := a, idf := 0 } comp_unused = some u →
      example_w a = u.idf := by
    intro a u hc hu
    unfold example_w
    rw [if_pos hc]
    unfold idf_of
    rw [hu]
  have hun1 : ∀ p ∈ shared (example_docs.array.getD 0 ⟨0, create_list⟩)
      (example_docs.array.getD 1 ⟨0, create_list⟩), rsv_col example_globals p = -1 →
      ∃ u, lookup_list example_globals.unused_wgts { u_atom := p.1.d_atom, idf := 0 }
        comp_unused = some u := by
    rw [hs1]
    intro p hp hc
    simp only [List.mem_cons, List.mem_singleton, List.not_mem_nil, or_false] at hp
    rcases hp with rfl | rfl
    · exact absurd hc (by decide!)
    · exact ⟨⟨2, 5⟩, by decide!⟩
  have hun2 : ∀ p ∈ shared (example_docs.array.getD 0 ⟨0, create_list⟩)
      (example_docs.array.getD 2 ⟨0, create_list⟩), rsv_col example_globals p = -1 →
      ∃ u, lookup_list example_globals.unused_wgts { u_atom := p.1.d_atom, idf := 0 }
        comp_unused = some u := by
    rw [hs2]
    intro p hp hc
    simp only [List.mem_cons, List.mem_singleton, List.not_mem_nil, or_false] at hp
    subst hp
    exact absurd hc (by decide!)
  have hLc1 : ∀ p ∈ shared (example_docs.array.getD 0 ⟨0, create_list⟩)
      (example_docs.array.getD 1 ⟨0, create_list⟩),
      ∃ e ∈ example_calc_atoms.array, e.atom = p.1.d_atom := by
    rw [hs1]
    intro p hp
    simp only [List.mem_cons, List.mem_singleton, List.not_mem_nil, or_false] at hp
    rcases hp with rfl | rfl
    · exact ⟨⟨1, example_w 1⟩, by simp [example_calc_atoms], rfl⟩
    · exact ⟨⟨2, example_w 2⟩, by simp [example_calc_atoms], rfl⟩
  have hLc2 : ∀ p ∈ shared (example_docs.array.getD 0 ⟨0, create_list⟩)
      (example_docs.array.getD 2 ⟨0, create_list⟩),
      ∃ e ∈ example_calc_atoms.array, e.atom = p.1.d_atom := by
    rw [hs2]
    intro p hp
    simp only [List.mem_cons, List.mem_singleton, List.not_mem_nil, or_false] at hp
    subst hp
    exact ⟨⟨3, example_w 3⟩, by simp [example_calc_atoms], rfl⟩
  have hkept : pref_kept example_globals example_plus = true := by decide!
  have hLw : ∀ e ∈ example_calc_atoms.array, e.weight = example_w e.atom := by
    intro e he
    simp only [example_calc_atoms, List.mem_cons, List.mem_singleton, List.not_mem_nil,
      or_false] at he
    rcases he with rfl | rfl | rfl | rfl <;> rfl
  have h := rsv_row_refines example_globals example_globals_ok example_w hw example_plus
    _ _ _ hq h1 h2 (example_docs_ok _ (by simp [example_docs]))
    (example_docs_ok _ (by simp [example_docs])) (example_docs_ok _ (by simp [example_docs]))
    hun1 hun2 hkept example_calc_atoms (by simp [example_calc_atoms])
    (by simp [example_calc_atoms, small]) hLw hLc1 hLc2
  exact ⟨hkept, by decide!, by decide!, by decide!, h.2.2.1, h.2.2.2.2⟩

/-- What `enum_doc2` does for an unsatisfied pair. -/
theorem enum_doc2_minus (C1 C2 : ℚ) (req_query glob_query glob_level : Int)
    (glob_doc d : EvalPref.DOC_STRUCT) (st : EvalPref.State)
    (hpair : d.rlevel = glob_level - 1 ∨ d.rlevel = 0)
    (h : - EvalPref.EPSILON ≤ rounded_delta glob_doc d) :
    EvalPref.enum_doc2 C1 C2 req_query glob_query glob_level glob_doc d st
      = (true,
        { useful_plus := st.useful_plus
          useful_minus := if C1 * d.rsv - C2 * glob_doc.rsv < - EvalPref.EPSILON
            then st.useful_minus + 1 else st.useful_minus
          total_plus := st.total_plus
          total_minus := st.total_minus + 1
          out := if glob_query = req_query ∨ req_query = 0 then
              st.out ++ [⟨if C1 * d.rsv - C2 * glob_doc.rsv < - EvalPref.EPSILON then '-'
                else 'C', glob_query, d.doc, glob_doc.doc, rounded_delta glob_doc d⟩]
            else st.out }) := by
  unfold rounded_delta at h
  unfold EvalPref.enum_doc2 rounded_delta
  have h1 : (if |d.rsv - glob_doc.rsv| < EvalPref.EPSILON then (0 : ℚ)
      else d.rsv - glob_doc.rsv) ≥ - EvalPref.EPSILON := h
  simp only [hpair, if_true, h1]
  by_cases hu : C1 * d.rsv - C2 * glob_doc.rsv < - EvalPref.EPSILON
  · by_cases hq : glob_query = req_query ∨ req_query = 0
    · simp [hu, hq]
    · simp [hu, hq]
  · by_cases hq : glob_query = req_query ∨ req_query = 0
    · simp [hu, hq]
    · simp [hu, hq]

/-- What `enum_doc2` does for a satisfied pair. -/
theorem enum_doc2_plus (C1 C2 : ℚ) (req_query glob_query glob_level : Int)
    (glob_doc d : EvalPref.DOC_STRUCT) (st : EvalPref.State)
    (hpair : d.rlevel = glob_level - 1 ∨ d.rlevel = 0)
    (h : rounded_delta glob_doc d < - EvalPref.EPSILON) :
    EvalPref.enum_doc2 C1 C2 req_query glob_query glob_level glob_doc d st
      = (true,
        { useful_plus := if C2 * d.rsv - C1 * glob_doc.rsv ≥ - EvalPref.EPSILON
            then st.useful_plus + 1 else st.useful_plus
          useful_minus := st.useful_minus
          total_plus := st.total_plus + 1
          total_minus := st.total_minus
          out := if C2 * d.rsv - C1 * glob_doc.rsv ≥ - EvalPref.EPSILON then
              st.out ++ [⟨'+', glob_query, d.doc, glob_doc.doc, rounded_delta glob_doc d⟩]
            else st.out }) := by
  unfold rounded_delta at h
  unfold EvalPref.enum_doc2 rounded_delta
  have h1 : ¬ (if |d.rsv - glob_doc.rsv| < EvalPref.EPSILON then (0 : ℚ)
      else d.rsv - glob_doc.rsv) ≥ - EvalPref.EPSILON := not_le.mpr h
  have h2 : (if |d.rsv - glob_doc.rsv| < EvalPref.EPSILON then (0 : ℚ)
      else d.rsv - glob_doc.rsv) < - EvalPref.EPSILON := h
  simp only [hpair, if_true, h1, h2, if_false]
  by_cases hu : C2 * d.rsv - C1 * glob_doc.rsv ≥ - EvalPref.EPSILON
  · simp [hu]
  · simp [hu]

set_option maxRecDepth 100000 in
/-- C37, counterexample: with the requested query `-2`, the pair of the
relevant document `7` and the document `9` of the query `-1`, both with the
RSV `1.0`, is unsatisfied (`delta = 0`) and `C1 * 1.0 - C2 * 1.0 < -EPSILON`,
yet no line is printed for it; with all queries requested, the pair with the
RSV `0.0` for the document `9` is satisfied (`delta = -1`) and no line is
printed for it either, because `C2 * 0.0 - C1 * 1.0 < -EPSILON`. -/
theorem unsatisfied_not_printed :
    rounded_delta ⟨7, 1, 1⟩ ⟨9, 0, 1⟩ = 0 ∧ - EvalPref.EPSILON ≤ (0 : ℚ) ∧
    (1 / 2 : ℚ) * 1 - 2 * 1 < - EvalPref.EPSILON ∧
    EvalPref.enum_doc2 (1 / 2) 2 (-2) (-1) 1 ⟨7, 1, 1⟩ ⟨9, 0, 1⟩ example_eval_state
      = (true, { useful_plus := 0, useful_minus := 1, total_plus := 0, total_minus := 1,
                 out := [] }) ∧
    rounded_delta ⟨7, 1, 1⟩ ⟨9, 0, 0⟩ = -1 ∧ (-1 : ℚ) < - EvalPref.EPSILON ∧
    EvalPref.enum_doc2 (1 / 2) 2 0 (-1) 1 ⟨7, 1, 1⟩ ⟨9, 0, 0⟩ example_eval_state
      = (true, { useful_plus := 0, useful_minus := 0, total_plus := 1, total_minus := 0,
                 out := [] }) := by
  refine ⟨by decide!, by decide!, by decide!, by decide!, by decide!, by decide!, by decide!⟩

/-- C37, amended: for a relevant document `glob_doc` and a document `d`
that `enum_doc2` pairs with it, with `delta = rsv (d) - rsv (glob_doc)`
after rounding `|delta| < EPSILON` to zero.  If `delta >= -EPSILON` the pair
is counted in `total_minus` and not in `total_plus`, and a line is printed
for it only if the query is the requested one (`glob_query = req_query` or
`req_query = 0`), with `-` if `C1 * rsv (d) - C2 * rsv (glob_doc) < -EPSILON`
and with `C` otherwise.  If `delta < -EPSILON` the pair is counted in
`total_plus` and not in `total_minus`, and a line is printed for it, with
`+`, only if `C2 * rsv (d) - C1 * rsv (glob_doc) >= -EPSILON`.  One of the
two cases holds, so the branch without a preference is never taken: the two
totals together grow by one. -/
theorem enum_doc2_spec (C1 C2 : ℚ) (req_query glob_query glob_level : Int)
    (glob_doc d : EvalPref.DOC_STRUCT) (st : EvalPref.State)
    (hpair : d.rlevel = glob_level - 1 ∨ d.rlevel = 0) :
    (- EvalPref.EPSILON ≤ rounded_delta glob_doc d →
      (EvalPref.enum_doc2 C1 C2 req_query glob_query glob_level glob_doc d st).2.total_minus
        = st.total_minus + 1 ∧
      (EvalPref.enum_doc2 C1 C2 req_query glob_query glob_level glob_doc d st).2.total_plus
        = st.total_plus ∧
      (EvalPref.enum_doc2 C1 C2 req_query glob_query glob_level glob_doc d st).2.out
        = if glob_query = req_query ∨ req_query = 0 then
            st.out ++ [⟨if C1 * d.rsv - C2 * glob_doc.rsv < - EvalPref.EPSILON then '-'
              else 'C', glob_query, d.doc, glob_doc.doc, rounded_delta glob_doc d⟩]
          else st.out) ∧
    (rounded_delta glob_doc d < - EvalPref.EPSILON →
      (EvalPref.enum_doc2 C1 C2 req_query glob_query glob_level glob_doc d st).2.total_plus
        = st.total_plus + 1 ∧
      (EvalPref.enum_doc2 C1 C2 req_query glob_query glob_level glob_doc d st).2.total_minus
        = st.total_minus ∧
      (EvalPref.enum_doc2 C1 C2 req_query glob_query glob_level glob_doc d st).2.out
        = if C2 * d.rsv - C1 * glob_doc.rsv ≥ - EvalPref.EPSILON then
            st.out ++ [⟨'+', glob_query, d.doc, glob_doc.doc, rounded_delta glob_doc d⟩]
          else st.out) ∧
    (- EvalPref.EPSILON ≤ rounded_delta glob_doc d ∨
      rounded_delta glob_doc d < - EvalPref.EPSILON) ∧
    (EvalPref.enum_doc2 C1 C2 req_query glob_query glob_level glob_doc d st).2.total_plus
      + (EvalPref.enum_doc2 C1 C2 req_query glob_query glob_level glob_doc d st).2.total_minus
      = st.total_plus + st.total_minus + 1 := by
  refine ⟨?_, ?_, le_or_lt _ _, ?_⟩
  · intro h
    rw [enum_doc2_minus C1 C2 req_query glob_query glob_level glob_doc d st hpair h]
    exact ⟨rfl, rfl, rfl⟩
  · intro h
    rw [enum_doc2_plus C1 C2 req_query glob_query glob_level glob_doc d st hpair h]
    exact ⟨rfl, rfl, rfl⟩
  · rcases le_or_lt (- EvalPref.EPSILON) (rounded_delta glob_doc d) with h | h
    · rw [enum_doc2_minus C1 C2 req_query glob_query glob_level glob_doc d st hpair h]
      simp only []
      ring
    · rw [enum_doc2_plus C1 C2 req_query glob_query glob_level glob_doc d st hpair h]
      simp only []
      ring

set_option maxRecDepth 100000 in
theorem enum_doc2_spec_witness :
    ((0 : Int) = 1 - 1 ∨ (0 : Int) = 0) ∧
    - EvalPref.EPSILON ≤ rounded_delta ⟨7, 1, 1⟩ ⟨9, 0, 1⟩ ∧
    (EvalPref.enum_doc2 (1 / 2) 2 0 (-1) 1 ⟨7, 1, 1⟩ ⟨9, 0, 1⟩ example_eval_state).2.out
      = [⟨'-', -1, 9, 7, 0⟩] := by
  have hp : (0 : Int) = 1 - 1 ∨ (0 : Int) = 0 := Or.inr rfl
  have hd : - EvalPref.EPSILON ≤ rounded_delta ⟨7, 1, 1⟩ ⟨9, 0, 1⟩ := by decide!
  have h := (enum_doc2_spec (1 / 2) 2 0 (-1) 1 ⟨7, 1, 1⟩ ⟨9, 0, 1⟩ example_eval_state hp).1 hd
  exact ⟨hp, hd, h.2.2.trans (by decide!)⟩

/-- The entries of a row of the RSV block, read through `elt`. -/
theorem elt_rsv_row {g : Matrix} {n m : Nat} (hd : Dim g n m) (j k : Nat)
    (hj : j < g.num_prefs) (hk : k ≤ n) :
    elt g (n + 1 + j) (k + 1) = (g.rsv_eq.getD j []).getD k 0 := by
  have hm := hd.hm
  unfold elt
  rw [matrix_ptr_valid hd (n + 1 + j) (k + 1) (by omega) (by omega) (by omega) (by omega)]
  have e1 : ¬ n + 1 + j ≤ n := by omega
  have e2 : n + 1 + j ≤ n + g.num_prefs := by omega
  rw [if_neg e1, if_pos e2]
  have e3 : n + 1 + j - 1 - n = j := by omega
  have e4 : k + 1 - 1 = k := by omega
  simp only [Matrix.read, rowget, e3, e4]

/-- The constant the coordinate transformation computes for a row of the RSV
block is the value of that row at `x`; it is stored unchanged when it is not
negative. -/
theorem transform_rsv_row {g : Matrix} {n m : Nat} (hd : Dim g n m) (x : Nat → ℚ)
    (j : Nat) (hj : j < g.num_prefs)
    (h0 : 0 ≤ row_value n (g.rsv_eq.getD j []) x) :
    elt (transform n m x g) (n + 1 + j) (n + 1) = row_value n (g.rsv_eq.getD j []) x := by
  have hm := hd.hm
  have hS : elt g (n + 1 + j) (n + 1)
      + (∑ k in Finset.range n, elt g (n + 1 + j) (k + 1) * x k)
      = row_value n (g.rsv_eq.getD j []) x := by
    unfold row_value
    rw [elt_rsv_row hd j n hj (le_refl n), add_comm]
    congr 1
    apply Finset.sum_congr rfl
    intro k hk
    rw [elt_rsv_row hd j k hj (le_of_lt (Finset.mem_range.mp hk))]
  rw [(transform_elt hd x).2 (n + 1 + j) (n + 1) (by omega) (by omega) (by omega) (by omega)]
  have e1 : n + 1 = n + 1 ∧ n + 1 ≤ n + 1 + j := ⟨rfl, by omega⟩
  rw [if_pos e1, hS]
  have e2 : ¬ (n + 1 + j ≤ m ∧ row_value n (g.rsv_eq.getD j []) x < 0) :=
    fun h => absurd h.2 (not_lt.mpr h0)
  rw [if_neg e2]

/-- A line that `enum_doc2` prints with `+` or `-` names the query, the less
relevant document and the relevant document, in this order, and
`sign * (rsv (d) - rsv (glob_doc) + EPSILON)` is not negative for it. -/
theorem printed_line_sign (C1 C2 : ℚ) (req_query glob_query glob_level : Int)
    (glob_doc d : EvalPref.DOC_STRUCT) (st : EvalPref.State) (line : EvalPref.Line)
    (hout : (EvalPref.enum_doc2 C1 C2 req_query glob_query glob_level glob_doc d st).2.out
      = st.out ++ [line])
    (hch : line.ch = '+' ∨ line.ch = '-') :
    line.query = glob_query ∧ line.d1 = d.doc ∧ line.d2 = glob_doc.doc ∧
    0 ≤ pref_sign line.ch * (d.rsv - glob_doc.rsv + EPSILON) := by
  have hself : ∀ l : List EvalPref.Line, l ≠ l ++ [line] := by
    intro l h
    have := congrArg List.length h
    simp at this
  by_cases hpair : d.rlevel = glob_level - 1 ∨ d.rlevel = 0
  · rcases le_or_lt (- EvalPref.EPSILON) (rounded_delta glob_doc d) with h | h
    · rw [enum_doc2_minus C1 C2 req_query glob_query glob_level glob_doc d st hpair h] at hout
      simp only [] at hout
      by_cases hq : glob_query = req_query ∨ req_query = 0
      · rw [if_pos hq] at hout
        have hl := List.append_cancel_left hout
        simp only [List.cons.injEq, and_true] at hl
        rw [← hl] at hch ⊢
        simp only [] at hch ⊢
        by_cases hu : C1 * d.rsv - C2 * glob_doc.rsv < - EvalPref.EPSILON
        · simp only [hu, if_true]
          refine ⟨trivial, trivial, trivial, ?_⟩
          unfold rounded_delta EvalPref.EPSILON at h
          unfold pref_sign EPSILON
          simp only [true_or, if_true, one_mul]
          by_cases ha : |d.rsv - glob_doc.rsv| < 1 / 100000
          · have := (abs_lt.mp ha).1
            linarith
          · rw [if_neg ha] at h
            linarith
        · simp only [hu, if_false] at hch
          rcases hch with hc | hc
          · exact absurd hc (by decide)
          · exact absurd hc (by decide)
      · rw [if_neg hq] at hout
        exact absurd hout (hself _)
    · rw [enum_doc2_plus C1 C2 req_query glob_query glob_level glob_doc d st hpair h] at hout
      simp only [] at hout
      by_cases hu : C2 * d.rsv - C1 * glob_doc.rsv ≥ - EvalPref.EPSILON
      · rw [if_pos hu] at hout
        have hl := List.append_cancel_left hout
        simp only [List.cons.injEq, and_true] at hl
        rw [← hl]
        simp only []
        refine ⟨trivial, trivial, trivial, ?_⟩
        unfold rounded_delta EvalPref.EPSILON at h
        unfold pref_sign EPSILON
        have hs : ¬ ('+' = '-' ∨ '+' = 'C') := by decide
        simp only [hs, if_false]
        by_cases ha : |d.rsv - glob_doc.rsv| < 1 / 100000
        · rw [if_pos ha] at h
          norm_num at h
        · rw [if_neg ha] at h
          linarith
      · rw [if_neg hu] at hout
        exact absurd hout (hself _)
  · unfold EvalPref.enum_doc2 at hout
    rw [if_neg hpair] at hout
    exact absurd hout (hself _)

/-- C38: initial feasibility across the two programs, over exact
arithmetic.  Let `enum_doc2` of evalpref.c print a line with `+` or `-` for
the documents `d` and `glob_doc`, whose RSV values are what `calc_rsv` of
calc_rsv.c returns for the weights `w`; let the lists of simplex.c be well
formed, hold the query and the two documents of the line and an IDF for
every shared concept without a column, and let `w` equal the supplied IDF on
the concepts without a column.  Then the line names the query, `d` and
`glob_doc`, the row `enum_pref` builds for it has a value `>= 0` at `w`,
and in a matrix that holds this row in its RSV block the coordinate
transformation by `w` stores that value as the constant of the row, without
a reset. -/
theorem printed_pref_feasible (C1 C2 : ℚ) (req_query glob_query glob_level : Int)
    (glob_doc d : EvalPref.DOC_STRUCT) (st : EvalPref.State) (line : EvalPref.Line)
    (hout : (EvalPref.enum_doc2 C1 C2 req_query glob_query glob_level glob_doc d st).2.out
      = st.out ++ [line])
    (hch : line.ch = '+' ∨ line.ch = '-')
    (G : Globals) (hG : ListsOK G) (w : Int → ℚ)
    (hw : ∀ a u, matrix_index G.atom_list a = -1 →
      lookup_list G.unused_wgts { u_atom := a, idf := 0 } comp_unused = some u →
      w a = u.idf)
    (q d1 d2 : DOC_STRUCT)
    (hq : lookup_list G.doc_list { index := line.query, docatoms := create_list } comp_doc
      = some q)
    (h1 : lookup_list G.doc_list { index := line.d1, docatoms := create_list } comp_doc
      = some d1)
    (h2 : lookup_list G.doc_list { index := line.d2, docatoms := create_list } comp_doc
      = some d2)
    (hqv : vector_ok q) (hv1 : vector_ok d1) (hv2 : vector_ok d2)
    (hun1 : ∀ p ∈ shared q d1, rsv_col G p = -1 →
      ∃ u, lookup_list G.unused_wgts { u_atom := p.1.d_atom, idf := 0 } comp_unused = some u)
    (hun2 : ∀ p ∈ shared q d2, rsv_col G p = -1 →
      ∃ u, lookup_list G.unused_wgts { u_atom := p.1.d_atom, idf := 0 } comp_unused = some u)
    (L : LIST CalcRsv.ATOM_STRUCT)
    (hLs : L.array.Pairwise (fun a b => a.atom < b.atom))
    (hLsm : ∀ e ∈ L.array, small e.atom) (hLw : ∀ e ∈ L.array, e.weight = w e.atom)
    (hLc1 : ∀ p ∈ shared q d1, ∃ e ∈ L.array, e.atom = p.1.d_atom)
    (hLc2 : ∀ p ∈ shared q d2, ∃ e ∈ L.array, e.atom = p.1.d_atom)
    (hr1 : CalcRsv.calc_rsv L (to_calc_doc q) (to_calc_doc d1) = some d.rsv)
    (hr2 : CalcRsv.calc_rsv L (to_calc_doc q) (to_calc_doc d2) = some glob_doc.rsv)
    (g : Matrix) (m j : Nat) (hd : Dim g G.num_weights m) (hj : j < g.num_prefs)
    (hrow : g.rsv_eq.getD j [] = pref_row G ⟨line.ch, line.query, line.d1, line.d2⟩) :
    line.query = glob_query ∧ line.d1 = d.doc ∧ line.d2 = glob_doc.doc ∧
    0 ≤ row_value G.num_weights (pref_row G ⟨line.ch, line.query, line.d1, line.d2⟩)
      (fun k => w (column_atom G.atom_list k)) ∧
    elt (transform G.num_weights m (fun k => w (column_atom G.atom_list k)) g)
        (G.num_weights + 1 + j) (G.num_weights + 1)
      = row_value G.num_weights (pref_row G ⟨line.ch, line.query, line.d1, line.d2⟩)
        (fun k => w (column_atom G.atom_list k)) := by
  obtain ⟨a1, a2, a3, a4⟩ := printed_line_sign C1 C2 req_query glob_query glob_level
    glob_doc d st line hout hch
  have e1 : d.rsv = rsv_w w q d1 := by
    have := calc_rsv_c_value L w q d1 hqv hv1 hLs hLsm hLw hLc1
    rw [hr1] at this
    exact Option.some.inj this
  have e2 : glob_doc.rsv = rsv_w w q d2 := by
    have := calc_rsv_c_value L w q d2 hqv hv2 hLs hLsm hLw hLc2
    rw [hr2] at this
    exact Option.some.inj this
  have hval := pref_row_value G hG w hw ⟨line.ch, line.query, line.d1, line.d2⟩ q d1 d2
    hq h1 h2 hqv hv1 hv2 hun1 hun2
  simp only [] at hval
  have h0 : 0 ≤ row_value G.num_weights
      (pref_row G ⟨line.ch, line.query, line.d1, line.d2⟩)
      (fun k => w (column_atom G.atom_list k)) := by
    rw [hval, ← e1, ← e2]
    exact a4
  refine ⟨a1, a2, a3, h0, ?_⟩
  rw [← hrow] at h0 ⊢
  exact transform_rsv_row hd _ j hj h0

set_option maxRecDepth 100000 in
theorem printed_pref_feasible_witness :
    (EvalPref.enum_doc2 (1 / 2) 2 0 (-1) 1 ⟨9, 1, 30⟩ ⟨7, 0, 39⟩ example_eval_state).2.out
      = example_eval_state.out ++ [⟨'-', -1, 7, 9, 9⟩] ∧
    pref_row example_globals example_minus = [8, -1, 1 / 100000 + 15] ∧
    row_value 2 (pref_row example_globals example_minus) example_x0 = 9 + 1 / 100000 ∧
    0 ≤ row_value example_globals.num_weights
      (pref_row example_globals ⟨'-', -1, 7, 9⟩)
      (fun k => example_w0 (column_atom example_globals.atom_list k)) ∧
    elt (transform example_globals.num_weights 7
        (fun k => example_w0 (column_atom example_globals.atom_list k)) example_pref_matrix)
        (example_globals.num_weights + 1 + 0) (example_globals.num_weights + 1)
      = row_value example_globals.num_weights
        (pref_row example_globals ⟨'-', -1, 7, 9⟩)
        (fun k => example_w0 (column_atom example_globals.atom_list k)) := by
  have hout : (EvalPref.enum_doc2 (1 / 2) 2 0 (-1) 1 ⟨9, 1, 30⟩ ⟨7, 0, 39⟩
      example_eval_state).2.out = example_eval_state.out ++ [⟨'-', -1, 7, 9, 9⟩] := by
    decide!
  have hq : lookup_list example_globals.doc_list
      { index := -1, docatoms := create_list } comp_doc
      = some (example_docs.array.getD 0 ⟨0, create_list⟩) := by decide!
  have h1 : lookup_list example_globals.doc_list
      { index := 7, docatoms := create_list } comp_doc
      = some (example_docs.array.getD 1 ⟨0, create_list⟩) := by decide!
  have h2 : lookup_list example_globals.doc_list
      { index := 9, docatoms := create_list } comp_doc
      = some (example_docs.array.getD 2 ⟨0, create_list⟩) := by decide!
  have hs1 : shared (example_docs.array.getD 0 ⟨0, create_list⟩)
      (example_docs.array.getD 1 ⟨0, create_list⟩) = [(⟨1, 2⟩, ⟨1, 4⟩), (⟨2, 3⟩, ⟨2, 1⟩)] := by
    decide!
  have hs2 : shared (example_docs.array.getD 0 ⟨0, create_list⟩)
      (example_docs.array.getD 2 ⟨0, create_list⟩) = [(⟨3, 1 / 2⟩, ⟨3, 2⟩)] := by
    decide!
  have hw : ∀ a u, matrix_index example_globals.atom_list a = -1 →
      lookup_list example_globals.unused_wgts { u_atom := a, idf := 0 } comp_unused = some u →
      example_w0 a = u.idf := by
    intro a u hc hu
    unfold example_w0
    rw [if_pos hc]
    unfold idf_of
    rw [hu]
  have hun1 : ∀ p ∈ shared (example_docs.array.getD 0 ⟨0, create_list⟩)
      (example_docs.array.getD 1 ⟨0, create_list⟩), rsv_col example_globals p = -1 →
      ∃ u, lookup_list example_globals.unused_wgts { u_atom := p.1.d_atom, idf := 0 }
        comp_unused = some u := by
    rw [hs1]
    intro p hp hc
    simp only [List.mem_cons, List.mem_singleton, List.not_mem_nil, or_false] at hp
    rcases hp with rfl | rfl
    · exact absurd hc (by decide!)
    · exact ⟨⟨2, 5⟩, by decide!⟩
  have hun2 : ∀ p ∈ shared (example_docs.array.getD 0 ⟨0, create_list⟩)
      (example_docs.array.getD 2 ⟨0, create_list⟩), rsv_col example_globals p = -1 →
      ∃ u, lookup_list example_globals.unused_wgts { u_atom := p.1.d_atom, idf := 0 }
        comp_unused = some u := by
    rw [hs2]
    intro p hp hc
    simp only [List.mem_cons, List.mem_singleton, List.not_mem_nil, or_false] at hp
    subst hp
    exact absurd hc (by decide!)
  have hLc1 : ∀ p ∈ shared (example_docs.array.getD 0 ⟨0, create_list⟩)
      (example_docs.array.getD 1 ⟨0, create_list⟩),
      ∃ e ∈ example_calc_atoms0.array, e.atom = p.1.d_atom := by
    rw [hs1]
    intro p hp
    simp only [List.mem_cons, List.mem_singleton, List.not_mem_nil, or_false] at hp
    rcases hp with rfl | rfl
    · exact ⟨⟨1, example_w0 1⟩, by simp [example_calc_atoms0], rfl⟩
    · exact ⟨⟨2, example_w0 2⟩, by simp [example_calc_atoms0], rfl⟩
  have hLc2 : ∀ p ∈ shared (example_docs.array.getD 0 ⟨0, create_list⟩)
      (example_docs.array.getD 2 ⟨0, create_list⟩),
      ∃ e ∈ example_calc_atoms0.array, e.atom = p.1.d_atom := by
    rw [hs2]
    intro p hp
    simp only [List.mem_cons, List.mem_singleton, List.not_mem_nil, or_false] at hp
    subst hp
    exact ⟨⟨3, example_w0 3⟩, by simp [example_calc_atoms0], rfl⟩
  have hLw : ∀ e ∈ example_calc_atoms0.array, e.weight = example_w0 e.atom := by
    intro e he
    simp only [example_calc_atoms0, List.mem_cons, List.mem_singleton, List.not_mem_nil,
      or_false] at he
    rcases he with rfl | rfl | rfl | rfl <;> rfl
  have hr1 : CalcRsv.calc_rsv example_calc_atoms0
      (to_calc_doc (example_docs.array.getD 0 ⟨0, create_list⟩))
      (to_calc_doc (example_docs.array.getD 1 ⟨0, create_list⟩)) = some 39 := by decide!
  have hr2 : CalcRsv.calc_rsv example_calc_atoms0
      (to_calc_doc (example_docs.array.getD 0 ⟨0, create_list⟩))
      (to_calc_doc (example_docs.array.getD 2 ⟨0, create_list⟩)) = some 30 := by decide!
  have hlen : (pref_row example_globals example_minus).length = 3 := by decide!
  have hd : Dim example_pref_matrix example_globals.num_weights 7 :=
    builder_dim (1 / 2) 2 2 example_x0 [pref_row example_globals example_minus]
      ((pref_row example_globals example_minus).map (fun c => - c))
      (by intro r hr; simp only [List.mem_singleton] at hr; rw [hr]; exact hlen)
      (by rw [List.length_map]; exact hlen)
  have h := printed_pref_feasible (1 / 2) 2 0 (-1) 1 ⟨9, 1, 30⟩ ⟨7, 0, 39⟩
    example_eval_state ⟨'-', -1, 7, 9, 9⟩ hout (Or.inr rfl)
    example_globals example_globals_ok example_w0 hw _ _ _ hq h1 h2
    (example_docs_ok _ (by simp [example_docs])) (example_docs_ok _ (by simp [example_docs]))
    (example_docs_ok _ (by simp [example_docs])) hun1 hun2
    example_calc_atoms0 (by simp [example_calc_atoms0])
    (by simp [example_calc_atoms0, small]) hLw hLc1 hLc2 hr1 hr2
    example_pref_matrix 7 0 hd (by decide) rfl
  exact ⟨hout, by decide!, by decide!, h.2.2.2.1, h.2.2.2.2⟩

end Thesis
